import Mathlib

/-!
# The SPDK reactor (`lib/event/reactor.c`)

A shallow embedding of the reactor runtime and machine-checked statements about it.

* Memory holding `struct spdk_poller` objects is a map from addresses to records; the two
  `TAILQ`s of a reactor are lists of poller addresses (a poller is linked through its own
  `tailq` field, so a list holds addresses, never copies).
* `g_reactors`, `g_reactor_mask`, `g_reactor_count`, `g_reactor_state` and
  `g_spdk_event_mempool` are the fields of `State`.
* Everything provided by DPDK or the C library (`rte_*`, `strtoull`) is outside the
  repository; its parameters are collected in `Hal`.
* `RTE_VERIFY` failures and crashes end the process: the functions return `none`.
* User callbacks are arbitrary code: `Callbacks` gives their effect on the state.
-/

namespace Spdk

/-! ## Machine integers -/

/-- The number of values of a `uint64_t`. -/
def U64 : Nat := 2 ^ 64

/-- The C expression `1ULL << i`.  C defines the shift for `i < 64` only; for a larger
count the model takes what the 64-bit shift instruction gives, which uses the count
modulo 64 (an lcore `i ≥ 64` then addresses bit `i - 64` of a mask).  The statements about
masks are made for lcores and sockets below 64, where the shift is defined. -/
def bit64 (i : Nat) : Nat := (1 <<< (i % 64)) % U64

/-- The C expression `x & ~(1ULL << i)` on `uint64_t`. -/
def clear_bit64 (x i : Nat) : Nat := x &&& ((U64 - 1) ^^^ bit64 i)

/-! ## The environment: DPDK and the C library -/

/-- The values of `enum rte_lcore_state_t`. -/
inductive rte_lcore_state_t where
  | WAIT | RUNNING | FINISHED
  deriving DecidableEq, Repr

/-- What the code takes from DPDK (`rte_*`) and from the C library. -/
structure Hal where
  /-- The configuration constant `RTE_MAX_LCORE`. -/
  RTE_MAX_LCORE : Nat
  /-- The function `rte_lcore_is_enabled`. -/
  rte_lcore_is_enabled : Nat → Bool
  /-- The function `rte_get_master_lcore`. -/
  rte_get_master_lcore : Nat
  /-- The function `rte_lcore_to_socket_id`. -/
  rte_lcore_to_socket_id : Nat → Nat
  /-- The function `rte_get_timer_hz`. -/
  rte_get_timer_hz : Nat
  /-- The function `rte_eal_get_lcore_state`. -/
  rte_eal_get_lcore_state : Nat → rte_lcore_state_t
  /-- How many events a ring made by `rte_ring_create(name, 65536, ..)` can hold. -/
  ring_capacity : Nat
  /-- Whether `rte_ring_create` for the reactor of this lcore returns a ring. -/
  rte_ring_create : Nat → Bool
  /-- Whether `rte_mempool_create` for pool index `i` with `n` elements on the given socket
  (`none` is `SOCKET_ID_ANY`) returns a pool. -/
  rte_mempool_create : Nat → Nat → Option Nat → Bool
  /-- Whether `strtoull` sets `errno` to `EINVAL` when no conversion is performed (the C
  standard leaves it open: the BSD libc does, glibc does not). -/
  strtoull_einval : Bool

/-- The lcores visited by `RTE_LCORE_FOREACH`, in order. -/
def RTE_LCORE_FOREACH (hal : Hal) : List Nat :=
  (List.range hal.RTE_MAX_LCORE).filter hal.rte_lcore_is_enabled

/-- The lcores visited by `RTE_LCORE_FOREACH_SLAVE`, in order. -/
def RTE_LCORE_FOREACH_SLAVE (hal : Hal) : List Nat :=
  (RTE_LCORE_FOREACH hal).filter (fun i => i != hal.rte_get_master_lcore)

/-! ## Data model -/

/-- The values of `enum spdk_reactor_state`. -/
inductive spdk_reactor_state where
  | SPDK_REACTOR_STATE_INVALID
  | SPDK_REACTOR_STATE_INITIALIZED
  | SPDK_REACTOR_STATE_RUNNING
  | SPDK_REACTOR_STATE_EXITING
  | SPDK_REACTOR_STATE_SHUTDOWN
  deriving DecidableEq, Repr

open spdk_reactor_state

/-- The numeric value of an enumerator of `enum spdk_reactor_state`. -/
def spdk_reactor_state.val : spdk_reactor_state → Nat
  | SPDK_REACTOR_STATE_INVALID => 0
  | SPDK_REACTOR_STATE_INITIALIZED => 1
  | SPDK_REACTOR_STATE_RUNNING => 2
  | SPDK_REACTOR_STATE_EXITING => 3
  | SPDK_REACTOR_STATE_SHUTDOWN => 4

/-- The callback stored in `event->fn`: one of the three static functions of `reactor.c`
that are used as event callbacks, or a function of the user (numbered). -/
inductive spdk_event_fn where
  | _spdk_event_add_poller
  | _spdk_event_remove_poller
  | _spdk_poller_migrate
  | user (k : Nat)
  deriving DecidableEq, Repr

/-- The fields of `struct spdk_event`.  `arg1` and `arg2` are addresses: the address of
`g_reactors[i]` is `i`, the address of a poller is its key in `State.pollers`, `0` is
`NULL`. -/
structure spdk_event where
  lcore : Nat
  fn : spdk_event_fn
  arg1 : Nat
  arg2 : Nat
  next : Option spdk_event
  deriving Repr

/-- The fields of `struct spdk_poller` that `reactor.c` reads and writes (the `tailq`
link is the position in a reactor's list). -/
structure spdk_poller where
  fn : Nat
  arg : Nat
  period_ticks : Nat
  lcore : Nat
  next_run_tick : Nat
  deriving DecidableEq, Repr

/-- An `rte_ring` used as event queue: the sequence of everything ever enqueued and the
consumer index (how many of them have been dequeued).  The events waiting in the ring are
`items.drop cons`. -/
structure rte_ring where
  items : List spdk_event
  cons : Nat

/-- The events waiting in a ring, oldest first. -/
def rte_ring.content (r : rte_ring) : List spdk_event := r.items.drop r.cons

/-- The function `rte_ring_count`. -/
def rte_ring_count (r : rte_ring) : Nat := r.items.length - r.cons

/-- The function `rte_ring_enqueue`: `none` when the ring is full. -/
def rte_ring_enqueue (capacity : Nat) (r : rte_ring) (e : spdk_event) : Option rte_ring :=
  if rte_ring_count r < capacity then some { r with items := r.items ++ [e] } else none

/-- The function `rte_ring_dequeue`: `none` when the ring is empty. -/
def rte_ring_dequeue (r : rte_ring) : Option (spdk_event × rte_ring) :=
  match r.content with
  | [] => none
  | e :: _ => some (e, { r with cons := r.cons + 1 })

/-- An `rte_mempool` of events: its size and the number of free elements. -/
structure rte_mempool where
  size : Nat
  avail : Nat
  deriving DecidableEq, Repr

/-- The fields of `struct spdk_reactor`; `events` is `none` for the `NULL` pointer. -/
structure spdk_reactor where
  lcore : Nat
  active_pollers : List Nat
  timer_pollers : List Nat
  events : Option rte_ring

/-- The globals of `reactor.c`, the memory holding the pollers, and the value
`rte_get_timer_cycles()` returns at this moment. -/
structure State where
  g_reactors : Nat → spdk_reactor
  g_reactor_mask : Nat
  g_reactor_count : Int
  g_reactor_state : spdk_reactor_state
  g_spdk_event_mempool : Nat → Option rte_mempool
  pollers : Nat → spdk_poller
  timer_cycles : Nat

/-- The zero-initialised `struct spdk_reactor` of static storage. -/
def spdk_reactor.zero : spdk_reactor :=
  { lcore := 0, active_pollers := [], timer_pollers := [], events := none }

/-- The globals as the program starts: static storage is zero-initialised. -/
def State.init (pollers : Nat → spdk_poller) (timer_cycles : Nat) : State :=
  { g_reactors := fun _ => spdk_reactor.zero
    g_reactor_mask := 0
    g_reactor_count := 0
    g_reactor_state := SPDK_REACTOR_STATE_INVALID
    g_spdk_event_mempool := fun _ => none
    pollers := pollers
    timer_cycles := timer_cycles }

/-- The effect of the user's callbacks: `event_fn k cur e` is the call `e->fn(e)` of user
function `k` on lcore `cur`; `poller_fn fn arg cur` is the call `fn(arg)` of a poller's
function on lcore `cur`.  `none`: the callback ends the process. -/
structure Callbacks where
  event_fn : Nat → Nat → spdk_event → State → Option State
  poller_fn : Nat → Nat → Nat → State → Option State

/-- A callback invoked by a reactor, as recorded in the order of invocation. -/
inductive Invocation where
  | event (cur : Nat) (e : spdk_event)
  | active (cur : Nat) (poller : Nat)
  | timer (cur : Nat) (poller : Nat)

/-- Stores a reactor in `g_reactors[i]`. -/
def State.set_reactor (s : State) (i : Nat) (r : spdk_reactor) : State :=
  { s with g_reactors := Function.update s.g_reactors i r }

/-- Stores a poller at an address. -/
def State.set_poller (s : State) (a : Nat) (p : spdk_poller) : State :=
  { s with pollers := Function.update s.pollers a p }

/-- Stores a pool pointer (`none` is `NULL`) in `g_spdk_event_mempool[i]`. -/
def State.set_mempool (s : State) (i : Nat) (pool : Option rte_mempool) : State :=
  { s with g_spdk_event_mempool := Function.update s.g_spdk_event_mempool i pool }

/-- The function `spdk_reactor_get`. -/
def spdk_reactor_get (s : State) (lcore : Nat) : spdk_reactor := s.g_reactors lcore

/-! ## Tail queues -/

/-- The macro `TAILQ_FIRST`. -/
def TAILQ_FIRST (l : List Nat) : Option Nat := l.head?

/-- The macro `TAILQ_REMOVE`.  It unlinks `elm` by writing through the link stored in
`elm` itself, so `elm` has to be an element of the queue; for an element that is not
linked in it the writes go through stale or null pointers, which the lists cannot follow:
the model gives no result (`none`). -/
def TAILQ_REMOVE (l : List Nat) (elm : Nat) : Option (List Nat) :=
  if elm ∈ l then some (l.erase elm) else none

/-- The macro `TAILQ_INSERT_TAIL`.  A poller has one link (`tailq`), so the element is one
that is linked in no queue; the lists of the model are what the queue heads reach as long
as every poller is linked at most once. -/
def TAILQ_INSERT_TAIL (l : List Nat) (elm : Nat) : List Nat := l ++ [elm]

/-- The macro `TAILQ_INSERT_HEAD`, for an element that is linked in no queue. -/
def TAILQ_INSERT_HEAD (l : List Nat) (elm : Nat) : List Nat := elm :: l

/-! ## Events -/

/-- The function `spdk_event_allocate`: the pool is the one of the socket of the `lcore`
argument; `(uint8_t)` truncates the socket id. -/
def spdk_event_allocate (hal : Hal) (lcore : Nat) (fn : spdk_event_fn) (arg1 arg2 : Nat)
    (next : Option spdk_event) (s : State) : Option (spdk_event × State) :=
  let socket_id := hal.rte_lcore_to_socket_id lcore % 256
  if socket_id < 64 then
    match s.g_spdk_event_mempool socket_id with
    | none => none
    | some pool =>
      if 0 < pool.avail then
        some ({ lcore := lcore, fn := fn, arg1 := arg1, arg2 := arg2, next := next },
          s.set_mempool socket_id (some { pool with avail := pool.avail - 1 }))
      else none
  else none

/-- The function `spdk_event_free`. -/
def spdk_event_free (hal : Hal) (lcore : Nat) (s : State) : Option State :=
  let socket_id := hal.rte_lcore_to_socket_id lcore % 256
  if socket_id < 64 then
    match s.g_spdk_event_mempool socket_id with
    | none => none
    | some pool =>
      some (s.set_mempool socket_id (some { pool with avail := pool.avail + 1 }))
  else none

/-- The function `spdk_event_call`. -/
def spdk_event_call (hal : Hal) (event : spdk_event) (s : State) : Option State :=
  let reactor := spdk_reactor_get s event.lcore
  match reactor.events with
  | none => none
  | some ring =>
    match rte_ring_enqueue hal.ring_capacity ring event with
    | none => none
    | some ring1 => some (s.set_reactor event.lcore { reactor with events := some ring1 })

/-- The function `spdk_event_queue_count`. -/
def spdk_event_queue_count (s : State) (lcore : Nat) : Nat :=
  match (spdk_reactor_get s lcore).events with
  | none => 0
  | some ring => rte_ring_count ring

/-! ## The timer schedule -/

/-- The loop `TAILQ_FOREACH_REVERSE` of `spdk_poller_insert_timer`, on the list read from
the tail (`iter` is the element under the cursor): the poller goes right after the first
`iter` with `iter->next_run_tick <= next_run_tick`, and to the head of the queue when the
scan ends.  The result is again read from the tail. -/
def insert_timer_scan (pollers : Nat → spdk_poller) (next_run_tick poller : Nat) :
    List Nat → List Nat
  | [] => [poller]
  | iter :: rest =>
    if (pollers iter).next_run_tick ≤ next_run_tick then poller :: iter :: rest
    else iter :: insert_timer_scan pollers next_run_tick poller rest

/-- The function `spdk_poller_insert_timer`; `reactor` is the index in `g_reactors`.  The
poller is one that is linked in no queue (`TAILQ_INSERT_AFTER` and `TAILQ_INSERT_HEAD`
overwrite its only link); the lists are what the queue heads reach as long as every poller
is linked at most once. -/
def spdk_poller_insert_timer (reactor poller now : Nat) (s : State) : State :=
  let next_run_tick := (now + (s.pollers poller).period_ticks) % U64
  let s1 := s.set_poller poller { s.pollers poller with next_run_tick := next_run_tick }
  let r := s1.g_reactors reactor
  s1.set_reactor reactor
    { r with timer_pollers :=
        (insert_timer_scan s1.pollers next_run_tick poller r.timer_pollers.reverse).reverse }

/-! ## Registration of pollers -/

/-- The calls `if (next) spdk_event_call(next)`. -/
def call_next (hal : Hal) (next : Option spdk_event) (s : State) : Option State :=
  match next with
  | none => some s
  | some e => spdk_event_call hal e s

/-- The function `_spdk_event_add_poller`.  The code links the poller without a test; for
a poller that is linked in no queue, in a state in which every poller is linked at most
once, the queue it is inserted in is the only one that changes. -/
def _spdk_event_add_poller (hal : Hal) (event : spdk_event) (s : State) : Option State :=
  let reactor := event.arg1
  let poller := event.arg2
  let s1 := s.set_poller poller { s.pollers poller with lcore := (s.g_reactors reactor).lcore }
  let s2 :=
    if (s1.pollers poller).period_ticks ≠ 0 then
      spdk_poller_insert_timer reactor poller s1.timer_cycles s1
    else
      let r := s1.g_reactors reactor
      s1.set_reactor reactor { r with active_pollers := TAILQ_INSERT_TAIL r.active_pollers poller }
  call_next hal event.next s2

/-- The function `_spdk_poller_register`. -/
def _spdk_poller_register (hal : Hal) (poller lcore : Nat) (complete : Option spdk_event)
    (s : State) : Option State :=
  match spdk_event_allocate hal lcore spdk_event_fn._spdk_event_add_poller lcore poller
      complete s with
  | none => none
  | some (event, s1) => spdk_event_call hal event s1

/-- The function `spdk_poller_register`. -/
def spdk_poller_register (hal : Hal) (poller lcore : Nat) (complete : Option spdk_event)
    (period_microseconds : Nat) (s : State) : Option State :=
  let period_ticks :=
    if period_microseconds ≠ 0 then
      (hal.rte_get_timer_hz * period_microseconds) % U64 / 1000000
    else 0
  _spdk_poller_register hal poller lcore complete
    (s.set_poller poller { s.pollers poller with period_ticks := period_ticks })

/-- The function `_spdk_event_remove_poller`. -/
def _spdk_event_remove_poller (hal : Hal) (event : spdk_event) (s : State) : Option State :=
  let reactor := event.arg1
  let poller := event.arg2
  let r := s.g_reactors reactor
  if (s.pollers poller).period_ticks ≠ 0 then
    match TAILQ_REMOVE r.timer_pollers poller with
    | none => none
    | some l => call_next hal event.next (s.set_reactor reactor { r with timer_pollers := l })
  else
    match TAILQ_REMOVE r.active_pollers poller with
    | none => none
    | some l => call_next hal event.next (s.set_reactor reactor { r with active_pollers := l })

/-- The function `spdk_poller_unregister`. -/
def spdk_poller_unregister (hal : Hal) (poller : Nat) (complete : Option spdk_event)
    (s : State) : Option State :=
  let lcore := (s.pollers poller).lcore
  match spdk_event_allocate hal lcore spdk_event_fn._spdk_event_remove_poller lcore poller
      complete s with
  | none => none
  | some (event, s1) => spdk_event_call hal event s1

/-- The function `_spdk_poller_migrate`, run on lcore `cur` (`rte_lcore_id()`). -/
def _spdk_poller_migrate (hal : Hal) (cur : Nat) (event : spdk_event) (s : State) :
    Option State :=
  _spdk_poller_register hal event.arg1 cur event.next s

/-- The function `spdk_poller_migrate`. -/
def spdk_poller_migrate (hal : Hal) (poller new_lcore : Nat) (complete : Option spdk_event)
    (s : State) : Option State :=
  if s.g_reactor_mask &&& bit64 new_lcore = 0 then none
  else if poller = 0 then none
  else
    match spdk_event_allocate hal new_lcore spdk_event_fn._spdk_poller_migrate poller 0
        complete s with
    | none => none
    | some (event, s1) => spdk_poller_unregister hal poller (some event) s1

/-! ## Draining the event queue -/

/-- The call `event->fn(event)` on lcore `cur`. -/
def event_invoke (cb : Callbacks) (hal : Hal) (cur : Nat) (event : spdk_event) (s : State) :
    Option State :=
  match event.fn with
  | spdk_event_fn._spdk_event_add_poller => _spdk_event_add_poller hal event s
  | spdk_event_fn._spdk_event_remove_poller => _spdk_event_remove_poller hal event s
  | spdk_event_fn._spdk_poller_migrate => _spdk_poller_migrate hal cur event s
  | spdk_event_fn.user k => cb.event_fn k cur event s

/-- The function `spdk_event_queue_run_single`, called on lcore `cur`; the result carries
the callbacks it invoked. -/
def spdk_event_queue_run_single (cb : Callbacks) (hal : Hal) (cur lcore : Nat) (s : State) :
    Option (State × List Invocation) :=
  let reactor := spdk_reactor_get s lcore
  match reactor.events with
  | none => none
  | some ring =>
    match rte_ring_dequeue ring with
    | none => some (s, [])
    | some (event, ring1) =>
      match event_invoke cb hal cur event
          (s.set_reactor lcore { reactor with events := some ring1 }) with
      | none => none
      | some s1 =>
        match spdk_event_free hal lcore s1 with
        | none => none
        | some s2 => some (s2, [Invocation.event cur event])

/-- The function `spdk_event_queue_run`. -/
def spdk_event_queue_run (cb : Callbacks) (hal : Hal) (cur lcore : Nat) :
    Nat → State → Option (State × List Invocation)
  | 0, s => some (s, [])
  | count + 1, s =>
    match spdk_event_queue_run_single cb hal cur lcore s with
    | none => none
    | some (s1, t1) =>
      match spdk_event_queue_run cb hal cur lcore count s1 with
      | none => none
      | some (s2, t2) => some (s2, t1 ++ t2)

/-- The function `spdk_event_queue_run_all`. -/
def spdk_event_queue_run_all (cb : Callbacks) (hal : Hal) (cur lcore : Nat) (s : State) :
    Option (State × List Invocation) :=
  spdk_event_queue_run cb hal cur lcore (spdk_event_queue_count s lcore) s

/-! ## The reactor loop -/

/-- The always-run step of the loop of `_spdk_reactor_run`: the head of
`reactor->active_pollers` is removed, called and inserted at the tail. -/
def active_poller_step (cb : Callbacks) (cur reactor : Nat) (s : State) :
    Option (State × List Invocation) :=
  match TAILQ_FIRST (s.g_reactors reactor).active_pollers with
  | none => some (s, [])
  | some poller =>
    let r := s.g_reactors reactor
    match TAILQ_REMOVE r.active_pollers poller with
    | none => none
    | some l =>
      let s1 := s.set_reactor reactor { r with active_pollers := l }
      match cb.poller_fn (s1.pollers poller).fn (s1.pollers poller).arg cur s1 with
      | none => none
      | some s2 =>
        let r2 := s2.g_reactors reactor
        some (s2.set_reactor reactor
            { r2 with active_pollers := TAILQ_INSERT_TAIL r2.active_pollers poller },
          [Invocation.active cur poller])

/-- The timer step of the loop of `_spdk_reactor_run`: when the head of
`reactor->timer_pollers` is due at `now = rte_get_timer_cycles()`, it is removed, called
and inserted again by `spdk_poller_insert_timer(reactor, poller, now)`. -/
def timer_poller_step (cb : Callbacks) (cur reactor : Nat) (s : State) :
    Option (State × List Invocation) :=
  match TAILQ_FIRST (s.g_reactors reactor).timer_pollers with
  | none => some (s, [])
  | some poller =>
    let now := s.timer_cycles
    if now ≥ (s.pollers poller).next_run_tick then
      let r := s.g_reactors reactor
      match TAILQ_REMOVE r.timer_pollers poller with
      | none => none
      | some l =>
        let s1 := s.set_reactor reactor { r with timer_pollers := l }
        match cb.poller_fn (s1.pollers poller).fn (s1.pollers poller).arg cur s1 with
        | none => none
        | some s2 =>
          some (spdk_poller_insert_timer reactor poller now s2,
            [Invocation.timer cur poller])
    else some (s, [])

/-- One pass through the body of `while (1)` of `_spdk_reactor_run(reactor)` on lcore
`cur`, up to the test of `g_reactor_state`: the event queue of `rte_lcore_id()` is drained,
then the always-run step, then the timer step (`rte_timer_manage` works on DPDK's own
timers and leaves this state alone). -/
def reactor_iteration (cb : Callbacks) (hal : Hal) (cur reactor : Nat) (s : State) :
    Option (State × List Invocation) :=
  match spdk_event_queue_run_all cb hal cur cur s with
  | none => none
  | some (s1, t1) =>
    match active_poller_step cb cur reactor s1 with
    | none => none
    | some (s2, t2) =>
      match timer_poller_step cb cur reactor s2 with
      | none => none
      | some (s3, t3) => some (s3, t1 ++ t2 ++ t3)

/-- The function `_spdk_reactor_run`: the loop goes on while `g_reactor_state` is
`SPDK_REACTOR_STATE_RUNNING` at the end of a pass.  `fuel` bounds the number of passes;
`none` also when it is used up. -/
def _spdk_reactor_run (cb : Callbacks) (hal : Hal) (cur reactor : Nat) :
    Nat → State → Option (State × List Invocation)
  | 0, _ => none
  | fuel + 1, s =>
    match reactor_iteration cb hal cur reactor s with
    | none => none
    | some (s1, t1) =>
      if s1.g_reactor_state ≠ SPDK_REACTOR_STATE_RUNNING then some (s1, t1)
      else
        match _spdk_reactor_run cb hal cur reactor fuel s1 with
        | none => none
        | some (s2, t2) => some (s2, t1 ++ t2)

/-- The `n`-fold repetition of `reactor_iteration`, whatever `g_reactor_state` is. -/
def reactor_iterations (cb : Callbacks) (hal : Hal) (cur reactor : Nat) :
    Nat → State → Option (State × List Invocation)
  | 0, s => some (s, [])
  | n + 1, s =>
    match reactor_iteration cb hal cur reactor s with
    | none => none
    | some (s1, t1) =>
      match reactor_iterations cb hal cur reactor n s1 with
      | none => none
      | some (s2, t2) => some (s2, t1 ++ t2)

/-! ## Parsing the core mask -/

/-- The function `isspace` of the C locale. -/
def isspace (c : Char) : Bool :=
  c.toNat = 32 || (9 ≤ c.toNat && c.toNat ≤ 13)

/-- The value of a hexadecimal digit, `none` for any other character. -/
def hex_digit (c : Char) : Option Nat :=
  if 48 ≤ c.toNat ∧ c.toNat ≤ 57 then some (c.toNat - 48)
  else if 97 ≤ c.toNat ∧ c.toNat ≤ 102 then some (c.toNat - 87)
  else if 65 ≤ c.toNat ∧ c.toNat ≤ 70 then some (c.toNat - 55)
  else none

/-- The digits loop of `strtoull` in base 16: the value of the longest run of hexadecimal
digits (continuing `acc`) and the characters after it. -/
def scan_hex (acc : Nat) : List Char → Nat × List Char
  | [] => (acc, [])
  | c :: cs =>
    match hex_digit c with
    | some d => scan_hex (16 * acc + d) cs
    | none => (acc, c :: cs)

/-- The optional sign of the subject sequence of `strtoull`: whether it is `-`, and the
characters after it. -/
def scan_sign : List Char → Bool × List Char
  | c :: cs => if c = '-' then (true, cs) else if c = '+' then (false, cs) else (false, c :: cs)
  | [] => (false, [])

/-- The optional `0x` or `0X` of the subject sequence of `strtoull` in base 16, taken only
when a hexadecimal digit follows it. -/
def scan_0x : List Char → List Char
  | c0 :: c1 :: c2 :: cs =>
    if c0 = '0' ∧ (c1 = 'x' ∨ c1 = 'X') ∧ (hex_digit c2).isSome then c2 :: cs
    else c0 :: c1 :: c2 :: cs
  | cs => cs

/-- What `strtoull(nptr, &end, 16)` gives after `errno = 0`. -/
structure strtoull_result where
  /-- The value returned. -/
  value : Nat
  /-- The characters from `end` on. -/
  rest : List Char
  /-- Whether `errno` is set. -/
  errno : Bool

/-- The function `strtoull` of the C library in base 16 (ISO C 7.22.1.4), on the
characters of a string (a `'\0'` among them ends the string): white space, an optional
sign, an optional `0x`, hexadecimal digits.  Without digits no conversion is performed:
`0` is returned and `end` is `nptr`.  A value out of range gives `ULLONG_MAX` and
`ERANGE`; a `-` negates the value as `unsigned long long`. -/
def strtoull (hal : Hal) (nptr : List Char) : strtoull_result :=
  let (neg, s2) := scan_sign (nptr.dropWhile isspace)
  let s3 := scan_0x s2
  match s3 with
  | [] => { value := 0, rest := nptr, errno := hal.strtoull_einval }
  | c :: _ =>
    if (hex_digit c).isSome then
      let (v, rest) := scan_hex 0 s3
      if U64 ≤ v then { value := U64 - 1, rest := rest, errno := true }
      else { value := if neg then (U64 - v) % U64 else v, rest := rest, errno := false }
    else { value := 0, rest := nptr, errno := hal.strtoull_einval }

/-- The test `*end != '\0'`. -/
def not_at_end (rest : List Char) : Bool :=
  match rest with
  | [] => false
  | c :: _ => c.toNat != 0

/-- The loop of `spdk_app_parse_core_mask` that clears the bits of the lcores that are
not enabled. -/
def clear_disabled (hal : Hal) (cpumask : Nat) : Nat :=
  (List.range (min hal.RTE_MAX_LCORE 64)).foldl
    (fun m i => if m &&& bit64 i ≠ 0 ∧ hal.rte_lcore_is_enabled i = false then clear_bit64 m i
      else m) cpumask

/-- The function `spdk_app_parse_core_mask`.  `mask` is the string (`none` for `NULL`),
`cpumask` what the `uint64_t` behind the pointer holds (`none` for `NULL`); the result is
the value returned and what the `uint64_t` holds afterwards. -/
def spdk_app_parse_core_mask (hal : Hal) (mask : Option (List Char)) (cpumask : Option Nat) :
    Int × Option Nat :=
  match mask, cpumask with
  | some m, some _ =>
    let r := strtoull hal m
    if not_at_end r.rest || r.errno then (-1, some r.value)
    else (0, some (clear_disabled hal r.value))
  | _, _ => (-1, cpumask)

/-- The function `spdk_reactor_parse_mask`. -/
def spdk_reactor_parse_mask (hal : Hal) (mask : Option (List Char)) (s : State) : Int × State :=
  if s.g_reactor_state.val ≥ SPDK_REACTOR_STATE_INITIALIZED.val then (-1, s)
  else
    let s1 := { s with g_reactor_mask := 0 }
    match mask with
    | none =>
      (0, { s1 with g_reactor_mask :=
        (RTE_LCORE_FOREACH hal).foldl (fun m i => m ||| bit64 i) s1.g_reactor_mask })
    | some m =>
      let (ret, out) := spdk_app_parse_core_mask hal (some m) (some s1.g_reactor_mask)
      let s2 := { s1 with g_reactor_mask := out.getD s1.g_reactor_mask }
      if ret ≠ 0 then (ret, s2)
      else if s2.g_reactor_mask &&& bit64 hal.rte_get_master_lcore = 0 then (-1, s2)
      else (0, s2)

/-- The function `spdk_app_get_core_mask`. -/
def spdk_app_get_core_mask (s : State) : Nat := s.g_reactor_mask

/-- The function `spdk_app_get_core_count`. -/
def spdk_app_get_core_count (s : State) : Int := s.g_reactor_count

/-! ## Start-up and shutdown -/

/-- The function `spdk_reactor_construct`; `reactor` is the index in `g_reactors`. -/
def spdk_reactor_construct (hal : Hal) (reactor lcore : Nat) (s : State) : Option State :=
  if hal.rte_ring_create lcore then
    some (s.set_reactor reactor
      { lcore := lcore, active_pollers := [], timer_pollers := [],
        events := some { items := [], cons := 0 } })
  else none

/-- The function `spdk_reactor_get_socket_mask`. -/
def spdk_reactor_get_socket_mask (hal : Hal) (s : State) : Nat :=
  (RTE_LCORE_FOREACH hal).foldl
    (fun socket_info i =>
      if bit64 i &&& s.g_reactor_mask ≠ 0 then
        socket_info ||| bit64 (hal.rte_lcore_to_socket_id i)
      else socket_info) 0

/-- The loop of `spdk_reactors_init` that constructs the reactors of the core mask. -/
def construct_reactors (hal : Hal) : List Nat → State → Option State
  | [], s => some s
  | i :: rest, s =>
    if bit64 i &&& spdk_app_get_core_mask s ≠ 0 then
      match spdk_reactor_construct hal i i s with
      | none => none
      | some s1 =>
        construct_reactors hal rest { s1 with g_reactor_count := s1.g_reactor_count + 1 }
    else construct_reactors hal rest s

/-- The loop of `spdk_reactors_init` that counts the sockets of the socket mask. -/
def count_sockets (socket_mask : Nat) : Nat :=
  ((List.range 64).filter (fun i => bit64 i &&& socket_mask != 0)).length % 256

/-- The loop of `spdk_reactors_init` that creates the event pools, over the indices still
to visit; `false` when it leaves by `return -1`. -/
def create_mempools (hal : Hal) (socket_mask socket_count : Nat) :
    List Nat → State → Bool × State
  | [], s => (true, s)
  | i :: rest, s =>
    if bit64 i &&& socket_mask ≠ 0 then
      let n := 262144 / socket_count
      if hal.rte_mempool_create i n (some i) || hal.rte_mempool_create i n none then
        create_mempools hal socket_mask socket_count rest
          (s.set_mempool i (some { size := n, avail := n }))
      else (false, s.set_mempool i none)
    else create_mempools hal socket_mask socket_count rest s

/-- The function `spdk_reactors_init`: the value returned and the state afterwards. -/
def spdk_reactors_init (hal : Hal) (mask : Option (List Char)) (s : State) :
    Option (Int × State) :=
  let (rc, s1) := spdk_reactor_parse_mask hal mask s
  if rc < 0 then some (rc, s1)
  else
    match construct_reactors hal (RTE_LCORE_FOREACH hal) s1 with
    | none => none
    | some s2 =>
      let socket_mask := spdk_reactor_get_socket_mask hal s2
      let socket_count := count_sockets socket_mask
      match create_mempools hal socket_mask socket_count (List.range 64) s2 with
      | (false, s3) => some (-1, s3)
      | (true, s3) => some (rc, { s3 with g_reactor_state := SPDK_REACTOR_STATE_INITIALIZED })

/-- The function `spdk_reactors_stop`. -/
def spdk_reactors_stop (s : State) : State :=
  { s with g_reactor_state := SPDK_REACTOR_STATE_EXITING }

/-- A thread in the loop of `_spdk_reactor_run(reactor)`: `cur` is its `rte_lcore_id()`,
`reactor` the index in `g_reactors` of its argument. -/
structure reactor_thread where
  cur : Nat
  reactor : Nat
  deriving DecidableEq, Repr

/-- Where `spdk_reactors_start` stands after it has set `SPDK_REACTOR_STATE_RUNNING`.  The
reactors run at the same time on their lcores; the model interleaves them pass by pass. -/
structure start_config where
  /-- The globals and the pollers. -/
  s : State
  /-- The reactors the calling thread has still to hand to `spdk_reactor_start`. -/
  todo : List Nat
  /-- The reactor whose loop the calling thread runs itself (the `else` branch of
  `spdk_reactor_start`), if it is in one. -/
  inline_run : Option Nat
  /-- The threads launched by `rte_eal_remote_launch` that are still in their loop. -/
  remote : List reactor_thread
  /-- The callbacks invoked so far. -/
  log : List Invocation

/-- The function `spdk_reactor_start` up to the point where it either returns or enters
`_spdk_reactor_run` itself. -/
def spdk_reactor_start (hal : Hal) (reactor : Nat) (c : start_config) : start_config :=
  let lcore := (c.s.g_reactors reactor).lcore
  if lcore ≠ hal.rte_get_master_lcore then
    if hal.rte_eal_get_lcore_state lcore = rte_lcore_state_t.RUNNING
        ∨ lcore ∈ c.remote.map reactor_thread.cur then c
    else { c with remote := c.remote ++ [{ cur := lcore, reactor := reactor }] }
  else { c with inline_run := some reactor }

/-- One step of a run of `spdk_reactors_start` called on lcore `cur`.  `who = none`: the
calling thread makes its next move (a pass of the loop it is in, else the next
`spdk_reactor_start`, else it waits in `rte_eal_mp_wait_lcore`).  `who = some l`: the
thread launched on lcore `l` makes a pass of its loop.  A loop is left when
`g_reactor_state` is not `SPDK_REACTOR_STATE_RUNNING` at the end of the pass. -/
def start_step (cb : Callbacks) (hal : Hal) (cur : Nat) (who : Option Nat)
    (c : start_config) : Option start_config :=
  match who with
  | none =>
    match c.inline_run with
    | some reactor =>
      match reactor_iteration cb hal cur reactor c.s with
      | none => none
      | some (s1, t1) =>
        some { c with
          s := s1
          log := c.log ++ t1
          inline_run :=
            if s1.g_reactor_state ≠ SPDK_REACTOR_STATE_RUNNING then none else some reactor }
    | none =>
      match c.todo with
      | [] => some c
      | reactor :: rest => some (spdk_reactor_start hal reactor { c with todo := rest })
  | some l =>
    match c.remote.find? (fun t => t.cur = l) with
    | none => some c
    | some t =>
      match reactor_iteration cb hal t.cur t.reactor c.s with
      | none => none
      | some (s1, t1) =>
        some { c with
          s := s1
          log := c.log ++ t1
          remote :=
            if s1.g_reactor_state ≠ SPDK_REACTOR_STATE_RUNNING then c.remote.erase t
            else c.remote }

/-- The steps of a schedule, one after the other. -/
def start_steps (cb : Callbacks) (hal : Hal) (cur : Nat) :
    List (Option Nat) → start_config → Option start_config
  | [], c => some c
  | who :: rest, c =>
    match start_step cb hal cur who c with
    | none => none
    | some c1 => start_steps cb hal cur rest c1

/-- The state of `spdk_reactors_start` right after `g_reactor_state = RUNNING`, before the
first `spdk_reactor_start`: the reactors of the lcores of `RTE_LCORE_FOREACH_SLAVE` that are
in the core mask are to be started, then the one of the master lcore. -/
def start_begin (hal : Hal) (s : State) : start_config :=
  let s1 := { s with g_reactor_state := SPDK_REACTOR_STATE_RUNNING }
  { s := s1
    todo := (RTE_LCORE_FOREACH_SLAVE hal).filter
        (fun i => bit64 i &&& spdk_app_get_core_mask s1 != 0) ++ [hal.rte_get_master_lcore]
    inline_run := none
    remote := []
    log := [] }

/-- The function `spdk_reactors_start` called on lcore `cur`, run under a schedule of the
threads (`start_step`).  It returns once the calling thread has left every loop and
`rte_eal_mp_wait_lcore` has seen every launched lcore finish; `none` when the process is
ended on the way or the schedule ends before that. -/
def spdk_reactors_start (cb : Callbacks) (hal : Hal) (cur : Nat) (sched : List (Option Nat))
    (s : State) : Option (State × List Invocation) :=
  if hal.rte_get_master_lcore ≠ cur then none
  else
    match start_steps cb hal cur sched (start_begin hal s) with
    | none => none
    | some c =>
      if c.todo = [] ∧ c.inline_run = none ∧ c.remote = [] then
        some ({ c.s with g_reactor_state := SPDK_REACTOR_STATE_SHUTDOWN }, c.log)
      else none

/-! ## Properties of schedules and of callbacks -/

/-- The timer schedule of a reactor is in ascending order of `next_run_tick`, head first. -/
@[reducible] def timer_sorted (s : State) (reactor : Nat) : Prop :=
  List.Pairwise (fun a b => (s.pollers a).next_run_tick ≤ (s.pollers b).next_run_tick)
    (s.g_reactors reactor).timer_pollers

/-- The head of the timer schedule of a reactor carries the least `next_run_tick`. -/
def timer_head_min (s : State) (reactor : Nat) : Prop :=
  ∀ h, TAILQ_FIRST (s.g_reactors reactor).timer_pollers = some h →
    ∀ q ∈ (s.g_reactors reactor).timer_pollers,
      (s.pollers h).next_run_tick ≤ (s.pollers q).next_run_tick

/-- The poller of a remove-poller event is linked in the queue that
`_spdk_event_remove_poller` takes it from: the timer schedule of the reactor of the event
for a periodic poller, its always-run schedule otherwise. -/
def remove_linked (event : spdk_event) (s : State) : Prop :=
  if (s.pollers event.arg2).period_ticks ≠ 0 then
    event.arg2 ∈ (s.g_reactors event.arg1).timer_pollers
  else event.arg2 ∈ (s.g_reactors event.arg1).active_pollers

instance (event : spdk_event) (s : State) : Decidable (remove_linked event s) :=
  inferInstanceAs (Decidable (if (s.pollers event.arg2).period_ticks ≠ 0 then
    event.arg2 ∈ (s.g_reactors event.arg1).timer_pollers
  else event.arg2 ∈ (s.g_reactors event.arg1).active_pollers))

/-- The state in which `_spdk_event_remove_poller` reaches `if (next)`. -/
def remove_poller_unlinked (event : spdk_event) (s : State) : State :=
  let r := s.g_reactors event.arg1
  if (s.pollers event.arg2).period_ticks ≠ 0 then
    s.set_reactor event.arg1 { r with timer_pollers := r.timer_pollers.erase event.arg2 }
  else
    s.set_reactor event.arg1 { r with active_pollers := r.active_pollers.erase event.arg2 }

/-- No callback of a poller, run on lcore `cur`, ends the process, relinks the timer
schedule of `reactor` or rewrites the `next_run_tick` of a poller linked in it. -/
def poller_fn_keeps_timers (cb : Callbacks) (cur reactor : Nat) : Prop :=
  ∀ fn arg s0, ∃ s1, cb.poller_fn fn arg cur s0 = some s1 ∧
    (s1.g_reactors reactor).timer_pollers = (s0.g_reactors reactor).timer_pollers ∧
    ∀ q ∈ (s0.g_reactors reactor).timer_pollers,
      (s1.pollers q).next_run_tick = (s0.pollers q).next_run_tick

/-- No callback of a poller, run on lcore `cur`, ends the process or rewrites the
`period_ticks` of `poller`. -/
def poller_fn_keeps_period (cb : Callbacks) (cur poller : Nat) : Prop :=
  ∀ fn arg s0, ∃ s1, cb.poller_fn fn arg cur s0 = some s1 ∧
    (s1.pollers poller).period_ticks = (s0.pollers poller).period_ticks

/-- The pollers called by the always-run step among the recorded callbacks, in order. -/
def active_calls : List Invocation → List Nat
  | [] => []
  | Invocation.active _ poller :: t => poller :: active_calls t
  | Invocation.event _ _ :: t => active_calls t
  | Invocation.timer _ _ :: t => active_calls t

/-- No callback of a poller, run on lcore `cur`, ends the process, relinks the always-run
schedule of `reactor` or changes the number of events waiting in the queue of `cur`. -/
def poller_fn_keeps_active (cb : Callbacks) (cur reactor : Nat) : Prop :=
  ∀ fn arg s0, ∃ s1, cb.poller_fn fn arg cur s0 = some s1 ∧
    (s1.g_reactors reactor).active_pollers = (s0.g_reactors reactor).active_pollers ∧
    spdk_event_queue_count s1 cur = spdk_event_queue_count s0 cur

/-- The function `spdk_event_free(lcore, ..)` finds a pool: the socket of `lcore` is below
`SPDK_MAX_SOCKET` and its pool has been created. -/
def drain_ready (hal : Hal) (lcore : Nat) (s : State) : Prop :=
  hal.rte_lcore_to_socket_id lcore % 256 < 64 ∧
    (s.g_spdk_event_mempool (hal.rte_lcore_to_socket_id lcore % 256)).isSome = true

/-! ## Affinity -/

/-- Every event ever enqueued on the ring of a reactor names this reactor in its `lcore`
field. -/
def queues_affine (s : State) : Prop :=
  ∀ c ring, (s.g_reactors c).events = some ring → ∀ e ∈ ring.items, e.lcore = c

/-- The callbacks enqueue events the way `spdk_event_call` does: if every ring holds only
events for its own reactor before a callback, so it does afterwards. -/
def callbacks_keep_affine (cb : Callbacks) : Prop :=
  (∀ k cur e s s1, cb.event_fn k cur e s = some s1 → queues_affine s → queues_affine s1) ∧
  (∀ fn arg cur s s1, cb.poller_fn fn arg cur s = some s1 →
    queues_affine s → queues_affine s1)

/-- Every callback of an event among the recorded callbacks was called on the lcore the
event names in its `lcore` field. -/
def events_on_own_lcore (t : List Invocation) : Prop :=
  ∀ c e, Invocation.event c e ∈ t → e.lcore = c

/-! ## Mask strings -/

/-- The number a run of hexadecimal digits denotes, continuing `acc`. -/
def hex_value (acc : Nat) : List Char → Nat
  | [] => acc
  | c :: cs => hex_value (16 * acc + (hex_digit c).getD 0) cs

/-- A run of one or more hexadecimal digits. -/
def is_hex_run (digits : List Char) : Prop :=
  digits ≠ [] ∧ ∀ c ∈ digits, (hex_digit c).isSome = true

/-- The mask format in the words of the specification: the string is, in full, a
hexadecimal number with the given digits, optionally `0x`-prefixed. -/
def is_hex_number (s digits : List Char) : Prop :=
  is_hex_run digits ∧ (s = digits ∨ s = '0' :: 'x' :: digits ∨ s = '0' :: 'X' :: digits)

/-- The strings `strtoull` converts in full in base 16: white space, an optional sign
(`neg` tells whether it is `-`), an optional `0x` or `0X`, and one or more hexadecimal
digits. -/
def is_mask_string (s : List Char) (neg : Bool) (digits : List Char) : Prop :=
  ∃ ws sign px, s = ws ++ (sign ++ (px ++ digits)) ∧ (∀ c ∈ ws, isspace c = true) ∧
    ((sign = [] ∧ neg = false) ∨ (sign = ['+'] ∧ neg = false) ∨
      (sign = ['-'] ∧ neg = true)) ∧
    (px = [] ∨ px = ['0', 'x'] ∨ px = ['0', 'X']) ∧ is_hex_run digits

/-- The value `strtoull` returns for digits of value `v` after a sign. -/
def signed_value (neg : Bool) (v : Nat) : Nat := if neg then (U64 - v) % U64 else v

/-! ## The life cycle as a sequence of calls -/

/-- From `s` to `s1` the value of `g_reactor_state` is kept or set to
`SPDK_REACTOR_STATE_EXITING`, as `spdk_reactors_stop` does. -/
def state_kept_or_exiting (s s1 : State) : Prop :=
  s1.g_reactor_state = s.g_reactor_state ∨
    s1.g_reactor_state = SPDK_REACTOR_STATE_EXITING

/-- The callbacks write `g_reactor_state` only by calling `spdk_reactors_stop`. -/
def callbacks_stop_only (cb : Callbacks) : Prop :=
  (∀ k cur e s s1, cb.event_fn k cur e s = some s1 → state_kept_or_exiting s s1) ∧
  (∀ fn arg cur s s1, cb.poller_fn fn arg cur s = some s1 → state_kept_or_exiting s s1)

/-- A call of the life cycle: `spdk_reactors_init(mask)`, `spdk_reactors_start()` (run
under a schedule of the reactor threads), `spdk_reactors_stop()`, or sending an event for
the user's function `k` to an lcore (`spdk_event_allocate` and `spdk_event_call`). -/
inductive lifecycle_call where
  | init (mask : Option (List Char))
  | start (sched : List (Option Nat))
  | stop
  | send (lcore : Nat) (k : Nat)

/-- The values of `g_reactor_state` after each step of a schedule of `spdk_reactors_start`,
up to the step that ends the process (if one does), and the configuration reached. -/
def start_states (cb : Callbacks) (hal : Hal) (cur : Nat) :
    List (Option Nat) → start_config → List spdk_reactor_state × Option start_config
  | [], c => ([], some c)
  | who :: rest, c =>
    match start_step cb hal cur who c with
    | none => ([], none)
    | some c1 =>
      ((c1.s.g_reactor_state :: (start_states cb hal cur rest c1).1),
        (start_states cb hal cur rest c1).2)

/-- The values `g_reactor_state` takes during a call made on lcore `cur`, in order, and
the state the call leaves (`none`: the process is ended, or `spdk_reactors_start` does not
return under this schedule).  For `spdk_reactors_start` these are the value it sets first,
the value after each step of the schedule and the value it sets last. -/
def lifecycle_call.observe (cb : Callbacks) (hal : Hal) (cur : Nat) :
    lifecycle_call → State → List spdk_reactor_state × Option State
  | lifecycle_call.init mask, s =>
    match spdk_reactors_init hal mask s with
    | none => ([], none)
    | some (_, s1) => ([s1.g_reactor_state], some s1)
  | lifecycle_call.stop, s =>
    ([(spdk_reactors_stop s).g_reactor_state], some (spdk_reactors_stop s))
  | lifecycle_call.send lcore k, s =>
    match spdk_event_allocate hal lcore (spdk_event_fn.user k) 0 0 none s with
    | none => ([], none)
    | some (e, s1) =>
      match spdk_event_call hal e s1 with
      | none => ([], none)
      | some s2 => ([s2.g_reactor_state], some s2)
  | lifecycle_call.start sched, s =>
    if hal.rte_get_master_lcore ≠ cur then ([], none)
    else
      match start_states cb hal cur sched (start_begin hal s) with
      | (l, none) => ((start_begin hal s).s.g_reactor_state :: l, none)
      | (l, some c) =>
        if c.todo = [] ∧ c.inline_run = none ∧ c.remote = [] then
          ((start_begin hal s).s.g_reactor_state :: l ++ [SPDK_REACTOR_STATE_SHUTDOWN],
            some { c.s with g_reactor_state := SPDK_REACTOR_STATE_SHUTDOWN })
        else ((start_begin hal s).s.g_reactor_state :: l, none)

/-- The values `g_reactor_state` takes during a sequence of calls, in order. -/
def lifecycle_observe (cb : Callbacks) (hal : Hal) (cur : Nat) :
    List lifecycle_call → State → List spdk_reactor_state
  | [], _ => []
  | c :: rest, s =>
    match c.observe cb hal cur s with
    | (l, none) => l
    | (l, some s1) => l ++ lifecycle_observe cb hal cur rest s1

/-- The states in which a call does not take `g_reactor_state` back:
`spdk_reactors_start` in the states Invalid, Initialized and Running (not after
`spdk_reactors_stop`, nor after it has returned itself), `spdk_reactors_stop` in every
state but Shutdown (not after `spdk_reactors_start` has returned). -/
def lifecycle_call.allowed : lifecycle_call → State → Bool
  | lifecycle_call.start _, s =>
    decide (s.g_reactor_state.val ≤ SPDK_REACTOR_STATE_RUNNING.val)
  | lifecycle_call.stop, s => decide (s.g_reactor_state ≠ SPDK_REACTOR_STATE_SHUTDOWN)
  | _, _ => true

/-- Every call of the sequence is made in a state in which it is allowed. -/
def lifecycle_guarded (cb : Callbacks) (hal : Hal) (cur : Nat) :
    List lifecycle_call → State → Bool
  | [], _ => true
  | c :: rest, s =>
    c.allowed s &&
      match (c.observe cb hal cur s).2 with
      | none => true
      | some s1 => lifecycle_guarded cb hal cur rest s1

/-- The numeric values of the states `v0, l[0], l[1], ..` never decrease from one to the
next. -/
@[reducible] def non_decreasing (v0 : spdk_reactor_state) (l : List spdk_reactor_state) :
    Prop :=
  List.Chain (fun a b => a.val ≤ b.val) v0 l

/-! ## Concrete configurations -/

/-- Callbacks that do nothing. -/
def idle_callbacks : Callbacks :=
  { event_fn := fun _ _ _ s => some s, poller_fn := fun _ _ _ s => some s }

/-- A host with four lcores on one socket, lcore 0 the master, a 1 MHz timer. -/
def small_hal : Hal :=
  { RTE_MAX_LCORE := 4
    rte_lcore_is_enabled := fun i => decide (i < 4)
    rte_get_master_lcore := 0
    rte_lcore_to_socket_id := fun _ => 0
    rte_get_timer_hz := 1000000
    rte_eal_get_lcore_state := fun _ => rte_lcore_state_t.WAIT
    ring_capacity := 65535
    rte_ring_create := fun _ => true
    rte_mempool_create := fun _ _ _ => true
    strtoull_einval := false }

/-- Reactor 0 with the timer pollers 1 and 2, of period 3, scheduled at the ticks 5 and
10, at time 6. -/
def timer_example : State :=
  { g_reactors := fun _ =>
      { lcore := 0, active_pollers := [], timer_pollers := [1, 2],
        events := some { items := [], cons := 0 } }
    g_reactor_mask := 1
    g_reactor_count := 1
    g_reactor_state := SPDK_REACTOR_STATE_RUNNING
    g_spdk_event_mempool := fun _ => some { size := 262144, avail := 262144 }
    pollers := fun a =>
      { fn := a, arg := 0, period_ticks := 3, lcore := 0, next_run_tick := 5 * a }
    timer_cycles := 6 }

/-- Reactor 0 with the timer poller 1 of period 2, scheduled at tick 0, when the timer
reads `2^64 - 1`. -/
def wrap_example : State :=
  { g_reactors := fun _ =>
      { lcore := 0, active_pollers := [], timer_pollers := [1],
        events := some { items := [], cons := 0 } }
    g_reactor_mask := 1
    g_reactor_count := 1
    g_reactor_state := SPDK_REACTOR_STATE_RUNNING
    g_spdk_event_mempool := fun _ => some { size := 262144, avail := 262144 }
    pollers := fun _ =>
      { fn := 0, arg := 0, period_ticks := 2, lcore := 0, next_run_tick := 0 }
    timer_cycles := 2 ^ 64 - 1 }

/-- Reactor 0 with the always-run pollers 1, 2 and 3 and an empty event queue. -/
def rotation_example : State :=
  { g_reactors := fun _ =>
      { lcore := 0, active_pollers := [1, 2, 3], timer_pollers := [],
        events := some { items := [], cons := 0 } }
    g_reactor_mask := 1
    g_reactor_count := 1
    g_reactor_state := SPDK_REACTOR_STATE_RUNNING
    g_spdk_event_mempool := fun _ => some { size := 262144, avail := 262144 }
    pollers := fun a =>
      { fn := a, arg := 0, period_ticks := 0, lcore := 0, next_run_tick := 0 }
    timer_cycles := 0 }

/-- An event for lcore 0 whose callback is the user's function `k`. -/
def user_event (k : Nat) : spdk_event :=
  { lcore := 0, fn := spdk_event_fn.user k, arg1 := 0, arg2 := 0, next := none }

/-- Reactor 0 with the events of the user's functions 10 and 20 waiting, after one event
(of function 5) has been consumed. -/
def drain_example : State :=
  { g_reactors := fun _ =>
      { lcore := 0, active_pollers := [], timer_pollers := [],
        events := some { items := [user_event 5, user_event 10, user_event 20], cons := 1 } }
    g_reactor_mask := 1
    g_reactor_count := 1
    g_reactor_state := SPDK_REACTOR_STATE_RUNNING
    g_spdk_event_mempool := fun _ => some { size := 262144, avail := 262141 }
    pollers := fun a =>
      { fn := a, arg := 0, period_ticks := 0, lcore := 0, next_run_tick := 0 }
    timer_cycles := 0 }

/-- Callbacks of events that call `spdk_reactors_stop`. -/
def stop_callbacks : Callbacks :=
  { event_fn := fun _ _ _ s => some (spdk_reactors_stop s)
    poller_fn := fun _ _ _ s => some s }

/-- The globals as the program starts, with all poller memory zero. -/
def fresh : State :=
  State.init (fun _ => { fn := 0, arg := 0, period_ticks := 0, lcore := 0, next_run_tick := 0 }) 0

/-- The calls `spdk_reactors_init("0x1")`, an event sent to lcore 0, `spdk_reactors_start()`
whose thread starts the master reactor and makes one pass of its loop, and
`spdk_reactors_stop()` after that has returned. -/
def stop_after_shutdown : List lifecycle_call :=
  [lifecycle_call.init (some "0x1".toList), lifecycle_call.send 0 0,
    lifecycle_call.start [none, none], lifecycle_call.stop]

/-- The calls of `stop_after_shutdown` without the last one. -/
def start_and_stop_inside : List lifecycle_call :=
  [lifecycle_call.init (some "0x1".toList), lifecycle_call.send 0 0,
    lifecycle_call.start [none, none]]

/-- A host like `small_hal` on which only the lcores 1 and 2 are enabled, lcore 1 the
master, with `RTE_MAX_LCORE = 128`. -/
def hal_12 : Hal :=
  { small_hal with
    RTE_MAX_LCORE := 128
    rte_lcore_is_enabled := fun i => i == 1 || i == 2
    rte_get_master_lcore := 1 }

/-- The state after `spdk_reactors_init(NULL)` on `small_hal`, with an event for lcore 1
and one for lcore 2 waiting. -/
def two_queues : State :=
  { g_reactors := fun c =>
      { lcore := c, active_pollers := [], timer_pollers := [],
        events := some
          { items := if c = 1 then [{ user_event 7 with lcore := 1 }]
              else if c = 2 then [{ user_event 8 with lcore := 2 }] else []
            cons := 0 } }
    g_reactor_mask := 15
    g_reactor_count := 4
    g_reactor_state := SPDK_REACTOR_STATE_RUNNING
    g_spdk_event_mempool := fun _ => some { size := 262144, avail := 262142 }
    pollers := fun a =>
      { fn := a, arg := 0, period_ticks := 0, lcore := 0, next_run_tick := 0 }
    timer_cycles := 0 }

/-! ## Preconditions of the event functions -/

/-- The function `spdk_event_allocate(lcore, ..)` finds a free event: the socket of `lcore`
is below `SPDK_MAX_SOCKET` and its pool exists and holds at least `n + 1` free events. -/
def can_allocate (hal : Hal) (lcore n : Nat) (s : State) : Prop :=
  hal.rte_lcore_to_socket_id lcore % 256 < 64 ∧
    ∃ pool, s.g_spdk_event_mempool (hal.rte_lcore_to_socket_id lcore % 256) = some pool ∧
      n < pool.avail

/-- The function `spdk_event_call` finds room for an event for `lcore`: the reactor has
its ring and the ring is not full. -/
def can_enqueue (hal : Hal) (lcore : Nat) (s : State) : Prop :=
  ∃ ring, (s.g_reactors lcore).events = some ring ∧ rte_ring_count ring < hal.ring_capacity

/-! ## Schedules of pollers -/

/-- The event `_spdk_poller_register(poller, lcore, complete)` allocates. -/
def add_poller_event (poller lcore : Nat) (complete : Option spdk_event) : spdk_event :=
  { lcore := lcore, fn := spdk_event_fn._spdk_event_add_poller, arg1 := lcore,
    arg2 := poller, next := complete }

/-- The event `spdk_poller_unregister(poller, complete)` allocates when `poller->lcore` is
`lcore`. -/
def remove_poller_event (poller lcore : Nat) (complete : Option spdk_event) : spdk_event :=
  { lcore := lcore, fn := spdk_event_fn._spdk_event_remove_poller, arg1 := lcore,
    arg2 := poller, next := complete }

/-- The event `spdk_poller_migrate(poller, new_lcore, complete)` allocates. -/
def migrate_event (poller new_lcore : Nat) (complete : Option spdk_event) : spdk_event :=
  { lcore := new_lcore, fn := spdk_event_fn._spdk_poller_migrate, arg1 := poller,
    arg2 := 0, next := complete }

/-- Poller `poller` is linked in no schedule of any reactor. -/
def in_no_schedule (s : State) (poller : Nat) : Prop :=
  ∀ r, poller ∉ (s.g_reactors r).active_pollers ∧ poller ∉ (s.g_reactors r).timer_pollers

/-- Poller `poller` is registered on reactor `reactor`: it is linked exactly once in the
schedule of this reactor that its `period_ticks` selects (the timer schedule when it is
not 0, the always-run schedule otherwise) and not in the other one. -/
def registered_on (s : State) (poller reactor : Nat) : Prop :=
  if (s.pollers poller).period_ticks ≠ 0 then
    (s.g_reactors reactor).timer_pollers.count poller = 1 ∧
      poller ∉ (s.g_reactors reactor).active_pollers
  else
    (s.g_reactors reactor).active_pollers.count poller = 1 ∧
      poller ∉ (s.g_reactors reactor).timer_pollers

/-- The pollers linked in the schedules of reactor `r`: the always-run schedule, then the
timer schedule. -/
def schedule (s : State) (r : Nat) : List Nat :=
  (s.g_reactors r).active_pollers ++ (s.g_reactors r).timer_pollers

/-- The pollers linked in the schedules of the reactors `g_reactors[0 .. RTE_MAX_LCORE)`,
with repetitions. -/
def all_schedules (hal : Hal) (s : State) : List Nat :=
  (List.range hal.RTE_MAX_LCORE).flatMap (schedule s)

/-- Every poller occurs at most once in the union of the schedules of all reactors. -/
def membership_invariant (hal : Hal) (s : State) : Prop := (all_schedules hal s).Nodup

/-- No schedule of any reactor differs between `s` and `s1`. -/
def schedules_kept (s s1 : State) : Prop :=
  ∀ r, (s1.g_reactors r).active_pollers = (s.g_reactors r).active_pollers ∧
    (s1.g_reactors r).timer_pollers = (s.g_reactors r).timer_pollers

/-- No poller occurs more often in a schedule of a reactor in `s1` than in the schedules
of this reactor in `s`. -/
def schedules_shrink (s s1 : State) : Prop :=
  ∀ r p, (schedule s1 r).count p ≤ (schedule s r).count p

/-- The callbacks of the user do not relink the schedules (the lists are private to
`reactor.c`; a callback changes them only through events). -/
def callbacks_keep_schedules (cb : Callbacks) : Prop :=
  (∀ k cur e s s1, cb.event_fn k cur e s = some s1 → schedules_kept s s1) ∧
  (∀ fn arg cur s s1, cb.poller_fn fn arg cur s = some s1 → schedules_kept s s1)

/-- The event `e`, about to be called in state `s`, finds the schedules as the `TAILQ`
macros it uses require: an add-poller event finds its poller linked in no schedule, a
remove-poller event finds its poller linked in the schedule it unlinks it from. -/
def event_applicable (hal : Hal) (s : State) (e : spdk_event) : Bool :=
  match e.fn with
  | spdk_event_fn._spdk_event_add_poller => decide (e.arg2 ∉ all_schedules hal s)
  | spdk_event_fn._spdk_event_remove_poller =>
    if (s.pollers e.arg2).period_ticks ≠ 0 then
      decide (e.arg2 ∈ (s.g_reactors e.arg1).timer_pollers)
    else decide (e.arg2 ∈ (s.g_reactors e.arg1).active_pollers)
  | _ => true

/-- Every event called by `spdk_event_queue_run(cur, count)` in state `s` is applicable
in the state in which it is called. -/
def drain_applicable (cb : Callbacks) (hal : Hal) (cur : Nat) : Nat → State → Bool
  | 0, _ => true
  | count + 1, s =>
    match (spdk_reactor_get s cur).events with
    | none => true
    | some ring =>
      match rte_ring_dequeue ring with
      | none => true
      | some (event, _) =>
        event_applicable hal s event &&
          match spdk_event_queue_run_single cb hal cur cur s with
          | none => true
          | some (s1, _) => drain_applicable cb hal cur count s1

/-- A call of the poller interface, or one pass of the loop of the reactor of `lcore`. -/
inductive poller_call where
  | register (poller lcore : Nat) (complete : Option spdk_event) (period_microseconds : Nat)
  | unregister (poller : Nat) (complete : Option spdk_event)
  | migrate (poller new_lcore : Nat) (complete : Option spdk_event)
  | iteration (lcore : Nat)

/-- The state after a call. -/
def poller_call.run (cb : Callbacks) (hal : Hal) : poller_call → State → Option State
  | poller_call.register poller lcore complete period_microseconds, s =>
    spdk_poller_register hal poller lcore complete period_microseconds s
  | poller_call.unregister poller complete, s => spdk_poller_unregister hal poller complete s
  | poller_call.migrate poller new_lcore complete, s =>
    spdk_poller_migrate hal poller new_lcore complete s
  | poller_call.iteration lcore, s => (reactor_iteration cb hal lcore lcore s).map Prod.fst

/-- The state after a sequence of calls. -/
def poller_calls_run (cb : Callbacks) (hal : Hal) : List poller_call → State → Option State
  | [], s => some s
  | c :: rest, s =>
    match c.run cb hal s with
    | none => none
    | some s1 => poller_calls_run cb hal rest s1

/-- Every event called by the drain pass of a loop iteration is applicable. -/
def poller_call.applicable (cb : Callbacks) (hal : Hal) : poller_call → State → Bool
  | poller_call.iteration lcore, s =>
    drain_applicable cb hal lcore (spdk_event_queue_count s lcore) s
  | _, _ => true

/-- The call `spdk_poller_migrate(p, b, completion)` for a poller of lcore `a`, followed by
the drain pass on `a` and two drain passes on `b`: the states after the call and after
each pass. -/
def migration (cb : Callbacks) (hal : Hal) (p a b : Nat) (completion : Option spdk_event)
    (s0 : State) : Option (State × State × State × State) :=
  match spdk_poller_migrate hal p b completion s0 with
  | none => none
  | some s1 =>
    match spdk_event_queue_run_all cb hal a a s1 with
    | none => none
    | some (s2, _) =>
      match spdk_event_queue_run_all cb hal b b s2 with
      | none => none
      | some (s3, _) =>
        match spdk_event_queue_run_all cb hal b b s3 with
        | none => none
        | some (s4, _) => some (s1, s2, s3, s4)

/-- Every event called in the course of a sequence of calls is applicable. -/
def poller_calls_applicable (cb : Callbacks) (hal : Hal) :
    List poller_call → State → Bool
  | [], _ => true
  | c :: rest, s =>
    c.applicable cb hal s &&
      match c.run cb hal s with
      | none => true
      | some s1 => poller_calls_applicable cb hal rest s1

/-! ## The callbacks of one pass of the loop -/

/-- The pollers called by the timer step among the recorded callbacks, in order. -/
def timer_calls : List Invocation → List Nat
  | [] => []
  | Invocation.timer _ poller :: t => poller :: timer_calls t
  | Invocation.event _ _ :: t => timer_calls t
  | Invocation.active _ _ :: t => timer_calls t

/-- The events called among the recorded callbacks, in order. -/
def event_calls : List Invocation → List spdk_event
  | [] => []
  | Invocation.event _ e :: t => e :: event_calls t
  | Invocation.active _ _ :: t => event_calls t
  | Invocation.timer _ _ :: t => event_calls t

/-- The callbacks of the user's events use the rings the way `spdk_event_call` does: a
ring holds after the callback what it held before, with any number of events enqueued
after it. -/
def callbacks_append (cb : Callbacks) : Prop :=
  ∀ k cur e s0 s1 lcore ring0, (s0.g_reactors lcore).events = some ring0 →
    cb.event_fn k cur e s0 = some s1 →
    ∃ extra, (s1.g_reactors lcore).events =
      some { items := ring0.items ++ extra, cons := ring0.cons }

/-- The callbacks of the user's events do not write the `period_ticks` of any poller. -/
def callbacks_keep_periods (cb : Callbacks) : Prop :=
  ∀ k cur e s0 s1, cb.event_fn k cur e s0 = some s1 →
    ∀ q, (s1.pollers q).period_ticks = (s0.pollers q).period_ticks

/-- The callbacks of the user's events do not write the record of `poller`. -/
def callbacks_keep_poller (cb : Callbacks) (poller : Nat) : Prop :=
  ∀ k cur e s0 s1, cb.event_fn k cur e s0 = some s1 → s1.pollers poller = s0.pollers poller

/-- The callbacks of the user's events do not write the `lcore` field of a reactor. -/
def callbacks_keep_lcores (cb : Callbacks) : Prop :=
  ∀ k cur e s0 s1, cb.event_fn k cur e s0 = some s1 →
    ∀ r, (s1.g_reactors r).lcore = (s0.g_reactors r).lcore

/-- Between `s` and `s1` nothing has happened to `poller`: its record is the same, it is
linked in every schedule as often as before, and the `lcore` fields of the reactors are
the same. -/
def poller_kept (poller : Nat) (s s1 : State) : Prop :=
  s1.pollers poller = s.pollers poller ∧
  (∀ r, (s1.g_reactors r).active_pollers.count poller =
      (s.g_reactors r).active_pollers.count poller ∧
    (s1.g_reactors r).timer_pollers.count poller =
      (s.g_reactors r).timer_pollers.count poller) ∧
  (∀ r, (s1.g_reactors r).lcore = (s.g_reactors r).lcore)

/-- Between `s` and `s1` the rings of the lcores other than `cur` have kept what they held,
with any number of events enqueued after it. -/
def rings_grow (cur : Nat) (s s1 : State) : Prop :=
  ∀ j, j ≠ cur → ∀ ring0, (s.g_reactors j).events = some ring0 →
    ∃ extra, (s1.g_reactors j).events =
      some { items := ring0.items ++ extra, cons := ring0.cons }

/-- The event `e` is an add-poller event for reactor `reactor` whose poller is an
always-run poller (`period_ticks = 0`) in state `s`. -/
def adds_always_run (s : State) (reactor : Nat) (e : spdk_event) : Prop :=
  e.fn = spdk_event_fn._spdk_event_add_poller ∧ e.arg1 = reactor ∧
    (s.pollers e.arg2).period_ticks = 0

/-- The event `e` is an add-poller event of `poller`. -/
def adds_poller (poller : Nat) (e : spdk_event) : Prop :=
  e.fn = spdk_event_fn._spdk_event_add_poller ∧ e.arg2 = poller

/-- The event `e` is a remove-poller event of `poller`. -/
def removes_poller (poller : Nat) (e : spdk_event) : Prop :=
  e.fn = spdk_event_fn._spdk_event_remove_poller ∧ e.arg2 = poller

/-- The event `e` is a poller event of `poller`: its add-poller event, its remove-poller
event or its migrate event. -/
def names_poller (poller : Nat) (e : spdk_event) : Prop :=
  adds_poller poller e ∨ removes_poller poller e ∨
    (e.fn = spdk_event_fn._spdk_poller_migrate ∧ e.arg1 = poller)

/-! ## The order of the timer schedule -/

/-- The reference stable insertion, in the words of the specification: all elements of
`L` with `next_run_tick <= t`, in order, then `p`, then all elements of `L` with
`next_run_tick > t`, in order. -/
def reference_stable_insert (pollers : Nat → spdk_poller) (t p : Nat) (L : List Nat) :
    List Nat :=
  L.filter (fun q => decide ((pollers q).next_run_tick ≤ t)) ++
    p :: L.filter (fun q => decide (t < (pollers q).next_run_tick))

/-! ## Events and pools -/

/-- The queue of `lcore` exists and no event waits in it. -/
def queue_empty (s : State) (lcore : Nat) : Prop :=
  ∃ ring, (s.g_reactors lcore).events = some ring ∧ ring.cons = ring.items.length

/-- The values of `enum spdk_nvmf_qpair_type`. -/
inductive spdk_nvmf_qpair_type where
  | QPAIR_TYPE_AQ
  | QPAIR_TYPE_IOQ
  deriving DecidableEq, Repr

/-- The values of `spdk_nvmf_request_exec_status`. -/
inductive spdk_nvmf_request_exec_status where
  | SPDK_NVMF_REQUEST_EXEC_STATUS_COMPLETE
  | SPDK_NVMF_REQUEST_EXEC_STATUS_ASYNCHRONOUS
  deriving DecidableEq, Repr

/-- The two static functions of `request.c` that are posted as messages. -/
inductive nvmf_msg_fn where
  | spdk_nvmf_request_exec_on_master
  | spdk_nvmf_request_complete_on_qpair
  deriving DecidableEq, Repr

/-- What a function of `request.c` does to the world outside the request, on the thread
that calls it: a message posted with `spdk_thread_send_msg(thread, fn, req)`, a call of
one of `spdk_nvmf_ctrlr_process_fabrics_cmd`, `spdk_nvmf_ctrlr_process_admin_cmd`,
`spdk_nvmf_ctrlr_process_io_cmd`, or a call of `spdk_nvmf_transport_req_complete`. -/
inductive nvmf_effect where
  | send_msg (thread : Nat) (fn : nvmf_msg_fn)
  | process_fabrics_cmd
  | process_admin_cmd
  | process_io_cmd
  | transport_req_complete
  deriving DecidableEq, Repr

/-- What `request.c` reads and writes of a `struct spdk_nvmf_request` and of the objects
it points to.  `ctrlr` is `none` for `qpair->ctrlr == NULL`, else the bit
`vcprop.cc.bits.en`; `master_thread` is `qpair->transport->tgt->master_thread`;
`group_thread` is the thread of the I/O channel of `qpair->group`. -/
structure spdk_nvmf_request where
  opc : Nat
  cid : Nat
  qpair_type : spdk_nvmf_qpair_type
  ctrlr : Option Bool
  master_thread : Nat
  group_thread : Nat
  rsp_sqid : Nat
  rsp_cid : Nat
  rsp_status_p : Nat
  rsp_status_sc : Nat
  deriving DecidableEq, Repr

/-- What `request.c` takes from the rest of the NVMe-oF library: two constants of the
NVMe headers and the three command processors, each giving its status and the request
as it leaves it. -/
structure Nvmf where
  SPDK_NVME_OPC_FABRIC : Nat
  SPDK_NVME_SC_COMMAND_SEQUENCE_ERROR : Nat
  spdk_nvmf_ctrlr_process_fabrics_cmd :
    spdk_nvmf_request → spdk_nvmf_request_exec_status × spdk_nvmf_request
  spdk_nvmf_ctrlr_process_admin_cmd :
    spdk_nvmf_request → spdk_nvmf_request_exec_status × spdk_nvmf_request
  spdk_nvmf_ctrlr_process_io_cmd :
    spdk_nvmf_request → spdk_nvmf_request_exec_status × spdk_nvmf_request

open spdk_nvmf_qpair_type spdk_nvmf_request_exec_status

/-- The function `spdk_nvmf_request_complete_on_qpair`: the request afterwards and what
was done, in order. -/
def spdk_nvmf_request_complete_on_qpair (req : spdk_nvmf_request) :
    spdk_nvmf_request × List nvmf_effect :=
  ({ req with rsp_sqid := 0, rsp_status_p := 0, rsp_cid := req.cid },
    [nvmf_effect.transport_req_complete])

/-- The condition `cmd->opc == SPDK_NVME_OPC_FABRIC || qpair->type == QPAIR_TYPE_AQ`. -/
def fabric_or_admin (env : Nvmf) (req : spdk_nvmf_request) : Bool :=
  req.opc == env.SPDK_NVME_OPC_FABRIC || req.qpair_type == QPAIR_TYPE_AQ

/-- The function `spdk_nvmf_request_complete`: the value returned, the request afterwards
and what was done on the calling thread, in order. -/
def spdk_nvmf_request_complete (env : Nvmf) (req : spdk_nvmf_request) :
    Int × spdk_nvmf_request × List nvmf_effect :=
  if fabric_or_admin env req then
    (0, req, [nvmf_effect.send_msg req.group_thread
      nvmf_msg_fn.spdk_nvmf_request_complete_on_qpair])
  else
    (0, spdk_nvmf_request_complete_on_qpair req)

/-- The function `spdk_nvmf_request_exec_on_master`. -/
def spdk_nvmf_request_exec_on_master (env : Nvmf) (req : spdk_nvmf_request) :
    spdk_nvmf_request × List nvmf_effect :=
  let r :=
    if req.opc = env.SPDK_NVME_OPC_FABRIC then
      (env.spdk_nvmf_ctrlr_process_fabrics_cmd req, [nvmf_effect.process_fabrics_cmd])
    else if req.ctrlr = none ∨ req.ctrlr = some false then
      ((SPDK_NVMF_REQUEST_EXEC_STATUS_COMPLETE,
        { req with rsp_status_sc := env.SPDK_NVME_SC_COMMAND_SEQUENCE_ERROR }), [])
    else
      (env.spdk_nvmf_ctrlr_process_admin_cmd req, [nvmf_effect.process_admin_cmd])
  if r.1.1 = SPDK_NVMF_REQUEST_EXEC_STATUS_COMPLETE then
    ((spdk_nvmf_request_complete env r.1.2).2.1,
      r.2 ++ (spdk_nvmf_request_complete env r.1.2).2.2)
  else (r.1.2, r.2)

/-- The function `spdk_nvmf_request_exec`: the request afterwards and what was done on
the calling thread, in order (`nvmf_trace_command` only logs). -/
def spdk_nvmf_request_exec (env : Nvmf) (req : spdk_nvmf_request) :
    spdk_nvmf_request × List nvmf_effect :=
  if fabric_or_admin env req then
    (req, [nvmf_effect.send_msg req.master_thread
      nvmf_msg_fn.spdk_nvmf_request_exec_on_master])
  else if req.ctrlr = none then
    spdk_nvmf_request_complete_on_qpair
      { req with rsp_status_sc := env.SPDK_NVME_SC_COMMAND_SEQUENCE_ERROR }
  else
    let r := env.spdk_nvmf_ctrlr_process_io_cmd req
    if r.1 = SPDK_NVMF_REQUEST_EXEC_STATUS_COMPLETE then
      ((spdk_nvmf_request_complete_on_qpair r.2).1,
        nvmf_effect.process_io_cmd :: (spdk_nvmf_request_complete_on_qpair r.2).2)
    else (r.2, [nvmf_effect.process_io_cmd])

/-- A message is posted to another thread. -/
def nvmf_effect.is_send : nvmf_effect → Bool
  | nvmf_effect.send_msg _ _ => true
  | _ => false

/-- A command is processed or a request is completed on the calling thread. -/
def nvmf_effect.is_local_work : nvmf_effect → Bool
  | nvmf_effect.send_msg _ _ => false
  | _ => true

/-! ## More concrete configurations -/

/-- A host like `small_hal` with a 1 kHz timer. -/
def slow_timer_hal : Hal := { small_hal with rte_get_timer_hz := 1000 }

/-- A host like `small_hal` with a timer of `2^32` Hz. -/
def fast_timer_hal : Hal := { small_hal with rte_get_timer_hz := 2 ^ 32 }

/-- A host like `small_hal` on which lcore `i` is on socket `i`. -/
def numa_hal : Hal := { small_hal with rte_lcore_to_socket_id := fun i => i }

/-- Four constructed reactors with empty rings and schedules, and an event pool with 100
free events of 65536 on each of the sockets 0 to 3. -/
def ready : State :=
  { g_reactors := fun c =>
      { lcore := c, active_pollers := [], timer_pollers := [],
        events := if c < 4 then some { items := [], cons := 0 } else none }
    g_reactor_mask := 15
    g_reactor_count := 4
    g_reactor_state := SPDK_REACTOR_STATE_RUNNING
    g_spdk_event_mempool := fun i => if i < 4 then some { size := 65536, avail := 100 } else none
    pollers := fun a =>
      { fn := a, arg := 0, period_ticks := 0, lcore := 0, next_run_tick := 0 }
    timer_cycles := 1000 }

/-- The state `ready` with one event waiting for lcore 1, for the user's function 0. -/
def stop_on_lcore_1 : State :=
  ready.set_reactor 1
    { lcore := 1, active_pollers := [], timer_pollers := [],
      events := some { items := [{ user_event 0 with lcore := 1 }], cons := 0 } }

/-- A schedule for `spdk_reactors_start` on `small_hal`: the calling thread launches the
lcores 1, 2 and 3 and enters the loop of the master reactor; then passes of the loops on
the lcores 0, 2, 1, 0, 2 and 3. -/
def stop_schedule : List (Option Nat) :=
  [none, none, none, none, none, some 2, some 1, none, some 2, some 3]

/-- Callbacks of events that enqueue the way the interface offers it: called for the
user's function `k` on lcore `cur`, the callback takes an event for `cur` and the user's
function `k + 1` from `spdk_event_allocate` and passes it to `spdk_event_call`. -/
def requeue_callbacks (hal : Hal) : Callbacks :=
  { event_fn := fun k cur _ s =>
      match spdk_event_allocate hal cur (spdk_event_fn.user (k + 1)) 0 0 none s with
      | none => none
      | some (e1, s1) => spdk_event_call hal e1 s1
    poller_fn := fun _ _ _ s => some s }

/-- The ring of `lcore` holds only events of the user, is not beyond its capacity, and
the pool of the socket of `lcore` has a free event: a state in which a drain pass with
`requeue_callbacks` goes on. -/
def requeue_ready (hal : Hal) (lcore : Nat) (s : State) : Prop :=
  ∃ ring pool, (s.g_reactors lcore).events = some ring ∧
    ring.cons ≤ ring.items.length ∧
    rte_ring_count ring ≤ hal.ring_capacity ∧
    (∀ e ∈ ring.content, ∃ k, e.fn = spdk_event_fn.user k) ∧
    hal.rte_lcore_to_socket_id lcore % 256 < 64 ∧
    s.g_spdk_event_mempool (hal.rte_lcore_to_socket_id lcore % 256) = some pool ∧
    0 < pool.avail

/-- An NVMe-oF library whose command processors complete at once and leave the request
alone, with the Fabrics opcode `0x7f`. -/
def simple_nvmf : Nvmf :=
  { SPDK_NVME_OPC_FABRIC := 0x7f
    SPDK_NVME_SC_COMMAND_SEQUENCE_ERROR := 0x0c
    spdk_nvmf_ctrlr_process_fabrics_cmd := fun r =>
      (spdk_nvmf_request_exec_status.SPDK_NVMF_REQUEST_EXEC_STATUS_COMPLETE, r)
    spdk_nvmf_ctrlr_process_admin_cmd := fun r =>
      (spdk_nvmf_request_exec_status.SPDK_NVMF_REQUEST_EXEC_STATUS_COMPLETE, r)
    spdk_nvmf_ctrlr_process_io_cmd := fun r =>
      (spdk_nvmf_request_exec_status.SPDK_NVMF_REQUEST_EXEC_STATUS_COMPLETE, r) }

/-- A read command (opcode 2, command id 9) on an I/O queue pair with an enabled
controller; the master thread is 1, the thread of the poll group is 5. -/
def io_request : spdk_nvmf_request :=
  { opc := 2, cid := 9, qpair_type := spdk_nvmf_qpair_type.QPAIR_TYPE_IOQ,
    ctrlr := some true, master_thread := 1, group_thread := 5,
    rsp_sqid := 3, rsp_cid := 0, rsp_status_p := 1, rsp_status_sc := 0 }

/-- The state `ready` in which reactor 0 runs the always-run pollers 5, 7 and 6 and the
timer pollers 8 (due at tick 1100) and 9 (due at tick 1200). -/
def busy : State :=
  { ready with
    g_reactors := fun c =>
      { lcore := c,
        active_pollers := if c = 0 then [5, 7, 6] else [],
        timer_pollers := if c = 0 then [8, 9] else [],
        events := if c < 4 then some { items := [], cons := 0 } else none }
    pollers := fun a =>
      { fn := a, arg := 0, period_ticks := if a = 8 ∨ a = 9 then 100 else 0, lcore := 0,
        next_run_tick := if a = 8 then 1100 else if a = 9 then 1200 else 0 } }

/-- The globals at program start with a poller record at every address. -/
def boot : State :=
  State.init (fun a => ⟨a, 0, 0, 0, 0⟩) 1000

/-- Poller 7 is registered on lcore 0 and, without being unregistered, on lcore 1; then
the reactors of the lcores 0 and 1 make one pass each. -/
def register_twice : List poller_call :=
  [poller_call.register 7 0 none 0, poller_call.register 7 1 none 0,
    poller_call.iteration 0, poller_call.iteration 1]

/-- Poller 7 is registered on lcore 0, migrated to lcore 1 and unregistered, each call
followed by the passes that call its events. -/
def register_migrate_unregister : List poller_call :=
  [poller_call.register 7 0 none 0, poller_call.iteration 0,
    poller_call.migrate 7 1 none, poller_call.iteration 0, poller_call.iteration 1,
    poller_call.iteration 1, poller_call.unregister 7 none, poller_call.iteration 1]

/-- The always-run pollers 5 and 7 are registered on lcore 0, one call after the other. -/
def two_registrations : List poller_call :=
  [poller_call.register 5 0 none 0, poller_call.register 7 0 none 0]

/-- The state `busy` with an event of the user waiting for lcore 0 and the add-poller
event of poller 4 waiting for lcore 1. -/
def busy_waiting : State :=
  { busy with
    g_reactors := fun c =>
      { lcore := c,
        active_pollers := if c = 0 then [5, 7, 6] else [],
        timer_pollers := if c = 0 then [8, 9] else [],
        events :=
          if c = 0 then some { items := [user_event 3], cons := 0 }
          else if c = 1 then some { items := [add_poller_event 4 1 none], cons := 0 }
          else if c < 4 then some { items := [], cons := 0 } else none } }

/-- Poller 5 is registered on lcore 0 and unregistered at once: `p.lcore` is 0 from the
start, so both events wait in the queue of lcore 0. -/
def register_unregister : List poller_call :=
  [poller_call.register 5 0 none 0, poller_call.unregister 5 none]

/-- The state `ready` in which reactor 0 runs the always-run poller 5 and nothing else. -/
def solo : State :=
  ready.set_reactor 0
    { lcore := 0, active_pollers := [5], timer_pollers := [],
      events := some { items := [], cons := 0 } }

/-- Poller 5 is unregistered and registered again on lcore 0. -/
def reregistration : List poller_call :=
  [poller_call.unregister 5 none, poller_call.register 5 0 none 0]

/-- The state `busy` with the remove-poller events of the pollers 6 and 7 and the
add-poller event of poller 4 waiting for lcore 0, after an event of the user's function
3. -/
def busy_with_removals : State :=
  busy.set_reactor 0
    { lcore := 0, active_pollers := [5, 7, 6], timer_pollers := [8, 9],
      events := some
        { items := [user_event 3, remove_poller_event 6 0 none, remove_poller_event 7 0 none,
            add_poller_event 4 0 none],
          cons := 0 } }

/-- The state `busy` without always-run pollers on reactor 0, with the add-poller event of
the timer poller 8 (unlinked before), the add-poller events of the always-run pollers 7
and 5 and the remove-poller event of poller 5 waiting for lcore 0, after an event of the
user's function 3. -/
def ready_with_additions : State :=
  busy.set_reactor 0
    { lcore := 0, active_pollers := [], timer_pollers := [9],
      events := some
        { items := [user_event 3, add_poller_event 8 0 none, add_poller_event 7 0 none,
            add_poller_event 5 0 none, remove_poller_event 5 0 none],
          cons := 0 } }

end Spdk

/-! # Theorems -/

namespace Spdk

open spdk_reactor_state

set_option maxRecDepth 100000

/-! ## Removal from a tail queue -/

theorem TAILQ_REMOVE_head (p : Nat) (tl : List Nat) : TAILQ_REMOVE (p :: tl) p = some tl := by
  simp [TAILQ_REMOVE]

theorem TAILQ_REMOVE_mem (l : List Nat) (p : Nat) (h : p ∈ l) :
    TAILQ_REMOVE l p = some (l.erase p) := by
  simp [TAILQ_REMOVE, h]

theorem TAILQ_REMOVE_not_mem (l : List Nat) (p : Nat) (h : p ∉ l) :
    TAILQ_REMOVE l p = none := by
  simp [TAILQ_REMOVE, h]

theorem TAILQ_REMOVE_some (l l1 : List Nat) (p : Nat) (h : TAILQ_REMOVE l p = some l1) :
    p ∈ l ∧ l1 = l.erase p := by
  unfold TAILQ_REMOVE at h
  split_ifs at h with hm
  simp only [Option.some.injEq] at h
  exact ⟨hm, h.symm⟩

/-- For a linked poller `_spdk_event_remove_poller` unlinks it and goes on to
`if (next)`. -/
theorem remove_poller_eq (hal : Hal) (event : spdk_event) (s : State)
    (h : remove_linked event s) :
    _spdk_event_remove_poller hal event s =
      call_next hal event.next (remove_poller_unlinked event s) := by
  unfold remove_linked at h
  unfold _spdk_event_remove_poller remove_poller_unlinked
  by_cases hper : (s.pollers event.arg2).period_ticks ≠ 0
  · rw [if_pos hper] at h
    simp only [if_pos hper, TAILQ_REMOVE_mem _ _ h]
  · rw [if_neg hper] at h
    simp only [if_neg hper, TAILQ_REMOVE_mem _ _ h]

/-- For a poller that is not linked `_spdk_event_remove_poller` does not return. -/
theorem remove_poller_not_linked (hal : Hal) (event : spdk_event) (s : State)
    (h : ¬ remove_linked event s) : _spdk_event_remove_poller hal event s = none := by
  unfold remove_linked at h
  unfold _spdk_event_remove_poller
  by_cases hper : (s.pollers event.arg2).period_ticks ≠ 0
  · rw [if_pos hper] at h
    simp only [if_pos hper, TAILQ_REMOVE_not_mem _ _ h]
  · rw [if_neg hper] at h
    simp only [if_neg hper, TAILQ_REMOVE_not_mem _ _ h]

/-- When `_spdk_event_remove_poller` returns, the poller was linked. -/
theorem remove_poller_some (hal : Hal) (event : spdk_event) (s s1 : State)
    (h : _spdk_event_remove_poller hal event s = some s1) :
    remove_linked event s ∧
      call_next hal event.next (remove_poller_unlinked event s) = some s1 := by
  by_cases hl : remove_linked event s
  · exact ⟨hl, by rw [← remove_poller_eq hal event s hl]; exact h⟩
  · rw [remove_poller_not_linked hal event s hl] at h
    simp at h

/-! ## The timer schedule stays sorted -/

theorem mem_insert_timer_scan (P : Nat → spdk_poller) (t p x : Nat) (l : List Nat) :
    x ∈ insert_timer_scan P t p l ↔ x = p ∨ x ∈ l := by
  induction l with
  | nil => simp [insert_timer_scan]
  | cons iter rest ih =>
    unfold insert_timer_scan
    split_ifs with h
    · simp
    · simp only [List.mem_cons, ih]
      tauto

theorem insert_timer_scan_desc (P : Nat → spdk_poller) (t p : Nat)
    (hp : (P p).next_run_tick = t) (l : List Nat)
    (h : l.Pairwise (fun a b => (P b).next_run_tick ≤ (P a).next_run_tick)) :
    (insert_timer_scan P t p l).Pairwise
      (fun a b => (P b).next_run_tick ≤ (P a).next_run_tick) := by
  induction l with
  | nil => simp [insert_timer_scan]
  | cons iter rest ih =>
    unfold insert_timer_scan
    rw [List.pairwise_cons] at h
    split_ifs with hle
    · refine List.pairwise_cons.2 ⟨?_, List.pairwise_cons.2 h⟩
      intro x hx
      rw [hp]
      rcases List.mem_cons.1 hx with rfl | hx
      · exact hle
      · exact le_trans (h.1 x hx) hle
    · refine List.pairwise_cons.2 ⟨?_, ih h.2⟩
      intro x hx
      rcases (mem_insert_timer_scan P t p x rest).1 hx with rfl | hx
      · rw [hp]; omega
      · exact h.1 x hx

theorem timer_sorted_head_min (s : State) (reactor : Nat) (h : timer_sorted s reactor) :
    timer_head_min s reactor := by
  intro hd hhd q hq
  unfold timer_sorted at h
  unfold TAILQ_FIRST at hhd
  cases hl : (s.g_reactors reactor).timer_pollers with
  | nil => rw [hl] at hq; simp at hq
  | cons a tl =>
    rw [hl] at h hq hhd
    simp at hhd
    subst hhd
    rcases List.mem_cons.1 hq with rfl | hq
    · exact le_refl _
    · exact (List.pairwise_cons.1 h).1 q hq

theorem insert_timer_pollers (reactor poller now : Nat) (s : State) :
    ((spdk_poller_insert_timer reactor poller now s).g_reactors reactor).timer_pollers =
      (insert_timer_scan (spdk_poller_insert_timer reactor poller now s).pollers
        ((now + (s.pollers poller).period_ticks) % U64) poller
        (s.g_reactors reactor).timer_pollers.reverse).reverse := by
  simp [spdk_poller_insert_timer, State.set_reactor, State.set_poller]

theorem insert_timer_tick (reactor poller now : Nat) (s : State) :
    ((spdk_poller_insert_timer reactor poller now s).pollers poller).next_run_tick =
      (now + (s.pollers poller).period_ticks) % U64 := by
  simp [spdk_poller_insert_timer, State.set_reactor, State.set_poller]

theorem insert_timer_other (reactor poller now : Nat) (s : State) (q : Nat) (hq : q ≠ poller) :
    (spdk_poller_insert_timer reactor poller now s).pollers q = s.pollers q := by
  simp [spdk_poller_insert_timer, State.set_reactor, State.set_poller, hq]

theorem insert_timer_sorted (reactor poller now : Nat) (s : State)
    (hs : timer_sorted s reactor) (hp : poller ∉ (s.g_reactors reactor).timer_pollers) :
    timer_sorted (spdk_poller_insert_timer reactor poller now s) reactor := by
  unfold timer_sorted
  rw [insert_timer_pollers, List.pairwise_reverse]
  apply insert_timer_scan_desc _ _ _ (insert_timer_tick reactor poller now s)
  rw [List.pairwise_reverse]
  unfold timer_sorted at hs
  refine List.Pairwise.imp_of_mem ?_ hs
  intro a b ha hb hab
  have ha' : a ≠ poller := fun h => hp (h ▸ ha)
  have hb' : b ≠ poller := fun h => hp (h ▸ hb)
  rw [insert_timer_other _ _ _ _ _ ha', insert_timer_other _ _ _ _ _ hb']
  exact hab

theorem spdk_event_call_frame (hal : Hal) (e : spdk_event) (s s' : State)
    (h : spdk_event_call hal e s = some s') :
    s'.pollers = s.pollers ∧
    (∀ r, (s'.g_reactors r).timer_pollers = (s.g_reactors r).timer_pollers ∧
      (s'.g_reactors r).active_pollers = (s.g_reactors r).active_pollers ∧
      (s'.g_reactors r).lcore = (s.g_reactors r).lcore) ∧
    s'.g_reactor_state = s.g_reactor_state ∧ s'.g_reactor_mask = s.g_reactor_mask ∧
    s'.g_reactor_count = s.g_reactor_count ∧
    s'.g_spdk_event_mempool = s.g_spdk_event_mempool ∧ s'.timer_cycles = s.timer_cycles := by
  unfold spdk_event_call at h
  simp only [spdk_reactor_get] at h
  split at h
  · simp at h
  · split at h
    · simp at h
    · simp only [Option.some.injEq] at h
      subst h
      refine ⟨rfl, ?_, rfl, rfl, rfl, rfl, rfl⟩
      intro r
      by_cases hr : r = e.lcore
      · subst hr; simp [State.set_reactor]
      · simp [State.set_reactor, Function.update_noteq hr]

theorem call_next_frame (hal : Hal) (next : Option spdk_event) (s s' : State)
    (h : call_next hal next s = some s') :
    s'.pollers = s.pollers ∧
    (∀ r, (s'.g_reactors r).timer_pollers = (s.g_reactors r).timer_pollers ∧
      (s'.g_reactors r).active_pollers = (s.g_reactors r).active_pollers ∧
      (s'.g_reactors r).lcore = (s.g_reactors r).lcore) ∧
    s'.g_reactor_state = s.g_reactor_state ∧ s'.g_reactor_mask = s.g_reactor_mask ∧
    s'.g_reactor_count = s.g_reactor_count ∧
    s'.g_spdk_event_mempool = s.g_spdk_event_mempool ∧ s'.timer_cycles = s.timer_cycles := by
  cases next with
  | none =>
    simp only [call_next, Option.some.injEq] at h
    subst h
    exact ⟨rfl, fun _ => ⟨rfl, rfl, rfl⟩, rfl, rfl, rfl, rfl, rfl⟩
  | some e => exact spdk_event_call_frame hal e s s' h

theorem timer_sorted_congr (s s' : State) (reactor : Nat)
    (hl : (s'.g_reactors reactor).timer_pollers = (s.g_reactors reactor).timer_pollers)
    (hp : ∀ q ∈ (s.g_reactors reactor).timer_pollers,
      (s'.pollers q).next_run_tick = (s.pollers q).next_run_tick)
    (h : timer_sorted s reactor) : timer_sorted s' reactor := by
  unfold timer_sorted at h ⊢
  rw [hl]
  refine List.Pairwise.imp_of_mem ?_ h
  intro a b ha hb hab
  rw [hp a ha, hp b hb]
  exact hab

theorem timer_sorted_sublist (s s' : State) (reactor : Nat)
    (hl : List.Sublist (s'.g_reactors reactor).timer_pollers
      (s.g_reactors reactor).timer_pollers)
    (hp : s'.pollers = s.pollers)
    (h : timer_sorted s reactor) : timer_sorted s' reactor := by
  unfold timer_sorted at h ⊢
  rw [hp]
  exact List.Pairwise.sublist hl h

theorem timer_poller_step_nil (cb : Callbacks) (cur reactor : Nat) (s : State)
    (hl : (s.g_reactors reactor).timer_pollers = []) :
    timer_poller_step cb cur reactor s = some (s, []) := by
  simp [timer_poller_step, TAILQ_FIRST, hl]

theorem timer_poller_step_not_due (cb : Callbacks) (cur reactor : Nat) (s : State)
    (p : Nat) (tl : List Nat) (hl : (s.g_reactors reactor).timer_pollers = p :: tl)
    (hdue : ¬ s.timer_cycles ≥ (s.pollers p).next_run_tick) :
    timer_poller_step cb cur reactor s = some (s, []) := by
  simp only [timer_poller_step, TAILQ_FIRST, hl, List.head?_cons]
  rw [if_neg hdue]

theorem timer_poller_step_due (cb : Callbacks) (cur reactor : Nat) (s : State)
    (p : Nat) (tl : List Nat) (hl : (s.g_reactors reactor).timer_pollers = p :: tl)
    (hdue : s.timer_cycles ≥ (s.pollers p).next_run_tick) :
    timer_poller_step cb cur reactor s =
      match cb.poller_fn (s.pollers p).fn (s.pollers p).arg cur
          (s.set_reactor reactor { s.g_reactors reactor with timer_pollers := tl }) with
      | none => none
      | some s2 =>
        some (spdk_poller_insert_timer reactor p s.timer_cycles s2, [Invocation.timer cur p]) := by
  simp only [timer_poller_step, TAILQ_FIRST, hl, List.head?_cons]
  rw [if_pos hdue]
  simp only [TAILQ_REMOVE_head, State.set_reactor]
  try rfl

theorem timer_poller_step_sorted (cb : Callbacks) (cur reactor : Nat) (s : State)
    (hs : timer_sorted s reactor) (hnd : (s.g_reactors reactor).timer_pollers.Nodup)
    (hcb : poller_fn_keeps_timers cb cur reactor) :
    ∃ s' t, timer_poller_step cb cur reactor s = some (s', t) ∧ timer_sorted s' reactor := by
  cases hl : (s.g_reactors reactor).timer_pollers with
  | nil => exact ⟨s, [], timer_poller_step_nil cb cur reactor s hl, hs⟩
  | cons p tl =>
    by_cases hdue : s.timer_cycles ≥ (s.pollers p).next_run_tick
    · rw [timer_poller_step_due cb cur reactor s p tl hl hdue]
      obtain ⟨s2, h2, hl2, ht2⟩ := hcb (s.pollers p).fn (s.pollers p).arg
        (s.set_reactor reactor { s.g_reactors reactor with timer_pollers := tl })
      rw [h2]
      refine ⟨_, _, rfl, ?_⟩
      have hrem : ((s.set_reactor reactor { s.g_reactors reactor with
            timer_pollers := tl }).g_reactors reactor).timer_pollers = tl := by
        simp [State.set_reactor]
      rw [hrem] at hl2 ht2
      rw [hl] at hnd
      have hptl : p ∉ tl := (List.nodup_cons.1 hnd).1
      apply insert_timer_sorted
      · unfold timer_sorted at hs ⊢
        rw [hl2]
        rw [hl] at hs
        refine List.Pairwise.imp_of_mem ?_ (List.pairwise_cons.1 hs).2
        intro a b ha hb hab
        rw [ht2 a ha, ht2 b hb]
        exact hab
      · rw [hl2]; exact hptl
    · exact ⟨s, [], timer_poller_step_not_due cb cur reactor s p tl hl hdue, hs⟩

theorem remove_poller_sorted (hal : Hal) (event : spdk_event) (s s' : State) (reactor : Nat)
    (hs : timer_sorted s reactor) (h : _spdk_event_remove_poller hal event s = some s') :
    timer_sorted s' reactor := by
  obtain ⟨-, h⟩ := remove_poller_some hal event s s' h
  unfold remove_poller_unlinked at h
  obtain ⟨hp, hr, -⟩ := call_next_frame hal _ _ _ h
  refine timer_sorted_congr _ s' reactor (hr reactor).1 (fun q _ => by rw [hp]) ?_
  split_ifs with hper
  · refine timer_sorted_sublist s _ reactor ?_ rfl hs
    by_cases hre : reactor = event.arg1
    · subst hre
      simp only [State.set_reactor, Function.update_same]
      exact List.erase_sublist _ _
    · simp [State.set_reactor, Function.update_noteq hre]
  · refine timer_sorted_sublist s _ reactor ?_ rfl hs
    by_cases hre : reactor = event.arg1
    · subst hre
      simp [State.set_reactor]
    · simp [State.set_reactor, Function.update_noteq hre]

theorem remove_poller_returns (hal : Hal) (event : spdk_event) (s : State)
    (hl : remove_linked event s) (h : event.next = none) :
    (_spdk_event_remove_poller hal event s).isSome = true := by
  rw [remove_poller_eq hal event s hl, h]
  simp [call_next]

/-! ## The always-run schedule rotates -/

theorem active_calls_append (t1 t2 : List Invocation) :
    active_calls (t1 ++ t2) = active_calls t1 ++ active_calls t2 := by
  induction t1 with
  | nil => rfl
  | cons a t ih =>
    cases a <;> simp [active_calls, ih]

theorem set_reactor_events (s : State) (i : Nat) (r : spdk_reactor)
    (h : r.events = (s.g_reactors i).events) (j : Nat) :
    ((s.set_reactor i r).g_reactors j).events = (s.g_reactors j).events := by
  by_cases hj : j = i
  · subst hj; simp [State.set_reactor, h]
  · simp [State.set_reactor, Function.update_noteq hj]

theorem set_reactor_active (s : State) (i : Nat) (r : spdk_reactor)
    (h : r.active_pollers = (s.g_reactors i).active_pollers) (j : Nat) :
    ((s.set_reactor i r).g_reactors j).active_pollers = (s.g_reactors j).active_pollers := by
  by_cases hj : j = i
  · subst hj; simp [State.set_reactor, h]
  · simp [State.set_reactor, Function.update_noteq hj]

theorem set_reactor_timer (s : State) (i : Nat) (r : spdk_reactor)
    (h : r.timer_pollers = (s.g_reactors i).timer_pollers) (j : Nat) :
    ((s.set_reactor i r).g_reactors j).timer_pollers = (s.g_reactors j).timer_pollers := by
  by_cases hj : j = i
  · subst hj; simp [State.set_reactor, h]
  · simp [State.set_reactor, Function.update_noteq hj]

theorem queue_count_congr (s s' : State) (lcore : Nat)
    (h : (s.g_reactors lcore).events = (s'.g_reactors lcore).events) :
    spdk_event_queue_count s lcore = spdk_event_queue_count s' lcore := by
  simp [spdk_event_queue_count, spdk_reactor_get, h]

theorem insert_timer_events (reactor poller now : Nat) (s : State) (j : Nat) :
    ((spdk_poller_insert_timer reactor poller now s).g_reactors j).events =
      (s.g_reactors j).events := by
  unfold spdk_poller_insert_timer
  exact set_reactor_events _ _ _ (by rfl) j

theorem insert_timer_active (reactor poller now : Nat) (s : State) (j : Nat) :
    ((spdk_poller_insert_timer reactor poller now s).g_reactors j).active_pollers =
      (s.g_reactors j).active_pollers := by
  unfold spdk_poller_insert_timer
  exact set_reactor_active _ _ _ (by rfl) j

theorem run_all_empty (cb : Callbacks) (hal : Hal) (cur lcore : Nat) (s : State)
    (h : spdk_event_queue_count s lcore = 0) :
    spdk_event_queue_run_all cb hal cur lcore s = some (s, []) := by
  simp [spdk_event_queue_run_all, h, spdk_event_queue_run]

theorem active_poller_step_cons (cb : Callbacks) (cur reactor : Nat) (s : State)
    (p : Nat) (tl : List Nat) (hl : (s.g_reactors reactor).active_pollers = p :: tl) :
    active_poller_step cb cur reactor s =
      match cb.poller_fn (s.pollers p).fn (s.pollers p).arg cur
          (s.set_reactor reactor { s.g_reactors reactor with active_pollers := tl }) with
      | none => none
      | some s2 =>
        some (s2.set_reactor reactor
            { s2.g_reactors reactor with
              active_pollers := (s2.g_reactors reactor).active_pollers ++ [p] },
          [Invocation.active cur p]) := by
  simp only [active_poller_step, TAILQ_FIRST, hl, List.head?_cons]
  simp only [TAILQ_REMOVE_head, State.set_reactor, TAILQ_INSERT_TAIL]
  try rfl

theorem active_poller_step_nil (cb : Callbacks) (cur reactor : Nat) (s : State)
    (hl : (s.g_reactors reactor).active_pollers = []) :
    active_poller_step cb cur reactor s = some (s, []) := by
  simp [active_poller_step, TAILQ_FIRST, hl]

theorem timer_poller_step_keeps_active (cb : Callbacks) (cur reactor : Nat) (s : State)
    (hcb : poller_fn_keeps_active cb cur reactor) :
    ∃ s1 t, timer_poller_step cb cur reactor s = some (s1, t) ∧ active_calls t = [] ∧
      (s1.g_reactors reactor).active_pollers = (s.g_reactors reactor).active_pollers ∧
      spdk_event_queue_count s1 cur = spdk_event_queue_count s cur := by
  cases hl : (s.g_reactors reactor).timer_pollers with
  | nil => exact ⟨s, [], timer_poller_step_nil cb cur reactor s hl, rfl, rfl, rfl⟩
  | cons p tl =>
    by_cases hdue : s.timer_cycles ≥ (s.pollers p).next_run_tick
    · rw [timer_poller_step_due cb cur reactor s p tl hl hdue]
      obtain ⟨s2, h2, ha2, hq2⟩ := hcb (s.pollers p).fn (s.pollers p).arg
        (s.set_reactor reactor { s.g_reactors reactor with timer_pollers := tl })
      rw [h2]
      refine ⟨_, _, rfl, rfl, ?_, ?_⟩
      · rw [insert_timer_active, ha2]
        exact set_reactor_active _ _ _ (by rfl) reactor
      · rw [queue_count_congr _ s2 cur (insert_timer_events _ _ _ _ cur), hq2]
        exact queue_count_congr _ _ cur (set_reactor_events _ _ _ (by rfl) cur)
    · exact ⟨s, [], timer_poller_step_not_due cb cur reactor s p tl hl hdue, rfl, rfl, rfl⟩

theorem reactor_iteration_rotates (cb : Callbacks) (hal : Hal) (cur reactor : Nat) (s : State)
    (p : Nat) (tl : List Nat) (hl : (s.g_reactors reactor).active_pollers = p :: tl)
    (hq : spdk_event_queue_count s cur = 0) (hcb : poller_fn_keeps_active cb cur reactor) :
    ∃ s1 t, reactor_iteration cb hal cur reactor s = some (s1, t) ∧ active_calls t = [p] ∧
      (s1.g_reactors reactor).active_pollers = tl ++ [p] ∧
      spdk_event_queue_count s1 cur = 0 := by
  unfold reactor_iteration
  rw [run_all_empty cb hal cur cur s hq]
  simp only
  rw [active_poller_step_cons cb cur reactor s p tl hl]
  obtain ⟨s2, h2, ha2, hq2⟩ := hcb (s.pollers p).fn (s.pollers p).arg
    (s.set_reactor reactor { s.g_reactors reactor with active_pollers := tl })
  rw [h2]
  simp only
  obtain ⟨s3, t3, h3, hc3, ha3, hq3⟩ := timer_poller_step_keeps_active cb cur reactor
    (s2.set_reactor reactor
      { s2.g_reactors reactor with
        active_pollers := (s2.g_reactors reactor).active_pollers ++ [p] }) hcb
  rw [h3]
  refine ⟨_, _, rfl, ?_, ?_, ?_⟩
  · simp [active_calls_append, active_calls, hc3]
  · rw [ha3, ha2]
    simp [State.set_reactor]
  · rw [hq3, queue_count_congr _ s2 cur (set_reactor_events _ _ _ (by rfl) cur), hq2,
      queue_count_congr _ s cur (set_reactor_events _ _ _ (by rfl) cur), hq]

theorem reactor_iterations_rotate (cb : Callbacks) (hal : Hal) (cur reactor : Nat)
    (hcb : poller_fn_keeps_active cb cur reactor) (pre : List Nat) :
    ∀ (suf : List Nat) (s : State),
      (s.g_reactors reactor).active_pollers = pre ++ suf →
      spdk_event_queue_count s cur = 0 →
      ∃ s1 t, reactor_iterations cb hal cur reactor pre.length s = some (s1, t) ∧
        active_calls t = pre ∧
        (s1.g_reactors reactor).active_pollers = suf ++ pre ∧
        spdk_event_queue_count s1 cur = 0 := by
  induction pre with
  | nil =>
    intro suf s hl hq
    exact ⟨s, [], rfl, rfl, by simpa using hl, hq⟩
  | cons p pre ih =>
    intro suf s hl hq
    obtain ⟨s1, t1, h1, hc1, ha1, hq1⟩ :=
      reactor_iteration_rotates cb hal cur reactor s p (pre ++ suf) hl hq hcb
    obtain ⟨s2, t2, h2, hc2, ha2, hq2⟩ := ih (suf ++ [p]) s1 (by simpa using ha1) hq1
    refine ⟨s2, t1 ++ t2, ?_, ?_, ?_, hq2⟩
    · simp only [List.length_cons, reactor_iterations, h1, h2]
    · simp [active_calls_append, hc1, hc2]
    · simpa using ha2

theorem reactor_iterations_add (cb : Callbacks) (hal : Hal) (cur reactor : Nat) (a b : Nat) :
    ∀ (s s1 s2 : State) (t1 t2 : List Invocation),
      reactor_iterations cb hal cur reactor a s = some (s1, t1) →
      reactor_iterations cb hal cur reactor b s1 = some (s2, t2) →
      reactor_iterations cb hal cur reactor (a + b) s = some (s2, t1 ++ t2) := by
  induction a with
  | zero =>
    intro s s1 s2 t1 t2 h1 h2
    simp only [reactor_iterations, Option.some.injEq, Prod.mk.injEq] at h1
    obtain ⟨rfl, rfl⟩ := h1
    simpa using h2
  | succ a ih =>
    intro s s1 s2 t1 t2 h1 h2
    rw [Nat.add_right_comm]
    simp only [reactor_iterations] at h1 ⊢
    cases hi : reactor_iteration cb hal cur reactor s with
    | none => rw [hi] at h1; simp at h1
    | some r =>
      obtain ⟨sa, ta⟩ := r
      rw [hi] at h1
      simp only at h1 ⊢
      cases hr : reactor_iterations cb hal cur reactor a sa with
      | none => rw [hr] at h1; simp at h1
      | some r2 =>
        obtain ⟨sb, tb⟩ := r2
        rw [hr] at h1
        simp only [Option.some.injEq, Prod.mk.injEq] at h1
        obtain ⟨rfl, rfl⟩ := h1
        rw [ih sa sb s2 tb t2 hr h2]
        simp

theorem reactor_iterations_rounds (cb : Callbacks) (hal : Hal) (cur reactor : Nat)
    (hcb : poller_fn_keeps_active cb cur reactor) (l : List Nat) (n : Nat) :
    ∀ (s : State), (s.g_reactors reactor).active_pollers = l →
      spdk_event_queue_count s cur = 0 →
      ∃ s1 t, reactor_iterations cb hal cur reactor (n * l.length) s = some (s1, t) ∧
        active_calls t = (List.replicate n l).flatten ∧
        (s1.g_reactors reactor).active_pollers = l ∧
        spdk_event_queue_count s1 cur = 0 := by
  induction n with
  | zero =>
    intro s hl hq
    exact ⟨s, [], by simp [reactor_iterations], by simp [active_calls], hl, hq⟩
  | succ n ih =>
    intro s hl hq
    obtain ⟨s1, t1, h1, hc1, ha1, hq1⟩ :=
      reactor_iterations_rotate cb hal cur reactor hcb l [] s (by simpa using hl) hq
    obtain ⟨s2, t2, h2, hc2, ha2, hq2⟩ := ih s1 (by simpa using ha1) hq1
    refine ⟨s2, t1 ++ t2, ?_, ?_, ha2, hq2⟩
    · have := reactor_iterations_add cb hal cur reactor _ _ s s1 s2 t1 t2 h1 h2
      rw [← this]
      congr 1
      ring
    · simp [active_calls_append, hc1, hc2, List.replicate_succ]

/-! ## What the functions leave alone -/

theorem state_kept_or_exiting_refl (s : State) : state_kept_or_exiting s s := Or.inl rfl

theorem state_kept_or_exiting_trans (s s1 s2 : State) (h1 : state_kept_or_exiting s s1)
    (h2 : state_kept_or_exiting s1 s2) : state_kept_or_exiting s s2 := by
  unfold state_kept_or_exiting at *
  rcases h2 with h2 | h2
  · rw [h2]; exact h1
  · exact Or.inr h2

theorem state_kept_of_eq (s s1 : State) (h : s1.g_reactor_state = s.g_reactor_state) :
    state_kept_or_exiting s s1 := Or.inl h

theorem spdk_event_allocate_frame (hal : Hal) (lcore : Nat) (fn : spdk_event_fn)
    (arg1 arg2 : Nat) (next : Option spdk_event) (s s1 : State) (e : spdk_event)
    (h : spdk_event_allocate hal lcore fn arg1 arg2 next s = some (e, s1)) :
    e = { lcore := lcore, fn := fn, arg1 := arg1, arg2 := arg2, next := next } ∧
    s1.g_reactors = s.g_reactors ∧ s1.pollers = s.pollers ∧
    s1.g_reactor_state = s.g_reactor_state ∧ s1.g_reactor_mask = s.g_reactor_mask ∧
    s1.g_reactor_count = s.g_reactor_count ∧ s1.timer_cycles = s.timer_cycles := by
  unfold spdk_event_allocate at h
  simp only at h
  split_ifs at h with h1
  split at h
  · simp at h
  · split_ifs at h with h2
    simp only [Option.some.injEq, Prod.mk.injEq] at h
    obtain ⟨rfl, rfl⟩ := h
    exact ⟨rfl, rfl, rfl, rfl, rfl, rfl, rfl⟩

theorem spdk_event_free_frame (hal : Hal) (lcore : Nat) (s s1 : State)
    (h : spdk_event_free hal lcore s = some s1) :
    s1.g_reactors = s.g_reactors ∧ s1.pollers = s.pollers ∧
    s1.g_reactor_state = s.g_reactor_state ∧ s1.g_reactor_mask = s.g_reactor_mask ∧
    s1.g_reactor_count = s.g_reactor_count ∧ s1.timer_cycles = s.timer_cycles := by
  unfold spdk_event_free at h
  simp only at h
  split_ifs at h with h1
  split at h
  · simp at h
  · simp only [Option.some.injEq] at h
    subst h
    exact ⟨rfl, rfl, rfl, rfl, rfl, rfl⟩

theorem insert_timer_frame (reactor poller now : Nat) (s : State) :
    (spdk_poller_insert_timer reactor poller now s).g_reactor_state = s.g_reactor_state ∧
    (spdk_poller_insert_timer reactor poller now s).g_reactor_mask = s.g_reactor_mask ∧
    (spdk_poller_insert_timer reactor poller now s).g_reactor_count = s.g_reactor_count ∧
    (spdk_poller_insert_timer reactor poller now s).g_spdk_event_mempool
      = s.g_spdk_event_mempool ∧
    (spdk_poller_insert_timer reactor poller now s).timer_cycles = s.timer_cycles :=
  ⟨rfl, rfl, rfl, rfl, rfl⟩

theorem add_poller_frame (hal : Hal) (event : spdk_event) (s s1 : State)
    (h : _spdk_event_add_poller hal event s = some s1) :
    s1.g_reactor_state = s.g_reactor_state ∧ s1.g_reactor_mask = s.g_reactor_mask ∧
    s1.g_reactor_count = s.g_reactor_count ∧
    s1.g_spdk_event_mempool = s.g_spdk_event_mempool := by
  unfold _spdk_event_add_poller at h
  obtain ⟨-, -, h3, h4, h5, h6, -⟩ := call_next_frame hal _ _ _ h
  rw [h3, h4, h5, h6]
  split_ifs <;> exact ⟨rfl, rfl, rfl, rfl⟩

theorem remove_poller_frame (hal : Hal) (event : spdk_event) (s s1 : State)
    (h : _spdk_event_remove_poller hal event s = some s1) :
    s1.g_reactor_state = s.g_reactor_state ∧ s1.g_reactor_mask = s.g_reactor_mask ∧
    s1.g_reactor_count = s.g_reactor_count ∧
    s1.g_spdk_event_mempool = s.g_spdk_event_mempool := by
  obtain ⟨-, h⟩ := remove_poller_some hal event s s1 h
  unfold remove_poller_unlinked at h
  obtain ⟨-, -, h3, h4, h5, h6, -⟩ := call_next_frame hal _ _ _ h
  rw [h3, h4, h5, h6]
  split_ifs <;> exact ⟨rfl, rfl, rfl, rfl⟩

theorem poller_register_frame (hal : Hal) (poller lcore : Nat)
    (complete : Option spdk_event) (s s1 : State)
    (h : _spdk_poller_register hal poller lcore complete s = some s1) :
    s1.g_reactor_state = s.g_reactor_state ∧ s1.g_reactor_mask = s.g_reactor_mask ∧
    s1.g_reactor_count = s.g_reactor_count ∧ s1.pollers = s.pollers := by
  unfold _spdk_poller_register at h
  split at h
  · simp at h
  · rename_i e s0 ha
    obtain ⟨-, -, hp, h3, h4, h5, -⟩ := spdk_event_allocate_frame _ _ _ _ _ _ _ _ _ ha
    obtain ⟨hp', -, h3', h4', h5', -, -⟩ := spdk_event_call_frame hal _ _ _ h
    exact ⟨h3'.trans h3, h4'.trans h4, h5'.trans h5, hp'.trans hp⟩

theorem event_invoke_state (cb : Callbacks) (hal : Hal) (cur : Nat) (event : spdk_event)
    (s s1 : State) (hcb : callbacks_stop_only cb)
    (h : event_invoke cb hal cur event s = some s1) : state_kept_or_exiting s s1 := by
  unfold event_invoke at h
  split at h
  · exact Or.inl (add_poller_frame hal event s s1 h).1
  · exact Or.inl (remove_poller_frame hal event s s1 h).1
  · exact Or.inl (poller_register_frame hal _ _ _ s s1 h).1
  · exact hcb.1 _ _ _ _ _ h

theorem run_single_state (cb : Callbacks) (hal : Hal) (cur lcore : Nat) (s s1 : State)
    (t : List Invocation) (hcb : callbacks_stop_only cb)
    (h : spdk_event_queue_run_single cb hal cur lcore s = some (s1, t)) :
    state_kept_or_exiting s s1 := by
  unfold spdk_event_queue_run_single at h
  simp only at h
  split at h
  · simp at h
  · split at h
    · simp only [Option.some.injEq, Prod.mk.injEq] at h
      rw [← h.1]
      exact state_kept_or_exiting_refl s
    · split at h
      · simp at h
      · rename_i s2 hi
        split at h
        · simp at h
        · rename_i s3 hf
          simp only [Option.some.injEq, Prod.mk.injEq] at h
          rw [← h.1]
          have h2 := event_invoke_state cb hal cur _ _ s2 hcb hi
          have h3 := (spdk_event_free_frame hal lcore s2 s3 hf).2.2.1
          exact state_kept_or_exiting_trans _ s2 _ h2 (Or.inl h3)

theorem run_state (cb : Callbacks) (hal : Hal) (cur lcore : Nat)
    (hcb : callbacks_stop_only cb) (count : Nat) :
    ∀ (s s1 : State) (t : List Invocation),
      spdk_event_queue_run cb hal cur lcore count s = some (s1, t) →
      state_kept_or_exiting s s1 := by
  induction count with
  | zero =>
    intro s s1 t h
    simp only [spdk_event_queue_run, Option.some.injEq, Prod.mk.injEq] at h
    rw [← h.1]
    exact state_kept_or_exiting_refl s
  | succ n ih =>
    intro s s1 t h
    simp only [spdk_event_queue_run] at h
    split at h
    · simp at h
    · rename_i sa ta h1
      split at h
      · simp at h
      · rename_i sb tb h2
        simp only [Option.some.injEq, Prod.mk.injEq] at h
        rw [← h.1]
        exact state_kept_or_exiting_trans _ sa _
          (run_single_state cb hal cur lcore s sa ta hcb h1) (ih sa sb tb h2)

theorem active_poller_step_state (cb : Callbacks) (cur reactor : Nat) (s s1 : State)
    (t : List Invocation) (hcb : callbacks_stop_only cb)
    (h : active_poller_step cb cur reactor s = some (s1, t)) :
    state_kept_or_exiting s s1 := by
  unfold active_poller_step at h
  split at h
  · simp only [Option.some.injEq, Prod.mk.injEq] at h
    rw [← h.1]
    exact state_kept_or_exiting_refl s
  · simp only at h
    split at h
    · simp at h
    · split at h
      · simp at h
      · rename_i s2 h2
        simp only [Option.some.injEq, Prod.mk.injEq] at h
        rw [← h.1]
        have h3 := hcb.2 _ _ _ _ _ h2
        exact h3

theorem timer_poller_step_state (cb : Callbacks) (cur reactor : Nat) (s s1 : State)
    (t : List Invocation) (hcb : callbacks_stop_only cb)
    (h : timer_poller_step cb cur reactor s = some (s1, t)) :
    state_kept_or_exiting s s1 := by
  unfold timer_poller_step at h
  split at h
  · simp only [Option.some.injEq, Prod.mk.injEq] at h
    rw [← h.1]
    exact state_kept_or_exiting_refl s
  · simp only at h
    split_ifs at h
    · split at h
      · simp at h
      · split at h
        · simp at h
        · rename_i s2 h2
          simp only [Option.some.injEq, Prod.mk.injEq] at h
          rw [← h.1]
          have h3 := hcb.2 _ _ _ _ _ h2
          exact h3
    · simp only [Option.some.injEq, Prod.mk.injEq] at h
      rw [← h.1]
      exact state_kept_or_exiting_refl s

theorem reactor_iteration_state (cb : Callbacks) (hal : Hal) (cur reactor : Nat)
    (s s1 : State) (t : List Invocation) (hcb : callbacks_stop_only cb)
    (h : reactor_iteration cb hal cur reactor s = some (s1, t)) :
    state_kept_or_exiting s s1 := by
  unfold reactor_iteration at h
  split at h
  · simp at h
  · rename_i sa ta h1
    split at h
    · simp at h
    · rename_i sb tb h2
      split at h
      · simp at h
      · rename_i sc tc h3
        simp only [Option.some.injEq, Prod.mk.injEq] at h
        rw [← h.1]
        exact state_kept_or_exiting_trans _ sa _
          (run_state cb hal cur cur hcb _ s sa ta h1)
          (state_kept_or_exiting_trans _ sb _
            (active_poller_step_state cb cur reactor sa sb tb hcb h2)
            (timer_poller_step_state cb cur reactor sb sc tc hcb h3))

theorem start_step_state (cb : Callbacks) (hal : Hal) (cur : Nat) (who : Option Nat)
    (c c1 : start_config) (hcb : callbacks_stop_only cb)
    (h : start_step cb hal cur who c = some c1) : state_kept_or_exiting c.s c1.s := by
  unfold start_step at h
  split at h
  · split at h
    · split at h
      · simp at h
      · rename_i sa ta hi
        simp only [Option.some.injEq] at h
        rw [← h]
        exact reactor_iteration_state cb hal cur _ c.s sa ta hcb hi
    · split at h
      · simp only [Option.some.injEq] at h
        rw [← h]
        exact state_kept_or_exiting_refl _
      · simp only [Option.some.injEq] at h
        rw [← h]
        unfold spdk_reactor_start
        simp only
        split_ifs <;> exact state_kept_or_exiting_refl _
  · split at h
    · simp only [Option.some.injEq] at h
      rw [← h]
      exact state_kept_or_exiting_refl _
    · split at h
      · simp at h
      · rename_i sa ta hi
        simp only [Option.some.injEq] at h
        rw [← h]
        exact reactor_iteration_state cb hal _ _ c.s sa ta hcb hi

/-! ## `spdk_reactors_init` -/

theorem parse_mask_not_invalid (hal : Hal) (mask : Option (List Char)) (s : State)
    (h : s.g_reactor_state ≠ SPDK_REACTOR_STATE_INVALID) :
    spdk_reactor_parse_mask hal mask s = (-1, s) := by
  unfold spdk_reactor_parse_mask
  have : s.g_reactor_state.val ≥ SPDK_REACTOR_STATE_INITIALIZED.val := by
    cases hs : s.g_reactor_state <;> simp_all [spdk_reactor_state.val]
  rw [if_pos this]

theorem parse_mask_frame (hal : Hal) (mask : Option (List Char)) (s : State) :
    (spdk_reactor_parse_mask hal mask s).2 =
      { s with g_reactor_mask := (spdk_reactor_parse_mask hal mask s).2.g_reactor_mask } := by
  unfold spdk_reactor_parse_mask
  split_ifs
  · rfl
  · cases mask with
    | none => rfl
    | some m =>
      simp only
      split_ifs <;> rfl

theorem parse_mask_ok_invalid (hal : Hal) (mask : Option (List Char)) (s : State)
    (h : 0 ≤ (spdk_reactor_parse_mask hal mask s).1) :
    s.g_reactor_state = SPDK_REACTOR_STATE_INVALID := by
  by_contra hne
  rw [parse_mask_not_invalid hal mask s hne] at h
  simp at h

theorem parse_core_mask_rc (hal : Hal) (mask : Option (List Char)) (cpumask : Option Nat) :
    (spdk_app_parse_core_mask hal mask cpumask).1 = 0 ∨
      (spdk_app_parse_core_mask hal mask cpumask).1 = -1 := by
  unfold spdk_app_parse_core_mask
  split
  · simp only
    split_ifs
    · exact Or.inr rfl
    · exact Or.inl rfl
  · exact Or.inr rfl

theorem parse_mask_rc (hal : Hal) (mask : Option (List Char)) (s : State) :
    (spdk_reactor_parse_mask hal mask s).1 = 0 ∨
      (spdk_reactor_parse_mask hal mask s).1 = -1 := by
  unfold spdk_reactor_parse_mask
  split_ifs
  · exact Or.inr rfl
  · cases mask with
    | none => exact Or.inl rfl
    | some m =>
      simp only
      split_ifs with h1 h2
      · rcases parse_core_mask_rc hal (some m) (some 0) with h | h
        · exact absurd h h1
        · exact Or.inr h
      · exact Or.inr rfl
      · exact Or.inl rfl

theorem spdk_reactor_construct_frame (hal : Hal) (reactor lcore : Nat) (s s1 : State)
    (h : spdk_reactor_construct hal reactor lcore s = some s1) :
    s1.g_reactor_state = s.g_reactor_state ∧ s1.g_reactor_mask = s.g_reactor_mask ∧
    s1.g_spdk_event_mempool = s.g_spdk_event_mempool ∧ s1.pollers = s.pollers ∧
    s1.timer_cycles = s.timer_cycles ∧ s1.g_reactor_count = s.g_reactor_count := by
  unfold spdk_reactor_construct at h
  split_ifs at h
  simp only [Option.some.injEq] at h
  subst h
  exact ⟨rfl, rfl, rfl, rfl, rfl, rfl⟩

theorem construct_reactors_frame (hal : Hal) (l : List Nat) :
    ∀ (s s1 : State), construct_reactors hal l s = some s1 →
      s1.g_reactor_state = s.g_reactor_state ∧ s1.g_reactor_mask = s.g_reactor_mask ∧
      s1.g_spdk_event_mempool = s.g_spdk_event_mempool ∧ s1.pollers = s.pollers ∧
      s1.timer_cycles = s.timer_cycles := by
  induction l with
  | nil =>
    intro s s1 h
    simp only [construct_reactors, Option.some.injEq] at h
    subst h
    exact ⟨rfl, rfl, rfl, rfl, rfl⟩
  | cons i rest ih =>
    intro s s1 h
    simp only [construct_reactors] at h
    by_cases hb : bit64 i &&& spdk_app_get_core_mask s ≠ 0
    · rw [if_pos hb] at h
      cases hc : spdk_reactor_construct hal i i s with
      | none => rw [hc] at h; simp at h
      | some s0 =>
        rw [hc] at h
        simp only at h
        obtain ⟨h1, h2, h3, h4, h5, -⟩ := spdk_reactor_construct_frame hal i i s s0 hc
        obtain ⟨k1, k2, k3, k4, k5⟩ := ih _ s1 h
        exact ⟨k1.trans h1, k2.trans h2, k3.trans h3, k4.trans h4, k5.trans h5⟩
    · rw [if_neg hb] at h
      exact ih s s1 h

theorem create_mempools_frame (hal : Hal) (socket_mask socket_count : Nat) (l : List Nat) :
    ∀ (s : State),
      (create_mempools hal socket_mask socket_count l s).2.g_reactor_state
        = s.g_reactor_state ∧
      (create_mempools hal socket_mask socket_count l s).2.g_reactor_mask
        = s.g_reactor_mask ∧
      (create_mempools hal socket_mask socket_count l s).2.g_reactor_count
        = s.g_reactor_count ∧
      (create_mempools hal socket_mask socket_count l s).2.g_reactors = s.g_reactors ∧
      (create_mempools hal socket_mask socket_count l s).2.pollers = s.pollers := by
  induction l with
  | nil => intro s; exact ⟨rfl, rfl, rfl, rfl, rfl⟩
  | cons i rest ih =>
    intro s
    simp only [create_mempools]
    split_ifs
    · exact ih _
    · exact ⟨rfl, rfl, rfl, rfl, rfl⟩
    · exact ih s

theorem init_not_invalid (hal : Hal) (mask : Option (List Char)) (s : State)
    (h : s.g_reactor_state ≠ SPDK_REACTOR_STATE_INVALID) :
    spdk_reactors_init hal mask s = some (-1, s) := by
  unfold spdk_reactors_init
  rw [parse_mask_not_invalid hal mask s h]
  simp

theorem init_state (hal : Hal) (mask : Option (List Char)) (s s1 : State) (rc : Int)
    (h : spdk_reactors_init hal mask s = some (rc, s1)) :
    (rc = 0 ∧ s.g_reactor_state = SPDK_REACTOR_STATE_INVALID ∧
        s1.g_reactor_state = SPDK_REACTOR_STATE_INITIALIZED) ∨
      (rc < 0 ∧ s1.g_reactor_state = s.g_reactor_state) := by
  unfold spdk_reactors_init at h
  have hf := parse_mask_frame hal mask s
  cases hp : spdk_reactor_parse_mask hal mask s with
  | mk rc0 s0 =>
    rw [hp] at h hf
    simp only at h hf
    split_ifs at h with hrc
    · simp only [Option.some.injEq, Prod.mk.injEq] at h
      obtain ⟨rfl, rfl⟩ := h
      right
      refine ⟨hrc, ?_⟩
      rw [hf]
    · have hinv : s.g_reactor_state = SPDK_REACTOR_STATE_INVALID := by
        apply parse_mask_ok_invalid hal mask s
        rw [hp]; simp only; omega
      have hrc0 : rc0 = 0 := by
        have h01 := parse_mask_rc hal mask s
        rw [hp] at h01
        simp only at h01
        omega
      split at h
      · simp at h
      · rename_i s2 hc
        obtain ⟨hc1, -⟩ := construct_reactors_frame hal _ s0 s2 hc
        have hm := create_mempools_frame hal (spdk_reactor_get_socket_mask hal s2)
          (count_sockets (spdk_reactor_get_socket_mask hal s2)) (List.range 64) s2
        split at h
        · rename_i s3 hcm
          simp only [Option.some.injEq, Prod.mk.injEq] at h
          obtain ⟨rfl, rfl⟩ := h
          right
          refine ⟨by omega, ?_⟩
          rw [hcm] at hm
          rw [hm.1, hc1, hf]
        · rename_i s3 hcm
          simp only [Option.some.injEq, Prod.mk.injEq] at h
          obtain ⟨rfl, rfl⟩ := h
          left
          exact ⟨hrc0, hinv, rfl⟩

/-! ## The values of `g_reactor_state` along a sequence of calls -/

theorem non_decreasing_append (a b : spdk_reactor_state) (l1 l2 : List spdk_reactor_state)
    (h1 : non_decreasing a l1) (hb : ∀ x ∈ a :: l1, x.val ≤ b.val)
    (h2 : non_decreasing b l2) : non_decreasing a (l1 ++ l2) := by
  induction l1 generalizing a with
  | nil =>
    cases l2 with
    | nil => exact List.Chain.nil
    | cons c l2 =>
      rw [List.nil_append]
      rw [non_decreasing, List.chain_cons] at h2 ⊢
      exact ⟨le_trans (hb a (by simp)) h2.1, h2.2⟩
  | cons x l1 ih =>
    rw [non_decreasing, List.chain_cons] at h1
    rw [List.cons_append, non_decreasing, List.chain_cons]
    exact ⟨h1.1, ih x h1.2 (fun y hy => hb y (List.mem_cons_of_mem _ hy))⟩

theorem start_states_steps (cb : Callbacks) (hal : Hal) (cur : Nat)
    (sched : List (Option Nat)) :
    ∀ c, (start_states cb hal cur sched c).2 = start_steps cb hal cur sched c := by
  induction sched with
  | nil => intro c; rfl
  | cons who rest ih =>
    intro c
    simp only [start_states, start_steps]
    cases start_step cb hal cur who c with
    | none => rfl
    | some c1 => exact ih c1

theorem start_states_mono (cb : Callbacks) (hal : Hal) (cur : Nat)
    (hcb : callbacks_stop_only cb) (sched : List (Option Nat)) :
    ∀ c, (c.s.g_reactor_state = SPDK_REACTOR_STATE_RUNNING ∨
        c.s.g_reactor_state = SPDK_REACTOR_STATE_EXITING) →
      non_decreasing c.s.g_reactor_state (start_states cb hal cur sched c).1 ∧
      ∀ x ∈ (start_states cb hal cur sched c).1,
        x = SPDK_REACTOR_STATE_RUNNING ∨ x = SPDK_REACTOR_STATE_EXITING := by
  induction sched with
  | nil =>
    intro c _
    exact ⟨List.Chain.nil, fun x hx => by simp [start_states] at hx⟩
  | cons who rest ih =>
    intro c hc
    simp only [start_states]
    cases hs : start_step cb hal cur who c with
    | none => exact ⟨List.Chain.nil, fun x hx => by simp at hx⟩
    | some c1 =>
      simp only
      have hk := start_step_state cb hal cur who c c1 hcb hs
      have hc1 : c1.s.g_reactor_state = SPDK_REACTOR_STATE_RUNNING ∨
          c1.s.g_reactor_state = SPDK_REACTOR_STATE_EXITING := by
        rcases hk with hk | hk
        · rw [hk]; exact hc
        · exact Or.inr hk
      have hle : c.s.g_reactor_state.val ≤ c1.s.g_reactor_state.val := by
        rcases hk with hk | hk
        · rw [hk]
        · rw [hk]
          rcases hc with hc | hc
          · rw [hc]; simp [spdk_reactor_state.val]
          · rw [hc]
      obtain ⟨i1, i2⟩ := ih c1 hc1
      refine ⟨List.Chain.cons hle i1, ?_⟩
      intro x hx
      rcases List.mem_cons.1 hx with rfl | hx
      · exact hc1
      · exact i2 x hx

theorem observe_call_mono (cb : Callbacks) (hal : Hal) (cur : Nat) (c : lifecycle_call)
    (s : State) (hcb : callbacks_stop_only cb) (ha : c.allowed s = true) :
    non_decreasing s.g_reactor_state (c.observe cb hal cur s).1 ∧
    ∀ s1, (c.observe cb hal cur s).2 = some s1 →
      ∀ x ∈ s.g_reactor_state :: (c.observe cb hal cur s).1,
        x.val ≤ s1.g_reactor_state.val := by
  cases c with
  | init mask =>
    simp only [lifecycle_call.observe]
    cases hi : spdk_reactors_init hal mask s with
    | none => exact ⟨List.Chain.nil, fun s1 h => by simp at h⟩
    | some r =>
      obtain ⟨rc, s0⟩ := r
      simp only
      have hle : s.g_reactor_state.val ≤ s0.g_reactor_state.val := by
        rcases init_state hal mask s s0 rc hi with ⟨-, h1, h2⟩ | ⟨-, h2⟩
        · rw [h1, h2]; simp [spdk_reactor_state.val]
        · rw [h2]
      refine ⟨List.Chain.cons hle List.Chain.nil, ?_⟩
      intro s1 h1 x hx
      simp only [Option.some.injEq] at h1
      subst h1
      simp only [List.mem_cons, List.mem_singleton, List.not_mem_nil, or_false] at hx
      rcases hx with rfl | rfl
      · exact hle
      · exact le_refl _
  | stop =>
    simp only [lifecycle_call.observe]
    have hle : s.g_reactor_state.val ≤ (spdk_reactors_stop s).g_reactor_state.val := by
      simp only [lifecycle_call.allowed, decide_eq_true_eq] at ha
      simp only [spdk_reactors_stop]
      cases hs : s.g_reactor_state <;> simp_all [spdk_reactor_state.val]
    refine ⟨List.Chain.cons hle List.Chain.nil, ?_⟩
    intro s1 h1 x hx
    simp only [Option.some.injEq] at h1
    subst h1
    simp only [List.mem_cons, List.mem_singleton, List.not_mem_nil, or_false] at hx
    rcases hx with rfl | rfl
    · exact hle
    · exact le_refl _
  | send lcore k =>
    simp only [lifecycle_call.observe]
    cases ha1 : spdk_event_allocate hal lcore (spdk_event_fn.user k) 0 0 none s with
    | none => exact ⟨List.Chain.nil, fun s1 h => by simp at h⟩
    | some r =>
      obtain ⟨e, sa⟩ := r
      simp only
      cases hc1 : spdk_event_call hal e sa with
      | none => exact ⟨List.Chain.nil, fun s1 h => by simp at h⟩
      | some sb =>
        simp only
        have h1 := (spdk_event_allocate_frame _ _ _ _ _ _ _ _ _ ha1).2.2.2.1
        have h2 := (spdk_event_call_frame hal e sa sb hc1).2.2.1
        have hle : s.g_reactor_state.val ≤ sb.g_reactor_state.val := by rw [h2, h1]
        refine ⟨List.Chain.cons hle List.Chain.nil, ?_⟩
        intro s1 hs1 x hx
        simp only [Option.some.injEq] at hs1
        subst hs1
        simp only [List.mem_cons, List.mem_singleton, List.not_mem_nil, or_false] at hx
        rcases hx with rfl | rfl
        · exact hle
        · exact le_refl _
  | start sched =>
    simp only [lifecycle_call.allowed, decide_eq_true_eq] at ha
    simp only [lifecycle_call.observe]
    split_ifs with hm
    · exact ⟨List.Chain.nil, fun s1 h => by simp at h⟩
    · have hb : (start_begin hal s).s.g_reactor_state = SPDK_REACTOR_STATE_RUNNING := rfl
      obtain ⟨m1, m2⟩ := start_states_mono cb hal cur hcb sched (start_begin hal s)
        (Or.inl hb)
      have hrun : s.g_reactor_state.val ≤ (start_begin hal s).s.g_reactor_state.val := by
        rw [hb]; exact ha
      cases hss : start_states cb hal cur sched (start_begin hal s) with
      | mk l r =>
        rw [hss] at m1 m2
        simp only at m1 m2
        cases r with
        | none => exact ⟨List.Chain.cons hrun m1, fun s1 h => by simp at h⟩
        | some c =>
          simp only
          split_ifs with hfin
          · have hall : ∀ x ∈ (start_begin hal s).s.g_reactor_state :: l,
                x.val ≤ SPDK_REACTOR_STATE_EXITING.val := by
              intro x hx
              rcases List.mem_cons.1 hx with rfl | hx
              · rw [hb]; simp [spdk_reactor_state.val]
              · rcases m2 x hx with rfl | rfl <;> simp [spdk_reactor_state.val]
            refine ⟨List.Chain.cons hrun (non_decreasing_append _
              SPDK_REACTOR_STATE_EXITING _ _ m1 hall
              (List.Chain.cons (by simp [spdk_reactor_state.val]) List.Chain.nil)), ?_⟩
            intro s1 hs1 x hx
            simp only [Option.some.injEq] at hs1
            subst hs1
            simp only [spdk_reactor_state.val]
            cases x <;> simp [spdk_reactor_state.val]
          · exact ⟨List.Chain.cons hrun m1, fun s1 h => by simp at h⟩

theorem lifecycle_observe_mono (cb : Callbacks) (hal : Hal) (cur : Nat)
    (hcb : callbacks_stop_only cb) (calls : List lifecycle_call) :
    ∀ s, lifecycle_guarded cb hal cur calls s = true →
      non_decreasing s.g_reactor_state (lifecycle_observe cb hal cur calls s) := by
  induction calls with
  | nil => intro s _; exact List.Chain.nil
  | cons c rest ih =>
    intro s hg
    simp only [lifecycle_guarded, Bool.and_eq_true] at hg
    obtain ⟨ha, hrest⟩ := hg
    obtain ⟨h1, h2⟩ := observe_call_mono cb hal cur c s hcb ha
    simp only [lifecycle_observe]
    cases ho : c.observe cb hal cur s with
    | mk l r =>
      rw [ho] at h1 h2 hrest
      simp only at h1 h2 hrest
      cases r with
      | none => exact h1
      | some s1 =>
        simp only at hrest ⊢
        exact non_decreasing_append _ s1.g_reactor_state _ _ h1 (h2 s1 rfl) (ih s1 hrest)

/-! ## Bits of a mask -/

theorem bit64_eq_mod (i : Nat) : bit64 i = 2 ^ (i % 64) := by
  unfold bit64 U64
  rw [Nat.one_shiftLeft]
  exact Nat.mod_eq_of_lt (Nat.pow_lt_pow_right (by decide) (Nat.mod_lt _ (by decide)))

theorem bit64_eq (i : Nat) (h : i < 64) : bit64 i = 2 ^ i := by
  rw [bit64_eq_mod, Nat.mod_eq_of_lt h]

theorem and_bit64_ne_zero (x i : Nat) (h : i < 64) :
    x &&& bit64 i ≠ 0 ↔ x.testBit i = true := by
  rw [bit64_eq i h, Nat.and_two_pow]
  cases x.testBit i <;> simp

theorem testBit_clear_bit64 (x i j : Nat) (h : i < 64) :
    (clear_bit64 x i).testBit j = (x.testBit j && decide (j < 64) && !decide (i = j)) := by
  unfold clear_bit64 U64
  rw [bit64_eq i h, Nat.testBit_and, Nat.testBit_xor, Nat.testBit_two_pow_sub_one,
    Nat.testBit_two_pow]
  by_cases h1 : j < 64 <;> by_cases h2 : i = j
  · simp [h1, h2]
  · simp [h1, h2]
  · omega
  · simp [h1, h2]

theorem testBit_of_lt_U64 (x j : Nat) (hx : x < U64) (hj : 64 ≤ j) : x.testBit j = false := by
  apply Nat.testBit_lt_two_pow
  exact lt_of_lt_of_le hx (Nat.pow_le_pow_right (by decide) hj)

theorem clear_bit64_lt (x i : Nat) (hx : x < U64) : clear_bit64 x i < U64 :=
  lt_of_le_of_lt Nat.and_le_left hx

theorem clear_disabled_fold (hal : Hal) (x : Nat) (hx : x < U64) (n : Nat) (hn : n ≤ 64) :
    (List.range n).foldl
        (fun m i => if m &&& bit64 i ≠ 0 ∧ hal.rte_lcore_is_enabled i = false
          then clear_bit64 m i else m) x < U64 ∧
    ∀ j, ((List.range n).foldl
        (fun m i => if m &&& bit64 i ≠ 0 ∧ hal.rte_lcore_is_enabled i = false
          then clear_bit64 m i else m) x).testBit j =
      (x.testBit j && (!decide (j < n) || hal.rte_lcore_is_enabled j)) := by
  induction n with
  | zero => exact ⟨hx, fun j => by simp⟩
  | succ n ih =>
    obtain ⟨h1, h2⟩ := ih (by omega)
    rw [List.range_succ, List.foldl_append]
    simp only [List.foldl_cons, List.foldl_nil]
    have hn64 : n < 64 := by omega
    split_ifs with hc
    · refine ⟨clear_bit64_lt _ _ h1, ?_⟩
      intro j
      rw [testBit_clear_bit64 _ _ _ hn64, h2 j]
      by_cases hj : n = j
      · subst hj
        simp [hc.2]
      · have hj64 : j < 64 ∨ 64 ≤ j := by omega
        rcases hj64 with hj64 | hj64
        · by_cases hjn : j < n
          · have : j < n + 1 := by omega
            simp [hj, hj64, hjn, this]
          · have : ¬ j < n + 1 := by omega
            simp [hj, hj64, hjn, this]
        · rw [testBit_of_lt_U64 x j hx hj64]
          simp
    · refine ⟨h1, ?_⟩
      intro j
      rw [h2 j]
      by_cases hj : n = j
      · subst hj
        rw [and_bit64_ne_zero _ _ hn64, h2 n] at hc
        simp only [lt_self_iff_false, decide_False, Bool.not_false, Bool.true_or,
          Bool.and_true, not_and, Bool.not_eq_false] at hc
        cases hb : x.testBit n
        · simp
        · simp [hc hb]
      · by_cases hjn : j < n
        · have : j < n + 1 := by omega
          simp [hjn, this]
        · have : ¬ j < n + 1 := by omega
          simp [hjn, this]

theorem clear_disabled_testBit (hal : Hal) (x : Nat) (hx : x < U64) (j : Nat) :
    (clear_disabled hal x).testBit j =
      (x.testBit j && (!decide (j < min hal.RTE_MAX_LCORE 64) || hal.rte_lcore_is_enabled j)) :=
  (clear_disabled_fold hal x hx (min hal.RTE_MAX_LCORE 64) (Nat.min_le_right _ _)).2 j

theorem clear_disabled_lt (hal : Hal) (x : Nat) (hx : x < U64) :
    clear_disabled hal x < U64 :=
  (clear_disabled_fold hal x hx (min hal.RTE_MAX_LCORE 64) (Nat.min_le_right _ _)).1

/-! ## `strtoull` in base 16 -/

theorem hex_digit_isSome_iff (c : Char) :
    (hex_digit c).isSome = true ↔
      (48 ≤ c.toNat ∧ c.toNat ≤ 57) ∨ (97 ≤ c.toNat ∧ c.toNat ≤ 102) ∨
        (65 ≤ c.toNat ∧ c.toNat ≤ 70) := by
  unfold hex_digit
  split_ifs with h1 h2 h3 <;> simp <;> omega

theorem hex_digit_eq_none (c : Char) (h : (hex_digit c).isSome = false) :
    hex_digit c = none := by
  cases hc : hex_digit c with
  | none => rfl
  | some d => rw [hc] at h; simp at h

theorem hex_not_space (c : Char) (h : (hex_digit c).isSome = true) : isspace c = false := by
  rw [hex_digit_isSome_iff] at h
  unfold isspace
  simp only [Bool.or_eq_false_iff, decide_eq_false_iff_not, Bool.and_eq_false_imp,
    decide_eq_true_eq]
  omega

theorem hex_ne_of_toNat (c d : Char) (h : (hex_digit c).isSome = true)
    (hd : (hex_digit d).isSome = false) : c ≠ d := by
  intro hcd
  subst hcd
  rw [h] at hd
  exact Bool.noConfusion hd

theorem scan_hex_all (digits : List Char) :
    ∀ acc, (∀ c ∈ digits, (hex_digit c).isSome = true) →
      scan_hex acc digits = (hex_value acc digits, []) := by
  induction digits with
  | nil => intro acc _; rfl
  | cons c cs ih =>
    intro acc h
    have hc := h c (List.mem_cons_self _ _)
    cases hd : hex_digit c with
    | none => rw [hd] at hc; simp at hc
    | some d =>
      simp only [scan_hex, hex_value, hd, Option.getD_some]
      exact ih _ (fun x hx => h x (List.mem_cons_of_mem _ hx))

theorem scan_hex_suffix (l : List Char) :
    ∀ acc, (scan_hex acc l).2 <:+ l := by
  induction l with
  | nil => intro acc; exact List.suffix_refl _
  | cons c cs ih =>
    intro acc
    simp only [scan_hex]
    cases hd : hex_digit c with
    | none => exact List.suffix_refl _
    | some d => exact List.IsSuffix.trans (ih _) (List.suffix_cons _ _)

theorem scan_hex_nil (l : List Char) :
    ∀ acc, (scan_hex acc l).2 = [] →
      (∀ c ∈ l, (hex_digit c).isSome = true) ∧ (scan_hex acc l).1 = hex_value acc l := by
  induction l with
  | nil => intro acc _; exact ⟨fun c hc => by simp at hc, rfl⟩
  | cons c cs ih =>
    intro acc h
    simp only [scan_hex] at h ⊢
    cases hd : hex_digit c with
    | none => rw [hd] at h; simp at h
    | some d =>
      rw [hd] at h
      simp only at h ⊢
      obtain ⟨h1, h2⟩ := ih _ h
      refine ⟨?_, ?_⟩
      · intro x hx
        rcases List.mem_cons.1 hx with rfl | hx
        · rw [hd]; rfl
        · exact h1 x hx
      · rw [h2]
        simp [hex_value, hd]

theorem dropWhile_spaces (ws t : List Char) (hws : ∀ c ∈ ws, isspace c = true)
    (ht : ∀ c ∈ t.head?, isspace c = false) : (ws ++ t).dropWhile isspace = t := by
  induction ws with
  | nil =>
    cases t with
    | nil => rfl
    | cons c cs =>
      have := ht c (by simp)
      simp [List.dropWhile, this]
  | cons w ws ih =>
    have hw := hws w (List.mem_cons_self _ _)
    simp only [List.cons_append, List.dropWhile_cons, hw, if_true]
    exact ih (fun c hc => hws c (List.mem_cons_of_mem _ hc))

theorem scan_sign_cases (l : List Char) :
    (scan_sign l = (false, l) ∧ ∀ c ∈ l.head?, c ≠ '-' ∧ c ≠ '+') ∨
      (∃ t, l = '+' :: t ∧ scan_sign l = (false, t)) ∨
      (∃ t, l = '-' :: t ∧ scan_sign l = (true, t)) := by
  cases l with
  | nil => exact Or.inl ⟨rfl, fun c hc => by simp at hc⟩
  | cons c cs =>
    by_cases h1 : c = '-'
    · subst h1
      exact Or.inr (Or.inr ⟨cs, rfl, by simp [scan_sign]⟩)
    · by_cases h2 : c = '+'
      · subst h2
        exact Or.inr (Or.inl ⟨cs, rfl, by simp [scan_sign]⟩)
      · refine Or.inl ⟨by simp [scan_sign, h1, h2], ?_⟩
        intro d hd
        simp only [List.head?_cons, Option.mem_def, Option.some.injEq] at hd
        subst hd
        exact ⟨h1, h2⟩

theorem scan_0x_cases (l : List Char) :
    scan_0x l = l ∨
      (∃ d ds, (hex_digit d).isSome = true ∧ scan_0x l = d :: ds ∧
        (l = '0' :: 'x' :: d :: ds ∨ l = '0' :: 'X' :: d :: ds)) := by
  match l with
  | [] => exact Or.inl rfl
  | [_] => exact Or.inl rfl
  | [_, _] => exact Or.inl rfl
  | c0 :: c1 :: c2 :: cs =>
    simp only [scan_0x]
    split_ifs with h
    · obtain ⟨rfl, h1, h2⟩ := h
      right
      refine ⟨c2, cs, h2, rfl, ?_⟩
      rcases h1 with rfl | rfl
      · exact Or.inl rfl
      · exact Or.inr rfl
    · exact Or.inl rfl

theorem scan_0x_digits (digits : List Char) (h : ∀ c ∈ digits, (hex_digit c).isSome = true) :
    scan_0x digits = digits := by
  match digits with
  | [] => rfl
  | [_] => rfl
  | [_, _] => rfl
  | c0 :: c1 :: c2 :: cs =>
    simp only [scan_0x]
    have h1 := h c1 (by simp)
    have hx : c1 ≠ 'x' := hex_ne_of_toNat c1 'x' h1 (by decide)
    have hX : c1 ≠ 'X' := hex_ne_of_toNat c1 'X' h1 (by decide)
    simp [hx, hX]

theorem strtoull_of_mask_string (hal : Hal) (s : List Char) (neg : Bool)
    (digits : List Char) (h : is_mask_string s neg digits) :
    (strtoull hal s).rest = [] ∧
    (strtoull hal s).errno = decide (U64 ≤ hex_value 0 digits) ∧
    (hex_value 0 digits < U64 →
      (strtoull hal s).value = signed_value neg (hex_value 0 digits)) := by
  obtain ⟨ws, sign, px, hs, hws, hsign, hpx, hne, hdig⟩ := h
  obtain ⟨d, ds, rfl⟩ := List.exists_cons_of_ne_nil hne
  have hd : (hex_digit d).isSome = true := hdig d (List.mem_cons_self _ _)
  have h0 : (hex_digit '0').isSome = true := by decide
  -- the characters after the optional `0x`
  have h3 : scan_0x (px ++ d :: ds) = d :: ds := by
    rcases hpx with rfl | rfl | rfl
    · exact scan_0x_digits _ hdig
    · simp [scan_0x, hd]
    · simp [scan_0x, hd]
  have hhead : ∀ c ∈ (px ++ d :: ds).head?, (hex_digit c).isSome = true := by
    intro c hc
    rcases hpx with rfl | rfl | rfl
    · simp at hc; subst hc; exact hd
    · simp at hc; subst hc; exact h0
    · simp at hc; subst hc; exact h0
  -- the sign
  have h2 : scan_sign (sign ++ (px ++ d :: ds)) = (neg, px ++ d :: ds) := by
    rcases hsign with ⟨rfl, rfl⟩ | ⟨rfl, rfl⟩ | ⟨rfl, rfl⟩
    · rcases scan_sign_cases (px ++ d :: ds) with ⟨h, -⟩ | ⟨t, ht, -⟩ | ⟨t, ht, -⟩
      · simpa using h
      · exfalso
        have := hhead '+' (by rw [ht]; simp)
        exact absurd this (by decide)
      · exfalso
        have := hhead '-' (by rw [ht]; simp)
        exact absurd this (by decide)
    · simp [scan_sign]
    · simp [scan_sign]
  -- the white space
  have h1 : (ws ++ (sign ++ (px ++ d :: ds))).dropWhile isspace = sign ++ (px ++ d :: ds) := by
    apply dropWhile_spaces _ _ hws
    intro c hc
    rcases hsign with ⟨rfl, rfl⟩ | ⟨rfl, rfl⟩ | ⟨rfl, rfl⟩
    · exact hex_not_space c (hhead c (by simpa using hc))
    · simp at hc; subst hc; decide
    · simp at hc; subst hc; decide
  have hsc := scan_hex_all (d :: ds) 0 hdig
  subst hs
  unfold strtoull
  rw [h1, h2]
  simp only [h3, hd, if_true, hsc]
  by_cases hov : U64 ≤ hex_value 0 (d :: ds)
  · rw [if_pos hov]
    exact ⟨rfl, by simp [hov], fun hlt => absurd hov (by omega)⟩
  · rw [if_neg hov]
    exact ⟨rfl, by simp [hov], fun _ => rfl⟩

theorem not_at_end_false (rest s : List Char) (h0 : ∀ c ∈ s, c.toNat ≠ 0)
    (hsuf : rest <:+ s) (h : not_at_end rest = false) : rest = [] := by
  cases rest with
  | nil => rfl
  | cons c cs =>
    exfalso
    have hc : c ∈ s := hsuf.subset (List.mem_cons_self _ _)
    simp only [not_at_end, bne_eq_false_iff_eq] at h
    exact h0 c hc h

theorem mask_string_of_strtoull (hal : Hal) (s : List Char) (h0 : ∀ c ∈ s, c.toNat ≠ 0)
    (hr : not_at_end (strtoull hal s).rest = false) (he : (strtoull hal s).errno = false) :
    (∃ neg digits, is_mask_string s neg digits ∧ hex_value 0 digits < U64) ∨
      (s = [] ∧ hal.strtoull_einval = false) := by
  have hnoconv : not_at_end s = false → s = [] :=
    not_at_end_false s s h0 (List.suffix_refl _)
  unfold strtoull at hr he
  cases hsg : scan_sign (s.dropWhile isspace) with
  | mk neg s2 =>
    rw [hsg] at hr he
    simp only at hr he
    cases hs3 : scan_0x s2 with
    | nil =>
      rw [hs3] at hr he
      simp only at hr he
      exact Or.inr ⟨hnoconv hr, he⟩
    | cons c cs =>
      rw [hs3] at hr he
      simp only at hr he
      by_cases hc : (hex_digit c).isSome = true
      · rw [if_pos hc] at hr he
        cases hsc : scan_hex 0 (c :: cs) with
        | mk v rest =>
          rw [hsc] at hr he
          simp only at hr he
          by_cases hov : U64 ≤ v
          · rw [if_pos hov] at he
            simp at he
          · rw [if_neg hov] at hr
            simp only at hr
            -- the pieces of the string
            have hbody : s = s.takeWhile isspace ++ s.dropWhile isspace :=
              (List.takeWhile_append_dropWhile _ _).symm
            have hsuf1 : s.dropWhile isspace <:+ s := List.dropWhile_suffix _
            have hsuf2 : s2 <:+ s.dropWhile isspace := by
              rcases scan_sign_cases (s.dropWhile isspace) with ⟨h, -⟩ | ⟨t, ht, h⟩ | ⟨t, ht, h⟩
              · rw [hsg] at h
                simp only [Prod.mk.injEq] at h
                rw [h.2]
              · rw [hsg] at h
                simp only [Prod.mk.injEq] at h
                rw [h.2, ht]
                exact List.suffix_cons _ _
              · rw [hsg] at h
                simp only [Prod.mk.injEq] at h
                rw [h.2, ht]
                exact List.suffix_cons _ _
            have hsuf3 : c :: cs <:+ s2 := by
              rcases scan_0x_cases s2 with h | ⟨d, ds, -, h, hl | hl⟩
              · rw [← hs3, h]
              · rw [hs3] at h
                rw [h, hl]
                exact ⟨['0', 'x'], rfl⟩
              · rw [hs3] at h
                rw [h, hl]
                exact ⟨['0', 'X'], rfl⟩
            have hrest : rest <:+ s := by
              have := scan_hex_suffix (c :: cs) 0
              rw [hsc] at this
              exact this.trans (hsuf3.trans (hsuf2.trans hsuf1))
            have hnil : rest = [] := not_at_end_false rest s h0 hrest hr
            have hall := scan_hex_nil (c :: cs) 0 (by rw [hsc]; exact hnil)
            rw [hsc] at hall
            simp only at hall
            left
            refine ⟨neg, c :: cs, ?_, by rw [← hall.2]; omega⟩
            have hpx : ∃ px, s2 = px ++ c :: cs ∧
                (px = [] ∨ px = ['0', 'x'] ∨ px = ['0', 'X']) := by
              rcases scan_0x_cases s2 with h | ⟨d, ds, -, h, hl | hl⟩
              · exact ⟨[], by rw [← hs3, h]; rfl, Or.inl rfl⟩
              · rw [hs3] at h
                exact ⟨['0', 'x'], by rw [h, hl]; rfl, Or.inr (Or.inl rfl)⟩
              · rw [hs3] at h
                exact ⟨['0', 'X'], by rw [h, hl]; rfl, Or.inr (Or.inr rfl)⟩
            obtain ⟨px, hpx1, hpx2⟩ := hpx
            have hsign : ∃ sign, s.dropWhile isspace = sign ++ s2 ∧
                ((sign = [] ∧ neg = false) ∨ (sign = ['+'] ∧ neg = false) ∨
                  (sign = ['-'] ∧ neg = true)) := by
              rcases scan_sign_cases (s.dropWhile isspace) with ⟨h, -⟩ | ⟨t, ht, h⟩ | ⟨t, ht, h⟩
              · rw [hsg] at h
                simp only [Prod.mk.injEq] at h
                exact ⟨[], by rw [h.2]; rfl, Or.inl ⟨rfl, h.1⟩⟩
              · rw [hsg] at h
                simp only [Prod.mk.injEq] at h
                exact ⟨['+'], by rw [h.2, ht]; rfl, Or.inr (Or.inl ⟨rfl, h.1⟩)⟩
              · rw [hsg] at h
                simp only [Prod.mk.injEq] at h
                exact ⟨['-'], by rw [h.2, ht]; rfl, Or.inr (Or.inr ⟨rfl, h.1⟩)⟩
            obtain ⟨sign, hsign1, hsign2⟩ := hsign
            refine ⟨s.takeWhile isspace, sign, px, ?_, ?_, hsign2, hpx2,
              List.cons_ne_nil _ _, hall.1⟩
            · rw [← hpx1, ← hsign1]
              exact hbody
            · intro x hx
              exact (List.mem_takeWhile_imp hx)
      · rw [if_neg hc] at hr he
        exact Or.inr ⟨hnoconv hr, he⟩

/-! ## The master lcore in the core mask -/

theorem option_map_fst_some {α β : Type} (o : Option (α × β)) (a : α)
    (h : o.map Prod.fst = some a) : ∃ b, o = some (a, b) := by
  cases o with
  | none => simp at h
  | some r =>
    obtain ⟨x, y⟩ := r
    simp only [Option.map_some', Option.some.injEq] at h
    subst h
    exact ⟨y, rfl⟩

theorem foldl_or_bit64_testBit (l : List Nat) (j : Nat) (hj : j < 64) :
    ∀ acc, (acc.testBit j = true ∨ j ∈ l) →
      (l.foldl (fun m i => m ||| bit64 i) acc).testBit j = true := by
  induction l with
  | nil =>
    intro acc h
    rcases h with h | h
    · exact h
    · simp at h
  | cons i rest ih =>
    intro acc h
    simp only [List.foldl_cons]
    apply ih
    rcases h with h | h
    · left
      rw [Nat.testBit_or, h]
      rfl
    · rcases List.mem_cons.1 h with rfl | h
      · left
        rw [Nat.testBit_or, bit64_eq j hj, Nat.testBit_two_pow_self]
        simp
      · exact Or.inr h

theorem mem_RTE_LCORE_FOREACH (hal : Hal) (i : Nat) :
    i ∈ RTE_LCORE_FOREACH hal ↔ i < hal.RTE_MAX_LCORE ∧ hal.rte_lcore_is_enabled i = true := by
  simp [RTE_LCORE_FOREACH, List.mem_filter, List.mem_range]

theorem parse_mask_ok_master (hal : Hal) (mask : Option (List Char)) (s : State)
    (hm : mask = none → hal.rte_lcore_is_enabled hal.rte_get_master_lcore = true ∧
      hal.rte_get_master_lcore < hal.RTE_MAX_LCORE ∧ hal.rte_get_master_lcore < 64)
    (h : (spdk_reactor_parse_mask hal mask s).1 = 0) :
    (spdk_reactor_parse_mask hal mask s).2.g_reactor_mask
      &&& bit64 hal.rte_get_master_lcore ≠ 0 := by
  unfold spdk_reactor_parse_mask at h ⊢
  split_ifs at h ⊢ with h1
  · simp at h
  · cases mask with
    | none =>
      obtain ⟨he, hlt, h64⟩ := hm rfl
      simp only
      rw [and_bit64_ne_zero _ _ h64]
      apply foldl_or_bit64_testBit _ _ h64
      right
      exact (mem_RTE_LCORE_FOREACH hal _).2 ⟨hlt, he⟩
    | some m =>
      simp only at h ⊢
      split_ifs at h ⊢ with h2 h3
      · exact absurd h h2
      · simp at h
      · exact h3

theorem init_ok_parse (hal : Hal) (mask : Option (List Char)) (s s1 : State)
    (h : spdk_reactors_init hal mask s = some (0, s1)) :
    (spdk_reactor_parse_mask hal mask s).1 = 0 ∧
    s1.g_reactor_mask = (spdk_reactor_parse_mask hal mask s).2.g_reactor_mask ∧
    s1.g_reactor_state = SPDK_REACTOR_STATE_INITIALIZED := by
  have hst := init_state hal mask s s1 0 h
  have hinit : s1.g_reactor_state = SPDK_REACTOR_STATE_INITIALIZED := by
    rcases hst with ⟨-, -, h3⟩ | ⟨h1, -⟩
    · exact h3
    · simp at h1
  unfold spdk_reactors_init at h
  cases hp : spdk_reactor_parse_mask hal mask s with
  | mk rc0 s0 =>
    rw [hp] at h
    simp only at h ⊢
    split_ifs at h with hrc
    · simp only [Option.some.injEq, Prod.mk.injEq] at h
      omega
    · have hrc0 : rc0 = 0 := by
        have h01 := parse_mask_rc hal mask s
        rw [hp] at h01
        simp only at h01
        omega
      refine ⟨hrc0, ?_, hinit⟩
      split at h
      · simp at h
      · rename_i s2 hc
        obtain ⟨-, hc2, -⟩ := construct_reactors_frame hal _ s0 s2 hc
        have hm := create_mempools_frame hal (spdk_reactor_get_socket_mask hal s2)
          (count_sockets (spdk_reactor_get_socket_mask hal s2)) (List.range 64) s2
        split at h
        · simp only [Option.some.injEq, Prod.mk.injEq] at h
          omega
        · rename_i s3 hcm
          simp only [Option.some.injEq, Prod.mk.injEq] at h
          rw [← h.2]
          rw [hcm] at hm
          simp only at hm ⊢
          rw [hm.2.1, hc2]

/-! ## Events stay with the reactor they name -/

theorem queues_affine_congr (s s1 : State)
    (h : ∀ c, (s1.g_reactors c).events = (s.g_reactors c).events)
    (ha : queues_affine s) : queues_affine s1 := by
  intro c ring hr e he
  rw [h c] at hr
  exact ha c ring hr e he

theorem spdk_event_call_effect (hal : Hal) (e : spdk_event) (s s1 : State)
    (h : spdk_event_call hal e s = some s1) :
    ∃ ring, (s.g_reactors e.lcore).events = some ring ∧
      (s1.g_reactors e.lcore).events = some { ring with items := ring.items ++ [e] } ∧
      ∀ c, c ≠ e.lcore → s1.g_reactors c = s.g_reactors c := by
  unfold spdk_event_call at h
  simp only [spdk_reactor_get] at h
  cases hr : (s.g_reactors e.lcore).events with
  | none => rw [hr] at h; simp at h
  | some ring =>
    rw [hr] at h
    simp only [rte_ring_enqueue] at h
    split_ifs at h with hcap
    simp only [Option.some.injEq] at h
    subst h
    refine ⟨ring, rfl, by simp [State.set_reactor], ?_⟩
    intro c hc
    simp [State.set_reactor, Function.update_noteq hc]

theorem spdk_event_call_returns (hal : Hal) (e : spdk_event) (s : State) (ring : rte_ring)
    (hr : (s.g_reactors e.lcore).events = some ring)
    (hcap : rte_ring_count ring < hal.ring_capacity) :
    (spdk_event_call hal e s).isSome = true := by
  simp [spdk_event_call, spdk_reactor_get, hr, rte_ring_enqueue, hcap]

theorem spdk_event_call_affine (hal : Hal) (e : spdk_event) (s s1 : State)
    (h : spdk_event_call hal e s = some s1) (ha : queues_affine s) : queues_affine s1 := by
  obtain ⟨ring, h1, h2, h3⟩ := spdk_event_call_effect hal e s s1 h
  intro c ring1 hr x hx
  by_cases hc : c = e.lcore
  · subst hc
    rw [h2] at hr
    simp only [Option.some.injEq] at hr
    subst hr
    simp only [List.mem_append, List.mem_singleton] at hx
    rcases hx with hx | rfl
    · exact ha _ ring h1 x hx
    · rfl
  · rw [h3 c hc] at hr
    exact ha c ring1 hr x hx

theorem call_next_affine (hal : Hal) (next : Option spdk_event) (s s1 : State)
    (h : call_next hal next s = some s1) (ha : queues_affine s) : queues_affine s1 := by
  cases next with
  | none =>
    simp only [call_next, Option.some.injEq] at h
    subst h
    exact ha
  | some e => exact spdk_event_call_affine hal e s s1 h ha

theorem add_poller_affine (hal : Hal) (event : spdk_event) (s s1 : State)
    (h : _spdk_event_add_poller hal event s = some s1) (ha : queues_affine s) :
    queues_affine s1 := by
  unfold _spdk_event_add_poller at h
  refine call_next_affine hal _ _ s1 h (queues_affine_congr s _ ?_ ha)
  intro c
  split_ifs
  · rw [insert_timer_events]
    rfl
  · exact set_reactor_events _ _ _ (by rfl) c

theorem remove_poller_affine (hal : Hal) (event : spdk_event) (s s1 : State)
    (h : _spdk_event_remove_poller hal event s = some s1) (ha : queues_affine s) :
    queues_affine s1 := by
  obtain ⟨-, h⟩ := remove_poller_some hal event s s1 h
  unfold remove_poller_unlinked at h
  refine call_next_affine hal _ _ s1 h (queues_affine_congr s _ ?_ ha)
  intro c
  split_ifs
  · exact set_reactor_events _ _ _ (by rfl) c
  · exact set_reactor_events _ _ _ (by rfl) c

theorem poller_register_affine (hal : Hal) (poller lcore : Nat)
    (complete : Option spdk_event) (s s1 : State)
    (h : _spdk_poller_register hal poller lcore complete s = some s1)
    (ha : queues_affine s) : queues_affine s1 := by
  unfold _spdk_poller_register at h
  split at h
  · simp at h
  · rename_i e s0 hal0
    obtain ⟨-, hg, -⟩ := spdk_event_allocate_frame _ _ _ _ _ _ _ _ _ hal0
    exact spdk_event_call_affine hal e s0 s1 h
      (queues_affine_congr s s0 (fun c => by rw [hg]) ha)

theorem event_invoke_affine (cb : Callbacks) (hal : Hal) (cur : Nat) (event : spdk_event)
    (s s1 : State) (hcb : callbacks_keep_affine cb)
    (h : event_invoke cb hal cur event s = some s1) (ha : queues_affine s) :
    queues_affine s1 := by
  unfold event_invoke at h
  split at h
  · exact add_poller_affine hal event s s1 h ha
  · exact remove_poller_affine hal event s s1 h ha
  · exact poller_register_affine hal _ _ _ s s1 h ha
  · exact hcb.1 _ _ _ _ _ h ha

theorem run_single_affine (cb : Callbacks) (hal : Hal) (cur lcore : Nat) (s s1 : State)
    (t : List Invocation) (hcb : callbacks_keep_affine cb)
    (h : spdk_event_queue_run_single cb hal cur lcore s = some (s1, t))
    (ha : queues_affine s) :
    queues_affine s1 ∧ ∀ c e, Invocation.event c e ∈ t → c = cur ∧ e.lcore = lcore := by
  unfold spdk_event_queue_run_single at h
  simp only [spdk_reactor_get] at h
  cases hr : (s.g_reactors lcore).events with
  | none => rw [hr] at h; simp at h
  | some ring =>
    rw [hr] at h
    simp only [rte_ring_dequeue] at h
    cases hcont : ring.content with
    | nil =>
      rw [hcont] at h
      simp only [Option.some.injEq, Prod.mk.injEq] at h
      obtain ⟨rfl, rfl⟩ := h
      exact ⟨ha, fun c e he => by simp at he⟩
    | cons ev rest =>
      rw [hcont] at h
      simp only at h
      have hev : ev.lcore = lcore := by
        apply ha lcore ring hr
        have : ev ∈ ring.content := by rw [hcont]; exact List.mem_cons_self _ _
        exact List.mem_of_mem_drop this
      have ha0 : queues_affine (s.set_reactor lcore
          { s.g_reactors lcore with events := some { ring with cons := ring.cons + 1 } }) := by
        intro c ring1 hr1 x hx
        by_cases hc : c = lcore
        · subst hc
          simp only [State.set_reactor, Function.update_same, Option.some.injEq] at hr1
          subst hr1
          exact ha c ring hr x hx
        · simp only [State.set_reactor, Function.update_noteq hc] at hr1
          exact ha c ring1 hr1 x hx
      split at h
      · simp at h
      · rename_i s2 hi
        split at h
        · simp at h
        · rename_i s3 hf
          simp only [Option.some.injEq, Prod.mk.injEq] at h
          obtain ⟨rfl, rfl⟩ := h
          have ha2 := event_invoke_affine cb hal cur ev _ s2 hcb hi ha0
          obtain ⟨hg, -⟩ := spdk_event_free_frame hal lcore s2 s3 hf
          refine ⟨queues_affine_congr s2 s3 (fun c => by rw [hg]) ha2, ?_⟩
          intro c e he
          simp only [List.mem_singleton, Invocation.event.injEq] at he
          obtain ⟨rfl, rfl⟩ := he
          exact ⟨rfl, hev⟩

theorem run_affine (cb : Callbacks) (hal : Hal) (cur lcore : Nat)
    (hcb : callbacks_keep_affine cb) (count : Nat) :
    ∀ (s s1 : State) (t : List Invocation),
      spdk_event_queue_run cb hal cur lcore count s = some (s1, t) → queues_affine s →
      queues_affine s1 ∧ ∀ c e, Invocation.event c e ∈ t → c = cur ∧ e.lcore = lcore := by
  induction count with
  | zero =>
    intro s s1 t h ha
    simp only [spdk_event_queue_run, Option.some.injEq, Prod.mk.injEq] at h
    obtain ⟨rfl, rfl⟩ := h
    exact ⟨ha, fun c e he => by simp at he⟩
  | succ n ih =>
    intro s s1 t h ha
    simp only [spdk_event_queue_run] at h
    split at h
    · simp at h
    · rename_i sa ta h1
      split at h
      · simp at h
      · rename_i sb tb h2
        simp only [Option.some.injEq, Prod.mk.injEq] at h
        obtain ⟨rfl, rfl⟩ := h
        obtain ⟨a1, b1⟩ := run_single_affine cb hal cur lcore s sa ta hcb h1 ha
        obtain ⟨a2, b2⟩ := ih sa sb tb h2 a1
        refine ⟨a2, ?_⟩
        intro c e he
        rcases List.mem_append.1 he with he | he
        · exact b1 c e he
        · exact b2 c e he

theorem active_poller_step_affine (cb : Callbacks) (cur reactor : Nat) (s s1 : State)
    (t : List Invocation) (hcb : callbacks_keep_affine cb)
    (h : active_poller_step cb cur reactor s = some (s1, t)) (ha : queues_affine s) :
    queues_affine s1 ∧ ∀ c e, Invocation.event c e ∉ t := by
  unfold active_poller_step at h
  split at h
  · simp only [Option.some.injEq, Prod.mk.injEq] at h
    obtain ⟨rfl, rfl⟩ := h
    exact ⟨ha, fun c e he => by simp at he⟩
  · simp only at h
    split at h
    · simp at h
    · split at h
      · simp at h
      · rename_i s2 h2
        simp only [Option.some.injEq, Prod.mk.injEq] at h
        obtain ⟨rfl, rfl⟩ := h
        have ha1 := hcb.2 _ _ _ _ _ h2
          (queues_affine_congr s _ (set_reactor_events _ _ _ (by rfl)) ha)
        exact ⟨queues_affine_congr s2 _ (set_reactor_events _ _ _ (by rfl)) ha1,
          fun c e he => by simp at he⟩

theorem timer_poller_step_affine (cb : Callbacks) (cur reactor : Nat) (s s1 : State)
    (t : List Invocation) (hcb : callbacks_keep_affine cb)
    (h : timer_poller_step cb cur reactor s = some (s1, t)) (ha : queues_affine s) :
    queues_affine s1 ∧ ∀ c e, Invocation.event c e ∉ t := by
  unfold timer_poller_step at h
  split at h
  · simp only [Option.some.injEq, Prod.mk.injEq] at h
    obtain ⟨rfl, rfl⟩ := h
    exact ⟨ha, fun c e he => by simp at he⟩
  · simp only at h
    split_ifs at h
    · split at h
      · simp at h
      · split at h
        · simp at h
        · rename_i s2 h2
          simp only [Option.some.injEq, Prod.mk.injEq] at h
          obtain ⟨rfl, rfl⟩ := h
          have ha1 := hcb.2 _ _ _ _ _ h2
            (queues_affine_congr s _ (set_reactor_events _ _ _ (by rfl)) ha)
          exact ⟨queues_affine_congr s2 _ (insert_timer_events _ _ _ _) ha1,
            fun c e he => by simp at he⟩
    · simp only [Option.some.injEq, Prod.mk.injEq] at h
      obtain ⟨rfl, rfl⟩ := h
      exact ⟨ha, fun c e he => by simp at he⟩

theorem reactor_iteration_affine (cb : Callbacks) (hal : Hal) (cur reactor : Nat)
    (s s1 : State) (t : List Invocation) (hcb : callbacks_keep_affine cb)
    (h : reactor_iteration cb hal cur reactor s = some (s1, t)) (ha : queues_affine s) :
    queues_affine s1 ∧ ∀ c e, Invocation.event c e ∈ t → c = cur ∧ e.lcore = cur := by
  unfold reactor_iteration at h
  split at h
  · simp at h
  · rename_i sa ta h1
    split at h
    · simp at h
    · rename_i sb tb h2
      split at h
      · simp at h
      · rename_i sc tc h3
        simp only [Option.some.injEq, Prod.mk.injEq] at h
        obtain ⟨rfl, rfl⟩ := h
        obtain ⟨a1, b1⟩ := run_affine cb hal cur cur hcb _ s sa ta h1 ha
        obtain ⟨a2, b2⟩ := active_poller_step_affine cb cur reactor sa sb tb hcb h2 a1
        obtain ⟨a3, b3⟩ := timer_poller_step_affine cb cur reactor sb sc tc hcb h3 a2
        refine ⟨a3, ?_⟩
        intro c e he
        rcases List.mem_append.1 he with he | he
        · rcases List.mem_append.1 he with he | he
          · exact b1 c e he
          · exact absurd he (b2 c e)
        · exact absurd he (b3 c e)

theorem start_step_affine (cb : Callbacks) (hal : Hal) (cur : Nat) (who : Option Nat)
    (c c1 : start_config) (hcb : callbacks_keep_affine cb)
    (h : start_step cb hal cur who c = some c1)
    (ha : queues_affine c.s ∧ events_on_own_lcore c.log) :
    queues_affine c1.s ∧ events_on_own_lcore c1.log := by
  obtain ⟨ha, hl⟩ := ha
  unfold start_step at h
  split at h
  · split at h
    · split at h
      · simp at h
      · rename_i sa ta hi
        simp only [Option.some.injEq] at h
        subst h
        obtain ⟨a1, b1⟩ := reactor_iteration_affine cb hal cur _ c.s sa ta hcb hi ha
        refine ⟨a1, ?_⟩
        intro x e he
        rcases List.mem_append.1 he with he | he
        · exact hl x e he
        · obtain ⟨rfl, h2⟩ := b1 x e he
          exact h2
    · split at h
      · simp only [Option.some.injEq] at h
        subst h
        exact ⟨ha, hl⟩
      · simp only [Option.some.injEq] at h
        subst h
        unfold spdk_reactor_start
        simp only
        split_ifs <;> exact ⟨ha, hl⟩
  · split at h
    · simp only [Option.some.injEq] at h
      subst h
      exact ⟨ha, hl⟩
    · split at h
      · simp at h
      · rename_i th hfind sa ta hi
        simp only [Option.some.injEq] at h
        subst h
        obtain ⟨a1, b1⟩ := reactor_iteration_affine cb hal _ _ c.s sa ta hcb hi ha
        refine ⟨a1, ?_⟩
        intro x e he
        rcases List.mem_append.1 he with he | he
        · exact hl x e he
        · obtain ⟨rfl, h2⟩ := b1 x e he
          exact h2

theorem start_steps_affine (cb : Callbacks) (hal : Hal) (cur : Nat)
    (hcb : callbacks_keep_affine cb) (sched : List (Option Nat)) :
    ∀ c c1, start_steps cb hal cur sched c = some c1 →
      queues_affine c.s ∧ events_on_own_lcore c.log →
      queues_affine c1.s ∧ events_on_own_lcore c1.log := by
  induction sched with
  | nil =>
    intro c c1 h ha
    simp only [start_steps, Option.some.injEq] at h
    subst h
    exact ha
  | cons who rest ih =>
    intro c c1 h ha
    simp only [start_steps] at h
    split at h
    · simp at h
    · rename_i c0 h0
      exact ih c0 c1 h (start_step_affine cb hal cur who c c0 hcb h0 ha)

/-! ## Allocation, release and enqueueing, step by step -/

theorem spdk_event_allocate_eq (hal : Hal) (lcore : Nat) (fn : spdk_event_fn)
    (arg1 arg2 : Nat) (next : Option spdk_event) (s : State) (pool : rte_mempool)
    (h1 : hal.rte_lcore_to_socket_id lcore % 256 < 64)
    (h2 : s.g_spdk_event_mempool (hal.rte_lcore_to_socket_id lcore % 256) = some pool)
    (h3 : 0 < pool.avail) :
    spdk_event_allocate hal lcore fn arg1 arg2 next s =
      some ({ lcore := lcore, fn := fn, arg1 := arg1, arg2 := arg2, next := next },
        s.set_mempool (hal.rte_lcore_to_socket_id lcore % 256)
          (some { pool with avail := pool.avail - 1 })) := by
  simp [spdk_event_allocate, h1, h2, h3]

theorem spdk_event_free_eq (hal : Hal) (lcore : Nat) (s : State) (pool : rte_mempool)
    (h1 : hal.rte_lcore_to_socket_id lcore % 256 < 64)
    (h2 : s.g_spdk_event_mempool (hal.rte_lcore_to_socket_id lcore % 256) = some pool) :
    spdk_event_free hal lcore s =
      some (s.set_mempool (hal.rte_lcore_to_socket_id lcore % 256)
        (some { pool with avail := pool.avail + 1 })) := by
  simp [spdk_event_free, h1, h2]

theorem spdk_event_call_eq (hal : Hal) (e : spdk_event) (s : State) (ring : rte_ring)
    (h1 : (s.g_reactors e.lcore).events = some ring)
    (h2 : rte_ring_count ring < hal.ring_capacity) :
    spdk_event_call hal e s =
      some (s.set_reactor e.lcore
        { s.g_reactors e.lcore with
          events := some { ring with items := ring.items ++ [e] } }) := by
  simp [spdk_event_call, spdk_reactor_get, h1, rte_ring_enqueue, h2]

theorem poller_register_returns (hal : Hal) (poller lcore : Nat)
    (complete : Option spdk_event) (s : State)
    (ha : can_allocate hal lcore 0 s) (he : can_enqueue hal lcore s) :
    ∃ s1, _spdk_poller_register hal poller lcore complete s = some s1 := by
  obtain ⟨h1, pool, h2, h3⟩ := ha
  obtain ⟨ring, h4, h5⟩ := he
  unfold _spdk_poller_register
  rw [spdk_event_allocate_eq hal lcore _ _ _ _ s pool h1 h2 h3]
  simp only
  rw [spdk_event_call_eq hal _ _ ring (by simpa [State.set_mempool] using h4) h5]
  exact ⟨_, rfl⟩

/-! ## The socket mask and the event pools -/

theorem insert_timer_scan_perm (P : Nat → spdk_poller) (t p : Nat) (l : List Nat) :
    (insert_timer_scan P t p l).Perm (p :: l) := by
  induction l with
  | nil => simp [insert_timer_scan]
  | cons iter rest ih =>
    unfold insert_timer_scan
    split_ifs with h
    · exact List.Perm.refl _
    · exact ((List.Perm.cons iter ih).trans (List.Perm.swap p iter rest))

theorem insert_timer_perm (reactor poller now : Nat) (s : State) :
    ((spdk_poller_insert_timer reactor poller now s).g_reactors reactor).timer_pollers.Perm
      (poller :: (s.g_reactors reactor).timer_pollers) := by
  rw [insert_timer_pollers]
  refine (List.reverse_perm _).trans ((insert_timer_scan_perm _ _ _ _).trans ?_)
  exact List.Perm.cons _ (List.reverse_perm _)

theorem insert_timer_reactor_other (reactor poller now : Nat) (s : State) (j : Nat)
    (hj : j ≠ reactor) :
    (spdk_poller_insert_timer reactor poller now s).g_reactors j = s.g_reactors j := by
  simp [spdk_poller_insert_timer, State.set_reactor, State.set_poller,
    Function.update_noteq hj]

theorem insert_timer_lcore (reactor poller now : Nat) (s : State) (j : Nat) :
    ((spdk_poller_insert_timer reactor poller now s).g_reactors j).lcore =
      (s.g_reactors j).lcore := by
  by_cases hj : j = reactor
  · subst hj
    simp [spdk_poller_insert_timer, State.set_reactor, State.set_poller]
  · rw [insert_timer_reactor_other _ _ _ _ _ hj]

theorem insert_timer_fields (reactor poller now : Nat) (s : State) :
    ((spdk_poller_insert_timer reactor poller now s).pollers poller).lcore =
        (s.pollers poller).lcore ∧
    ((spdk_poller_insert_timer reactor poller now s).pollers poller).period_ticks =
        (s.pollers poller).period_ticks ∧
    ((spdk_poller_insert_timer reactor poller now s).pollers poller).fn =
        (s.pollers poller).fn ∧
    ((spdk_poller_insert_timer reactor poller now s).pollers poller).arg =
        (s.pollers poller).arg := by
  simp [spdk_poller_insert_timer, State.set_reactor, State.set_poller]

/-- The state `_spdk_event_add_poller` reaches before `if (next)`. -/
theorem add_poller_effect (hal : Hal) (event : spdk_event) (s : State) :
    ∃ s3, _spdk_event_add_poller hal event s = call_next hal event.next s3 ∧
      (s3.pollers event.arg2).lcore = (s.g_reactors event.arg1).lcore ∧
      (s3.pollers event.arg2).period_ticks = (s.pollers event.arg2).period_ticks ∧
      (∀ q, q ≠ event.arg2 → s3.pollers q = s.pollers q) ∧
      (∀ j, (s3.g_reactors j).events = (s.g_reactors j).events) ∧
      (∀ j, (s3.g_reactors j).lcore = (s.g_reactors j).lcore) ∧
      (∀ j, j ≠ event.arg1 → s3.g_reactors j = s.g_reactors j) ∧
      s3.g_spdk_event_mempool = s.g_spdk_event_mempool ∧
      s3.g_reactor_mask = s.g_reactor_mask ∧
      s3.g_reactor_state = s.g_reactor_state ∧
      s3.timer_cycles = s.timer_cycles ∧
      ((s.pollers event.arg2).period_ticks ≠ 0 →
        (s3.g_reactors event.arg1).timer_pollers.Perm
          (event.arg2 :: (s.g_reactors event.arg1).timer_pollers) ∧
        (s3.pollers event.arg2).next_run_tick =
          (s.timer_cycles + (s.pollers event.arg2).period_ticks) % U64 ∧
        (s3.g_reactors event.arg1).active_pollers =
          (s.g_reactors event.arg1).active_pollers) ∧
      ((s.pollers event.arg2).period_ticks = 0 →
        (s3.g_reactors event.arg1).active_pollers =
          (s.g_reactors event.arg1).active_pollers ++ [event.arg2] ∧
        (s3.g_reactors event.arg1).timer_pollers =
          (s.g_reactors event.arg1).timer_pollers) := by
  unfold _spdk_event_add_poller
  by_cases hper : (s.pollers event.arg2).period_ticks = 0
  · have hper1 : ((s.set_poller event.arg2
        { s.pollers event.arg2 with lcore := (s.g_reactors event.arg1).lcore }).pollers
        event.arg2).period_ticks = 0 := by
      simp [State.set_poller, hper]
    simp only [hper1, ne_eq, not_true_eq_false, if_false]
    refine ⟨_, rfl, ?_, ?_, ?_, ?_, ?_, ?_, rfl, rfl, rfl, rfl, ?_, ?_⟩
    · simp [State.set_poller, State.set_reactor]
    · simp [State.set_poller, State.set_reactor]
    · intro q hq
      simp [State.set_poller, State.set_reactor, Function.update_noteq hq]
    · intro j
      exact set_reactor_events _ _ _ (by rfl) j
    · intro j
      by_cases hj : j = event.arg1
      · subst hj; simp [State.set_poller, State.set_reactor]
      · simp [State.set_poller, State.set_reactor, Function.update_noteq hj]
    · intro j hj
      simp [State.set_poller, State.set_reactor, Function.update_noteq hj]
    · intro h; exact absurd hper h
    · intro _
      simp [State.set_poller, State.set_reactor, TAILQ_INSERT_TAIL]
  · have hper1 : ((s.set_poller event.arg2
        { s.pollers event.arg2 with lcore := (s.g_reactors event.arg1).lcore }).pollers
        event.arg2).period_ticks ≠ 0 := by
      simpa [State.set_poller] using hper
    simp only [hper1, ne_eq, not_false_eq_true, if_true]
    refine ⟨_, rfl, ?_, ?_, ?_, ?_, ?_, ?_, ?_, ?_, ?_, ?_, ?_, ?_⟩
    · rw [(insert_timer_fields _ _ _ _).1]
      simp [State.set_poller]
    · rw [(insert_timer_fields _ _ _ _).2.1]
      simp [State.set_poller]
    · intro q hq
      rw [insert_timer_other _ _ _ _ _ hq]
      simp [State.set_poller, Function.update_noteq hq]
    · intro j
      rw [insert_timer_events]
      rfl
    · intro j
      rw [insert_timer_lcore]
      rfl
    · intro j hj
      rw [insert_timer_reactor_other _ _ _ _ _ hj]
      rfl
    · simp [spdk_poller_insert_timer, State.set_reactor, State.set_poller]
    · simp [spdk_poller_insert_timer, State.set_reactor, State.set_poller]
    · simp [spdk_poller_insert_timer, State.set_reactor, State.set_poller]
    · simp [spdk_poller_insert_timer, State.set_reactor, State.set_poller]
    · intro _
      refine ⟨?_, ?_, ?_⟩
      · exact insert_timer_perm _ _ _ _
      · rw [insert_timer_tick]
        simp [State.set_poller]
      · rw [insert_timer_active]
        rfl
    · intro h; exact absurd h hper

/-- The state `_spdk_event_remove_poller` reaches before `if (next)`. -/
theorem remove_poller_effect (hal : Hal) (event : spdk_event) (s : State)
    (hl : remove_linked event s) :
    ∃ s3, _spdk_event_remove_poller hal event s = call_next hal event.next s3 ∧
      s3.pollers = s.pollers ∧
      (∀ j, (s3.g_reactors j).events = (s.g_reactors j).events) ∧
      (∀ j, (s3.g_reactors j).lcore = (s.g_reactors j).lcore) ∧
      (∀ j, j ≠ event.arg1 → s3.g_reactors j = s.g_reactors j) ∧
      s3.g_spdk_event_mempool = s.g_spdk_event_mempool ∧
      s3.g_reactor_mask = s.g_reactor_mask ∧
      s3.g_reactor_state = s.g_reactor_state ∧
      s3.timer_cycles = s.timer_cycles ∧
      ((s.pollers event.arg2).period_ticks ≠ 0 →
        (s3.g_reactors event.arg1).timer_pollers =
          (s.g_reactors event.arg1).timer_pollers.erase event.arg2 ∧
        (s3.g_reactors event.arg1).active_pollers =
          (s.g_reactors event.arg1).active_pollers) ∧
      ((s.pollers event.arg2).period_ticks = 0 →
        (s3.g_reactors event.arg1).active_pollers =
          (s.g_reactors event.arg1).active_pollers.erase event.arg2 ∧
        (s3.g_reactors event.arg1).timer_pollers =
          (s.g_reactors event.arg1).timer_pollers) := by
  rw [remove_poller_eq hal event s hl]
  unfold remove_poller_unlinked
  by_cases hper : (s.pollers event.arg2).period_ticks = 0
  · simp only [hper, ne_eq, not_true_eq_false, if_false]
    refine ⟨_, rfl, rfl, ?_, ?_, ?_, rfl, rfl, rfl, rfl, ?_, ?_⟩
    · intro j
      exact set_reactor_events _ _ _ (by rfl) j
    · intro j
      by_cases hj : j = event.arg1
      · subst hj; simp [State.set_reactor]
      · simp [State.set_reactor, Function.update_noteq hj]
    · intro j hj
      simp [State.set_reactor, Function.update_noteq hj]
    · intro h; exact h.elim
    · intro _
      simp [State.set_reactor, TAILQ_REMOVE]
  · simp only [hper, ne_eq, not_false_eq_true, if_true]
    refine ⟨_, rfl, rfl, ?_, ?_, ?_, rfl, rfl, rfl, rfl, ?_, ?_⟩
    · intro j
      exact set_reactor_events _ _ _ (by rfl) j
    · intro j
      by_cases hj : j = event.arg1
      · subst hj; simp [State.set_reactor]
      · simp [State.set_reactor, Function.update_noteq hj]
    · intro j hj
      simp [State.set_reactor, Function.update_noteq hj]
    · intro _
      simp [State.set_reactor, TAILQ_REMOVE]
    · intro h; exact h.elim

/-- What `spdk_event_call` does when the destination queue has room. -/
theorem spdk_event_call_room (hal : Hal) (e : spdk_event) (s : State)
    (he : can_enqueue hal e.lcore s) :
    ∃ ring s1, (s.g_reactors e.lcore).events = some ring ∧
      spdk_event_call hal e s = some s1 ∧
      (s1.g_reactors e.lcore).events = some { ring with items := ring.items ++ [e] } ∧
      (∀ j, j ≠ e.lcore → s1.g_reactors j = s.g_reactors j) ∧
      (∀ j, (s1.g_reactors j).active_pollers = (s.g_reactors j).active_pollers ∧
        (s1.g_reactors j).timer_pollers = (s.g_reactors j).timer_pollers ∧
        (s1.g_reactors j).lcore = (s.g_reactors j).lcore) ∧
      s1.pollers = s.pollers ∧ s1.g_spdk_event_mempool = s.g_spdk_event_mempool ∧
      s1.g_reactor_mask = s.g_reactor_mask ∧ s1.g_reactor_state = s.g_reactor_state ∧
      s1.timer_cycles = s.timer_cycles := by
  obtain ⟨ring, h1, h2⟩ := he
  have h := spdk_event_call_eq hal e s ring h1 h2
  obtain ⟨hp, hr, hst, hm, -, hpool, ht⟩ := spdk_event_call_frame hal e s _ h
  refine ⟨ring, _, h1, h, ?_, ?_, ?_, hp, hpool, hm, hst, ht⟩
  · simp [State.set_reactor]
  · intro j hj
    simp [State.set_reactor, Function.update_noteq hj]
  · intro j
    exact ⟨(hr j).2.1, (hr j).1, (hr j).2.2⟩

/-- What `_spdk_poller_register` does when the pool has an event and the queue has room. -/
theorem poller_register_eq (hal : Hal) (poller lcore : Nat) (complete : Option spdk_event)
    (s : State) (pool : rte_mempool) (ring : rte_ring)
    (h1 : hal.rte_lcore_to_socket_id lcore % 256 < 64)
    (h2 : s.g_spdk_event_mempool (hal.rte_lcore_to_socket_id lcore % 256) = some pool)
    (h3 : 0 < pool.avail)
    (h4 : (s.g_reactors lcore).events = some ring)
    (h5 : rte_ring_count ring < hal.ring_capacity) :
    _spdk_poller_register hal poller lcore complete s =
      some ((s.set_mempool (hal.rte_lcore_to_socket_id lcore % 256)
          (some { pool with avail := pool.avail - 1 })).set_reactor lcore
        { s.g_reactors lcore with
          events := some ⟨ring.items ++
            [{ lcore := lcore, fn := spdk_event_fn._spdk_event_add_poller, arg1 := lcore,
               arg2 := poller, next := complete }], ring.cons⟩ }) := by
  unfold _spdk_poller_register
  rw [spdk_event_allocate_eq hal lcore _ _ _ _ s pool h1 h2 h3]
  simp only
  rw [spdk_event_call_eq hal _ _ ring (by simpa [State.set_mempool] using h4) h5]
  rfl

theorem allocate_step (hal : Hal) (lcore : Nat) (fn : spdk_event_fn) (arg1 arg2 : Nat)
    (next : Option spdk_event) (s : State) (h : can_allocate hal lcore 0 s) :
    ∃ s1, spdk_event_allocate hal lcore fn arg1 arg2 next s =
        some ({ lcore := lcore, fn := fn, arg1 := arg1, arg2 := arg2, next := next }, s1) ∧
      s1.g_reactors = s.g_reactors ∧ s1.pollers = s.pollers ∧
      s1.g_reactor_mask = s.g_reactor_mask ∧
      (∀ c k, can_allocate hal c (k + 1) s → can_allocate hal c k s1) ∧
      (∀ c, drain_ready hal c s → drain_ready hal c s1) := by
  obtain ⟨h1, pool, h2, h3⟩ := h
  refine ⟨_, spdk_event_allocate_eq hal lcore fn arg1 arg2 next s pool h1 h2 h3, rfl, rfl,
    rfl, ?_, ?_⟩
  · rintro c k ⟨hc1, poolc, hc2, hc3⟩
    refine ⟨hc1, ?_⟩
    by_cases hcs : hal.rte_lcore_to_socket_id c % 256 = hal.rte_lcore_to_socket_id lcore % 256
    · rw [hcs] at hc2
      rw [h2] at hc2
      obtain rfl := Option.some.inj hc2
      refine ⟨{ pool with avail := pool.avail - 1 }, by simp [State.set_mempool, hcs], ?_⟩
      simp only
      omega
    · exact ⟨poolc, by simp [State.set_mempool, Function.update_noteq hcs, hc2], by omega⟩
  · rintro c ⟨hc1, hc2⟩
    refine ⟨hc1, ?_⟩
    by_cases hcs : hal.rte_lcore_to_socket_id c % 256 = hal.rte_lcore_to_socket_id lcore % 256
    · simp [State.set_mempool, hcs]
    · simpa [State.set_mempool, Function.update_noteq hcs] using hc2

theorem free_step (hal : Hal) (lcore : Nat) (s : State) (h : drain_ready hal lcore s) :
    ∃ s1, spdk_event_free hal lcore s = some s1 ∧
      s1.g_reactors = s.g_reactors ∧ s1.pollers = s.pollers ∧
      s1.g_reactor_mask = s.g_reactor_mask ∧
      (∀ c k, can_allocate hal c k s → can_allocate hal c k s1) ∧
      (∀ c, drain_ready hal c s → drain_ready hal c s1) := by
  obtain ⟨h1, h2⟩ := h
  obtain ⟨pool, h2⟩ := Option.isSome_iff_exists.1 h2
  refine ⟨_, spdk_event_free_eq hal lcore s pool h1 h2, rfl, rfl, rfl, ?_, ?_⟩
  · rintro c k ⟨hc1, poolc, hc2, hc3⟩
    refine ⟨hc1, ?_⟩
    by_cases hcs : hal.rte_lcore_to_socket_id c % 256 = hal.rte_lcore_to_socket_id lcore % 256
    · rw [hcs] at hc2
      rw [h2] at hc2
      obtain rfl := Option.some.inj hc2
      refine ⟨{ pool with avail := pool.avail + 1 }, by simp [State.set_mempool, hcs], ?_⟩
      simp only
      omega
    · exact ⟨poolc, by simp [State.set_mempool, Function.update_noteq hcs, hc2], hc3⟩
  · rintro c ⟨hc1, hc2⟩
    refine ⟨hc1, ?_⟩
    by_cases hcs : hal.rte_lcore_to_socket_id c % 256 = hal.rte_lcore_to_socket_id lcore % 256
    · simp [State.set_mempool, hcs]
    · simpa [State.set_mempool, Function.update_noteq hcs] using hc2

theorem can_allocate_ready (hal : Hal) (lcore k : Nat) (s : State)
    (h : can_allocate hal lcore k s) : drain_ready hal lcore s := by
  obtain ⟨h1, pool, h2, -⟩ := h
  exact ⟨h1, by simp [h2]⟩

/-- A drain pass on `c` when exactly the event `e` waits for `c`. -/
theorem run_all_single (cb : Callbacks) (hal : Hal) (c : Nat) (s : State)
    (items : List spdk_event) (e : spdk_event)
    (hr : (s.g_reactors c).events = some ⟨items ++ [e], items.length⟩) :
    spdk_event_queue_run_all cb hal c c s =
      match event_invoke cb hal c e
          (s.set_reactor c { s.g_reactors c with
            events := some ⟨items ++ [e], items.length + 1⟩ }) with
      | none => none
      | some s1 =>
        match spdk_event_free hal c s1 with
        | none => none
        | some s2 => some (s2, [Invocation.event c e]) := by
  have hcount : spdk_event_queue_count s c = 1 := by
    simp [spdk_event_queue_count, spdk_reactor_get, hr, rte_ring_count]
  have hdq : rte_ring_dequeue ⟨items ++ [e], items.length⟩
      = some (e, ⟨items ++ [e], items.length + 1⟩) := by
    simp [rte_ring_dequeue, rte_ring.content]
  unfold spdk_event_queue_run_all
  rw [hcount]
  simp only [spdk_event_queue_run]
  unfold spdk_event_queue_run_single
  simp only [spdk_reactor_get, hr, hdq]
  cases event_invoke cb hal c e
      (s.set_reactor c { s.g_reactors c with
        events := some ⟨items ++ [e], items.length + 1⟩ }) with
  | none => rfl
  | some s1 =>
    simp only
    cases spdk_event_free hal c s1 with
    | none => rfl
    | some s2 => rfl

theorem can_allocate_mono (hal : Hal) (lcore k j : Nat) (s : State) (hjk : j ≤ k)
    (h : can_allocate hal lcore k s) : can_allocate hal lcore j s := by
  obtain ⟨h1, pool, h2, h3⟩ := h
  exact ⟨h1, pool, h2, by omega⟩

theorem can_allocate_congr (hal : Hal) (lcore k : Nat) (s s1 : State)
    (hp : s1.g_spdk_event_mempool = s.g_spdk_event_mempool)
    (h : can_allocate hal lcore k s) : can_allocate hal lcore k s1 := by
  unfold can_allocate
  rw [hp]
  exact h

theorem drain_ready_congr (hal : Hal) (lcore : Nat) (s s1 : State)
    (hp : s1.g_spdk_event_mempool = s.g_spdk_event_mempool)
    (h : drain_ready hal lcore s) : drain_ready hal lcore s1 := by
  unfold drain_ready
  rw [hp]
  exact h

theorem not_mem_erase_of_count (p : Nat) (l : List Nat) (h : l.count p = 1) :
    p ∉ l.erase p := by
  rw [← List.count_eq_zero, List.count_erase_self, h]

/-- The call `spdk_poller_migrate(p, b, completion)` for a poller with `p.lcore = a`:
the remove-poller event, with the migrate event as its successor, is added to the queue
of `a`, and nothing else is written but the two pools the events come from. -/
theorem migrate_call (hal : Hal) (p a b : Nat) (completion : Option spdk_event) (s0 : State)
    (itemsa : List spdk_event)
    (hmask : s0.g_reactor_mask &&& bit64 b ≠ 0) (hp0 : p ≠ 0)
    (hla : (s0.pollers p).lcore = a)
    (hpa : can_allocate hal a 2 s0) (hpb : can_allocate hal b 2 s0)
    (hra : (s0.g_reactors a).events = some ⟨itemsa, itemsa.length⟩)
    (hcap : 0 < hal.ring_capacity) :
    ∃ s1, spdk_poller_migrate hal p b completion s0 = some s1 ∧
      s1.pollers = s0.pollers ∧
      (s1.g_reactors a).events = some
        ⟨itemsa ++ [remove_poller_event p a (some (migrate_event p b completion))],
          itemsa.length⟩ ∧
      (∀ j, j ≠ a → s1.g_reactors j = s0.g_reactors j) ∧
      (∀ j, (s1.g_reactors j).active_pollers = (s0.g_reactors j).active_pollers ∧
        (s1.g_reactors j).timer_pollers = (s0.g_reactors j).timer_pollers ∧
        (s1.g_reactors j).lcore = (s0.g_reactors j).lcore) ∧
      can_allocate hal a 0 s1 ∧ can_allocate hal b 0 s1 := by
  obtain ⟨sM, hM, hMg, hMp, -, hMk, -⟩ := allocate_step hal b
    spdk_event_fn._spdk_poller_migrate p 0 completion s0 (can_allocate_mono hal b 2 0 s0
      (by omega) hpb)
  obtain ⟨sR, hR, hRg, hRp, -, hRk, -⟩ := allocate_step hal a
    spdk_event_fn._spdk_event_remove_poller a p (some (migrate_event p b completion)) sM
    (can_allocate_mono hal a 1 0 sM (by omega) (hMk a 1 hpa))
  obtain ⟨ring, s1, hring, hcall, hring1, hoth, hsched, hpol, hpool, -⟩ :=
    spdk_event_call_room hal (remove_poller_event p a (some (migrate_event p b completion)))
      sR ⟨⟨itemsa, itemsa.length⟩, by rw [hRg, hMg]; exact hra,
        by simpa [rte_ring_count] using hcap⟩
  have hring' : ring = ⟨itemsa, itemsa.length⟩ := by
    have h := hring
    rw [hRg, hMg] at h
    exact Option.some.inj (h.symm.trans hra)
  subst hring'
  refine ⟨s1, ?_, ?_, hring1, ?_, ?_, ?_, ?_⟩
  · unfold spdk_poller_migrate
    rw [if_neg hmask, if_neg hp0]
    have hM' : spdk_event_allocate hal b spdk_event_fn._spdk_poller_migrate p 0 completion s0
        = some (migrate_event p b completion, sM) := hM
    rw [hM']
    simp only
    unfold spdk_poller_unregister
    simp only [hMp, hla]
    have hR' : spdk_event_allocate hal a spdk_event_fn._spdk_event_remove_poller a p
        (some (migrate_event p b completion)) sM
        = some (remove_poller_event p a (some (migrate_event p b completion)), sR) := hR
    rw [hR']
    exact hcall
  · rw [hpol, hRp, hMp]
  · intro j hj
    rw [hoth j hj, hRg, hMg]
  · intro j
    obtain ⟨h1, h2, h3⟩ := hsched j
    rw [h1, h2, h3, hRg, hMg]
    exact ⟨rfl, rfl, rfl⟩
  · exact can_allocate_congr hal a 0 sR s1 hpool (hRk a 0 (hMk a 1 hpa))
  · exact can_allocate_congr hal b 0 sR s1 hpool (hRk b 0 (hMk b 1 hpb))

/-! ## The three passes of a migration -/

/-- The pass on `a` in which the remove-poller event of an always-run poller `p` runs,
with a successor `e` for another lcore. -/
theorem pass_remove (cb : Callbacks) (hal : Hal) (p a : Nat) (e : spdk_event) (s : State)
    (items itemse : List spdk_event)
    (hr : (s.g_reactors a).events =
      some ⟨items ++ [remove_poller_event p a (some e)], items.length⟩)
    (hper : (s.pollers p).period_ticks = 0)
    (hmem : p ∈ (s.g_reactors a).active_pollers)
    (hready : drain_ready hal a s) (hea : e.lcore ≠ a)
    (hre : (s.g_reactors e.lcore).events = some ⟨itemse, itemse.length⟩)
    (hcap : 0 < hal.ring_capacity) :
    ∃ s2, spdk_event_queue_run_all cb hal a a s =
        some (s2, [Invocation.event a (remove_poller_event p a (some e))]) ∧
      s2.pollers = s.pollers ∧
      (s2.g_reactors a).active_pollers = (s.g_reactors a).active_pollers.erase p ∧
      (s2.g_reactors a).timer_pollers = (s.g_reactors a).timer_pollers ∧
      (∀ j, j ≠ a → (s2.g_reactors j).active_pollers = (s.g_reactors j).active_pollers ∧
        (s2.g_reactors j).timer_pollers = (s.g_reactors j).timer_pollers) ∧
      (∀ j, (s2.g_reactors j).lcore = (s.g_reactors j).lcore) ∧
      (s2.g_reactors a).events =
        some ⟨items ++ [remove_poller_event p a (some e)], items.length + 1⟩ ∧
      (s2.g_reactors e.lcore).events = some ⟨itemse ++ [e], itemse.length⟩ ∧
      (∀ j, j ≠ a → j ≠ e.lcore → (s2.g_reactors j).events = (s.g_reactors j).events) ∧
      (∀ c k, can_allocate hal c k s → can_allocate hal c k s2) ∧
      (∀ c, drain_ready hal c s → drain_ready hal c s2) := by
  rw [run_all_single cb hal a s items _ hr]
  obtain ⟨sr, hinv, hpol, hev, hlc, hoth, hpool, -, -, -, -, hact⟩ :=
    remove_poller_effect hal (remove_poller_event p a (some e))
      (s.set_reactor a { s.g_reactors a with
        events := some ⟨items ++ [remove_poller_event p a (some e)], items.length + 1⟩ })
      (by
        unfold remove_linked
        simp only [remove_poller_event, State.set_reactor, Function.update_same]
        rw [if_neg (by simpa using hper)]
        exact hmem)
  simp only [remove_poller_event] at hoth hact
  obtain ⟨hact1, htim1⟩ := hact (by simpa [State.set_reactor] using hper)
  have hinv' : event_invoke cb hal a (remove_poller_event p a (some e))
      (s.set_reactor a { s.g_reactors a with
        events := some ⟨items ++ [remove_poller_event p a (some e)], items.length + 1⟩ })
      = spdk_event_call hal e sr := hinv
  rw [hinv']
  obtain ⟨ring, sc, hring, hcall, hring1, hoth1, hsched1, hpol1, hpool1, -⟩ :=
    spdk_event_call_room hal e sr ⟨⟨itemse, itemse.length⟩, by
      rw [hev, State.set_reactor]
      simp only [Function.update_noteq hea]
      exact hre, by simpa [rte_ring_count] using hcap⟩
  have hring' : ring = ⟨itemse, itemse.length⟩ := by
    have h := hring
    rw [hev, State.set_reactor] at h
    simp only [Function.update_noteq hea] at h
    exact Option.some.inj (h.symm.trans hre)
  subst hring'
  rw [hcall]
  simp only
  have hpools : sc.g_spdk_event_mempool = s.g_spdk_event_mempool := by
    rw [hpool1, hpool]
    rfl
  obtain ⟨s2, hfree, hg2, hp2, -, hk2, hd2⟩ := free_step hal a sc
    (drain_ready_congr hal a s sc hpools hready)
  rw [hfree]
  refine ⟨s2, rfl, ?_, ?_, ?_, ?_, ?_, ?_, ?_, ?_, ?_, ?_⟩
  · rw [hp2, hpol1, hpol]
    rfl
  · rw [hg2, (hsched1 a).1, hact1]
    simp [State.set_reactor]
  · rw [hg2, (hsched1 a).2.1, htim1]
    simp [State.set_reactor]
  · intro j hj
    rw [hg2, (hsched1 j).1, (hsched1 j).2.1, hoth j hj]
    simp [State.set_reactor, Function.update_noteq hj]
  · intro j
    rw [hg2, (hsched1 j).2.2, hlc]
    by_cases hj : j = a
    · subst hj; simp [State.set_reactor]
    · simp [State.set_reactor, Function.update_noteq hj]
  · rw [hg2, hoth1 a (Ne.symm hea), hev]
    simp [State.set_reactor]
  · rw [hg2, hring1]
  · intro j hja hje
    rw [hg2, hoth1 j hje, hev]
    simp [State.set_reactor, Function.update_noteq hja]
  · intro c k h
    exact hk2 c k (can_allocate_congr hal c k s sc hpools h)
  · intro c h
    exact hd2 c (drain_ready_congr hal c s sc hpools h)

/-- The pass on `b` in which the migrate event of `p` runs: the add-poller event is
allocated and added to the queue of `b`. -/
theorem pass_migrate (cb : Callbacks) (hal : Hal) (p b : Nat)
    (completion : Option spdk_event) (s : State) (items : List spdk_event)
    (hr : (s.g_reactors b).events =
      some ⟨items ++ [migrate_event p b completion], items.length⟩)
    (halloc : can_allocate hal b 0 s) (hcap : 0 < hal.ring_capacity) :
    ∃ s3, spdk_event_queue_run_all cb hal b b s =
        some (s3, [Invocation.event b (migrate_event p b completion)]) ∧
      s3.pollers = s.pollers ∧
      (s3.g_reactors b).events =
        some ⟨items ++ [migrate_event p b completion] ++ [add_poller_event p b completion],
          items.length + 1⟩ ∧
      (∀ j, j ≠ b → s3.g_reactors j = s.g_reactors j) ∧
      (∀ j, (s3.g_reactors j).active_pollers = (s.g_reactors j).active_pollers ∧
        (s3.g_reactors j).timer_pollers = (s.g_reactors j).timer_pollers ∧
        (s3.g_reactors j).lcore = (s.g_reactors j).lcore) ∧
      (∀ c, drain_ready hal c s → drain_ready hal c s3) := by
  rw [run_all_single cb hal b s items _ hr]
  have hinv : event_invoke cb hal b (migrate_event p b completion)
      (s.set_reactor b { s.g_reactors b with
        events := some ⟨items ++ [migrate_event p b completion], items.length + 1⟩ })
      = _spdk_poller_register hal p b completion
      (s.set_reactor b { s.g_reactors b with
        events := some ⟨items ++ [migrate_event p b completion], items.length + 1⟩ }) := rfl
  rw [hinv]
  unfold _spdk_poller_register
  obtain ⟨sA, hA, hAg, hAp, -, -, hAd⟩ := allocate_step hal b
    spdk_event_fn._spdk_event_add_poller b p completion
    (s.set_reactor b { s.g_reactors b with
      events := some ⟨items ++ [migrate_event p b completion], items.length + 1⟩ })
    (can_allocate_congr hal b 0 s _ rfl halloc)
  have hA' : spdk_event_allocate hal b spdk_event_fn._spdk_event_add_poller b p completion
      (s.set_reactor b { s.g_reactors b with
        events := some ⟨items ++ [migrate_event p b completion], items.length + 1⟩ })
      = some (add_poller_event p b completion, sA) := hA
  rw [hA']
  simp only
  obtain ⟨ring, sc, hring, hcall, hring1, hoth1, hsched1, hpol1, hpool1, -⟩ :=
    spdk_event_call_room hal (add_poller_event p b completion) sA
      ⟨⟨items ++ [migrate_event p b completion], items.length + 1⟩, by
        rw [hAg]
        simp [State.set_reactor, add_poller_event],
        by simpa [rte_ring_count] using hcap⟩
  have hring' : ring = ⟨items ++ [migrate_event p b completion], items.length + 1⟩ := by
    have h := hring
    rw [hAg] at h
    simp only [State.set_reactor, add_poller_event, Function.update_same] at h
    exact (Option.some.inj h).symm
  subst hring'
  rw [hcall]
  simp only
  obtain ⟨s3, hfree, hg3, hp3, -, -, hd3⟩ := free_step hal b sc
    (drain_ready_congr hal b sA sc hpool1
      (hAd b (drain_ready_congr hal b s _ rfl (can_allocate_ready hal b 0 s halloc))))
  rw [hfree]
  refine ⟨s3, rfl, ?_, ?_, ?_, ?_, ?_⟩
  · rw [hp3, hpol1, hAp]
    rfl
  · rw [hg3]
    exact hring1
  · intro j hj
    rw [hg3, hoth1 j hj, hAg]
    simp [State.set_reactor, Function.update_noteq hj]
  · intro j
    rw [hg3, (hsched1 j).1, (hsched1 j).2.1, (hsched1 j).2.2, hAg]
    by_cases hj : j = b
    · subst hj; simp [State.set_reactor]
    · simp [State.set_reactor, Function.update_noteq hj]
  · intro c h
    exact hd3 c (drain_ready_congr hal c sA sc hpool1
      (hAd c (drain_ready_congr hal c s _ rfl h)))

/-- The pass on `b` in which the add-poller event of an always-run poller `p` runs: `sd`
is the state when the event has been taken from the queue, `si` the state in which the
completion is passed to `spdk_event_call`, `sc` the state after that. -/
theorem pass_add (cb : Callbacks) (hal : Hal) (p b : Nat) (completion : Option spdk_event)
    (s : State) (items : List spdk_event)
    (hr : (s.g_reactors b).events =
      some ⟨items ++ [add_poller_event p b completion], items.length⟩)
    (hper : (s.pollers p).period_ticks = 0)
    (hlb : (s.g_reactors b).lcore = b)
    (hready : drain_ready hal b s)
    (hroom : ∀ e, completion = some e → e.lcore ≠ b → can_enqueue hal e.lcore s)
    (hcap : 0 < hal.ring_capacity) :
    ∃ sd si sc s4,
      sd.pollers = s.pollers ∧
      (∀ j, (sd.g_reactors j).active_pollers = (s.g_reactors j).active_pollers ∧
        (sd.g_reactors j).timer_pollers = (s.g_reactors j).timer_pollers) ∧
      event_invoke cb hal b (add_poller_event p b completion) sd =
        call_next hal completion si ∧
      call_next hal completion si = some sc ∧
      spdk_event_free hal b sc = some s4 ∧
      spdk_event_queue_run_all cb hal b b s =
        some (s4, [Invocation.event b (add_poller_event p b completion)]) ∧
      (si.pollers p).lcore = b ∧
      (si.g_reactors b).active_pollers = (s.g_reactors b).active_pollers ++ [p] ∧
      (si.g_reactors b).timer_pollers = (s.g_reactors b).timer_pollers ∧
      (∀ j, j ≠ b → (si.g_reactors j).active_pollers = (s.g_reactors j).active_pollers ∧
        (si.g_reactors j).timer_pollers = (s.g_reactors j).timer_pollers) ∧
      s4.pollers = si.pollers ∧
      (∀ j, (s4.g_reactors j).active_pollers = (si.g_reactors j).active_pollers ∧
        (s4.g_reactors j).timer_pollers = (si.g_reactors j).timer_pollers) ∧
      (∀ e, completion = some e →
        ∃ ring, (si.g_reactors e.lcore).events = some ring ∧
          (s4.g_reactors e.lcore).events = some ⟨ring.items ++ [e], ring.cons⟩) := by
  rw [run_all_single cb hal b s items _ hr]
  obtain ⟨si, hinv, hlc, -, -, hev, -, hoth, hpool, -, -, -, -, hact⟩ :=
    add_poller_effect hal (add_poller_event p b completion)
      (s.set_reactor b { s.g_reactors b with
        events := some ⟨items ++ [add_poller_event p b completion], items.length + 1⟩ })
  simp only [add_poller_event] at hlc hoth hact
  obtain ⟨hact1, htim1⟩ := hact (by simpa [State.set_reactor] using hper)
  have hinv' : event_invoke cb hal b (add_poller_event p b completion)
      (s.set_reactor b { s.g_reactors b with
        events := some ⟨items ++ [add_poller_event p b completion], items.length + 1⟩ })
      = call_next hal completion si := hinv
  have hlists : ∀ j, j ≠ b →
      (si.g_reactors j).active_pollers = (s.g_reactors j).active_pollers ∧
      (si.g_reactors j).timer_pollers = (s.g_reactors j).timer_pollers := by
    intro j hj
    rw [hoth j hj]
    simp [State.set_reactor, Function.update_noteq hj]
  have hreadyi : drain_ready hal b si := drain_ready_congr hal b s si (by rw [hpool]; rfl) hready
  have hnext : ∃ sc, call_next hal completion si = some sc ∧
      sc.g_spdk_event_mempool = si.g_spdk_event_mempool ∧ sc.pollers = si.pollers ∧
      (∀ j, (sc.g_reactors j).active_pollers = (si.g_reactors j).active_pollers ∧
        (sc.g_reactors j).timer_pollers = (si.g_reactors j).timer_pollers) ∧
      (∀ e, completion = some e →
        ∃ ring, (si.g_reactors e.lcore).events = some ring ∧
          (sc.g_reactors e.lcore).events = some ⟨ring.items ++ [e], ring.cons⟩) := by
    cases hc : completion with
    | none =>
      exact ⟨si, rfl, rfl, rfl, fun _ => ⟨rfl, rfl⟩, fun e he => by simp at he⟩
    | some e =>
      have hcan : can_enqueue hal e.lcore si := by
        by_cases hb : e.lcore = b
        · refine ⟨⟨items ++ [add_poller_event p b completion], items.length + 1⟩, ?_, ?_⟩
          · rw [hev, hb]
            simp [State.set_reactor]
          · simpa [rte_ring_count] using hcap
        · obtain ⟨ring, h1, h2⟩ := hroom e hc hb
          refine ⟨ring, ?_, h2⟩
          rw [hev]
          simpa [State.set_reactor, Function.update_noteq hb] using h1
      obtain ⟨ring, sc, hring, hcall, hring1, -, hsched1, hpol1, hpool1, -⟩ :=
        spdk_event_call_room hal e si hcan
      refine ⟨sc, hcall, hpool1, hpol1, fun j => ⟨(hsched1 j).1, (hsched1 j).2.1⟩, ?_⟩
      intro e1 he1
      obtain rfl := Option.some.inj he1
      exact ⟨ring, hring, hring1⟩
  obtain ⟨sc, hcn, hpoolc, hpolc, hschedc, hcompl⟩ := hnext
  obtain ⟨s4, hfree, hg4, hp4, -, -, -⟩ := free_step hal b sc
    (drain_ready_congr hal b si sc hpoolc hreadyi)
  refine ⟨s.set_reactor b { s.g_reactors b with
      events := some ⟨items ++ [add_poller_event p b completion], items.length + 1⟩ },
    si, sc, s4, rfl, ?_, hinv', hcn, hfree, ?_, ?_, ?_, ?_, hlists, ?_, ?_, ?_⟩
  · intro j
    by_cases hj : j = b
    · subst hj; simp [State.set_reactor]
    · simp [State.set_reactor, Function.update_noteq hj]
  · rw [hinv', hcn]
    simp only
    rw [hfree]
  · rw [hlc]
    simpa [State.set_reactor] using hlb
  · rw [hact1]
    simp [State.set_reactor]
  · rw [htim1]
    simp [State.set_reactor]
  · rw [hp4, hpolc]
  · intro j
    rw [hg4]
    exact hschedc j
  · intro e he
    obtain ⟨ring, h1, h2⟩ := hcompl e he
    exact ⟨ring, h1, by rw [hg4]; exact h2⟩

/-! ## Occurrences of a poller in the schedules -/

theorem count_flatMap_le (f g : Nat → List Nat) (p : Nat) (l : List Nat)
    (h : ∀ r ∈ l, (g r).count p ≤ (f r).count p) :
    (l.flatMap g).count p ≤ (l.flatMap f).count p := by
  induction l with
  | nil => simp
  | cons a t ih =>
    simp only [List.flatMap_cons, List.count_append]
    have h1 := h a (List.mem_cons_self _ _)
    have h2 := ih (fun r hr => h r (List.mem_cons_of_mem _ hr))
    omega

theorem count_flatMap_add (f g : Nat → List Nat) (r0 p0 p : Nat) (l : List Nat)
    (hl : l.Nodup)
    (hoth : ∀ r ∈ l, r ≠ r0 → (g r).count p ≤ (f r).count p)
    (hr0 : (g r0).count p ≤ (p0 :: f r0).count p) :
    (l.flatMap g).count p ≤ (l.flatMap f).count p + [p0].count p := by
  induction l with
  | nil => simp
  | cons a t ih =>
    simp only [List.flatMap_cons, List.count_append]
    obtain ⟨hat, ht⟩ := List.nodup_cons.1 hl
    by_cases ha : a = r0
    · subst ha
      have h2 := count_flatMap_le f g p t (fun r hr =>
        hoth r (List.mem_cons_of_mem _ hr) (fun h => hat (h ▸ hr)))
      have h3 : (p0 :: f a).count p = [p0].count p + (f a).count p := by
        rw [← List.singleton_append, List.count_append]
      omega
    · have h1 := hoth a (List.mem_cons_self _ _) ha
      have h2 := ih ht (fun r hr => hoth r (List.mem_cons_of_mem _ hr))
      omega

theorem invariant_of_shrink (hal : Hal) (s s1 : State) (h : schedules_shrink s s1)
    (hi : membership_invariant hal s) : membership_invariant hal s1 := by
  unfold membership_invariant at hi ⊢
  rw [List.nodup_iff_count_le_one] at hi ⊢
  intro p
  exact le_trans (count_flatMap_le (schedule s) (schedule s1) p _ (fun r _ => h r p)) (hi p)

theorem invariant_of_add (hal : Hal) (s s1 : State) (r0 p0 : Nat)
    (hoth : ∀ r, r ≠ r0 → ∀ p, (schedule s1 r).count p ≤ (schedule s r).count p)
    (hr0 : ∀ p, (schedule s1 r0).count p ≤ (p0 :: schedule s r0).count p)
    (hp0 : p0 ∉ all_schedules hal s)
    (hi : membership_invariant hal s) : membership_invariant hal s1 := by
  unfold membership_invariant at hi ⊢
  rw [List.nodup_iff_count_le_one] at hi ⊢
  intro p
  have h := count_flatMap_add (schedule s) (schedule s1) r0 p0 p
    (List.range hal.RTE_MAX_LCORE) (List.nodup_range _)
    (fun r _ hr => hoth r hr p) (hr0 p)
  by_cases hp : p = p0
  · subst hp
    have h0 : (all_schedules hal s).count p = 0 := List.count_eq_zero.2 hp0
    unfold all_schedules at h0 ⊢
    rw [h0] at h
    simpa using h
  · have h1 : [p0].count p = 0 := List.count_eq_zero.2 (by simpa using hp)
    rw [h1] at h
    exact le_trans h (hi p)

theorem schedules_shrink_refl (s : State) : schedules_shrink s s := fun _ _ => le_refl _

theorem schedules_shrink_trans (s s1 s2 : State) (h1 : schedules_shrink s s1)
    (h2 : schedules_shrink s1 s2) : schedules_shrink s s2 :=
  fun r p => le_trans (h2 r p) (h1 r p)

theorem shrink_of_kept (s s1 : State) (h : schedules_kept s s1) : schedules_shrink s s1 := by
  intro r p
  unfold schedule
  rw [(h r).1, (h r).2]

theorem kept_of_reactors (s s1 : State) (h : s1.g_reactors = s.g_reactors) :
    schedules_kept s s1 := by
  intro r
  rw [h]
  exact ⟨rfl, rfl⟩

theorem schedules_kept_trans (s s1 s2 : State) (h1 : schedules_kept s s1)
    (h2 : schedules_kept s1 s2) : schedules_kept s s2 :=
  fun r => ⟨(h2 r).1.trans (h1 r).1, (h2 r).2.trans (h1 r).2⟩

theorem all_schedules_kept (hal : Hal) (s s1 : State) (h : schedules_kept s s1) :
    all_schedules hal s1 = all_schedules hal s := by
  unfold all_schedules
  congr 1
  funext r
  unfold schedule
  rw [(h r).1, (h r).2]

theorem event_call_kept (hal : Hal) (e : spdk_event) (s s1 : State)
    (h : spdk_event_call hal e s = some s1) : schedules_kept s s1 := by
  obtain ⟨-, hr, -⟩ := spdk_event_call_frame hal e s s1 h
  exact fun r => ⟨(hr r).2.1, (hr r).1⟩

theorem call_next_kept (hal : Hal) (next : Option spdk_event) (s s1 : State)
    (h : call_next hal next s = some s1) : schedules_kept s s1 := by
  obtain ⟨-, hr, -⟩ := call_next_frame hal next s s1 h
  exact fun r => ⟨(hr r).2.1, (hr r).1⟩

theorem poller_register_kept (hal : Hal) (poller lcore : Nat)
    (complete : Option spdk_event) (s s1 : State)
    (h : _spdk_poller_register hal poller lcore complete s = some s1) :
    schedules_kept s s1 := by
  unfold _spdk_poller_register at h
  split at h
  · simp at h
  · rename_i e s0 ha
    obtain ⟨-, hg, -⟩ := spdk_event_allocate_frame _ _ _ _ _ _ _ _ _ ha
    exact schedules_kept_trans s s0 s1 (kept_of_reactors s s0 hg) (event_call_kept hal _ _ _ h)

theorem poller_unregister_kept (hal : Hal) (poller : Nat) (complete : Option spdk_event)
    (s s1 : State) (h : spdk_poller_unregister hal poller complete s = some s1) :
    schedules_kept s s1 := by
  unfold spdk_poller_unregister at h
  simp only at h
  split at h
  · simp at h
  · rename_i e s0 ha
    obtain ⟨-, hg, -⟩ := spdk_event_allocate_frame _ _ _ _ _ _ _ _ _ ha
    exact schedules_kept_trans s s0 s1 (kept_of_reactors s s0 hg) (event_call_kept hal _ _ _ h)

theorem poller_migrate_kept (hal : Hal) (poller new_lcore : Nat)
    (complete : Option spdk_event) (s s1 : State)
    (h : spdk_poller_migrate hal poller new_lcore complete s = some s1) :
    schedules_kept s s1 := by
  unfold spdk_poller_migrate at h
  split_ifs at h
  split at h
  · simp at h
  · rename_i e s0 ha
    obtain ⟨-, hg, -⟩ := spdk_event_allocate_frame _ _ _ _ _ _ _ _ _ ha
    exact schedules_kept_trans s s0 s1 (kept_of_reactors s s0 hg)
      (poller_unregister_kept hal _ _ _ _ h)

/-! ## The membership invariant, step by step -/

theorem event_applicable_congr (hal : Hal) (s s1 : State) (e : spdk_event)
    (hk : schedules_kept s s1) (hp : s1.pollers = s.pollers) :
    event_applicable hal s1 e = event_applicable hal s e := by
  unfold event_applicable
  rw [all_schedules_kept hal s s1 hk, hp, (hk e.arg1).1, (hk e.arg1).2]

theorem schedule_of_reactor (s s1 : State) (r : Nat) (h : s1.g_reactors r = s.g_reactors r) :
    schedule s1 r = schedule s r := by
  unfold schedule
  rw [h]

theorem add_poller_invariant (hal : Hal) (e : spdk_event) (s s1 : State)
    (hp0 : e.arg2 ∉ all_schedules hal s) (hi : membership_invariant hal s)
    (h : _spdk_event_add_poller hal e s = some s1) : membership_invariant hal s1 := by
  obtain ⟨s3, heq, -, -, -, -, -, hoth, -, -, -, -, htimer, hactive⟩ :=
    add_poller_effect hal e s
  rw [heq] at h
  refine invariant_of_shrink hal s3 s1 (shrink_of_kept s3 s1 (call_next_kept hal _ _ _ h)) ?_
  refine invariant_of_add hal s s3 e.arg1 e.arg2 ?_ ?_ hp0 hi
  · intro r hr p
    rw [schedule_of_reactor s s3 r (hoth r hr)]
  · intro p
    by_cases hper : (s.pollers e.arg2).period_ticks = 0
    · obtain ⟨h1, h2⟩ := hactive hper
      unfold schedule
      rw [h1, h2]
      simp only [List.count_append, List.count_cons, List.count_nil]
      omega
    · obtain ⟨h1, -, h2⟩ := htimer hper
      unfold schedule
      rw [h2, List.count_append, h1.count_eq]
      simp only [List.count_append, List.count_cons]
      omega

theorem remove_poller_shrink (hal : Hal) (e : spdk_event) (s s1 : State)
    (h : _spdk_event_remove_poller hal e s = some s1) : schedules_shrink s s1 := by
  obtain ⟨s3, heq, -, -, -, hoth, -, -, -, -, htimer, hactive⟩ :=
    remove_poller_effect hal e s (remove_poller_some hal e s s1 h).1
  rw [heq] at h
  refine schedules_shrink_trans s s3 s1 ?_ (shrink_of_kept s3 s1 (call_next_kept hal _ _ _ h))
  intro r p
  by_cases hr : r = e.arg1
  · subst hr
    unfold schedule
    simp only [List.count_append]
    by_cases hper : (s.pollers e.arg2).period_ticks = 0
    · obtain ⟨h1, h2⟩ := hactive hper
      rw [h1, h2]
      have := (List.erase_sublist e.arg2 (s.g_reactors e.arg1).active_pollers).count_le p
      omega
    · obtain ⟨h1, h2⟩ := htimer hper
      rw [h1, h2]
      have := (List.erase_sublist e.arg2 (s.g_reactors e.arg1).timer_pollers).count_le p
      omega
  · rw [schedule_of_reactor s s3 r (hoth r hr)]

theorem event_invoke_invariant (cb : Callbacks) (hal : Hal) (cur : Nat) (e : spdk_event)
    (s s1 : State) (hcb : callbacks_keep_schedules cb)
    (happ : event_applicable hal s e = true) (hi : membership_invariant hal s)
    (h : event_invoke cb hal cur e s = some s1) : membership_invariant hal s1 := by
  unfold event_invoke at h
  unfold event_applicable at happ
  split at h
  · rename_i hfn
    rw [hfn] at happ
    exact add_poller_invariant hal e s s1 (by simpa using happ) hi h
  · exact invariant_of_shrink hal s s1 (remove_poller_shrink hal e s s1 h) hi
  · exact invariant_of_shrink hal s s1
      (shrink_of_kept s s1 (poller_register_kept hal _ _ _ s s1 h)) hi
  · exact invariant_of_shrink hal s s1 (shrink_of_kept s s1 (hcb.1 _ _ _ _ _ h)) hi

theorem set_events_kept (s : State) (i : Nat) (ev : Option rte_ring) :
    schedules_kept s (s.set_reactor i { s.g_reactors i with events := ev }) := by
  intro r
  by_cases hr : r = i
  · subst hr; simp [State.set_reactor]
  · simp [State.set_reactor, Function.update_noteq hr]

theorem run_single_invariant (cb : Callbacks) (hal : Hal) (cur : Nat) (s s1 : State)
    (t : List Invocation) (hcb : callbacks_keep_schedules cb)
    (happ : ∀ ring event ring1, (s.g_reactors cur).events = some ring →
      rte_ring_dequeue ring = some (event, ring1) → event_applicable hal s event = true)
    (hi : membership_invariant hal s)
    (h : spdk_event_queue_run_single cb hal cur cur s = some (s1, t)) :
    membership_invariant hal s1 := by
  unfold spdk_event_queue_run_single at h
  simp only [spdk_reactor_get] at h
  cases hr : (s.g_reactors cur).events with
  | none => rw [hr] at h; simp at h
  | some ring =>
    rw [hr] at h
    simp only at h
    cases hd : rte_ring_dequeue ring with
    | none =>
      rw [hd] at h
      simp only [Option.some.injEq, Prod.mk.injEq] at h
      rw [← h.1]
      exact hi
    | some er =>
      obtain ⟨event, ring1⟩ := er
      rw [hd] at h
      simp only at h
      have hk := set_events_kept s cur (some ring1)
      cases hinv : event_invoke cb hal cur event
          (s.set_reactor cur { s.g_reactors cur with events := some ring1 }) with
      | none => rw [hinv] at h; simp at h
      | some s2 =>
        rw [hinv] at h
        simp only at h
        cases hf : spdk_event_free hal cur s2 with
        | none => rw [hf] at h; simp at h
        | some s3 =>
          rw [hf] at h
          simp only [Option.some.injEq, Prod.mk.injEq] at h
          rw [← h.1]
          have h2 : membership_invariant hal s2 :=
            event_invoke_invariant cb hal cur event _ s2 hcb
              (by rw [event_applicable_congr hal s _ event hk rfl]
                  exact happ ring event ring1 hr hd)
              (invariant_of_shrink hal s _ (shrink_of_kept s _ hk) hi) hinv
          exact invariant_of_shrink hal s2 s3 (shrink_of_kept s2 s3
            (kept_of_reactors s2 s3 (spdk_event_free_frame hal cur s2 s3 hf).1)) h2

theorem run_invariant (cb : Callbacks) (hal : Hal) (cur : Nat)
    (hcb : callbacks_keep_schedules cb) (count : Nat) :
    ∀ (s s1 : State) (t : List Invocation),
      drain_applicable cb hal cur count s = true → membership_invariant hal s →
      spdk_event_queue_run cb hal cur cur count s = some (s1, t) →
      membership_invariant hal s1 := by
  induction count with
  | zero =>
    intro s s1 t _ hi h
    simp only [spdk_event_queue_run, Option.some.injEq, Prod.mk.injEq] at h
    rw [← h.1]
    exact hi
  | succ n ih =>
    intro s s1 t happ hi h
    simp only [spdk_event_queue_run] at h
    cases hs : spdk_event_queue_run_single cb hal cur cur s with
    | none => rw [hs] at h; simp at h
    | some r1 =>
      obtain ⟨s2, t2⟩ := r1
      rw [hs] at h
      simp only at h
      cases hrest : spdk_event_queue_run cb hal cur cur n s2 with
      | none => rw [hrest] at h; simp at h
      | some r2 =>
        obtain ⟨s3, t3⟩ := r2
        rw [hrest] at h
        simp only [Option.some.injEq, Prod.mk.injEq] at h
        rw [← h.1]
        unfold drain_applicable at happ
        simp only [spdk_reactor_get] at happ
        have h2 : membership_invariant hal s2 := by
          refine run_single_invariant cb hal cur s s2 t2 hcb ?_ hi hs
          intro ring event ring1 hr hd
          rw [hr] at happ
          simp only [hd, Bool.and_eq_true] at happ
          exact happ.1
        have happ2 : drain_applicable cb hal cur n s2 = true := by
          cases hr : (s.g_reactors cur).events with
          | none =>
            unfold spdk_event_queue_run_single at hs
            simp [spdk_reactor_get, hr] at hs
          | some ring =>
            rw [hr] at happ
            simp only at happ
            cases hd : rte_ring_dequeue ring with
            | none =>
              have hs' := hs
              unfold spdk_event_queue_run_single at hs'
              simp only [spdk_reactor_get, hr, hd, Option.some.injEq, Prod.mk.injEq] at hs'
              rw [← hs'.1]
              cases n with
              | zero => rfl
              | succ m =>
                unfold drain_applicable
                simp only [spdk_reactor_get, hr, hd]
            | some er =>
              rw [hd] at happ
              simp only [hs, Bool.and_eq_true] at happ
              exact happ.2
        exact ih s2 s3 t3 happ2 h2 hrest

theorem active_poller_step_shrink (cb : Callbacks) (cur reactor : Nat) (s s1 : State)
    (t : List Invocation) (hcb : callbacks_keep_schedules cb)
    (h : active_poller_step cb cur reactor s = some (s1, t)) : schedules_shrink s s1 := by
  unfold active_poller_step at h
  cases hl : (s.g_reactors reactor).active_pollers with
  | nil =>
    simp only [hl, TAILQ_FIRST, List.head?_nil, Option.some.injEq, Prod.mk.injEq] at h
    rw [← h.1]
    exact schedules_shrink_refl s
  | cons p tl =>
    simp only [hl, TAILQ_FIRST, List.head?_cons, TAILQ_REMOVE_head,
      TAILQ_INSERT_TAIL] at h
    split at h
    · simp at h
    · rename_i s2 hfn
      simp only [Option.some.injEq, Prod.mk.injEq] at h
      rw [← h.1]
      have hk := hcb.2 _ _ _ _ _ hfn
      intro r q
      by_cases hr : r = reactor
      · subst hr
        unfold schedule
        simp only [State.set_reactor, Function.update_same, (hk r).1, (hk r).2, hl,
          List.count_append, List.count_cons, List.count_nil]
        omega
      · unfold schedule
        simp only [State.set_reactor, Function.update_noteq hr, (hk r).1, (hk r).2]
        exact le_refl _

theorem timer_poller_step_shrink (cb : Callbacks) (cur reactor : Nat) (s s1 : State)
    (t : List Invocation) (hcb : callbacks_keep_schedules cb)
    (h : timer_poller_step cb cur reactor s = some (s1, t)) : schedules_shrink s s1 := by
  unfold timer_poller_step at h
  cases hl : (s.g_reactors reactor).timer_pollers with
  | nil =>
    simp only [hl, TAILQ_FIRST, List.head?_nil, Option.some.injEq, Prod.mk.injEq] at h
    rw [← h.1]
    exact schedules_shrink_refl s
  | cons p tl =>
    simp only [hl, TAILQ_FIRST, List.head?_cons, TAILQ_REMOVE_head] at h
    split_ifs at h with hdue
    · split at h
      · simp at h
      · rename_i s2 hfn
        simp only [Option.some.injEq, Prod.mk.injEq] at h
        rw [← h.1]
        have hk := hcb.2 _ _ _ _ _ hfn
        intro r q
        by_cases hr : r = reactor
        · subst hr
          unfold schedule
          rw [insert_timer_active, List.count_append, List.count_append,
            (insert_timer_perm r p s.timer_cycles s2).count_eq, (hk r).1, (hk r).2, hl]
          simp [State.set_reactor]
        · rw [schedule_of_reactor s2 _ r (insert_timer_reactor_other _ _ _ _ _ hr)]
          unfold schedule
          simp only [(hk r).1, (hk r).2, State.set_reactor, Function.update_noteq hr]
          exact le_refl _
    · simp only [Option.some.injEq, Prod.mk.injEq] at h
      rw [← h.1]
      exact schedules_shrink_refl s

theorem reactor_iteration_invariant (cb : Callbacks) (hal : Hal) (cur : Nat) (s s1 : State)
    (t : List Invocation) (hcb : callbacks_keep_schedules cb)
    (happ : drain_applicable cb hal cur (spdk_event_queue_count s cur) s = true)
    (hi : membership_invariant hal s)
    (h : reactor_iteration cb hal cur cur s = some (s1, t)) :
    membership_invariant hal s1 := by
  unfold reactor_iteration at h
  cases h1 : spdk_event_queue_run_all cb hal cur cur s with
  | none => rw [h1] at h; simp at h
  | some r1 =>
    obtain ⟨s2, t2⟩ := r1
    rw [h1] at h
    simp only at h
    cases h2 : active_poller_step cb cur cur s2 with
    | none => rw [h2] at h; simp at h
    | some r2 =>
      obtain ⟨s3, t3⟩ := r2
      rw [h2] at h
      simp only at h
      cases h3 : timer_poller_step cb cur cur s3 with
      | none => rw [h3] at h; simp at h
      | some r3 =>
        obtain ⟨s4, t4⟩ := r3
        rw [h3] at h
        simp only [Option.some.injEq, Prod.mk.injEq] at h
        rw [← h.1]
        have hi2 := run_invariant cb hal cur hcb _ s s2 t2 happ hi h1
        exact invariant_of_shrink hal s3 s4 (timer_poller_step_shrink cb cur cur s3 s4 t4 hcb h3)
          (invariant_of_shrink hal s2 s3
            (active_poller_step_shrink cb cur cur s2 s3 t3 hcb h2) hi2)

theorem poller_call_invariant (cb : Callbacks) (hal : Hal) (c : poller_call) (s s1 : State)
    (hcb : callbacks_keep_schedules cb) (happ : c.applicable cb hal s = true)
    (hi : membership_invariant hal s) (h : c.run cb hal s = some s1) :
    membership_invariant hal s1 := by
  cases c with
  | register poller lcore complete us =>
    have h1 : spdk_poller_register hal poller lcore complete us s = some s1 := h
    refine invariant_of_shrink hal s s1 (shrink_of_kept s s1 ?_) hi
    unfold spdk_poller_register at h1
    intro r
    exact poller_register_kept hal _ _ _ _ s1 h1 r
  | unregister poller complete =>
    exact invariant_of_shrink hal s s1
      (shrink_of_kept s s1 (poller_unregister_kept hal _ _ s s1 h)) hi
  | migrate poller new_lcore complete =>
    exact invariant_of_shrink hal s s1
      (shrink_of_kept s s1 (poller_migrate_kept hal _ _ _ s s1 h)) hi
  | iteration lcore =>
    have h1 : (reactor_iteration cb hal lcore lcore s).map Prod.fst = some s1 := h
    have happ1 : drain_applicable cb hal lcore (spdk_event_queue_count s lcore) s = true :=
      happ
    cases hit : reactor_iteration cb hal lcore lcore s with
    | none => rw [hit] at h1; simp at h1
    | some r1 =>
      obtain ⟨s2, t2⟩ := r1
      rw [hit] at h1
      simp only [Option.map_some', Option.some.injEq] at h1
      rw [← h1]
      exact reactor_iteration_invariant cb hal lcore s s2 t2 hcb happ1 hi hit

theorem poller_calls_invariant (cb : Callbacks) (hal : Hal)
    (hcb : callbacks_keep_schedules cb) (calls : List poller_call) :
    ∀ (s s1 : State), poller_calls_applicable cb hal calls s = true →
      membership_invariant hal s → poller_calls_run cb hal calls s = some s1 →
      membership_invariant hal s1 := by
  induction calls with
  | nil =>
    intro s s1 _ hi h
    simp only [poller_calls_run, Option.some.injEq] at h
    rw [← h]
    exact hi
  | cons c rest ih =>
    intro s s1 happ hi h
    simp only [poller_calls_run] at h
    simp only [poller_calls_applicable, Bool.and_eq_true] at happ
    cases hc : c.run cb hal s with
    | none => rw [hc] at h; simp at h
    | some s2 =>
      rw [hc] at h happ
      simp only at h happ
      exact ih s2 s1 happ.2 (poller_call_invariant cb hal c s s2 hcb happ.1 hi hc) h

/-! ## The schedules after `spdk_reactors_init` -/

theorem construct_reactors_kept (hal : Hal) (l : List Nat) :
    ∀ (s s1 : State), construct_reactors hal l s = some s1 →
      (∀ r, schedule s r = []) → ∀ r, schedule s1 r = [] := by
  induction l with
  | nil =>
    intro s s1 h he
    simp only [construct_reactors, Option.some.injEq] at h
    rw [← h]
    exact he
  | cons i rest ih =>
    intro s s1 h he
    simp only [construct_reactors] at h
    by_cases hb : bit64 i &&& spdk_app_get_core_mask s ≠ 0
    · rw [if_pos hb] at h
      cases hc : spdk_reactor_construct hal i i s with
      | none => rw [hc] at h; simp at h
      | some s0 =>
        rw [hc] at h
        simp only at h
        refine ih _ s1 h ?_
        intro r
        unfold spdk_reactor_construct at hc
        split_ifs at hc
        simp only [Option.some.injEq] at hc
        rw [← hc]
        by_cases hr : r = i
        · subst hr
          simp [schedule, State.set_reactor]
        · have := he r
          simpa [schedule, State.set_reactor, Function.update_noteq hr] using this
    · rw [if_neg hb] at h
      exact ih s s1 h he

theorem init_schedules (hal : Hal) (mask : Option (List Char)) (P : Nat → spdk_poller)
    (now : Nat) (s1 : State) (rc : Int)
    (h : spdk_reactors_init hal mask (State.init P now) = some (rc, s1)) :
    ∀ r, schedule s1 r = [] := by
  have he : ∀ r, schedule (State.init P now) r = [] := fun r => rfl
  unfold spdk_reactors_init at h
  have hf := parse_mask_frame hal mask (State.init P now)
  cases hp : spdk_reactor_parse_mask hal mask (State.init P now) with
  | mk rc0 s0 =>
    rw [hp] at h hf
    simp only at h hf
    have he0 : ∀ r, schedule s0 r = [] := by
      intro r
      rw [hf]
      exact he r
    split_ifs at h with hrc
    · simp only [Option.some.injEq, Prod.mk.injEq] at h
      rw [← h.2]
      exact he0
    · split at h
      · simp at h
      · rename_i s2 hc
        have he2 := construct_reactors_kept hal _ s0 s2 hc he0
        have hm := create_mempools_frame hal (spdk_reactor_get_socket_mask hal s2)
          (count_sockets (spdk_reactor_get_socket_mask hal s2)) (List.range 64) s2
        split at h
        · rename_i s3 hcm
          simp only [Option.some.injEq, Prod.mk.injEq] at h
          rw [← h.2]
          rw [hcm] at hm
          intro r
          unfold schedule
          rw [hm.2.2.2.1]
          exact he2 r
        · rename_i s3 hcm
          simp only [Option.some.injEq, Prod.mk.injEq] at h
          rw [← h.2]
          rw [hcm] at hm
          intro r
          unfold schedule
          simp only
          rw [hm.2.2.2.1]
          exact he2 r

theorem invariant_of_empty (hal : Hal) (s : State) (h : ∀ r, schedule s r = []) :
    membership_invariant hal s := by
  unfold membership_invariant all_schedules
  have : (List.range hal.RTE_MAX_LCORE).flatMap (schedule s) = [] := by
    rw [List.flatMap_eq_nil_iff]
    exact fun r _ => h r
  rw [this]
  exact List.nodup_nil

/-! ## The backward scan and the stable insertion -/

theorem scan_eq_reference (P : Nat → spdk_poller) (t p : Nat) (R : List Nat)
    (hR : List.Pairwise (fun a b => (P b).next_run_tick ≤ (P a).next_run_tick) R) :
    (insert_timer_scan P t p R).reverse = reference_stable_insert P t p R.reverse := by
  induction R with
  | nil => simp [insert_timer_scan, reference_stable_insert]
  | cons iter rest ih =>
    obtain ⟨hhead, hrest⟩ := List.pairwise_cons.1 hR
    unfold insert_timer_scan
    by_cases hle : (P iter).next_run_tick ≤ t
    · rw [if_pos hle]
      have hall : ∀ q ∈ (iter :: rest).reverse, (P q).next_run_tick ≤ t := by
        intro q hq
        simp only [List.mem_reverse, List.mem_cons] at hq
        rcases hq with rfl | hq
        · exact hle
        · exact le_trans (hhead q hq) hle
      unfold reference_stable_insert
      rw [List.filter_eq_self.2 (fun q hq => by simpa using hall q hq),
        List.filter_eq_nil_iff.2 (fun q hq => by simpa using hall q hq)]
      simp
    · rw [if_neg hle]
      have hgt : t < (P iter).next_run_tick := by omega
      rw [List.reverse_cons, ih hrest]
      unfold reference_stable_insert
      simp [List.filter_append, List.filter_cons, hle, hgt]

theorem reference_stable_insert_congr (P Q : Nat → spdk_poller) (t p : Nat) (L : List Nat)
    (h : ∀ q ∈ L, (Q q).next_run_tick = (P q).next_run_tick) :
    reference_stable_insert Q t p L = reference_stable_insert P t p L := by
  unfold reference_stable_insert
  congr 1
  · apply List.filter_congr
    intro q hq
    rw [h q hq]
  · congr 1
    apply List.filter_congr
    intro q hq
    rw [h q hq]

theorem filter_split_sorted (P : Nat → spdk_poller) (t : Nat) (L : List Nat)
    (hL : List.Pairwise (fun a b => (P a).next_run_tick ≤ (P b).next_run_tick) L) :
    L.filter (fun q => decide ((P q).next_run_tick ≤ t)) ++
      L.filter (fun q => decide (t < (P q).next_run_tick)) = L := by
  induction L with
  | nil => rfl
  | cons a rest ih =>
    obtain ⟨hhead, hrest⟩ := List.pairwise_cons.1 hL
    by_cases hle : (P a).next_run_tick ≤ t
    · have hgt : ¬ t < (P a).next_run_tick := by omega
      simp only [List.filter_cons, hle, hgt, decide_True, decide_False, if_true,
        Bool.false_eq_true, if_false, List.cons_append, ih hrest]
    · have hgt : t < (P a).next_run_tick := by omega
      have hall : ∀ q ∈ rest, t < (P q).next_run_tick :=
        fun q hq => lt_of_lt_of_le hgt (hhead q hq)
      rw [List.filter_cons, List.filter_cons]
      simp only [hle, hgt, decide_True, decide_False, if_true, Bool.false_eq_true, if_false]
      rw [List.filter_eq_nil_iff.2 (fun q hq => by
          have := hall q hq
          simp only [decide_eq_true_eq]
          omega),
        List.filter_eq_self.2 (fun q hq => by simpa using hall q hq)]
      rfl

/-! ## The parts of one pass of the loop -/

theorem active_calls_events (todo : List spdk_event) (cur : Nat) :
    active_calls (todo.map (Invocation.event cur)) = [] := by
  induction todo with
  | nil => rfl
  | cons e t ih => simpa [active_calls] using ih

theorem timer_calls_events (todo : List spdk_event) (cur : Nat) :
    timer_calls (todo.map (Invocation.event cur)) = [] := by
  induction todo with
  | nil => rfl
  | cons e t ih => simpa [timer_calls] using ih

theorem timer_calls_append (t1 t2 : List Invocation) :
    timer_calls (t1 ++ t2) = timer_calls t1 ++ timer_calls t2 := by
  induction t1 with
  | nil => rfl
  | cons a t ih =>
    cases a <;> simp [timer_calls, ih]

theorem event_calls_append (t1 t2 : List Invocation) :
    event_calls (t1 ++ t2) = event_calls t1 ++ event_calls t2 := by
  induction t1 with
  | nil => rfl
  | cons a t ih =>
    cases a <;> simp [event_calls, ih]

/-- What `spdk_event_queue_run_single` records is the call of one event, or nothing. -/
theorem run_single_trace (cb : Callbacks) (hal : Hal) (cur lcore : Nat) (s s1 : State)
    (t : List Invocation) (h : spdk_event_queue_run_single cb hal cur lcore s = some (s1, t)) :
    active_calls t = [] ∧ timer_calls t = [] := by
  unfold spdk_event_queue_run_single at h
  simp only at h
  split at h
  · simp at h
  · split at h
    · simp only [Option.some.injEq, Prod.mk.injEq] at h
      rw [← h.2]
      exact ⟨rfl, rfl⟩
    · split at h
      · simp at h
      · split at h
        · simp at h
        · simp only [Option.some.injEq, Prod.mk.injEq] at h
          rw [← h.2]
          exact ⟨rfl, rfl⟩

/-- A drain pass calls no poller. -/
theorem run_trace (cb : Callbacks) (hal : Hal) (cur lcore : Nat) (count : Nat) :
    ∀ (s s1 : State) (t : List Invocation),
      spdk_event_queue_run cb hal cur lcore count s = some (s1, t) →
      active_calls t = [] ∧ timer_calls t = [] := by
  induction count with
  | zero =>
    intro s s1 t h
    simp only [spdk_event_queue_run, Option.some.injEq, Prod.mk.injEq] at h
    rw [← h.2]
    exact ⟨rfl, rfl⟩
  | succ n ih =>
    intro s s1 t h
    simp only [spdk_event_queue_run] at h
    cases hs : spdk_event_queue_run_single cb hal cur lcore s with
    | none => rw [hs] at h; simp at h
    | some r1 =>
      obtain ⟨s2, t2⟩ := r1
      rw [hs] at h
      simp only at h
      cases hr : spdk_event_queue_run cb hal cur lcore n s2 with
      | none => rw [hr] at h; simp at h
      | some r2 =>
        obtain ⟨s3, t3⟩ := r2
        rw [hr] at h
        simp only [Option.some.injEq, Prod.mk.injEq] at h
        rw [← h.2, active_calls_append, timer_calls_append,
          (run_single_trace cb hal cur lcore s s2 t2 hs).1,
          (run_single_trace cb hal cur lcore s s2 t2 hs).2, (ih s2 s3 t3 hr).1,
          (ih s2 s3 t3 hr).2]
        exact ⟨rfl, rfl⟩

/-- The three parts of a pass that returns. -/
theorem reactor_iteration_split (cb : Callbacks) (hal : Hal) (cur reactor : Nat)
    (s s3 : State) (t : List Invocation)
    (h : reactor_iteration cb hal cur reactor s = some (s3, t)) :
    ∃ s1 s2 t1 t2 t3, spdk_event_queue_run_all cb hal cur cur s = some (s1, t1) ∧
      active_poller_step cb cur reactor s1 = some (s2, t2) ∧
      timer_poller_step cb cur reactor s2 = some (s3, t3) ∧ t = t1 ++ t2 ++ t3 := by
  unfold reactor_iteration at h
  cases h1 : spdk_event_queue_run_all cb hal cur cur s with
  | none => rw [h1] at h; simp at h
  | some r1 =>
    obtain ⟨s1, t1⟩ := r1
    rw [h1] at h
    simp only at h
    cases h2 : active_poller_step cb cur reactor s1 with
    | none => rw [h2] at h; simp at h
    | some r2 =>
      obtain ⟨s2, t2⟩ := r2
      rw [h2] at h
      simp only at h
      cases h3 : timer_poller_step cb cur reactor s2 with
      | none => rw [h3] at h; simp at h
      | some r3 =>
        obtain ⟨s4, t3⟩ := r3
        rw [h3] at h
        simp only [Option.some.injEq, Prod.mk.injEq] at h
        obtain ⟨rfl, rfl⟩ := h
        exact ⟨s1, s2, t1, t2, t3, by first | exact h1 | rfl, h2, h3, rfl⟩

/-- The always-run step calls the head of the schedule, if there is one. -/
theorem active_poller_step_shape (cb : Callbacks) (cur reactor : Nat) (s s1 : State)
    (t : List Invocation) (h : active_poller_step cb cur reactor s = some (s1, t)) :
    ((s.g_reactors reactor).active_pollers = [] ∧ s1 = s ∧ t = []) ∨
    ∃ p tl, (s.g_reactors reactor).active_pollers = p :: tl ∧
      t = [Invocation.active cur p] := by
  cases hl : (s.g_reactors reactor).active_pollers with
  | nil =>
    rw [active_poller_step_nil cb cur reactor s hl] at h
    simp only [Option.some.injEq, Prod.mk.injEq] at h
    exact Or.inl ⟨rfl, h.1.symm, h.2.symm⟩
  | cons p tl =>
    right
    refine ⟨p, tl, rfl, ?_⟩
    rw [active_poller_step_cons cb cur reactor s p tl hl] at h
    split at h
    · simp at h
    · simp only [Option.some.injEq, Prod.mk.injEq] at h
      exact h.2.symm

/-- The timer step calls the head of the schedule, if there is one and it is due. -/
theorem timer_poller_step_shape (cb : Callbacks) (cur reactor : Nat) (s s1 : State)
    (t : List Invocation) (h : timer_poller_step cb cur reactor s = some (s1, t)) :
    (s1 = s ∧ t = [] ∧ ((s.g_reactors reactor).timer_pollers = [] ∨
      ∃ p tl, (s.g_reactors reactor).timer_pollers = p :: tl ∧
        s.timer_cycles < (s.pollers p).next_run_tick)) ∨
    ∃ p tl, (s.g_reactors reactor).timer_pollers = p :: tl ∧
      s.timer_cycles ≥ (s.pollers p).next_run_tick ∧ t = [Invocation.timer cur p] := by
  cases hl : (s.g_reactors reactor).timer_pollers with
  | nil =>
    rw [timer_poller_step_nil cb cur reactor s hl] at h
    simp only [Option.some.injEq, Prod.mk.injEq] at h
    exact Or.inl ⟨h.1.symm, h.2.symm, Or.inl rfl⟩
  | cons p tl =>
    by_cases hdue : s.timer_cycles ≥ (s.pollers p).next_run_tick
    · right
      refine ⟨p, tl, rfl, hdue, ?_⟩
      rw [timer_poller_step_due cb cur reactor s p tl hl hdue] at h
      split at h
      · simp at h
      · simp only [Option.some.injEq, Prod.mk.injEq] at h
        exact h.2.symm
    · left
      rw [timer_poller_step_not_due cb cur reactor s p tl hl hdue] at h
      simp only [Option.some.injEq, Prod.mk.injEq] at h
      exact ⟨h.1.symm, h.2.symm, Or.inr ⟨p, tl, rfl, by omega⟩⟩

/-! ## What the events of a drain pass do to a ring and to a reactor -/

theorem spdk_event_call_append (hal : Hal) (e : spdk_event) (s s1 : State) (lcore : Nat)
    (ring0 : rte_ring) (hr : (s.g_reactors lcore).events = some ring0)
    (h : spdk_event_call hal e s = some s1) :
    ∃ extra, (s1.g_reactors lcore).events =
      some { items := ring0.items ++ extra, cons := ring0.cons } := by
  obtain ⟨ring, h1, h2, h3⟩ := spdk_event_call_effect hal e s s1 h
  by_cases hl : lcore = e.lcore
  · subst hl
    rw [hr] at h1
    obtain rfl := Option.some.inj h1
    exact ⟨[e], h2⟩
  · refine ⟨[], ?_⟩
    rw [h3 lcore hl, hr]
    simp

theorem call_next_append (hal : Hal) (next : Option spdk_event) (s s1 : State) (lcore : Nat)
    (ring0 : rte_ring) (hr : (s.g_reactors lcore).events = some ring0)
    (h : call_next hal next s = some s1) :
    ∃ extra, (s1.g_reactors lcore).events =
      some { items := ring0.items ++ extra, cons := ring0.cons } := by
  cases next with
  | none =>
    simp only [call_next, Option.some.injEq] at h
    subst h
    exact ⟨[], by rw [hr]; simp⟩
  | some e => exact spdk_event_call_append hal e s s1 lcore ring0 hr h

theorem poller_register_append (hal : Hal) (poller lcore1 : Nat)
    (complete : Option spdk_event) (s s1 : State) (lcore : Nat) (ring0 : rte_ring)
    (hr : (s.g_reactors lcore).events = some ring0)
    (h : _spdk_poller_register hal poller lcore1 complete s = some s1) :
    ∃ extra, (s1.g_reactors lcore).events =
      some { items := ring0.items ++ extra, cons := ring0.cons } := by
  unfold _spdk_poller_register at h
  split at h
  · simp at h
  · rename_i e s0 ha
    obtain ⟨-, hg, -⟩ := spdk_event_allocate_frame _ _ _ _ _ _ _ _ _ ha
    exact spdk_event_call_append hal e s0 s1 lcore ring0 (by rw [hg]; exact hr) h

/-- Every event leaves in a ring what it found, with what it enqueued after it. -/
theorem event_invoke_append (cb : Callbacks) (hal : Hal) (cur : Nat) (e : spdk_event)
    (s0 s1 : State) (lcore : Nat) (ring0 : rte_ring) (happ : callbacks_append cb)
    (hr : (s0.g_reactors lcore).events = some ring0)
    (h : event_invoke cb hal cur e s0 = some s1) :
    ∃ extra, (s1.g_reactors lcore).events =
      some { items := ring0.items ++ extra, cons := ring0.cons } := by
  unfold event_invoke at h
  split at h
  · obtain ⟨s3, heq, -, -, -, hev, -⟩ := add_poller_effect hal e s0
    rw [heq] at h
    exact call_next_append hal _ s3 s1 lcore ring0 (by rw [hev]; exact hr) h
  · obtain ⟨s3, heq, -, hev, -⟩ :=
      remove_poller_effect hal e s0 (remove_poller_some hal e s0 s1 h).1
    rw [heq] at h
    exact call_next_append hal _ s3 s1 lcore ring0 (by rw [hev]; exact hr) h
  · exact poller_register_append hal _ _ _ s0 s1 lcore ring0 hr h
  · exact happ _ _ _ _ _ _ _ hr h

theorem run_add (cb : Callbacks) (hal : Hal) (cur lcore : Nat) (n m : Nat) :
    ∀ s, spdk_event_queue_run cb hal cur lcore (n + m) s =
      match spdk_event_queue_run cb hal cur lcore n s with
      | none => none
      | some (s1, t1) =>
        match spdk_event_queue_run cb hal cur lcore m s1 with
        | none => none
        | some (s2, t2) => some (s2, t1 ++ t2) := by
  induction n with
  | zero =>
    intro s
    simp only [Nat.zero_add, spdk_event_queue_run, List.nil_append]
    cases spdk_event_queue_run cb hal cur lcore m s with
    | none => rfl
    | some r => rfl
  | succ n ih =>
    intro s
    rw [Nat.succ_add]
    simp only [spdk_event_queue_run]
    cases hs : spdk_event_queue_run_single cb hal cur lcore s with
    | none => rfl
    | some r1 =>
      obtain ⟨s1, t1⟩ := r1
      simp only
      rw [ih s1]
      cases spdk_event_queue_run cb hal cur lcore n s1 with
      | none => rfl
      | some r2 =>
        obtain ⟨s2, t2⟩ := r2
        simp only
        cases spdk_event_queue_run cb hal cur lcore m s2 with
        | none => rfl
        | some r3 =>
          simp only [List.append_assoc]

/-- One step of a drain pass that returns, with the event `e` at the consumer index. -/
theorem run_single_tracked (cb : Callbacks) (hal : Hal) (cur : Nat) (s s1 : State)
    (t : List Invocation) (done : List spdk_event) (e : spdk_event) (rest : List spdk_event)
    (happ : callbacks_append cb)
    (hr : (s.g_reactors cur).events
      = some { items := done ++ e :: rest, cons := done.length })
    (h : spdk_event_queue_run_single cb hal cur cur s = some (s1, t)) :
    t = [Invocation.event cur e] ∧
    (∃ extra, (s1.g_reactors cur).events
      = some { items := done ++ e :: rest ++ extra, cons := done.length + 1 }) ∧
    ∃ sd se, sd = s.set_reactor cur { s.g_reactors cur with
        events := some { items := done ++ e :: rest, cons := done.length + 1 } } ∧
      event_invoke cb hal cur e sd = some se ∧ spdk_event_free hal cur se = some s1 := by
  unfold spdk_event_queue_run_single at h
  simp only [spdk_reactor_get, hr] at h
  have hdq : rte_ring_dequeue { items := done ++ e :: rest, cons := done.length }
      = some (e, { items := done ++ e :: rest, cons := done.length + 1 }) := by
    simp [rte_ring_dequeue, rte_ring.content]
  rw [hdq] at h
  simp only at h
  cases hinv : event_invoke cb hal cur e
      (s.set_reactor cur { s.g_reactors cur with
        events := some { items := done ++ e :: rest, cons := done.length + 1 } }) with
  | none => rw [hinv] at h; simp at h
  | some se =>
    rw [hinv] at h
    simp only at h
    cases hf : spdk_event_free hal cur se with
    | none => rw [hf] at h; simp at h
    | some s2 =>
      rw [hf] at h
      simp only [Option.some.injEq, Prod.mk.injEq] at h
      obtain ⟨rfl, rfl⟩ := h
      refine ⟨rfl, ?_, _, se, rfl, hinv, hf⟩
      obtain ⟨extra, hx⟩ := event_invoke_append cb hal cur e _ se cur
        { items := done ++ e :: rest, cons := done.length + 1 } happ
        (by simp [State.set_reactor]) hinv
      refine ⟨extra, ?_⟩
      rw [(spdk_event_free_frame hal cur se s2 hf).1, hx]

/-- A drain pass that returns, over the events `todo` at the consumer index: it calls
`todo` in order, the ring holds afterwards what it held and what was enqueued meanwhile,
and a relation `Q` that every call of an event of `todo` respects holds between the
states before and after. -/
theorem run_tracked (cb : Callbacks) (hal : Hal) (cur : Nat) (happ : callbacks_append cb)
    (Q : State → State → Prop) (hrefl : ∀ s, Q s s)
    (htrans : ∀ a b c, Q a b → Q b c → Q a c)
    (hframe : ∀ s s1, schedules_kept s s1 → s1.pollers = s.pollers → Q s s1)
    (todo : List spdk_event) :
    ∀ (s s1 : State) (t : List Invocation) (done late : List spdk_event),
      (∀ e ∈ todo, ∀ s0 s2, event_invoke cb hal cur e s0 = some s2 → Q s0 s2) →
      (s.g_reactors cur).events
        = some { items := done ++ todo ++ late, cons := done.length } →
      spdk_event_queue_run cb hal cur cur todo.length s = some (s1, t) →
      t = todo.map (Invocation.event cur) ∧
      (∃ late1, (s1.g_reactors cur).events
        = some { items := done ++ todo ++ late ++ late1,
                 cons := done.length + todo.length }) ∧
      Q s s1 := by
  induction todo with
  | nil =>
    intro s s1 t done late _ hr h
    simp only [List.length_nil, spdk_event_queue_run, Option.some.injEq, Prod.mk.injEq] at h
    obtain ⟨rfl, rfl⟩ := h
    exact ⟨rfl, ⟨[], by simpa using hr⟩, hrefl s⟩
  | cons e todo ih =>
    intro s s1 t done late hev hr h
    simp only [List.length_cons, spdk_event_queue_run] at h
    cases hs : spdk_event_queue_run_single cb hal cur cur s with
    | none => rw [hs] at h; simp at h
    | some r1 =>
      obtain ⟨s2, t2⟩ := r1
      rw [hs] at h
      simp only at h
      cases hrest : spdk_event_queue_run cb hal cur cur todo.length s2 with
      | none => rw [hrest] at h; simp at h
      | some r2 =>
        obtain ⟨s3, t3⟩ := r2
        rw [hrest] at h
        simp only [Option.some.injEq, Prod.mk.injEq] at h
        obtain ⟨rfl, rfl⟩ := h
        obtain ⟨ht2, ⟨extra, hr2⟩, sd, se, hsd, hinv, hf⟩ := run_single_tracked cb hal cur s
          s2 t2 done e (todo ++ late) happ (by simpa using hr) hs
        obtain ⟨ht3, ⟨late1, hr3⟩, hQ3⟩ := ih s2 s3 t3 (done ++ [e]) (late ++ extra)
          (fun x hx => hev x (List.mem_cons_of_mem _ hx)) (by simpa using hr2) hrest
        have hQ1 : Q s sd := by
          rw [hsd]
          exact hframe _ _ (set_events_kept s cur _) rfl
        have hQ2 : Q sd se := hev e (List.mem_cons_self _ _) sd se hinv
        have hQf : Q se s2 := by
          obtain ⟨hg, hp, -⟩ := spdk_event_free_frame hal cur se s2 hf
          exact hframe _ _ (kept_of_reactors se s2 hg) hp
        refine ⟨?_, ⟨extra ++ late1, ?_⟩, htrans _ _ _ (htrans _ _ _ (htrans _ _ _ hQ1 hQ2) hQf)
          hQ3⟩
        · rw [ht2, ht3]
          rfl
        · rw [hr3]
          simp [Nat.add_assoc, Nat.add_comm 1]

/-! ## A drain pass around one event -/

/-- A drain pass that returns, over `before ++ x :: after`: `x` is called in a state `sb`
and leaves a state `sx`, and a relation `Q` that the calls of the other events respect
holds between the start and `sb` and between `sx` and the end. -/
theorem run_around (cb : Callbacks) (hal : Hal) (cur : Nat) (happ : callbacks_append cb)
    (Q : State → State → Prop) (hrefl : ∀ s, Q s s)
    (htrans : ∀ a b c, Q a b → Q b c → Q a c)
    (hframe : ∀ s s1, schedules_kept s s1 → s1.pollers = s.pollers → Q s s1)
    (before after : List spdk_event) (x : spdk_event) (s s1 : State) (t : List Invocation)
    (done late : List spdk_event)
    (hev : ∀ e ∈ before ++ after, ∀ s0 s2, event_invoke cb hal cur e s0 = some s2 → Q s0 s2)
    (hr : (s.g_reactors cur).events
      = some { items := done ++ (before ++ x :: after) ++ late, cons := done.length })
    (h : spdk_event_queue_run cb hal cur cur (before ++ x :: after).length s = some (s1, t)) :
    t = (before ++ x :: after).map (Invocation.event cur) ∧
    ∃ sb sx, Q s sb ∧ event_invoke cb hal cur x sb = some sx ∧ Q sx s1 := by
  rw [List.length_append, run_add] at h
  cases h1 : spdk_event_queue_run cb hal cur cur before.length s with
  | none => rw [h1] at h; simp at h
  | some r1 =>
    obtain ⟨s2, t2⟩ := r1
    rw [h1] at h
    simp only at h
    obtain ⟨ht2, ⟨late1, hr2⟩, hQ2⟩ := run_tracked cb hal cur happ Q hrefl htrans hframe before
      s s2 t2 done (x :: after ++ late)
      (fun e he => hev e (List.mem_append_left _ he)) (by simpa using hr) h1
    simp only [List.length_cons, spdk_event_queue_run] at h
    cases hs : spdk_event_queue_run_single cb hal cur cur s2 with
    | none => rw [hs] at h; simp at h
    | some r2 =>
      obtain ⟨s3, t3⟩ := r2
      rw [hs] at h
      simp only at h
      cases hrest : spdk_event_queue_run cb hal cur cur after.length s3 with
      | none => rw [hrest] at h; simp at h
      | some r3 =>
        obtain ⟨s4, t4⟩ := r3
        rw [hrest] at h
        simp only [Option.some.injEq, Prod.mk.injEq] at h
        obtain ⟨rfl, rfl⟩ := h
        obtain ⟨ht3, ⟨extra, hr3⟩, sd, se, hsd, hinv, hf⟩ := run_single_tracked cb hal cur s2
          s3 t3 (done ++ before) x (after ++ late ++ late1) happ
          (by rw [hr2]; simp) hs
        obtain ⟨ht4, -, hQ4⟩ := run_tracked cb hal cur happ Q hrefl htrans hframe after
          s3 s4 t4 (done ++ before ++ [x]) (late ++ late1 ++ extra)
          (fun e he => hev e (List.mem_append_right _ he))
          (by rw [hr3]; simp [Nat.add_assoc]) hrest
        refine ⟨?_, sd, se, ?_, hinv, ?_⟩
        · rw [ht2, ht3, ht4]
          simp
        · refine htrans _ _ _ hQ2 ?_
          rw [hsd]
          exact hframe _ _ (set_events_kept s2 cur _) rfl
        · obtain ⟨hg, hp, -⟩ := spdk_event_free_frame hal cur se s3 hf
          exact htrans _ _ _ (hframe _ _ (kept_of_reactors se s3 hg) hp) hQ4

/-- The events of a drain pass that returns are the events that waited at its start. -/
theorem run_all_trace (cb : Callbacks) (hal : Hal) (cur : Nat) (happ : callbacks_append cb)
    (s s1 : State) (t : List Invocation) (ring : rte_ring)
    (hr : (s.g_reactors cur).events = some ring) (hw : ring.cons ≤ ring.items.length)
    (h : spdk_event_queue_run_all cb hal cur cur s = some (s1, t)) :
    t = ring.content.map (Invocation.event cur) := by
  have hcount : spdk_event_queue_count s cur = ring.content.length := by
    simp [spdk_event_queue_count, spdk_reactor_get, hr, rte_ring_count, rte_ring.content]
  rw [spdk_event_queue_run_all, hcount] at h
  exact (run_tracked cb hal cur happ (fun _ _ => True) (fun _ => trivial)
    (fun _ _ _ _ _ => trivial) (fun _ _ _ _ => trivial) ring.content s s1 t
    (ring.items.take ring.cons) [] (fun _ _ _ _ _ => trivial)
    (by rw [hr]; simp [rte_ring.content, Nat.min_eq_left hw]) h).1

/-! ## The schedules a drain pass leaves to the poller steps -/

/-- The always-run step leaves the timer schedule alone when the callbacks do. -/
theorem active_poller_step_timer (cb : Callbacks) (cur reactor : Nat) (s s1 : State)
    (t : List Invocation) (hk : callbacks_keep_schedules cb)
    (h : active_poller_step cb cur reactor s = some (s1, t)) :
    (s1.g_reactors reactor).timer_pollers = (s.g_reactors reactor).timer_pollers := by
  cases hl : (s.g_reactors reactor).active_pollers with
  | nil =>
    rw [active_poller_step_nil cb cur reactor s hl] at h
    simp only [Option.some.injEq, Prod.mk.injEq] at h
    rw [← h.1]
  | cons p tl =>
    rw [active_poller_step_cons cb cur reactor s p tl hl] at h
    split at h
    · simp at h
    · rename_i s2 hfn
      simp only [Option.some.injEq, Prod.mk.injEq] at h
      rw [← h.1]
      have := (hk.2 _ _ _ _ _ hfn reactor).2
      simp only [State.set_reactor, Function.update_same] at this ⊢
      exact this

/-- The pollers a pass that returns calls are the heads the drain pass leaves. -/
theorem iteration_calls (cb : Callbacks) (hal : Hal) (cur reactor : Nat) (s s1 s3 : State)
    (t t1 : List Invocation)
    (hd : spdk_event_queue_run_all cb hal cur cur s = some (s1, t1))
    (h : reactor_iteration cb hal cur reactor s = some (s3, t)) :
    ∃ s2 t2 t3, active_poller_step cb cur reactor s1 = some (s2, t2) ∧
      timer_poller_step cb cur reactor s2 = some (s3, t3) ∧ t = t1 ++ t2 ++ t3 ∧
      (t2 = [] ∨ ∃ a, t2 = [Invocation.active cur a]) ∧
      (t3 = [] ∨ ∃ b, t3 = [Invocation.timer cur b]) ∧
      active_calls t = (s1.g_reactors reactor).active_pollers.take 1 ∧
      (∀ q, q ∈ timer_calls t →
        TAILQ_FIRST (s2.g_reactors reactor).timer_pollers = some q) := by
  obtain ⟨s1', s2, t1', t2, t3, h1, h2, h3, ht⟩ :=
    reactor_iteration_split cb hal cur reactor s s3 t h
  rw [hd] at h1
  simp only [Option.some.injEq, Prod.mk.injEq] at h1
  obtain ⟨rfl, rfl⟩ := h1
  obtain ⟨hta, htt⟩ := run_trace cb hal cur cur _ s s1 t1 hd
  have ha := active_poller_step_shape cb cur reactor s1 s2 t2 h2
  have hb := timer_poller_step_shape cb cur reactor s2 s3 t3 h3
  refine ⟨s2, t2, t3, h2, h3, ht, ?_, ?_, ?_, ?_⟩
  · rcases ha with ⟨-, -, rfl⟩ | ⟨a, tl, -, rfl⟩
    · exact Or.inl rfl
    · exact Or.inr ⟨a, rfl⟩
  · rcases hb with ⟨-, rfl, -⟩ | ⟨b, tl, -, -, rfl⟩
    · exact Or.inl rfl
    · exact Or.inr ⟨b, rfl⟩
  · have h3a : active_calls t3 = [] := by
      rcases hb with ⟨-, rfl, -⟩ | ⟨b, tl, -, -, rfl⟩ <;> rfl
    rw [ht, active_calls_append, active_calls_append, hta, h3a]
    rcases ha with ⟨hl, -, rfl⟩ | ⟨a, tl, hl, rfl⟩
    · rw [hl]
      rfl
    · rw [hl]
      rfl
  · intro q hq
    have h2t : timer_calls t2 = [] := by
      rcases ha with ⟨-, -, rfl⟩ | ⟨a, tl, -, rfl⟩ <;> rfl
    rw [ht, timer_calls_append, timer_calls_append, htt, h2t] at hq
    rcases hb with ⟨-, rfl, -⟩ | ⟨b, tl, hl, -, rfl⟩
    · simp [timer_calls] at hq
    · simp only [timer_calls, List.nil_append, List.mem_singleton] at hq
      subst hq
      simp [TAILQ_FIRST, hl]

/-! ## The bound of a drain pass -/

/-- One step of a drain pass of the queue of `lcore`, run on `cur`, that returns, with the
event `e` at the consumer index. -/
theorem run_single_bound (cb : Callbacks) (hal : Hal) (cur lcore : Nat) (s s1 : State)
    (t : List Invocation) (done : List spdk_event) (e : spdk_event) (rest : List spdk_event)
    (happ : callbacks_append cb)
    (hr : (s.g_reactors lcore).events
      = some { items := done ++ e :: rest, cons := done.length })
    (h : spdk_event_queue_run_single cb hal cur lcore s = some (s1, t)) :
    t = [Invocation.event cur e] ∧
    ∃ extra, (s1.g_reactors lcore).events
      = some { items := done ++ e :: rest ++ extra, cons := done.length + 1 } := by
  unfold spdk_event_queue_run_single at h
  simp only [spdk_reactor_get, hr] at h
  have hdq : rte_ring_dequeue { items := done ++ e :: rest, cons := done.length }
      = some (e, { items := done ++ e :: rest, cons := done.length + 1 }) := by
    simp [rte_ring_dequeue, rte_ring.content]
  rw [hdq] at h
  simp only at h
  cases hinv : event_invoke cb hal cur e
      (s.set_reactor lcore { s.g_reactors lcore with
        events := some { items := done ++ e :: rest, cons := done.length + 1 } }) with
  | none => rw [hinv] at h; simp at h
  | some se =>
    rw [hinv] at h
    simp only at h
    cases hf : spdk_event_free hal lcore se with
    | none => rw [hf] at h; simp at h
    | some s2 =>
      rw [hf] at h
      simp only [Option.some.injEq, Prod.mk.injEq] at h
      obtain ⟨rfl, rfl⟩ := h
      refine ⟨rfl, ?_⟩
      obtain ⟨extra, hx⟩ := event_invoke_append cb hal cur e _ se lcore
        { items := done ++ e :: rest, cons := done.length + 1 } happ
        (by simp [State.set_reactor]) hinv
      refine ⟨extra, ?_⟩
      rw [(spdk_event_free_frame hal lcore se s2 hf).1, hx]

/-- A run of `spdk_event_queue_run` that returns, over the events `todo` at the consumer
index: it calls `todo` in order and the ring holds afterwards what it held and what was
enqueued meanwhile. -/
theorem run_bound (cb : Callbacks) (hal : Hal) (cur lcore : Nat)
    (happ : callbacks_append cb) (todo : List spdk_event) :
    ∀ (s s1 : State) (t : List Invocation) (done late : List spdk_event),
      (s.g_reactors lcore).events
        = some { items := done ++ todo ++ late, cons := done.length } →
      spdk_event_queue_run cb hal cur lcore todo.length s = some (s1, t) →
      t = todo.map (Invocation.event cur) ∧
      ∃ late1, (s1.g_reactors lcore).events
        = some { items := done ++ todo ++ late ++ late1,
                 cons := done.length + todo.length } := by
  induction todo with
  | nil =>
    intro s s1 t done late hr h
    simp only [List.length_nil, spdk_event_queue_run, Option.some.injEq, Prod.mk.injEq] at h
    obtain ⟨rfl, rfl⟩ := h
    exact ⟨rfl, ⟨[], by simpa using hr⟩⟩
  | cons e todo ih =>
    intro s s1 t done late hr h
    simp only [List.length_cons, spdk_event_queue_run] at h
    cases hs : spdk_event_queue_run_single cb hal cur lcore s with
    | none => rw [hs] at h; simp at h
    | some r1 =>
      obtain ⟨s2, t2⟩ := r1
      rw [hs] at h
      simp only at h
      cases hrest : spdk_event_queue_run cb hal cur lcore todo.length s2 with
      | none => rw [hrest] at h; simp at h
      | some r2 =>
        obtain ⟨s3, t3⟩ := r2
        rw [hrest] at h
        simp only [Option.some.injEq, Prod.mk.injEq] at h
        obtain ⟨rfl, rfl⟩ := h
        obtain ⟨ht2, extra, hr2⟩ := run_single_bound cb hal cur lcore s
          s2 t2 done e (todo ++ late) happ (by simpa using hr) hs
        obtain ⟨ht3, late1, hr3⟩ := ih s2 s3 t3 (done ++ [e]) (late ++ extra)
          (by simpa using hr2) hrest
        refine ⟨?_, ⟨extra ++ late1, ?_⟩⟩
        · rw [ht2, ht3]
          rfl
        · rw [hr3]
          simp [Nat.add_assoc, Nat.add_comm 1]

/-- A run of `spdk_event_queue_run` returns when its steps keep an invariant under which a
step returns. -/
theorem run_returns (cb : Callbacks) (hal : Hal) (cur lcore : Nat) (Inv : State → Prop)
    (hstep : ∀ s0, Inv s0 → ∃ s1 t1,
      spdk_event_queue_run_single cb hal cur lcore s0 = some (s1, t1) ∧ Inv s1)
    (n : Nat) :
    ∀ s, Inv s → ∃ s1 t, spdk_event_queue_run cb hal cur lcore n s = some (s1, t) ∧ Inv s1 := by
  induction n with
  | zero =>
    intro s hs
    exact ⟨s, [], rfl, hs⟩
  | succ n ih =>
    intro s hs
    obtain ⟨s1, t1, h1, hi1⟩ := hstep s hs
    obtain ⟨s2, t2, h2, hi2⟩ := ih s1 hi1
    refine ⟨s2, t1 ++ t2, ?_, hi2⟩
    simp only [spdk_event_queue_run, h1, h2]

/-- The callbacks `requeue_callbacks` use the rings the way `spdk_event_call` does. -/
theorem requeue_append (hal : Hal) : callbacks_append (requeue_callbacks hal) := by
  intro k cur e s0 s1 lcore ring0 hr h
  simp only [requeue_callbacks] at h
  split at h
  · simp at h
  · rename_i e1 sa ha
    obtain ⟨-, hg, -⟩ := spdk_event_allocate_frame _ _ _ _ _ _ _ _ _ ha
    exact spdk_event_call_append hal e1 sa s1 lcore ring0 (by rw [hg]; exact hr) h

/-- A step of a drain pass with `requeue_callbacks`, on its own lcore, returns from a
state that is ready for it and leaves such a state. -/
theorem requeue_step (hal : Hal) (c : Nat) (s0 : State) (h : requeue_ready hal c s0) :
    ∃ s1 t1, spdk_event_queue_run_single (requeue_callbacks hal) hal c c s0 = some (s1, t1) ∧
      requeue_ready hal c s1 := by
  obtain ⟨ring, pool, hr, hw, hcnt, huser, hsock, hpool, havail⟩ := h
  unfold spdk_event_queue_run_single
  simp only [spdk_reactor_get, hr]
  cases hc : ring.content with
  | nil =>
    have hdq : rte_ring_dequeue ring = none := by simp [rte_ring_dequeue, hc]
    rw [hdq]
    exact ⟨s0, [], rfl, ring, pool, hr, hw, hcnt, huser, hsock, hpool, havail⟩
  | cons e rest =>
    have hdq : rte_ring_dequeue ring = some (e, { ring with cons := ring.cons + 1 }) := by
      simp [rte_ring_dequeue, hc]
    rw [hdq]
    simp only
    obtain ⟨k, hk⟩ := huser e (by rw [hc]; exact List.mem_cons_self _ _)
    have hlen : ring.items.length - ring.cons = rest.length + 1 := by
      have := congrArg List.length hc
      simpa [rte_ring.content] using this
    have hdrop : ring.items.drop (ring.cons + 1) = rest := by
      have h1 : (ring.items.drop ring.cons).drop 1 = rest := by
        have h2 : ring.items.drop ring.cons = e :: rest := hc
        rw [h2]
        rfl
      rw [List.drop_drop] at h1
      exact h1
    have hinv : event_invoke (requeue_callbacks hal) hal c e
        (s0.set_reactor c { s0.g_reactors c with
          events := some { ring with cons := ring.cons + 1 } }) =
        some (((s0.set_reactor c { s0.g_reactors c with
          events := some { ring with cons := ring.cons + 1 } }).set_mempool
            (hal.rte_lcore_to_socket_id c % 256)
            (some { pool with avail := pool.avail - 1 })).set_reactor c
          { s0.g_reactors c with
            events := some { items := ring.items ++
              [{ lcore := c, fn := spdk_event_fn.user (k + 1), arg1 := 0, arg2 := 0,
                 next := none }], cons := ring.cons + 1 } }) := by
      simp only [event_invoke, hk, requeue_callbacks]
      rw [spdk_event_allocate_eq hal c _ 0 0 none _ pool hsock
        (by simpa [State.set_reactor] using hpool) havail]
      simp only
      rw [spdk_event_call_eq hal _ _ { ring with cons := ring.cons + 1 }
        (by simp [State.set_reactor, State.set_mempool])
        (by simp only [rte_ring_count] at hcnt ⊢; omega)]
      simp [State.set_reactor, State.set_mempool]
    rw [hinv]
    simp only
    rw [spdk_event_free_eq hal c _ { pool with avail := pool.avail - 1 } hsock
      (by simp [State.set_reactor, State.set_mempool])]
    refine ⟨_, _, rfl, { items := ring.items ++
        [{ lcore := c, fn := spdk_event_fn.user (k + 1), arg1 := 0, arg2 := 0,
           next := none }], cons := ring.cons + 1 },
      { pool with avail := pool.avail - 1 + 1 }, ?_, ?_, ?_, ?_, hsock, ?_, ?_⟩
    · simp [State.set_reactor, State.set_mempool]
    · simp only [List.length_append, List.length_singleton]
      omega
    · simp only [rte_ring_count, List.length_append, List.length_singleton] at hcnt ⊢
      omega
    · intro x hx
      simp only [rte_ring.content] at hx
      rw [List.drop_append_of_le_length (by omega), hdrop] at hx
      rcases List.mem_append.1 hx with hx1 | hx1
      · exact huser x (by rw [hc]; exact List.mem_cons_of_mem _ hx1)
      · rw [List.mem_singleton] at hx1
        subst hx1
        exact ⟨k + 1, rfl⟩
    · simp [State.set_reactor, State.set_mempool]
    · simp only
      omega

/-! ## What one event does to the schedules and to the pollers -/

/-- What an event that returns has done to the schedules of reactor `r`: nothing, or it
was an add-poller or remove-poller event for `r` and has linked or unlinked its poller in
the schedule that the period of the poller selects. -/
theorem event_lists (cb : Callbacks) (hal : Hal) (cur : Nat) (e : spdk_event)
    (s0 s1 : State) (hks : callbacks_keep_schedules cb)
    (h : event_invoke cb hal cur e s0 = some s1) (r : Nat) :
    ((s1.g_reactors r).active_pollers = (s0.g_reactors r).active_pollers ∧
      (s1.g_reactors r).timer_pollers = (s0.g_reactors r).timer_pollers) ∨
    (e.fn = spdk_event_fn._spdk_event_add_poller ∧ e.arg1 = r ∧
      (s0.pollers e.arg2).period_ticks = 0 ∧
      (s1.g_reactors r).active_pollers = (s0.g_reactors r).active_pollers ++ [e.arg2] ∧
      (s1.g_reactors r).timer_pollers = (s0.g_reactors r).timer_pollers) ∨
    (e.fn = spdk_event_fn._spdk_event_add_poller ∧ e.arg1 = r ∧
      (s0.pollers e.arg2).period_ticks ≠ 0 ∧
      (s1.g_reactors r).timer_pollers.Perm (e.arg2 :: (s0.g_reactors r).timer_pollers) ∧
      (s1.g_reactors r).active_pollers = (s0.g_reactors r).active_pollers) ∨
    (e.fn = spdk_event_fn._spdk_event_remove_poller ∧ e.arg1 = r ∧
      (s0.pollers e.arg2).period_ticks = 0 ∧ e.arg2 ∈ (s0.g_reactors r).active_pollers ∧
      (s1.g_reactors r).active_pollers = (s0.g_reactors r).active_pollers.erase e.arg2 ∧
      (s1.g_reactors r).timer_pollers = (s0.g_reactors r).timer_pollers) ∨
    (e.fn = spdk_event_fn._spdk_event_remove_poller ∧ e.arg1 = r ∧
      (s0.pollers e.arg2).period_ticks ≠ 0 ∧ e.arg2 ∈ (s0.g_reactors r).timer_pollers ∧
      (s1.g_reactors r).timer_pollers = (s0.g_reactors r).timer_pollers.erase e.arg2 ∧
      (s1.g_reactors r).active_pollers = (s0.g_reactors r).active_pollers) := by
  unfold event_invoke at h
  split at h
  · rename_i hfn
    obtain ⟨s3, heq, -, -, -, -, -, hoth, -, -, -, -, htimer, hactive⟩ :=
      add_poller_effect hal e s0
    rw [heq] at h
    obtain ⟨-, hfr, -⟩ := call_next_frame hal _ s3 s1 h
    by_cases hr : r = e.arg1
    · subst hr
      by_cases hper : (s0.pollers e.arg2).period_ticks = 0
      · obtain ⟨ha, ht⟩ := hactive hper
        exact Or.inr (Or.inl ⟨hfn, rfl, hper, by rw [(hfr _).2.1, ha],
          by rw [(hfr _).1, ht]⟩)
      · obtain ⟨hp, -, ha⟩ := htimer hper
        exact Or.inr (Or.inr (Or.inl ⟨hfn, rfl, hper, by rw [(hfr _).1]; exact hp,
          by rw [(hfr _).2.1, ha]⟩))
    · exact Or.inl ⟨by rw [(hfr r).2.1, hoth r hr], by rw [(hfr r).1, hoth r hr]⟩
  · rename_i hfn
    have hl := (remove_poller_some hal e s0 s1 h).1
    obtain ⟨s3, heq, -, -, -, hoth, -, -, -, -, htimer, hactive⟩ :=
      remove_poller_effect hal e s0 hl
    rw [heq] at h
    obtain ⟨-, hfr, -⟩ := call_next_frame hal _ s3 s1 h
    by_cases hr : r = e.arg1
    · subst hr
      unfold remove_linked at hl
      by_cases hper : (s0.pollers e.arg2).period_ticks = 0
      · obtain ⟨ha, ht⟩ := hactive hper
        rw [if_neg (by simpa using hper)] at hl
        exact Or.inr (Or.inr (Or.inr (Or.inl ⟨hfn, rfl, hper, hl,
          by rw [(hfr _).2.1, ha], by rw [(hfr _).1, ht]⟩)))
      · obtain ⟨ht, ha⟩ := htimer hper
        rw [if_pos hper] at hl
        exact Or.inr (Or.inr (Or.inr (Or.inr ⟨hfn, rfl, hper, hl,
          by rw [(hfr _).1, ht], by rw [(hfr _).2.1, ha]⟩)))
    · exact Or.inl ⟨by rw [(hfr r).2.1, hoth r hr], by rw [(hfr r).1, hoth r hr]⟩
  · have hkept := poller_register_kept hal _ _ _ s0 s1 h
    exact Or.inl (hkept r)
  · exact Or.inl (hks.1 _ _ _ _ _ h r)

/-- What an event that returns has done to the poller records: an event of the user what
its callback did, an add-poller event has written the `lcore` and the `next_run_tick` of
its poller, every other event nothing. -/
theorem event_pollers (cb : Callbacks) (hal : Hal) (cur : Nat) (e : spdk_event)
    (s0 s1 : State) (h : event_invoke cb hal cur e s0 = some s1) :
    (∃ k, e.fn = spdk_event_fn.user k ∧ cb.event_fn k cur e s0 = some s1) ∨
    ((∀ k, e.fn ≠ spdk_event_fn.user k) ∧
      (∀ q, (s1.pollers q).period_ticks = (s0.pollers q).period_ticks) ∧
      (∀ q, ¬ adds_poller q e → s1.pollers q = s0.pollers q) ∧
      (e.fn = spdk_event_fn._spdk_event_add_poller →
        (s1.pollers e.arg2).lcore = (s0.g_reactors e.arg1).lcore)) := by
  unfold event_invoke at h
  split at h
  · rename_i hfn
    obtain ⟨s3, heq, hlc, hper, hq, -⟩ := add_poller_effect hal e s0
    rw [heq] at h
    obtain ⟨hpol, -⟩ := call_next_frame hal _ s3 s1 h
    have hnu : ∀ k, e.fn ≠ spdk_event_fn.user k := by
      intro k hk
      rw [hfn] at hk
      cases hk
    refine Or.inr ⟨hnu, ?_, ?_, ?_⟩
    · intro q
      rw [hpol]
      by_cases hqe : q = e.arg2
      · rw [hqe, hper]
      · rw [hq q hqe]
    · intro q hna
      rw [hpol]
      exact hq q (fun hqe => hna ⟨hfn, hqe.symm⟩)
    · intro _
      rw [hpol, hlc]
  · rename_i hfn
    obtain ⟨-, h⟩ := remove_poller_some hal e s0 s1 h
    obtain ⟨hpol, -⟩ := call_next_frame hal _ _ s1 h
    have hp : s1.pollers = s0.pollers := by
      rw [hpol]
      unfold remove_poller_unlinked
      split_ifs <;> rfl
    have hnu : ∀ k, e.fn ≠ spdk_event_fn.user k := by
      intro k hk
      rw [hfn] at hk
      cases hk
    have hna : e.fn ≠ spdk_event_fn._spdk_event_add_poller := by
      intro hk
      rw [hfn] at hk
      cases hk
    exact Or.inr ⟨hnu, fun q => by rw [hp], fun q _ => by rw [hp],
      fun hadd => absurd hadd hna⟩
  · rename_i hfn
    have hp := (poller_register_frame hal _ _ _ s0 s1 h).2.2.2
    have hnu : ∀ k, e.fn ≠ spdk_event_fn.user k := by
      intro k hk
      rw [hfn] at hk
      cases hk
    have hna : e.fn ≠ spdk_event_fn._spdk_event_add_poller := by
      intro hk
      rw [hfn] at hk
      cases hk
    exact Or.inr ⟨hnu, fun q => by rw [hp], fun q _ => by rw [hp],
      fun hadd => absurd hadd hna⟩
  · rename_i k hfn
    exact Or.inl ⟨k, hfn, h⟩

/-- The periods of the pollers after an event, when the callbacks leave them alone. -/
theorem event_periods (cb : Callbacks) (hal : Hal) (cur : Nat) (e : spdk_event)
    (s0 s1 : State) (hkp : callbacks_keep_periods cb)
    (h : event_invoke cb hal cur e s0 = some s1) (q : Nat) :
    (s1.pollers q).period_ticks = (s0.pollers q).period_ticks := by
  rcases event_pollers cb hal cur e s0 s1 h with ⟨k, -, hk⟩ | ⟨-, hper, -⟩
  · exact hkp _ _ _ _ _ hk q
  · exact hper q

/-! ## Relations kept by a drain pass -/

theorem set_events_other (s : State) (i : Nat) (ev : Option rte_ring) (j : Nat) (hj : j ≠ i) :
    ((s.set_reactor i { s.g_reactors i with events := ev }).g_reactors j).events
      = (s.g_reactors j).events := by
  simp [State.set_reactor, Function.update_noteq hj]

theorem set_events_lcore (s : State) (i : Nat) (ev : Option rte_ring) (r : Nat) :
    ((s.set_reactor i { s.g_reactors i with events := ev }).g_reactors r).lcore
      = (s.g_reactors r).lcore := by
  by_cases hr : r = i
  · subst hr; simp [State.set_reactor]
  · simp [State.set_reactor, Function.update_noteq hr]

/-- A drain pass that returns, over the events `todo` at the consumer index, keeps a
relation `Q` that every call of an event of `todo` respects and that holds between states
with the same schedules, pollers, `lcore` fields and rings of the other lcores. -/
theorem run_keeps (cb : Callbacks) (hal : Hal) (cur : Nat) (happ : callbacks_append cb)
    (Q : State → State → Prop) (hrefl : ∀ s, Q s s)
    (htrans : ∀ a b c, Q a b → Q b c → Q a c)
    (hframe : ∀ s s1, schedules_kept s s1 → s1.pollers = s.pollers →
      (∀ j, j ≠ cur → (s1.g_reactors j).events = (s.g_reactors j).events) →
      (∀ r, (s1.g_reactors r).lcore = (s.g_reactors r).lcore) → Q s s1)
    (todo : List spdk_event) :
    ∀ (s s1 : State) (t : List Invocation) (done late : List spdk_event),
      (∀ e ∈ todo, ∀ s0 s2, event_invoke cb hal cur e s0 = some s2 → Q s0 s2) →
      (s.g_reactors cur).events
        = some { items := done ++ todo ++ late, cons := done.length } →
      spdk_event_queue_run cb hal cur cur todo.length s = some (s1, t) →
      t = todo.map (Invocation.event cur) ∧
      (∃ late1, (s1.g_reactors cur).events
        = some { items := done ++ todo ++ late ++ late1,
                 cons := done.length + todo.length }) ∧
      Q s s1 := by
  induction todo with
  | nil =>
    intro s s1 t done late _ hr h
    simp only [List.length_nil, spdk_event_queue_run, Option.some.injEq, Prod.mk.injEq] at h
    obtain ⟨rfl, rfl⟩ := h
    exact ⟨rfl, ⟨[], by simpa using hr⟩, hrefl s⟩
  | cons e todo ih =>
    intro s s1 t done late hev hr h
    simp only [List.length_cons, spdk_event_queue_run] at h
    cases hs : spdk_event_queue_run_single cb hal cur cur s with
    | none => rw [hs] at h; simp at h
    | some r1 =>
      obtain ⟨s2, t2⟩ := r1
      rw [hs] at h
      simp only at h
      cases hrest : spdk_event_queue_run cb hal cur cur todo.length s2 with
      | none => rw [hrest] at h; simp at h
      | some r2 =>
        obtain ⟨s3, t3⟩ := r2
        rw [hrest] at h
        simp only [Option.some.injEq, Prod.mk.injEq] at h
        obtain ⟨rfl, rfl⟩ := h
        obtain ⟨ht2, ⟨extra, hr2⟩, sd, se, hsd, hinv, hf⟩ := run_single_tracked cb hal cur s
          s2 t2 done e (todo ++ late) happ (by simpa using hr) hs
        obtain ⟨ht3, ⟨late1, hr3⟩, hQ3⟩ := ih s2 s3 t3 (done ++ [e]) (late ++ extra)
          (fun x hx => hev x (List.mem_cons_of_mem _ hx)) (by simpa using hr2) hrest
        have hQ1 : Q s sd := by
          rw [hsd]
          exact hframe _ _ (set_events_kept s cur _) rfl
            (fun j hj => set_events_other s cur _ j hj) (set_events_lcore s cur _)
        have hQ2 : Q sd se := hev e (List.mem_cons_self _ _) sd se hinv
        have hQf : Q se s2 := by
          obtain ⟨hg, hp, -⟩ := spdk_event_free_frame hal cur se s2 hf
          exact hframe _ _ (kept_of_reactors se s2 hg) hp (fun j _ => by rw [hg])
            (fun r => by rw [hg])
        refine ⟨?_, ⟨extra ++ late1, ?_⟩, htrans _ _ _ (htrans _ _ _ (htrans _ _ _ hQ1 hQ2) hQf)
          hQ3⟩
        · rw [ht2, ht3]
          rfl
        · rw [hr3]
          simp [Nat.add_assoc, Nat.add_comm 1]

/-- A drain pass that returns, over `before ++ x :: after`: `x` is called in a state `sb`,
in which it has been taken from the ring, and leaves a state `sx`; a relation `Q1` that the
calls of the events before `x` respect holds between the start and `sb`, and a relation
`Q2` that the calls of the events after `x` respect holds between the state `sf` in which
`x` has been released and the end. -/
theorem run_about (cb : Callbacks) (hal : Hal) (cur : Nat) (happ : callbacks_append cb)
    (Q1 Q2 : State → State → Prop) (hrefl1 : ∀ s, Q1 s s)
    (htrans1 : ∀ a b c, Q1 a b → Q1 b c → Q1 a c)
    (hframe1 : ∀ s s1, schedules_kept s s1 → s1.pollers = s.pollers →
      (∀ j, j ≠ cur → (s1.g_reactors j).events = (s.g_reactors j).events) →
      (∀ r, (s1.g_reactors r).lcore = (s.g_reactors r).lcore) → Q1 s s1)
    (hrefl2 : ∀ s, Q2 s s)
    (htrans2 : ∀ a b c, Q2 a b → Q2 b c → Q2 a c)
    (hframe2 : ∀ s s1, schedules_kept s s1 → s1.pollers = s.pollers →
      (∀ j, j ≠ cur → (s1.g_reactors j).events = (s.g_reactors j).events) →
      (∀ r, (s1.g_reactors r).lcore = (s.g_reactors r).lcore) → Q2 s s1)
    (before after : List spdk_event) (x : spdk_event) (s s1 : State) (t : List Invocation)
    (done late : List spdk_event)
    (hev1 : ∀ e ∈ before, ∀ s0 s2, event_invoke cb hal cur e s0 = some s2 → Q1 s0 s2)
    (hev2 : ∀ e ∈ after, ∀ s0 s2, event_invoke cb hal cur e s0 = some s2 → Q2 s0 s2)
    (hr : (s.g_reactors cur).events
      = some { items := done ++ (before ++ x :: after) ++ late, cons := done.length })
    (h : spdk_event_queue_run cb hal cur cur (before ++ x :: after).length s = some (s1, t)) :
    t = (before ++ x :: after).map (Invocation.event cur) ∧
    ∃ sb sx sf late1, Q1 s sb ∧
      (sb.g_reactors cur).events = some
        { items := done ++ (before ++ x :: after) ++ late ++ late1,
          cons := done.length + before.length + 1 } ∧
      event_invoke cb hal cur x sb = some sx ∧ spdk_event_free hal cur sx = some sf ∧
      Q2 sf s1 ∧ (after = [] → s1 = sf) := by
  rw [List.length_append, run_add] at h
  cases h1 : spdk_event_queue_run cb hal cur cur before.length s with
  | none => rw [h1] at h; simp at h
  | some r1 =>
    obtain ⟨s2, t2⟩ := r1
    rw [h1] at h
    simp only at h
    obtain ⟨ht2, ⟨late1, hr2⟩, hQ2⟩ := run_keeps cb hal cur happ Q1 hrefl1 htrans1 hframe1
      before s s2 t2 done (x :: after ++ late) hev1 (by simpa using hr) h1
    simp only [List.length_cons, spdk_event_queue_run] at h
    cases hs : spdk_event_queue_run_single cb hal cur cur s2 with
    | none => rw [hs] at h; simp at h
    | some r2 =>
      obtain ⟨s3, t3⟩ := r2
      rw [hs] at h
      simp only at h
      cases hrest : spdk_event_queue_run cb hal cur cur after.length s3 with
      | none => rw [hrest] at h; simp at h
      | some r3 =>
        obtain ⟨s4, t4⟩ := r3
        rw [hrest] at h
        simp only [Option.some.injEq, Prod.mk.injEq] at h
        obtain ⟨rfl, rfl⟩ := h
        obtain ⟨ht3, ⟨extra, hr3⟩, sd, se, hsd, hinv, hf⟩ := run_single_tracked cb hal cur s2
          s3 t3 (done ++ before) x (after ++ late ++ late1) happ
          (by rw [hr2]; simp) hs
        obtain ⟨ht4, -, hQ4⟩ := run_keeps cb hal cur happ Q2 hrefl2 htrans2 hframe2 after
          s3 s4 t4 (done ++ before ++ [x]) (late ++ late1 ++ extra) hev2
          (by rw [hr3]; simp [Nat.add_assoc]) hrest
        refine ⟨?_, sd, se, s3, late1, ?_, ?_, hinv, hf, hQ4, ?_⟩
        · rw [ht2, ht3, ht4]
          simp
        · refine htrans1 _ _ _ hQ2 ?_
          rw [hsd]
          exact hframe1 _ _ (set_events_kept s2 cur _) rfl
            (fun j hj => set_events_other s2 cur _ j hj) (set_events_lcore s2 cur _)
        · rw [hsd]
          simp [State.set_reactor, Nat.add_assoc]
        · intro ha
          subst ha
          simp only [List.length_nil, spdk_event_queue_run, Option.some.injEq,
            Prod.mk.injEq] at hrest
          exact hrest.1.symm

/-- The form of `spdk_event_queue_run_all` for a ring whose contents are known. -/
theorem run_all_eq (cb : Callbacks) (hal : Hal) (cur : Nat) (s : State) (ring : rte_ring)
    (hr : (s.g_reactors cur).events = some ring) (hw : ring.cons ≤ ring.items.length) :
    spdk_event_queue_run_all cb hal cur cur s =
      spdk_event_queue_run cb hal cur cur ring.content.length s ∧
    (s.g_reactors cur).events = some
      { items := ring.items.take ring.cons ++ ring.content ++ [],
        cons := (ring.items.take ring.cons).length } := by
  have hcount : spdk_event_queue_count s cur = ring.content.length := by
    simp [spdk_event_queue_count, spdk_reactor_get, hr, rte_ring_count, rte_ring.content]
  refine ⟨by rw [spdk_event_queue_run_all, hcount], ?_⟩
  rw [hr]
  simp [rte_ring.content, Nat.min_eq_left hw]

/-! ## The head of the always-run schedule after a drain pass -/

/-- An event that is not the add-poller event of an always-run poller for reactor `c`
leaves the always-run schedule of `c` empty. -/
theorem event_keeps_empty (cb : Callbacks) (hal : Hal) (cur c : Nat) (sref : State)
    (e : spdk_event) (hks : callbacks_keep_schedules cb) (hkp : callbacks_keep_periods cb)
    (hno : ¬ adds_always_run sref c e) (s0 s2 : State)
    (h : event_invoke cb hal cur e s0 = some s2)
    (hi : (∀ q, (s0.pollers q).period_ticks = (sref.pollers q).period_ticks) ∧
      (s0.g_reactors c).active_pollers = []) :
    (∀ q, (s2.pollers q).period_ticks = (sref.pollers q).period_ticks) ∧
      (s2.g_reactors c).active_pollers = [] := by
  refine ⟨fun q => (event_periods cb hal cur e s0 s2 hkp h q).trans (hi.1 q), ?_⟩
  rcases event_lists cb hal cur e s0 s2 hks h c with
    ⟨ha, -⟩ | ⟨hfn, harg, hper, -, -⟩ | ⟨-, -, -, -, ha⟩ | ⟨-, -, -, hm, -, -⟩ |
    ⟨-, -, -, -, -, ha⟩
  · rw [ha, hi.2]
  · exact absurd ⟨hfn, harg, (hi.1 e.arg2).symm.trans hper⟩ hno
  · rw [ha, hi.2]
  · rw [hi.2] at hm
    simp at hm
  · rw [ha, hi.2]

/-- An event that is not the remove-poller event of `p` leaves `p` at the head of the
always-run schedule of `c`. -/
theorem event_keeps_head (cb : Callbacks) (hal : Hal) (cur c p : Nat) (sref : State)
    (e : spdk_event) (hks : callbacks_keep_schedules cb) (hkp : callbacks_keep_periods cb)
    (hno : ¬ removes_poller p e) (s0 s2 : State)
    (h : event_invoke cb hal cur e s0 = some s2)
    (hi : (∀ q, (s0.pollers q).period_ticks = (sref.pollers q).period_ticks) ∧
      ∃ tl, (s0.g_reactors c).active_pollers = p :: tl) :
    (∀ q, (s2.pollers q).period_ticks = (sref.pollers q).period_ticks) ∧
      ∃ tl, (s2.g_reactors c).active_pollers = p :: tl := by
  refine ⟨fun q => (event_periods cb hal cur e s0 s2 hkp h q).trans (hi.1 q), ?_⟩
  obtain ⟨tl, htl⟩ := hi.2
  rcases event_lists cb hal cur e s0 s2 hks h c with
    ⟨ha, -⟩ | ⟨-, -, -, ha, -⟩ | ⟨-, -, -, -, ha⟩ | ⟨hfn, -, -, -, ha, -⟩ |
    ⟨-, -, -, -, -, ha⟩
  · exact ⟨tl, by rw [ha, htl]⟩
  · exact ⟨tl ++ [e.arg2], by rw [ha, htl]; rfl⟩
  · exact ⟨tl, by rw [ha, htl]⟩
  · have hne : p ≠ e.arg2 := fun hpe => hno ⟨hfn, hpe.symm⟩
    refine ⟨tl.erase e.arg2, ?_⟩
    rw [ha, htl, List.erase_cons_tail (by simpa using hne)]
  · exact ⟨tl, by rw [ha, htl]⟩

/-- After a drain pass that returns and that called the add-poller event of an always-run
poller `p` for reactor `c`, with no add-poller event of an always-run poller for `c`
before it and no remove-poller event of `p` after it, `p` is the head of the always-run
schedule of `c` when this schedule was empty at the start. -/
theorem drain_makes_head (cb : Callbacks) (hal : Hal) (c p : Nat)
    (completion : Option spdk_event) (s s1 : State)
    (t : List Invocation) (ring : rte_ring) (before after : List spdk_event)
    (happ : callbacks_append cb) (hks : callbacks_keep_schedules cb)
    (hkp : callbacks_keep_periods cb)
    (hr : (s.g_reactors c).events = some ring) (hw : ring.cons ≤ ring.items.length)
    (hcont : ring.content = before ++ add_poller_event p c completion :: after)
    (hbefore : ∀ e ∈ before, ¬ adds_always_run s c e)
    (hafter : ∀ e ∈ after, ¬ removes_poller p e)
    (hempty : (s.g_reactors c).active_pollers = [])
    (hp0 : (s.pollers p).period_ticks = 0)
    (h : spdk_event_queue_run_all cb hal c c s = some (s1, t)) :
    ∃ tl, (s1.g_reactors c).active_pollers = p :: tl := by
  obtain ⟨hall, hring⟩ := run_all_eq cb hal c s ring hr hw
  rw [hall, hcont] at h
  rw [hcont] at hring
  obtain ⟨-, sb, sx, sf, late1, hQ1, -, hinv, hf, hQ2, -⟩ := run_about cb hal c happ
    (fun a b => ((∀ q, (a.pollers q).period_ticks = (s.pollers q).period_ticks) ∧
        (a.g_reactors c).active_pollers = []) →
      ((∀ q, (b.pollers q).period_ticks = (s.pollers q).period_ticks) ∧
        (b.g_reactors c).active_pollers = []))
    (fun a b => ((∀ q, (a.pollers q).period_ticks = (s.pollers q).period_ticks) ∧
        ∃ tl, (a.g_reactors c).active_pollers = p :: tl) →
      ((∀ q, (b.pollers q).period_ticks = (s.pollers q).period_ticks) ∧
        ∃ tl, (b.g_reactors c).active_pollers = p :: tl))
    (fun _ hi => hi) (fun _ _ _ h1 h2 hi => h2 (h1 hi))
    (fun a b hkept hpol _ _ hi => ⟨fun q => by rw [hpol]; exact hi.1 q,
      by rw [(hkept c).1]; exact hi.2⟩)
    (fun _ hi => hi) (fun _ _ _ h1 h2 hi => h2 (h1 hi))
    (fun a b hkept hpol _ _ hi => ⟨fun q => by rw [hpol]; exact hi.1 q,
      by rw [(hkept c).1]; exact hi.2⟩)
    before after _ s s1 t (ring.items.take ring.cons) []
    (fun e he s0 s2 hinv => event_keeps_empty cb hal c c s e hks hkp (hbefore e he) s0 s2 hinv)
    (fun e he s0 s2 hinv => event_keeps_head cb hal c c p s e hks hkp (hafter e he) s0 s2
      hinv)
    hring h
  obtain ⟨hperb, hactb⟩ := hQ1 ⟨fun _ => rfl, hempty⟩
  have hinv' : _spdk_event_add_poller hal (add_poller_event p c completion) sb = some sx :=
    hinv
  obtain ⟨s3, heq, -, hper3, hq3, -, -, -, -, -, -, -, -, hact⟩ :=
    add_poller_effect hal (add_poller_event p c completion) sb
  simp only [add_poller_event] at hact hper3 hq3
  obtain ⟨ha, -⟩ := hact (by rw [hperb p]; exact hp0)
  rw [heq] at hinv'
  obtain ⟨hpolx, hfr, -⟩ := call_next_frame hal _ s3 sx hinv'
  obtain ⟨hgf, hpf, -⟩ := spdk_event_free_frame hal c sx sf hf
  have hi : (∀ q, (sf.pollers q).period_ticks = (s.pollers q).period_ticks) ∧
      ∃ tl, (sf.g_reactors c).active_pollers = p :: tl := by
    refine ⟨?_, [], ?_⟩
    · intro q
      rw [hpf, hpolx]
      by_cases hqp : q = p
      · rw [hqp, hper3, hperb p]
      · rw [hq3 q hqp, hperb q]
    · rw [hgf, (hfr c).2.1, ha, hactb]
      rfl
  exact (hQ2 hi).2

/-! ## The schedules after a remove-poller event -/

theorem count_schedule (s : State) (c p : Nat) :
    (schedule s c).count p =
      (s.g_reactors c).active_pollers.count p + (s.g_reactors c).timer_pollers.count p := by
  unfold schedule
  rw [List.count_append]

/-- An event that is not an add-poller event of `p` does not link `p` in a schedule of
`c`. -/
theorem event_no_new_link (cb : Callbacks) (hal : Hal) (cur c p : Nat) (e : spdk_event)
    (hks : callbacks_keep_schedules cb) (hno : ¬ adds_poller p e) (s0 s2 : State)
    (h : event_invoke cb hal cur e s0 = some s2) :
    (schedule s2 c).count p ≤ (schedule s0 c).count p := by
  rw [count_schedule, count_schedule]
  rcases event_lists cb hal cur e s0 s2 hks h c with
    ⟨ha, ht⟩ | ⟨hfn, -, -, ha, ht⟩ | ⟨hfn, -, -, ht, ha⟩ | ⟨-, -, -, -, ha, ht⟩ |
    ⟨-, -, -, -, ht, ha⟩
  · rw [ha, ht]
  · have hne : e.arg2 ≠ p := fun hpe => hno ⟨hfn, hpe⟩
    rw [ha, ht, List.count_append, List.count_singleton, if_neg (by simpa using hne)]
    omega
  · have hne : e.arg2 ≠ p := fun hpe => hno ⟨hfn, hpe⟩
    rw [ha, ht.count_eq, List.count_cons_of_ne (Ne.symm hne)]
  · rw [ha, ht]
    have := (List.erase_sublist e.arg2 (s0.g_reactors c).active_pollers).count_le p
    omega
  · rw [ha, ht]
    have := (List.erase_sublist e.arg2 (s0.g_reactors c).timer_pollers).count_le p
    omega

/-- The remove-poller event of `p` for reactor `c`, when it returns, has unlinked `p`
once. -/
theorem remove_event_unlinks (cb : Callbacks) (hal : Hal) (cur c p : Nat)
    (completion : Option spdk_event) (s0 s2 : State)
    (h : event_invoke cb hal cur (remove_poller_event p c completion) s0 = some s2) :
    (schedule s2 c).count p + 1 = (schedule s0 c).count p := by
  have h1 : _spdk_event_remove_poller hal (remove_poller_event p c completion) s0 = some s2 :=
    h
  have hl := (remove_poller_some hal _ s0 s2 h1).1
  obtain ⟨s3, heq, -, -, -, -, -, -, -, -, htimer, hactive⟩ :=
    remove_poller_effect hal (remove_poller_event p c completion) s0 hl
  rw [heq] at h1
  obtain ⟨-, hfr, -⟩ := call_next_frame hal _ s3 s2 h1
  unfold remove_linked at hl
  simp only [remove_poller_event] at hl htimer hactive
  rw [count_schedule, count_schedule, (hfr c).1, (hfr c).2.1]
  by_cases hper : (s0.pollers p).period_ticks = 0
  · obtain ⟨ha, ht⟩ := hactive hper
    rw [if_neg (by simpa using hper)] at hl
    have hpos := List.count_pos_iff.2 hl
    rw [ha, ht, List.count_erase_self]
    omega
  · obtain ⟨ht, ha⟩ := htimer hper
    rw [if_pos hper] at hl
    have hpos := List.count_pos_iff.2 hl
    rw [ha, ht, List.count_erase_self]
    omega

theorem registered_count (s : State) (p c : Nat) (h : registered_on s p c) :
    (schedule s c).count p = 1 := by
  unfold registered_on at h
  rw [count_schedule]
  by_cases hper : (s.pollers p).period_ticks ≠ 0
  · rw [if_pos hper] at h
    rw [h.1, List.count_eq_zero_of_not_mem h.2]
  · rw [if_neg hper] at h
    rw [h.1, List.count_eq_zero_of_not_mem h.2]

/-- After a drain pass that returns and that called the remove-poller event of a poller
`p` registered on `c`, and no add-poller event of `p`, `p` is in no schedule of `c`. -/
theorem drain_unlinks (cb : Callbacks) (hal : Hal) (c p : Nat)
    (completion : Option spdk_event) (s s1 : State)
    (t : List Invocation) (ring : rte_ring) (before after : List spdk_event)
    (happ : callbacks_append cb) (hks : callbacks_keep_schedules cb)
    (hr : (s.g_reactors c).events = some ring) (hw : ring.cons ≤ ring.items.length)
    (hcont : ring.content = before ++ remove_poller_event p c completion :: after)
    (hno : ∀ e ∈ before ++ after, ¬ adds_poller p e)
    (hreg : registered_on s p c)
    (h : spdk_event_queue_run_all cb hal c c s = some (s1, t)) :
    p ∉ (s1.g_reactors c).active_pollers ∧ p ∉ (s1.g_reactors c).timer_pollers := by
  obtain ⟨hall, hring⟩ := run_all_eq cb hal c s ring hr hw
  rw [hall, hcont] at h
  rw [hcont] at hring
  have hrefl : ∀ a : State, (schedule a c).count p ≤ (schedule a c).count p :=
    fun _ => le_refl _
  have hframe : ∀ a b : State, schedules_kept a b → b.pollers = a.pollers →
      (∀ j, j ≠ c → (b.g_reactors j).events = (a.g_reactors j).events) →
      (∀ r, (b.g_reactors r).lcore = (a.g_reactors r).lcore) →
      (schedule b c).count p ≤ (schedule a c).count p := by
    intro a b hkept _ _ _
    rw [count_schedule, count_schedule, (hkept c).1, (hkept c).2]
  obtain ⟨-, sb, sx, sf, late1, hQ1, -, hinv, hf, hQ2, -⟩ := run_about cb hal c happ
    (fun a b => (schedule b c).count p ≤ (schedule a c).count p)
    (fun a b => (schedule b c).count p ≤ (schedule a c).count p)
    hrefl (fun _ _ _ h1 h2 => le_trans h2 h1) hframe
    hrefl (fun _ _ _ h1 h2 => le_trans h2 h1) hframe
    before after _ s s1 t (ring.items.take ring.cons) []
    (fun e he s0 s2 hinv => event_no_new_link cb hal c c p e hks
      (hno e (List.mem_append_left _ he)) s0 s2 hinv)
    (fun e he s0 s2 hinv => event_no_new_link cb hal c c p e hks
      (hno e (List.mem_append_right _ he)) s0 s2 hinv)
    hring h
  have hx := remove_event_unlinks cb hal c c p completion sb sx hinv
  have hreg1 := registered_count s p c hreg
  have hsf : (schedule sf c).count p = (schedule sx c).count p := by
    obtain ⟨hg, -⟩ := spdk_event_free_frame hal c sx sf hf
    rw [count_schedule, count_schedule, hg]
  have hzero : (schedule s1 c).count p = 0 := by omega
  rw [count_schedule] at hzero
  exact ⟨List.count_eq_zero.1 (by omega), List.count_eq_zero.1 (by omega)⟩

/-! ## The calls of the poller interface, when they return -/

theorem ring_content_append (items extra : List spdk_event) (cons : Nat)
    (h : cons ≤ items.length) :
    ({ items := items ++ extra, cons := cons } : rte_ring).content =
      ({ items := items, cons := cons } : rte_ring).content ++ extra := by
  simp only [rte_ring.content]
  exact List.drop_append_of_le_length h

/-- What `_spdk_poller_register` has done when it returns: the add-poller event is the
last event of the ring of `lcore`, and nothing else is different but a pool. -/
theorem register_some (hal : Hal) (poller lcore : Nat) (complete : Option spdk_event)
    (s s1 : State) (h : _spdk_poller_register hal poller lcore complete s = some s1) :
    s1.pollers = s.pollers ∧ schedules_kept s s1 ∧
    (∀ r, (s1.g_reactors r).lcore = (s.g_reactors r).lcore) ∧
    (∃ ring, (s.g_reactors lcore).events = some ring ∧
      (s1.g_reactors lcore).events =
        some { items := ring.items ++ [add_poller_event poller lcore complete],
               cons := ring.cons }) ∧
    (∀ j, j ≠ lcore → (s1.g_reactors j).events = (s.g_reactors j).events) := by
  have hkept := poller_register_kept hal poller lcore complete s s1 h
  have hpol := (poller_register_frame hal poller lcore complete s s1 h).2.2.2
  unfold _spdk_poller_register at h
  split at h
  · simp at h
  · rename_i e s0 ha
    obtain ⟨he, hg, -⟩ := spdk_event_allocate_frame _ _ _ _ _ _ _ _ _ ha
    obtain ⟨-, hfr, -⟩ := spdk_event_call_frame hal e s0 s1 h
    obtain ⟨ring, h1, h2, h3⟩ := spdk_event_call_effect hal e s0 s1 h
    have hel : e.lcore = lcore := by rw [he]
    have hea : e = add_poller_event poller lcore complete := he
    refine ⟨hpol, hkept, fun r => by rw [(hfr r).2.2, hg], ⟨ring, ?_, ?_⟩, ?_⟩
    · rw [← hg, ← hel]
      exact h1
    · rw [hel] at h2
      rw [h2]
      exact congrArg (fun x => some ({ items := ring.items ++ [x], cons := ring.cons } :
        rte_ring)) hea
    · intro j hj
      rw [h3 j (by rw [hel]; exact hj), hg]

/-- What `spdk_poller_unregister` has done when it returns. -/
theorem unregister_some (hal : Hal) (poller : Nat) (complete : Option spdk_event)
    (s s1 : State) (h : spdk_poller_unregister hal poller complete s = some s1) :
    s1.pollers = s.pollers ∧ schedules_kept s s1 ∧
    (∀ r, (s1.g_reactors r).lcore = (s.g_reactors r).lcore) ∧
    (∃ ring, (s.g_reactors (s.pollers poller).lcore).events = some ring ∧
      (s1.g_reactors (s.pollers poller).lcore).events =
        some { items := ring.items ++
                 [remove_poller_event poller (s.pollers poller).lcore complete],
               cons := ring.cons }) ∧
    (∀ j, j ≠ (s.pollers poller).lcore →
      (s1.g_reactors j).events = (s.g_reactors j).events) := by
  have hkept := poller_unregister_kept hal poller complete s s1 h
  unfold spdk_poller_unregister at h
  simp only at h
  split at h
  · simp at h
  · rename_i e s0 ha
    obtain ⟨he, hg, hp, -⟩ := spdk_event_allocate_frame _ _ _ _ _ _ _ _ _ ha
    obtain ⟨hpc, hfr, -⟩ := spdk_event_call_frame hal e s0 s1 h
    obtain ⟨ring, h1, h2, h3⟩ := spdk_event_call_effect hal e s0 s1 h
    have hel : e.lcore = (s.pollers poller).lcore := by rw [he]
    have hea : e = remove_poller_event poller (s.pollers poller).lcore complete := he
    refine ⟨by rw [hpc, hp], hkept, fun r => by rw [(hfr r).2.2, hg], ⟨ring, ?_, ?_⟩, ?_⟩
    · rw [← hg, ← hel]
      exact h1
    · rw [hel] at h2
      rw [h2]
      exact congrArg (fun x => some ({ items := ring.items ++ [x], cons := ring.cons } :
        rte_ring)) hea
    · intro j hj
      rw [h3 j (by rw [hel]; exact hj), hg]

/-- What `spdk_poller_migrate` has done when it returns: the remove-poller event, with the
migrate event as its successor, is the last event of the ring of `p.lcore`, and nothing
else is different but the pools. -/
theorem migrate_some (hal : Hal) (p a b : Nat) (completion : Option spdk_event)
    (s s1 : State) (hla : (s.pollers p).lcore = a)
    (h : spdk_poller_migrate hal p b completion s = some s1) :
    s1.pollers = s.pollers ∧ schedules_kept s s1 ∧
    (∀ r, (s1.g_reactors r).lcore = (s.g_reactors r).lcore) ∧
    (∃ ring, (s.g_reactors a).events = some ring ∧
      (s1.g_reactors a).events =
        some { items := ring.items ++
                 [remove_poller_event p a (some (migrate_event p b completion))],
               cons := ring.cons }) ∧
    (∀ j, j ≠ a → (s1.g_reactors j).events = (s.g_reactors j).events) := by
  unfold spdk_poller_migrate at h
  split_ifs at h
  split at h
  · simp at h
  · rename_i e s0 ha
    obtain ⟨he, hg, hp, -⟩ := spdk_event_allocate_frame _ _ _ _ _ _ _ _ _ ha
    have hem : e = migrate_event p b completion := he
    obtain ⟨hpol, hkept, hlc, ⟨ring, hr1, hr2⟩, hoth⟩ :=
      unregister_some hal p (some e) s0 s1 h
    rw [hp, hla] at hr1 hr2 hoth
    refine ⟨by rw [hpol, hp], ?_, fun r => by rw [hlc r, hg], ⟨ring, ?_, ?_⟩, ?_⟩
    · exact schedules_kept_trans s s0 s1 (kept_of_reactors s s0 hg) hkept
    · rw [← hg]
      exact hr1
    · rw [hr2, hem]
    · intro j hj
      rw [hoth j hj, hg]

/-! ## Events that leave a poller alone -/

/-- An event, when the callbacks of the user leave the `lcore` fields of the reactors
alone, does so too. -/
theorem event_lcores (cb : Callbacks) (hal : Hal) (cur : Nat) (e : spdk_event)
    (s0 s1 : State) (hkl : callbacks_keep_lcores cb)
    (h : event_invoke cb hal cur e s0 = some s1) (r : Nat) :
    (s1.g_reactors r).lcore = (s0.g_reactors r).lcore := by
  unfold event_invoke at h
  split at h
  · obtain ⟨s3, heq, -, -, -, -, hlc, -⟩ := add_poller_effect hal e s0
    rw [heq] at h
    obtain ⟨-, hfr, -⟩ := call_next_frame hal _ s3 s1 h
    rw [(hfr r).2.2, hlc]
  · have hl := (remove_poller_some hal e s0 s1 h).1
    obtain ⟨s3, heq, -, -, hlc, -⟩ := remove_poller_effect hal e s0 hl
    rw [heq] at h
    obtain ⟨-, hfr, -⟩ := call_next_frame hal _ s3 s1 h
    rw [(hfr r).2.2, hlc]
  · exact (register_some hal _ _ _ s0 s1 h).2.2.1 r
  · exact hkl _ _ _ _ _ h r

theorem poller_kept_refl (p : Nat) (s : State) : poller_kept p s s :=
  ⟨rfl, fun _ => ⟨rfl, rfl⟩, fun _ => rfl⟩

theorem poller_kept_trans (p : Nat) (a b c : State) (h1 : poller_kept p a b)
    (h2 : poller_kept p b c) : poller_kept p a c :=
  ⟨h2.1.trans h1.1,
    fun r => ⟨((h2.2.1 r).1).trans (h1.2.1 r).1, ((h2.2.1 r).2).trans (h1.2.1 r).2⟩,
    fun r => (h2.2.2 r).trans (h1.2.2 r)⟩

theorem poller_kept_frame (p : Nat) (s s1 : State) (hk : schedules_kept s s1)
    (hp : s1.pollers = s.pollers)
    (hl : ∀ r, (s1.g_reactors r).lcore = (s.g_reactors r).lcore) : poller_kept p s s1 :=
  ⟨by rw [hp], fun r => ⟨by rw [(hk r).1], by rw [(hk r).2]⟩, hl⟩

/-- An event that is not a poller event of `p` leaves `p` alone. -/
theorem event_leaves_poller (cb : Callbacks) (hal : Hal) (cur p : Nat) (e : spdk_event)
    (hks : callbacks_keep_schedules cb) (hkp : callbacks_keep_poller cb p)
    (hkl : callbacks_keep_lcores cb) (hno : ¬ names_poller p e) (s0 s2 : State)
    (h : event_invoke cb hal cur e s0 = some s2) : poller_kept p s0 s2 := by
  have hna : ¬ adds_poller p e := fun hx => hno (Or.inl hx)
  have hnr : ¬ removes_poller p e := fun hx => hno (Or.inr (Or.inl hx))
  refine ⟨?_, ?_, event_lcores cb hal cur e s0 s2 hkl h⟩
  · rcases event_pollers cb hal cur e s0 s2 h with ⟨k, -, hk⟩ | ⟨-, -, hq, -⟩
    · exact hkp _ _ _ _ _ hk
    · exact hq p hna
  · intro r
    rcases event_lists cb hal cur e s0 s2 hks h r with
      ⟨ha, ht⟩ | ⟨hfn, -, -, ha, ht⟩ | ⟨hfn, -, -, ht, ha⟩ | ⟨hfn, -, -, -, ha, ht⟩ |
      ⟨hfn, -, -, -, ht, ha⟩
    · rw [ha, ht]
      exact ⟨rfl, rfl⟩
    · have hne : e.arg2 ≠ p := fun hpe => hna ⟨hfn, hpe⟩
      rw [ha, ht, List.count_append, List.count_singleton, if_neg (by simpa using hne)]
      exact ⟨rfl, rfl⟩
    · have hne : e.arg2 ≠ p := fun hpe => hna ⟨hfn, hpe⟩
      rw [ha, ht.count_eq, List.count_cons_of_ne (Ne.symm hne)]
      exact ⟨rfl, rfl⟩
    · have hne : e.arg2 ≠ p := fun hpe => hnr ⟨hfn, hpe⟩
      rw [ha, ht, List.count_erase_of_ne (Ne.symm hne)]
      exact ⟨rfl, rfl⟩
    · have hne : e.arg2 ≠ p := fun hpe => hnr ⟨hfn, hpe⟩
      rw [ha, ht, List.count_erase_of_ne (Ne.symm hne)]
      exact ⟨rfl, rfl⟩

theorem rings_grow_refl (cur : Nat) (s : State) : rings_grow cur s s :=
  fun _ _ ring0 h => ⟨[], by rw [h]; simp⟩

theorem rings_grow_trans (cur : Nat) (a b c : State) (h1 : rings_grow cur a b)
    (h2 : rings_grow cur b c) : rings_grow cur a c := by
  intro j hj ring0 h
  obtain ⟨x1, hx1⟩ := h1 j hj ring0 h
  obtain ⟨x2, hx2⟩ := h2 j hj _ hx1
  exact ⟨x1 ++ x2, by rw [hx2]; simp⟩

theorem rings_grow_frame (cur : Nat) (s s1 : State)
    (h : ∀ j, j ≠ cur → (s1.g_reactors j).events = (s.g_reactors j).events) :
    rings_grow cur s s1 :=
  fun j hj ring0 h0 => ⟨[], by rw [h j hj, h0]; simp⟩

theorem event_rings_grow (cb : Callbacks) (hal : Hal) (cur : Nat) (e : spdk_event)
    (happ : callbacks_append cb) (s0 s2 : State)
    (h : event_invoke cb hal cur e s0 = some s2) : rings_grow cur s0 s2 :=
  fun j _ ring0 h0 => event_invoke_append cb hal cur e s0 s2 j ring0 happ h0 h

/-! ## The three passes of a migration, with other events waiting -/

theorem drop_done (l1 l2 : List spdk_event) (n : Nat) (h : n = l1.length) :
    (l1 ++ l2).drop n = l2 := by
  subst h
  exact List.drop_left l1 l2

theorem poller_kept_count (p : Nat) (s s1 : State) (h : poller_kept p s s1) (r : Nat) :
    (schedule s1 r).count p = (schedule s r).count p := by
  rw [count_schedule, count_schedule, (h.2.1 r).1, (h.2.1 r).2]

/-- The pass on `a` in which the remove-poller event of `p`, with the migrate event as its
successor, is the last event that waited: when the pass returns, `p` has been unlinked
once from the schedules of `a`, nothing else has happened to `p`, and the migrate event is
the last event of the ring of `b`. -/
theorem migrate_pass_remove (cb : Callbacks) (hal : Hal) (p a b : Nat)
    (completion : Option spdk_event) (s1 s2 : State) (t2 : List Invocation)
    (ra rb : rte_ring)
    (happ : callbacks_append cb) (hks : callbacks_keep_schedules cb)
    (hkp : callbacks_keep_poller cb p) (hkl : callbacks_keep_lcores cb) (hab : a ≠ b)
    (hra : (s1.g_reactors a).events = some
      ⟨ra.items ++ [remove_poller_event p a (some (migrate_event p b completion))],
        ra.cons⟩)
    (hwa : ra.cons ≤ ra.items.length)
    (hrb : (s1.g_reactors b).events = some rb)
    (hqa : ∀ e ∈ ra.content, ¬ names_poller p e)
    (h : spdk_event_queue_run_all cb hal a a s1 = some (s2, t2)) :
    t2 = (ra.content ++
      [remove_poller_event p a (some (migrate_event p b completion))]).map
        (Invocation.event a) ∧
    s2.pollers p = s1.pollers p ∧
    (∀ r, (s2.g_reactors r).lcore = (s1.g_reactors r).lcore) ∧
    (schedule s2 a).count p + 1 = (schedule s1 a).count p ∧
    (∀ r, r ≠ a → (schedule s2 r).count p = (schedule s1 r).count p) ∧
    ∃ extra, (s2.g_reactors b).events = some
      ⟨rb.items ++ extra ++ [migrate_event p b completion], rb.cons⟩ := by
  have hcont : (⟨ra.items ++
      [remove_poller_event p a (some (migrate_event p b completion))],
      ra.cons⟩ : rte_ring).content = ra.content ++
      [remove_poller_event p a (some (migrate_event p b completion))] :=
    ring_content_append _ _ _ hwa
  obtain ⟨hall, hring⟩ := run_all_eq cb hal a s1 _ hra (by
    simp only [List.length_append, List.length_singleton]
    omega)
  rw [hall, hcont] at h
  rw [hcont] at hring
  obtain ⟨ht, sb, sx, sf, late1, hQ1, -, hinv, hf, -, hend⟩ := run_about cb hal a happ
    (fun x y => poller_kept p x y ∧ rings_grow a x y) (fun _ _ => True)
    (fun x => ⟨poller_kept_refl p x, rings_grow_refl a x⟩)
    (fun x y z h1 h2 => ⟨poller_kept_trans p x y z h1.1 h2.1,
      rings_grow_trans a x y z h1.2 h2.2⟩)
    (fun x y hk hp hr hl => ⟨poller_kept_frame p x y hk hp hl, rings_grow_frame a x y hr⟩)
    (fun _ => trivial) (fun _ _ _ _ _ => trivial) (fun _ _ _ _ _ _ => trivial)
    ra.content [] _ s1 s2 t2 _ []
    (fun e he s0 s3 hi => ⟨event_leaves_poller cb hal a p e hks hkp hkl (hqa e he) s0 s3 hi,
      event_rings_grow cb hal a e happ s0 s3 hi⟩)
    (fun e he => by simp at he)
    hring h
  obtain rfl := hend rfl
  obtain ⟨hg, hpf, -⟩ := spdk_event_free_frame hal a sx s2 hf
  obtain ⟨hkept, hgrow⟩ := hQ1
  -- the remove-poller event
  have hfn : (remove_poller_event p a (some (migrate_event p b completion))).fn =
      spdk_event_fn._spdk_event_remove_poller := rfl
  have hcount := remove_event_unlinks cb hal a a p _ sb sx hinv
  have hlists : ∀ r, r ≠ a →
      (sx.g_reactors r).active_pollers = (sb.g_reactors r).active_pollers ∧
      (sx.g_reactors r).timer_pollers = (sb.g_reactors r).timer_pollers := by
    intro r hr
    rcases event_lists cb hal a _ sb sx hks hinv r with
      hx | ⟨-, harg, -⟩ | ⟨-, harg, -⟩ | ⟨-, harg, -⟩ | ⟨-, harg, -⟩
    · exact hx
    · exact absurd harg.symm hr
    · exact absurd harg.symm hr
    · exact absurd harg.symm hr
    · exact absurd harg.symm hr
  have hpolx : sx.pollers p = sb.pollers p := by
    rcases event_pollers cb hal a _ sb sx hinv with ⟨k, hk, -⟩ | ⟨-, -, hq, -⟩
    · rw [hfn] at hk
      cases hk
    · exact hq p (fun hx => by
        have := hx.1
        rw [hfn] at this
        cases this)
  have h1 : _spdk_event_remove_poller hal
      (remove_poller_event p a (some (migrate_event p b completion))) sb = some sx := hinv
  have hl := (remove_poller_some hal _ sb sx h1).1
  obtain ⟨s3, heq, -, hev3, -⟩ := remove_poller_effect hal _ sb hl
  rw [heq] at h1
  have h2 : spdk_event_call hal (migrate_event p b completion) s3 = some sx := h1
  obtain ⟨ring, hr1, hr2, -⟩ := spdk_event_call_effect hal _ s3 sx h2
  obtain ⟨extra, hextra⟩ := hgrow b (Ne.symm hab) rb hrb
  have hring3 : ring = ⟨rb.items ++ extra, rb.cons⟩ := by
    have : (s3.g_reactors b).events = some ring := hr1
    rw [hev3 b, hextra] at this
    exact (Option.some.inj this).symm
  refine ⟨ht, ?_, ?_, ?_, ?_, extra, ?_⟩
  · rw [hpf, hpolx, hkept.1]
  · intro r
    rw [hg, event_lcores cb hal a _ sb sx hkl hinv r, hkept.2.2 r]
  · rw [← poller_kept_count p s1 sb hkept a, ← hcount, count_schedule, count_schedule, hg]
  · intro r hr
    rw [← poller_kept_count p s1 sb hkept r, count_schedule, count_schedule, hg,
      (hlists r hr).1, (hlists r hr).2]
  · rw [hg]
    have : (sx.g_reactors b).events = some { ring with items := ring.items ++
        [migrate_event p b completion] } := hr2
    rw [this, hring3]

/-- The pass on `b` in which the migrate event of `p` is the last event that waited: when
the pass returns, nothing has happened to `p`, and the add-poller event is the last event
of the ring of `b`. -/
theorem migrate_pass_migrate (cb : Callbacks) (hal : Hal) (p b : Nat)
    (completion : Option spdk_event) (s2 s3 : State) (t3 : List Invocation)
    (ring2 : rte_ring) (before2 : List spdk_event)
    (happ : callbacks_append cb) (hks : callbacks_keep_schedules cb)
    (hkp : callbacks_keep_poller cb p) (hkl : callbacks_keep_lcores cb)
    (hr : (s2.g_reactors b).events = some ring2) (hw : ring2.cons ≤ ring2.items.length)
    (hcont : ring2.content = before2 ++ [migrate_event p b completion])
    (hq : ∀ e ∈ before2, ¬ names_poller p e)
    (h : spdk_event_queue_run_all cb hal b b s2 = some (s3, t3)) :
    t3 = (before2 ++ [migrate_event p b completion]).map (Invocation.event b) ∧
    poller_kept p s2 s3 ∧
    ∃ ring3 before3, (s3.g_reactors b).events = some ring3 ∧
      ring3.cons ≤ ring3.items.length ∧
      ring3.content = before3 ++ [add_poller_event p b completion] := by
  obtain ⟨hall, hring⟩ := run_all_eq cb hal b s2 ring2 hr hw
  rw [hall, hcont] at h
  rw [hcont] at hring
  obtain ⟨ht, sb, sx, sf, late1, hQ1, hrb, hinv, hf, -, hend⟩ := run_about cb hal b happ
    (fun x y => poller_kept p x y) (fun _ _ => True)
    (poller_kept_refl p) (poller_kept_trans p)
    (fun x y hk hp _ hl => poller_kept_frame p x y hk hp hl)
    (fun _ => trivial) (fun _ _ _ _ _ => trivial) (fun _ _ _ _ _ _ => trivial)
    before2 [] _ s2 s3 t3 (ring2.items.take ring2.cons) []
    (fun e he s0 s4 hi => event_leaves_poller cb hal b p e hks hkp hkl (hq e he) s0 s4 hi)
    (fun e he => by simp at he)
    hring h
  obtain rfl := hend rfl
  obtain ⟨hg, hpf, -⟩ := spdk_event_free_frame hal b sx s3 hf
  have h1 : _spdk_poller_register hal p b completion sb = some sx := hinv
  obtain ⟨hpol, hkept, hlc, ⟨ring, hr1, hr2⟩, -⟩ := register_some hal p b completion sb sx h1
  rw [hrb] at hr1
  obtain rfl := Option.some.inj hr1
  refine ⟨ht, ?_, _, late1, by rw [hg]; exact hr2, ?_, ?_⟩
  · exact poller_kept_trans p s2 sb s3 hQ1
      (poller_kept_frame p sb s3
        (schedules_kept_trans sb sx s3 hkept (kept_of_reactors sx s3 hg))
        (by rw [hpf, hpol]) (fun r => by rw [hg, hlc r]))
  · simp only [List.length_append, List.length_cons, List.length_nil, List.length_take]
    omega
  · simp only [rte_ring.content]
    have hsplit : List.take ring2.cons ring2.items ++
          (before2 ++ [migrate_event p b completion]) ++ [] ++ late1 ++
          [add_poller_event p b completion] =
        (List.take ring2.cons ring2.items ++
          (before2 ++ [migrate_event p b completion])) ++
          (late1 ++ [add_poller_event p b completion]) := by
      simp
    rw [hsplit]
    exact drop_done _ _ _ (by
      simp only [List.length_append, List.length_cons, List.length_nil]
      omega)

/-- The pass on `b` in which the add-poller event of `p` is the last event that waited:
`sd` is the state in which the event is called, `si` the state in which the completion is
passed to `spdk_event_call`, `sc` the state after that. -/
theorem migrate_pass_add (cb : Callbacks) (hal : Hal) (p b : Nat)
    (completion : Option spdk_event) (s3 s4 : State) (t4 : List Invocation)
    (ring3 : rte_ring) (before3 : List spdk_event)
    (happ : callbacks_append cb) (hks : callbacks_keep_schedules cb)
    (hkp : callbacks_keep_poller cb p) (hkl : callbacks_keep_lcores cb)
    (hr : (s3.g_reactors b).events = some ring3) (hw : ring3.cons ≤ ring3.items.length)
    (hcont : ring3.content = before3 ++ [add_poller_event p b completion])
    (hq : ∀ e ∈ before3, ¬ names_poller p e)
    (h : spdk_event_queue_run_all cb hal b b s3 = some (s4, t4)) :
    t4 = (before3 ++ [add_poller_event p b completion]).map (Invocation.event b) ∧
    ∃ sd si sc, poller_kept p s3 sd ∧
      event_invoke cb hal b (add_poller_event p b completion) sd =
        call_next hal completion si ∧
      call_next hal completion si = some sc ∧
      spdk_event_free hal b sc = some s4 ∧
      (si.pollers p).lcore = (sd.g_reactors b).lcore ∧
      (si.pollers p).period_ticks = (sd.pollers p).period_ticks ∧
      ((sd.pollers p).period_ticks = 0 →
        (si.g_reactors b).active_pollers = (sd.g_reactors b).active_pollers ++ [p] ∧
        (si.g_reactors b).timer_pollers = (sd.g_reactors b).timer_pollers) ∧
      (∀ j, j ≠ b → si.g_reactors j = sd.g_reactors j) ∧
      s4.pollers = si.pollers ∧ schedules_kept si s4 ∧
      (∀ e, completion = some e →
        ∃ ring, (si.g_reactors e.lcore).events = some ring ∧
          (s4.g_reactors e.lcore).events = some ⟨ring.items ++ [e], ring.cons⟩) := by
  obtain ⟨hall, hring⟩ := run_all_eq cb hal b s3 ring3 hr hw
  rw [hall, hcont] at h
  rw [hcont] at hring
  obtain ⟨ht, sb, sx, sf, late1, hQ1, -, hinv, hf, -, hend⟩ := run_about cb hal b happ
    (fun x y => poller_kept p x y) (fun _ _ => True)
    (poller_kept_refl p) (poller_kept_trans p)
    (fun x y hk hp _ hl => poller_kept_frame p x y hk hp hl)
    (fun _ => trivial) (fun _ _ _ _ _ => trivial) (fun _ _ _ _ _ _ => trivial)
    before3 [] _ s3 s4 t4 (ring3.items.take ring3.cons) []
    (fun e he s0 s5 hi => event_leaves_poller cb hal b p e hks hkp hkl (hq e he) s0 s5 hi)
    (fun e he => by simp at he)
    hring h
  obtain rfl := hend rfl
  obtain ⟨hg, hpf, -⟩ := spdk_event_free_frame hal b sx s4 hf
  obtain ⟨si, heq, hlc, hper, -, -, -, hoth, -, -, -, -, -, hact⟩ :=
    add_poller_effect hal (add_poller_event p b completion) sb
  simp only [add_poller_event] at hlc hper hoth hact
  have heq' : event_invoke cb hal b (add_poller_event p b completion) sb =
      call_next hal completion si := heq
  have hcn : call_next hal completion si = some sx := by
    rw [← heq']
    exact hinv
  obtain ⟨hpolx, hfr, -⟩ := call_next_frame hal _ si sx hcn
  refine ⟨ht, sb, si, sx, hQ1, heq', hcn, hf, hlc, hper, hact, hoth, by rw [hpf, hpolx],
    ?_, ?_⟩
  · intro r
    rw [hg]
    exact ⟨(hfr r).2.1, (hfr r).1⟩
  · intro e he
    subst he
    obtain ⟨ring, hr1, hr2, -⟩ := spdk_event_call_effect hal e si sx hcn
    exact ⟨ring, hr1, by rw [hg]; exact hr2⟩

/-! ## The migration of a poller -/

/-- The migration when no other event waits: let `p` be an always-run poller registered
on `a` (linked once in the
always-run schedule of `a`, in no other schedule, `p.lcore = a`), `b ≠ a` a CPU of the
core mask whose reactor is constructed, the queues of `a` and `b` empty, three free
events in the pools of their sockets, and room in the queue of the completion.  Then
`spdk_poller_migrate(p, b, completion)` returns (`s1`); the drain pass on `a` calls the
remove-poller event (`s2`); the next drain pass on `b` calls the migrate event (`s3`); the
pass on `b` after that calls the add-poller event (`s4`), and `si` is the state of this
call in which the completion is passed to `spdk_event_call`.  No field of a poller is
written before the add-poller event runs, so `p.lcore = a` in `s0`, `s1`, `s2`, `s3` and
in the state `sd` in which the add-poller event is called; `p` is still in the schedule
of `a` in `s1`; in `s2`, `s3` and `sd`, `p` is in no schedule of any reactor; in `si` and
in `s4`, `p.lcore = b`, the always-run schedule of `a` does not contain `p` and the one
of `b` does (`p` is its last element); and the completion, if there is one, is the last
event of the queue of its lcore in `s4`. -/
theorem migrate_quiet (cb : Callbacks) (hal : Hal) (p a b : Nat)
    (completion : Option spdk_event) (s0 : State)
    (hab : a ≠ b)
    (hmask : s0.g_reactor_mask &&& bit64 b ≠ 0) (hp0 : p ≠ 0)
    (hla : (s0.pollers p).lcore = a) (hper : (s0.pollers p).period_ticks = 0)
    (hreg : registered_on s0 p a)
    (hother : ∀ r, r ≠ a →
      p ∉ (s0.g_reactors r).active_pollers ∧ p ∉ (s0.g_reactors r).timer_pollers)
    (hlb : (s0.g_reactors b).lcore = b)
    (hpa : can_allocate hal a 2 s0) (hpb : can_allocate hal b 2 s0)
    (hqa : queue_empty s0 a) (hqb : queue_empty s0 b) (hcap : 0 < hal.ring_capacity)
    (hroom : ∀ e, completion = some e → can_enqueue hal e.lcore s0) :
    ∃ s1 s2 s3 sd si sc s4,
      spdk_poller_migrate hal p b completion s0 = some s1 ∧
      spdk_event_queue_run_all cb hal a a s1 = some (s2, [Invocation.event a
        (remove_poller_event p a (some (migrate_event p b completion)))]) ∧
      spdk_event_queue_run_all cb hal b b s2 =
        some (s3, [Invocation.event b (migrate_event p b completion)]) ∧
      spdk_event_queue_run_all cb hal b b s3 =
        some (s4, [Invocation.event b (add_poller_event p b completion)]) ∧
      event_invoke cb hal b (add_poller_event p b completion) sd =
        call_next hal completion si ∧
      call_next hal completion si = some sc ∧
      spdk_event_free hal b sc = some s4 ∧
      s1.pollers = s0.pollers ∧ s2.pollers = s0.pollers ∧ s3.pollers = s0.pollers ∧
      sd.pollers = s0.pollers ∧
      (s1.pollers p).lcore = a ∧ (s2.pollers p).lcore = a ∧ (s3.pollers p).lcore = a ∧
      (sd.pollers p).lcore = a ∧
      p ∈ (s1.g_reactors a).active_pollers ∧
      in_no_schedule s2 p ∧ in_no_schedule s3 p ∧ in_no_schedule sd p ∧
      (si.pollers p).lcore = b ∧
      p ∉ (si.g_reactors a).active_pollers ∧
      p ∈ (si.g_reactors b).active_pollers ∧
      (si.g_reactors b).active_pollers = (s0.g_reactors b).active_pollers ++ [p] ∧
      (s4.pollers p).lcore = b ∧
      p ∉ (s4.g_reactors a).active_pollers ∧
      p ∈ (s4.g_reactors b).active_pollers ∧
      (∀ e, completion = some e →
        ∃ ring, (si.g_reactors e.lcore).events = some ring ∧
          (s4.g_reactors e.lcore).events = some ⟨ring.items ++ [e], ring.cons⟩) := by
  obtain ⟨⟨itemsa, consa⟩, hra, hca⟩ := hqa
  obtain ⟨⟨itemsb, consb⟩, hrb, hcb⟩ := hqb
  simp only at hca hcb
  subst hca hcb
  have hreg' : (s0.g_reactors a).active_pollers.count p = 1 ∧
      p ∉ (s0.g_reactors a).timer_pollers := by
    unfold registered_on at hreg
    rw [if_neg (by simp [hper])] at hreg
    exact hreg
  -- the call
  obtain ⟨s1, hmig, hpol1, hra1, hoth1, hsched1, hka1, hkb1⟩ := migrate_call hal p a b
    completion s0 itemsa hmask hp0 hla hpa hpb hra hcap
  -- the pass on a
  obtain ⟨s2, hrun2, hpol2, hact2, htim2, hoth2, hlc2, hra2, hrb2, hev2, hk2, hd2⟩ :=
    pass_remove cb hal p a (migrate_event p b completion) s1 itemsa itemsb hra1
      (by rw [hpol1]; exact hper)
      (by
        rw [(hsched1 a).1]
        exact List.count_pos_iff.1 (by rw [hreg'.1]; exact Nat.one_pos))
      (can_allocate_ready hal a 0 s1 hka1) (Ne.symm hab)
      (by
        show (s1.g_reactors b).events = _
        rw [hoth1 b (Ne.symm hab)]
        exact hrb) hcap
  have hrb2' : (s2.g_reactors b).events =
      some ⟨itemsb ++ [migrate_event p b completion], itemsb.length⟩ := hrb2
  have hev2' : ∀ j, j ≠ a → j ≠ b → (s2.g_reactors j).events = (s0.g_reactors j).events := by
    intro j hja hjb
    rw [hev2 j hja hjb, hoth1 j hja]
  have hno2 : in_no_schedule s2 p := by
    intro r
    by_cases hr : r = a
    · subst hr
      rw [hact2, htim2, (hsched1 r).1, (hsched1 r).2.1]
      exact ⟨not_mem_erase_of_count p _ hreg'.1, hreg'.2⟩
    · rw [(hoth2 r hr).1, (hoth2 r hr).2, (hsched1 r).1, (hsched1 r).2.1]
      exact hother r hr
  -- the first pass on b
  obtain ⟨s3, hrun3, hpol3, hrb3, hoth3, hsched3, hd3⟩ := pass_migrate cb hal p b completion
    s2 itemsb hrb2' (hk2 b 0 hkb1) hcap
  have hno3 : in_no_schedule s3 p := by
    intro r
    rw [(hsched3 r).1, (hsched3 r).2.1]
    exact hno2 r
  -- the second pass on b
  obtain ⟨sd, si, sc, s4, hpold, hschedd, hinv, hcn, hfree, hrun4, hlci, hacti, -, hothi,
    hpol4, hsched4, hcompl⟩ := pass_add cb hal p b completion s3
      (itemsb ++ [migrate_event p b completion]) (by rw [hrb3]; simp)
      (by rw [hpol3, hpol2, hpol1]; exact hper)
      (by rw [(hsched3 b).2.2, hlc2, (hsched1 b).2.2]; exact hlb)
      (hd3 b (hd2 b (can_allocate_ready hal b 0 s1 hkb1)))
      (by
        intro e he hb
        by_cases ha : e.lcore = a
        · refine ⟨⟨itemsa ++ [remove_poller_event p a
            (some (migrate_event p b completion))], itemsa.length + 1⟩, ?_, ?_⟩
          · rw [ha, hoth3 a hab]
            exact hra2
          · simpa [rte_ring_count] using hcap
        · obtain ⟨ring, h1, h2⟩ := hroom e he
          refine ⟨ring, ?_, h2⟩
          rw [hoth3 _ hb, hev2' _ ha hb]
          exact h1) hcap
  have hpol3' : s3.pollers = s0.pollers := by rw [hpol3, hpol2, hpol1]
  have hnod : in_no_schedule sd p := by
    intro r
    rw [(hschedd r).1, (hschedd r).2]
    exact hno3 r
  have hai : p ∉ (si.g_reactors a).active_pollers := by
    rw [(hothi a hab).1]
    exact (hno3 a).1
  have hbi : (si.g_reactors b).active_pollers = (s0.g_reactors b).active_pollers ++ [p] := by
    rw [hacti, (hsched3 b).1, (hoth2 b (Ne.symm hab)).1, (hsched1 b).1]
  have hbi' : p ∈ (si.g_reactors b).active_pollers := by
    rw [hbi]
    simp
  refine ⟨s1, s2, s3, sd, si, sc, s4, hmig, hrun2, hrun3, hrun4, hinv, hcn, hfree, hpol1,
    by rw [hpol2, hpol1], hpol3', by rw [hpold, hpol3'], by rw [hpol1]; exact hla,
    by rw [hpol2, hpol1]; exact hla, by rw [hpol3']; exact hla,
    by rw [hpold, hpol3']; exact hla, ?_, hno2, hno3, hnod, hlci, hai, hbi', hbi, ?_, ?_, ?_,
    hcompl⟩
  · rw [(hsched1 a).1]
    exact List.count_pos_iff.1 (by rw [hreg'.1]; exact Nat.one_pos)
  · rw [hpol4]
    exact hlci
  · rw [(hsched4 a).1]
    exact hai
  · rw [(hsched4 b).1]
    exact hbi'

theorem migration_some (cb : Callbacks) (hal : Hal) (p a b : Nat)
    (completion : Option spdk_event) (s0 s1 s2 s3 s4 : State)
    (h : migration cb hal p a b completion s0 = some (s1, s2, s3, s4)) :
    spdk_poller_migrate hal p b completion s0 = some s1 ∧
    ∃ t2 t3 t4, spdk_event_queue_run_all cb hal a a s1 = some (s2, t2) ∧
      spdk_event_queue_run_all cb hal b b s2 = some (s3, t3) ∧
      spdk_event_queue_run_all cb hal b b s3 = some (s4, t4) := by
  unfold migration at h
  cases h1 : spdk_poller_migrate hal p b completion s0 with
  | none => rw [h1] at h; simp at h
  | some x1 =>
    rw [h1] at h
    simp only at h
    cases h2 : spdk_event_queue_run_all cb hal a a x1 with
    | none => rw [h2] at h; simp at h
    | some r2 =>
      obtain ⟨x2, t2⟩ := r2
      rw [h2] at h
      simp only at h
      cases h3 : spdk_event_queue_run_all cb hal b b x2 with
      | none => rw [h3] at h; simp at h
      | some r3 =>
        obtain ⟨x3, t3⟩ := r3
        rw [h3] at h
        simp only at h
        cases h4 : spdk_event_queue_run_all cb hal b b x3 with
        | none => rw [h4] at h; simp at h
        | some r4 =>
          obtain ⟨x4, t4⟩ := r4
          rw [h4] at h
          simp only [Option.some.injEq, Prod.mk.injEq] at h
          obtain ⟨rfl, rfl, rfl, rfl⟩ := h
          exact ⟨rfl, t2, t3, t4, h2, h3, h4⟩

theorem migration_eq (cb : Callbacks) (hal : Hal) (p a b : Nat)
    (completion : Option spdk_event) (s0 s1 s2 s3 s4 : State) (t2 t3 t4 : List Invocation)
    (h1 : spdk_poller_migrate hal p b completion s0 = some s1)
    (h2 : spdk_event_queue_run_all cb hal a a s1 = some (s2, t2))
    (h3 : spdk_event_queue_run_all cb hal b b s2 = some (s3, t3))
    (h4 : spdk_event_queue_run_all cb hal b b s3 = some (s4, t4)) :
    migration cb hal p a b completion s0 = some (s1, s2, s3, s4) := by
  simp only [migration, h1, h2, h3, h4]

/-- C1: the order of the timer schedule is an invariant.  When the timer schedule of a
reactor is ascending in `next_run_tick`, its head carries the least `next_run_tick`, and
the schedule is ascending again (with the least tick at the head) after
`spdk_poller_insert_timer` of any poller not linked in it, at any `now`; after the timer
step of the reactor loop (head removed, called, inserted again), for a tail queue, which
links a poller once, and callbacks that leave the schedule alone; and after
`_spdk_event_remove_poller`, whenever it returns, which it does for a poller that is
linked in the schedule it is taken from (as `TAILQ_REMOVE` requires) when there is no
`next` event to send. -/
theorem timer_schedule_stays_sorted (cb : Callbacks) (hal : Hal) (cur reactor : Nat)
    (s : State) (hs : timer_sorted s reactor) :
    timer_head_min s reactor ∧
    (∀ poller now, poller ∉ (s.g_reactors reactor).timer_pollers →
      timer_sorted (spdk_poller_insert_timer reactor poller now s) reactor ∧
      timer_head_min (spdk_poller_insert_timer reactor poller now s) reactor) ∧
    ((s.g_reactors reactor).timer_pollers.Nodup → poller_fn_keeps_timers cb cur reactor →
      ∃ s1 t, timer_poller_step cb cur reactor s = some (s1, t) ∧
        timer_sorted s1 reactor ∧ timer_head_min s1 reactor) ∧
    (∀ event,
      (remove_linked event s → event.next = none →
        (_spdk_event_remove_poller hal event s).isSome = true) ∧
      ∀ s1, _spdk_event_remove_poller hal event s = some s1 →
        timer_sorted s1 reactor ∧ timer_head_min s1 reactor) := by
  refine ⟨timer_sorted_head_min s reactor hs, ?_, ?_, ?_⟩
  · intro poller now hp
    have h := insert_timer_sorted reactor poller now s hs hp
    exact ⟨h, timer_sorted_head_min _ reactor h⟩
  · intro hnd hcb
    obtain ⟨s1, t, h1, h2⟩ := timer_poller_step_sorted cb cur reactor s hs hnd hcb
    exact ⟨s1, t, h1, h2, timer_sorted_head_min _ reactor h2⟩
  · intro event
    refine ⟨remove_poller_returns hal event s, ?_⟩
    intro s1 h1
    have h := remove_poller_sorted hal event s s1 reactor hs h1
    exact ⟨h, timer_sorted_head_min _ reactor h⟩

/-- C1 at work: in `timer_example` (ticks 5 and 10) poller 3 inserted at `now = 4` with
period 3 is scheduled at tick 7, between the two; the timer step at time 6, which calls
the head and moves it to tick 9, leaves the schedule sorted; and the remove-poller event
of the linked poller 1 returns and leaves poller 2, sorted. -/
theorem timer_schedule_stays_sorted_witness :
    timer_sorted timer_example 0 ∧
    ((spdk_poller_insert_timer 0 3 4 timer_example).g_reactors 0).timer_pollers = [1, 3, 2] ∧
    timer_sorted (spdk_poller_insert_timer 0 3 4 timer_example) 0 ∧
    (∃ s1 t, timer_poller_step idle_callbacks 0 0 timer_example = some (s1, t) ∧
      timer_sorted s1 0 ∧ timer_head_min s1 0) ∧
    (_spdk_event_remove_poller small_hal (remove_poller_event 1 0 none)
      timer_example).isSome = true ∧
    (∀ s1, _spdk_event_remove_poller small_hal (remove_poller_event 1 0 none)
      timer_example = some s1 → timer_sorted s1 0 ∧ timer_head_min s1 0) :=
  ⟨by decide, by decide,
    ((timer_schedule_stays_sorted idle_callbacks small_hal 0 0 timer_example
      (by decide)).2.1 3 4 (by decide)).1,
    (timer_schedule_stays_sorted idle_callbacks small_hal 0 0 timer_example
      (by decide)).2.2.1 (by decide) (fun _ _ s0 => ⟨s0, rfl, rfl, fun _ _ => rfl⟩),
    ((timer_schedule_stays_sorted idle_callbacks small_hal 0 0 timer_example
      (by decide)).2.2.2 (remove_poller_event 1 0 none)).1 (by decide) rfl,
    ((timer_schedule_stays_sorted idle_callbacks small_hal 0 0 timer_example
      (by decide)).2.2.2 (remove_poller_event 1 0 none)).2⟩

/-- C2, as stated, fails: in `wrap_example` the poller of period 2 scheduled at tick 0 is
due when the timer reads `2^64 - 1`; the timer step calls it and schedules it at tick
`(2^64 - 1 + 2) mod 2^64 = 1`, which is less than `0 + 2`. -/
theorem timer_rearm_wraps :
    wrap_example.timer_cycles ≥ (wrap_example.pollers 1).next_run_tick ∧
    (timer_poller_step idle_callbacks 0 0 wrap_example).map
      (fun r => (r.1.pollers 1).next_run_tick) = some 1 ∧
    (wrap_example.pollers 1).next_run_tick + (wrap_example.pollers 1).period_ticks = 2 ∧
    ((wrap_example.pollers 1).next_run_tick + (wrap_example.pollers 1).period_ticks) % U64
      = 2 := by
  decide

/-- C2, amended: when the timer step finds the head `p` of the timer schedule due at
`now`, and the callbacks keep the period `P` of `p`, the step calls `p` and sets its
`next_run_tick` to `(now + P) mod 2^64`; this is `now + P`, and at least `previous + P`,
whenever `now + P < 2^64`. -/
theorem timer_rearm (cb : Callbacks) (cur reactor : Nat) (s : State) (p : Nat)
    (tl : List Nat) (hl : (s.g_reactors reactor).timer_pollers = p :: tl)
    (hdue : s.timer_cycles ≥ (s.pollers p).next_run_tick)
    (hcb : poller_fn_keeps_period cb cur p) :
    ∃ s1, timer_poller_step cb cur reactor s = some (s1, [Invocation.timer cur p]) ∧
      (s1.pollers p).next_run_tick = (s.timer_cycles + (s.pollers p).period_ticks) % U64 ∧
      (s.timer_cycles + (s.pollers p).period_ticks < U64 →
        (s1.pollers p).next_run_tick = s.timer_cycles + (s.pollers p).period_ticks ∧
        (s1.pollers p).next_run_tick ≥
          (s.pollers p).next_run_tick + (s.pollers p).period_ticks) := by
  rw [timer_poller_step_due cb cur reactor s p tl hl hdue]
  obtain ⟨s2, h2, hper⟩ := hcb (s.pollers p).fn (s.pollers p).arg
    (s.set_reactor reactor { s.g_reactors reactor with timer_pollers := tl })
  rw [h2]
  have hper' : (s2.pollers p).period_ticks = (s.pollers p).period_ticks := by
    rw [hper]; rfl
  refine ⟨_, rfl, ?_, ?_⟩
  · rw [insert_timer_tick, hper']
  · intro hlt
    rw [insert_timer_tick, hper', Nat.mod_eq_of_lt hlt]
    exact ⟨rfl, by omega⟩

/-- C2 at work: in `timer_example`, at time 6, the head (period 3, due at 5) is called
and scheduled again at tick 9. -/
theorem timer_rearm_witness :
    ∃ s1, timer_poller_step idle_callbacks 0 0 timer_example
        = some (s1, [Invocation.timer 0 1]) ∧
      (s1.pollers 1).next_run_tick = (6 + 3) % U64 ∧
      (6 + 3 < U64 → (s1.pollers 1).next_run_tick = 6 + 3 ∧
        (s1.pollers 1).next_run_tick ≥ 5 + 3) :=
  timer_rearm idle_callbacks 0 0 timer_example 1 [2] (by decide) (by decide)
    (fun _ _ s0 => ⟨s0, rfl, rfl⟩)

/-- C3: round-robin fairness.  With no event waiting in the queue of the lcore and
callbacks of pollers that keep the always-run schedule and enqueue nothing there, as many
passes of the reactor loop as the always-run schedule `[p1..pK]` has pollers call exactly
`p1, .., pK`, in this order, and leave the schedule as it was; `n * K` passes call the
schedule `n` times over; with three pollers nine passes call
`p1, p2, p3, p1, p2, p3, p1, p2, p3`. -/
theorem round_robin_fairness (cb : Callbacks) (hal : Hal) (cur reactor : Nat) (s : State)
    (hq : spdk_event_queue_count s cur = 0) (hcb : poller_fn_keeps_active cb cur reactor) :
    (∃ s1 t, reactor_iterations cb hal cur reactor
          (s.g_reactors reactor).active_pollers.length s = some (s1, t) ∧
        active_calls t = (s.g_reactors reactor).active_pollers ∧
        (s1.g_reactors reactor).active_pollers = (s.g_reactors reactor).active_pollers) ∧
    (∀ n, ∃ s1 t, reactor_iterations cb hal cur reactor
          (n * (s.g_reactors reactor).active_pollers.length) s = some (s1, t) ∧
        active_calls t = (List.replicate n (s.g_reactors reactor).active_pollers).flatten ∧
        (s1.g_reactors reactor).active_pollers = (s.g_reactors reactor).active_pollers) ∧
    (∀ p1 p2 p3, (s.g_reactors reactor).active_pollers = [p1, p2, p3] →
      ∃ s1 t, reactor_iterations cb hal cur reactor 9 s = some (s1, t) ∧
        active_calls t = [p1, p2, p3, p1, p2, p3, p1, p2, p3] ∧
        (s1.g_reactors reactor).active_pollers = [p1, p2, p3]) := by
  refine ⟨?_, ?_, ?_⟩
  · obtain ⟨s1, t, h1, hc, ha, -⟩ := reactor_iterations_rotate cb hal cur reactor hcb
      (s.g_reactors reactor).active_pollers [] s (by simp) hq
    exact ⟨s1, t, h1, hc, by simpa using ha⟩
  · intro n
    obtain ⟨s1, t, h1, hc, ha, -⟩ := reactor_iterations_rounds cb hal cur reactor hcb
      (s.g_reactors reactor).active_pollers n s rfl hq
    exact ⟨s1, t, h1, hc, ha⟩
  · intro p1 p2 p3 hl
    obtain ⟨s1, t, h1, hc, ha, -⟩ := reactor_iterations_rounds cb hal cur reactor hcb
      [p1, p2, p3] 3 s hl hq
    exact ⟨s1, t, h1, by simpa [List.replicate] using hc, ha⟩

/-- C3 at work: nine passes over `rotation_example`, whose always-run schedule is
`[1, 2, 3]`. -/
theorem round_robin_fairness_witness :
    spdk_event_queue_count rotation_example 0 = 0 ∧
    ∃ s1 t, reactor_iterations idle_callbacks small_hal 0 0 9 rotation_example
        = some (s1, t) ∧
      active_calls t = [1, 2, 3, 1, 2, 3, 1, 2, 3] ∧
      (s1.g_reactors 0).active_pollers = [1, 2, 3] :=
  ⟨by decide,
    (round_robin_fairness idle_callbacks small_hal 0 0 rotation_example (by decide)
      (fun _ _ s0 => ⟨s0, rfl, rfl, rfl⟩)).2.2 1 2 3 (by decide)⟩

/-- C4: the drain bound.  Let `spdk_event_queue_run_all` start with the events `e1..eC`
waiting in the ring of the reactor (a ring whose consumer index is within what was
enqueued), with callbacks of the user that enqueue any number of events the way
`spdk_event_call` does.  Whenever the pass returns, it has called exactly `e1, .., eC`,
each once and in this order, and the events enqueued during the pass (`late`) are, all of
them and nothing else, waiting in the ring.  And the pass returns, in a state that
satisfies `Inv`, when it starts in a state that satisfies `Inv` and every step
(`spdk_event_queue_run_single`) taken in such a state returns in such a state; the
callbacks `requeue_callbacks`, which enqueue through `spdk_event_allocate` and
`spdk_event_call`, are callbacks of this kind, and their steps keep `requeue_ready`. -/
theorem drain_bound (cb : Callbacks) (hal : Hal) (cur lcore : Nat) (s : State)
    (ring : rte_ring) (happ : callbacks_append cb)
    (hr : (s.g_reactors lcore).events = some ring)
    (hw : ring.cons ≤ ring.items.length) :
    (∀ s1 t, spdk_event_queue_run_all cb hal cur lcore s = some (s1, t) →
      t = ring.content.map (Invocation.event cur) ∧
      ∃ ring1 late, (s1.g_reactors lcore).events = some ring1 ∧
        ring1.items = ring.items ++ late ∧ ring1.cons = ring.items.length ∧
        ring1.content = late) ∧
    (∀ Inv : State → Prop, Inv s →
      (∀ s0, Inv s0 → ∃ s1 t1,
        spdk_event_queue_run_single cb hal cur lcore s0 = some (s1, t1) ∧ Inv s1) →
      ∃ s1 t, spdk_event_queue_run_all cb hal cur lcore s = some (s1, t) ∧ Inv s1) ∧
    callbacks_append (requeue_callbacks hal) ∧
    (∀ s0, requeue_ready hal lcore s0 → ∃ s1 t1,
      spdk_event_queue_run_single (requeue_callbacks hal) hal lcore lcore s0 = some (s1, t1) ∧
        requeue_ready hal lcore s1) := by
  have hcount : spdk_event_queue_count s lcore = ring.content.length := by
    simp [spdk_event_queue_count, spdk_reactor_get, hr, rte_ring_count, rte_ring.content]
  refine ⟨?_, ?_, requeue_append hal, requeue_step hal lcore⟩
  · intro s1 t h
    rw [spdk_event_queue_run_all, hcount] at h
    have hitems : ring.items.take ring.cons ++ ring.content ++ [] = ring.items := by
      simp [rte_ring.content]
    obtain ⟨ht, late, hr1⟩ := run_bound cb hal cur lcore happ ring.content s s1 t
      (ring.items.take ring.cons) [] (by
        rw [hr, hitems]
        simp [Nat.min_eq_left hw]) h
    refine ⟨ht, _, late, hr1, ?_, ?_, ?_⟩
    · simp [rte_ring.content]
    · simp [rte_ring.content, Nat.min_eq_left hw]
      omega
    · have hlen : (List.take ring.cons ring.items).length + ring.content.length
          = (List.take ring.cons ring.items ++ ring.content ++ []).length := by simp
      show List.drop ((List.take ring.cons ring.items).length + ring.content.length)
        (List.take ring.cons ring.items ++ ring.content ++ [] ++ late) = late
      rw [hlen, List.drop_left]
  · intro Inv hs hstep
    rw [spdk_event_queue_run_all]
    exact run_returns cb hal cur lcore Inv hstep _ s hs

/-- C4 at work: in `drain_example` the events of the functions 10 and 20 wait and each
callback allocates one more event and enqueues it with `spdk_event_call`; the pass
returns, it has called just these two, and the two events enqueued meanwhile wait
afterwards. -/
theorem drain_bound_witness :
    ∃ s1 t ring1 late,
      spdk_event_queue_run_all (requeue_callbacks small_hal) small_hal 0 0 drain_example
        = some (s1, t) ∧
      t = [Invocation.event 0 (user_event 10), Invocation.event 0 (user_event 20)] ∧
      (s1.g_reactors 0).events = some ring1 ∧
      ring1.items = [user_event 5, user_event 10, user_event 20] ++ late ∧
      ring1.cons = 3 ∧ ring1.content = late ∧ late.length = 2 ∧
      requeue_ready small_hal 0 s1 :=
  ((drain_bound (requeue_callbacks small_hal) small_hal 0 0 drain_example
      { items := [user_event 5, user_event 10, user_event 20], cons := 1 }
      (requeue_append small_hal) rfl (by decide)).2.1 (requeue_ready small_hal 0)
      ⟨{ items := [user_event 5, user_event 10, user_event 20], cons := 1 },
        { size := 262144, avail := 262141 }, rfl, by decide, by decide,
        (by
          intro e he
          have he1 : e = user_event 10 ∨ e = user_event 20 := by
            simpa [rte_ring.content] using he
          rcases he1 with rfl | rfl
          · exact ⟨10, rfl⟩
          · exact ⟨20, rfl⟩), by decide, rfl, by decide⟩
      (requeue_step small_hal 0)).elim
    (fun s1 h1 => h1.elim (fun t h =>
      ((drain_bound (requeue_callbacks small_hal) small_hal 0 0 drain_example
        { items := [user_event 5, user_event 10, user_event 20], cons := 1 }
        (requeue_append small_hal) rfl (by decide)).1 s1 t h.1).2.elim
        (fun ring1 h2 => h2.elim (fun late h3 =>
          ⟨s1, t, ring1, late, h.1,
            ((drain_bound (requeue_callbacks small_hal) small_hal 0 0 drain_example
              { items := [user_event 5, user_event 10, user_event 20], cons := 1 }
              (requeue_append small_hal) rfl (by decide)).1 s1 t h.1).1,
            h3.1, h3.2.1, h3.2.2.1, h3.2.2.2,
            (by
              have hl := congrArg (fun o => o.map (fun r =>
                (r.1.g_reactors 0).events.map (fun g => g.items.length))) h.1
              have hc : (spdk_event_queue_run_all (requeue_callbacks small_hal) small_hal
                  0 0 drain_example).map (fun r => (r.1.g_reactors 0).events.map
                    (fun g => g.items.length)) = some (some 5) := by decide
              simp only at hl
              rw [hc] at hl
              simp only [Option.map_some', Option.some.injEq, h3.1] at hl
              have h4 := congrArg List.length h3.2.1
              simp only [List.length_append, List.length_cons, List.length_nil] at h4
              omega),
            h.2⟩))))

/-- C5, as stated, fails.  After `spdk_reactors_init("0x1")`, an event whose callback
calls `spdk_reactors_stop`, and `spdk_reactors_start()`, which returns with
`SPDK_REACTOR_STATE_SHUTDOWN` (4), a call of `spdk_reactors_stop()` sets
`SPDK_REACTOR_STATE_EXITING` (3).  And `spdk_reactors_start()` called after
`spdk_reactors_stop()` first sets `SPDK_REACTOR_STATE_RUNNING` (2) over
`SPDK_REACTOR_STATE_EXITING` (3). -/
theorem lifecycle_state_decreases :
    lifecycle_observe stop_callbacks small_hal 0 stop_after_shutdown fresh =
      [SPDK_REACTOR_STATE_INITIALIZED, SPDK_REACTOR_STATE_INITIALIZED,
        SPDK_REACTOR_STATE_RUNNING, SPDK_REACTOR_STATE_RUNNING, SPDK_REACTOR_STATE_EXITING,
        SPDK_REACTOR_STATE_SHUTDOWN, SPDK_REACTOR_STATE_EXITING] ∧
    ¬ non_decreasing fresh.g_reactor_state
        (lifecycle_observe stop_callbacks small_hal 0 stop_after_shutdown fresh) ∧
    lifecycle_observe stop_callbacks small_hal 0
        [lifecycle_call.stop, lifecycle_call.start []] fresh =
      [SPDK_REACTOR_STATE_EXITING, SPDK_REACTOR_STATE_RUNNING] ∧
    ¬ non_decreasing fresh.g_reactor_state
        (lifecycle_observe stop_callbacks small_hal 0
          [lifecycle_call.stop, lifecycle_call.start []] fresh) := by
  have h1 : lifecycle_observe stop_callbacks small_hal 0 stop_after_shutdown fresh =
      [SPDK_REACTOR_STATE_INITIALIZED, SPDK_REACTOR_STATE_INITIALIZED,
        SPDK_REACTOR_STATE_RUNNING, SPDK_REACTOR_STATE_RUNNING, SPDK_REACTOR_STATE_EXITING,
        SPDK_REACTOR_STATE_SHUTDOWN, SPDK_REACTOR_STATE_EXITING] := by decide
  have h2 : lifecycle_observe stop_callbacks small_hal 0
        [lifecycle_call.stop, lifecycle_call.start []] fresh =
      [SPDK_REACTOR_STATE_EXITING, SPDK_REACTOR_STATE_RUNNING] := by decide
  refine ⟨h1, ?_, h2, ?_⟩
  · rw [h1]
    simp [non_decreasing, spdk_reactor_state.val]
  · rw [h2]
    simp [non_decreasing, spdk_reactor_state.val]

/-- C5, amended: along every sequence of calls of `spdk_reactors_init`,
`spdk_reactors_start`, `spdk_reactors_stop` and of events sent, from any state, in which
`spdk_reactors_start` is called only in the states Invalid, Initialized or Running and
`spdk_reactors_stop` is never called in the state Shutdown, and with callbacks that write
`g_reactor_state` only through `spdk_reactors_stop`, the numeric value of
`g_reactor_state` never decreases: not from call to call and not inside
`spdk_reactors_start`, observed after every step of the reactor threads.  (The state that
`observe` gives for `spdk_reactors_start` is the one the function returns.) -/
theorem lifecycle_monotone (cb : Callbacks) (hal : Hal) (cur : Nat)
    (calls : List lifecycle_call) (s : State) (hcb : callbacks_stop_only cb)
    (hg : lifecycle_guarded cb hal cur calls s = true) :
    non_decreasing s.g_reactor_state (lifecycle_observe cb hal cur calls s) ∧
    ∀ sched s0, ((lifecycle_call.start sched).observe cb hal cur s0).2 =
      (spdk_reactors_start cb hal cur sched s0).map Prod.fst := by
  refine ⟨lifecycle_observe_mono cb hal cur hcb calls s hg, ?_⟩
  intro sched s0
  simp only [lifecycle_call.observe, spdk_reactors_start]
  split_ifs with hm
  · rfl
  · have hs := start_states_steps cb hal cur sched (start_begin hal s0)
    cases hss : start_states cb hal cur sched (start_begin hal s0) with
    | mk l r =>
      rw [hss] at hs
      simp only at hs
      rw [← hs]
      cases r with
      | none => rfl
      | some c =>
        simp only
        split_ifs <;> rfl

/-- C5 at work: initialisation, an event whose callback calls `spdk_reactors_stop`, and a
run of `spdk_reactors_start`: the states are Initialized, Running, Exiting, Shutdown. -/
theorem lifecycle_monotone_witness :
    lifecycle_observe stop_callbacks small_hal 0 start_and_stop_inside fresh =
      [SPDK_REACTOR_STATE_INITIALIZED, SPDK_REACTOR_STATE_INITIALIZED,
        SPDK_REACTOR_STATE_RUNNING, SPDK_REACTOR_STATE_RUNNING, SPDK_REACTOR_STATE_EXITING,
        SPDK_REACTOR_STATE_SHUTDOWN] ∧
    non_decreasing fresh.g_reactor_state
      (lifecycle_observe stop_callbacks small_hal 0 start_and_stop_inside fresh) :=
  ⟨by decide,
    (lifecycle_monotone stop_callbacks small_hal 0 start_and_stop_inside fresh
      ⟨fun _ _ _ _ _ h => Or.inr (by
          simp only [stop_callbacks, Option.some.injEq] at h
          rw [← h]; rfl),
        fun _ _ _ _ _ h => Or.inl (by
          simp only [stop_callbacks, Option.some.injEq] at h
          rw [← h])⟩
      (by decide)).1⟩

/-- C6, as stated, fails: `spdk_app_parse_core_mask` also accepts strings that are not,
in full, a hexadecimal number.  With the lcores 1 and 2 enabled, `"-1"` is accepted and
gives the mask `0x6` (`strtoull` negates: all 64 bits set, then the disabled lcores are
cleared), and `" 6"`, with a leading blank, is accepted and gives `0x6`. -/
theorem parse_core_mask_accepts_more :
    spdk_app_parse_core_mask hal_12 (some ['-', '1']) (some 0) = (0, some 6) ∧
    (∀ digits, ¬ is_hex_number ['-', '1'] digits) ∧
    spdk_app_parse_core_mask hal_12 (some [' ', '6']) (some 0) = (0, some 6) ∧
    (∀ digits, ¬ is_hex_number [' ', '6'] digits) := by
  refine ⟨by decide, ?_, by decide, ?_⟩
  · rintro digits ⟨⟨-, hall⟩, h | h | h⟩
    · have hm : '-' ∈ digits := by rw [← h]; decide
      exact absurd (hall '-' hm) (by decide)
    · exact absurd (List.cons.inj h).1 (by decide)
    · exact absurd (List.cons.inj h).1 (by decide)
  · rintro digits ⟨⟨-, hall⟩, h | h | h⟩
    · have hm : ' ' ∈ digits := by rw [← h]; decide
      exact absurd (hall ' ' hm) (by decide)
    · exact absurd (List.cons.inj h).1 (by decide)
    · exact absurd (List.cons.inj h).1 (by decide)

/-- C6, amended: for a string `s` (its characters before the terminating NUL),
`spdk_app_parse_core_mask` succeeds exactly when `s` is, in full, optional white space,
an optional sign, an optional `0x` or `0X` and one or more hexadecimal digits whose value
`v` fits in 64 bits, or when `s` is empty and the C library reports no error for that;
every other string is rejected with `-1`.  On success the returned mask is below `2^64`
and has bit `i` set iff bit `i` of `v` (of `2^64 - v` after a `-`) is set and lcore `i` is
enabled or `i` is not below `min(RTE_MAX_LCORE, 64)`.  A hexadecimal number, optionally
`0x`-prefixed, is such a string. -/
theorem parse_core_mask_format (hal : Hal) (s : List Char) (out : Nat)
    (h0 : ∀ c ∈ s, c.toNat ≠ 0) :
    ((spdk_app_parse_core_mask hal (some s) (some out)).1 = 0 ↔
      (∃ neg digits, is_mask_string s neg digits ∧ hex_value 0 digits < U64) ∨
        (s = [] ∧ hal.strtoull_einval = false)) ∧
    ((spdk_app_parse_core_mask hal (some s) (some out)).1 ≠ 0 →
      (spdk_app_parse_core_mask hal (some s) (some out)).1 = -1) ∧
    (∀ neg digits, is_mask_string s neg digits → hex_value 0 digits < U64 →
      ∃ m, spdk_app_parse_core_mask hal (some s) (some out) = (0, some m) ∧ m < U64 ∧
        ∀ i, m.testBit i = true ↔
          (signed_value neg (hex_value 0 digits)).testBit i = true ∧
            (i < min hal.RTE_MAX_LCORE 64 → hal.rte_lcore_is_enabled i = true)) ∧
    (∀ digits, is_hex_number s digits → is_mask_string s false digits) := by
  refine ⟨⟨?_, ?_⟩, ?_, ?_, ?_⟩
  · intro h
    simp only [spdk_app_parse_core_mask] at h
    split_ifs at h with hc
    · simp at h
    · simp only [Bool.or_eq_true, not_or, Bool.not_eq_true] at hc
      exact mask_string_of_strtoull hal s h0 hc.1 hc.2
  · rintro (⟨neg, digits, hm, hv⟩ | ⟨rfl, he⟩)
    · obtain ⟨h1, h2, -⟩ := strtoull_of_mask_string hal s neg digits hm
      have h2' : (strtoull hal s).errno = false := by
        rw [h2]; simp; omega
      simp [spdk_app_parse_core_mask, h1, h2', not_at_end]
    · simp [spdk_app_parse_core_mask, strtoull, scan_sign, scan_0x, he, not_at_end]
  · intro h
    rcases parse_core_mask_rc hal (some s) (some out) with h1 | h1
    · exact absurd h1 h
    · exact h1
  · intro neg digits hm hv
    obtain ⟨h1, h2, h3⟩ := strtoull_of_mask_string hal s neg digits hm
    have h2' : (strtoull hal s).errno = false := by
      rw [h2]; simp; omega
    have hval := h3 hv
    have hlt : signed_value neg (hex_value 0 digits) < U64 := by
      unfold signed_value
      split_ifs
      · exact Nat.mod_lt _ (by decide)
      · exact hv
    refine ⟨clear_disabled hal (signed_value neg (hex_value 0 digits)), ?_,
      clear_disabled_lt hal _ hlt, ?_⟩
    · simp [spdk_app_parse_core_mask, h1, h2', not_at_end, hval]
    · intro i
      rw [clear_disabled_testBit hal _ hlt i]
      by_cases hi : i < min hal.RTE_MAX_LCORE 64
      · simp [hi]
      · simp [hi]
  · rintro digits ⟨hrun, h | h | h⟩
    · exact ⟨[], [], [], by simpa using h, fun c hc => by simp at hc, Or.inl ⟨rfl, rfl⟩,
        Or.inl rfl, hrun⟩
    · exact ⟨[], [], ['0', 'x'], by simpa using h, fun c hc => by simp at hc,
        Or.inl ⟨rfl, rfl⟩, Or.inr (Or.inl rfl), hrun⟩
    · exact ⟨[], [], ['0', 'X'], by simpa using h, fun c hc => by simp at hc,
        Or.inl ⟨rfl, rfl⟩, Or.inr (Or.inr rfl), hrun⟩

/-- C6 at work: with the lcores 1 and 2 enabled `"0x6"` yields `0x6`; `"0xZZ"` and a
value of 17 hexadecimal digits are rejected. -/
theorem parse_core_mask_format_witness :
    spdk_app_parse_core_mask hal_12 (some "0x6".toList) (some 0) = (0, some 6) ∧
    (spdk_app_parse_core_mask hal_12 (some "0xZZ".toList) (some 0)).1 = -1 ∧
    (spdk_app_parse_core_mask hal_12 (some "0x10000000000000000".toList) (some 0)).1 = -1 ∧
    ((∃ neg digits, is_mask_string "0x6".toList neg digits ∧ hex_value 0 digits < U64) ∨
      ("0x6".toList = [] ∧ hal_12.strtoull_einval = false)) :=
  ⟨by decide, by decide, by decide,
    (parse_core_mask_format hal_12 "0x6".toList 0 (by decide)).1.1 (by decide)⟩

/-- C7, as stated, fails: the malformed string `"6Z"` is rejected with `-1`, but the
caller's output mask, 77 before the call, holds 6 after it, and `g_reactor_mask`, 0 as the
program starts, is 6 after `spdk_reactors_init("6Z")` has failed. -/
theorem rejected_mask_is_stored :
    spdk_app_parse_core_mask hal_12 (some "6Z".toList) (some 77) = (-1, some 6) ∧
    fresh.g_reactor_mask = 0 ∧
    (spdk_reactors_init hal_12 (some "6Z".toList) fresh).map
      (fun r => (r.1, spdk_app_get_core_mask r.2)) = some (-1, 6) := by
  decide

/-- C7, amended: for every mask string that `spdk_app_parse_core_mask` rejects, it
returns `-1` and the output mask holds the value `strtoull` returned; and
`spdk_reactors_init` returns `-1` and leaves `g_reactor_count`, `g_reactor_state`, the
reactors, the event pools and the pollers exactly as they were, while `g_reactor_mask`
holds that value as well when the state was Invalid (and is unchanged otherwise). -/
theorem rejected_mask_effects (hal : Hal) (m : List Char) (out : Nat) (s : State)
    (hrej : (spdk_app_parse_core_mask hal (some m) (some out)).1 ≠ 0) :
    spdk_app_parse_core_mask hal (some m) (some out) = (-1, some (strtoull hal m).value) ∧
    spdk_reactors_init hal (some m) s =
      some (-1, { s with g_reactor_mask :=
        if s.g_reactor_state = SPDK_REACTOR_STATE_INVALID then (strtoull hal m).value
        else s.g_reactor_mask }) := by
  have hcond : (not_at_end (strtoull hal m).rest || (strtoull hal m).errno) = true := by
    by_contra hc
    apply hrej
    simp [spdk_app_parse_core_mask, hc]
  have hp : ∀ o, spdk_app_parse_core_mask hal (some m) (some o)
      = (-1, some (strtoull hal m).value) := by
    intro o
    simp only [spdk_app_parse_core_mask, hcond, if_true]
  refine ⟨hp out, ?_⟩
  by_cases hinv : s.g_reactor_state = SPDK_REACTOR_STATE_INVALID
  · have hlt : ¬ s.g_reactor_state.val ≥ SPDK_REACTOR_STATE_INITIALIZED.val := by
      rw [hinv]; decide
    simp only [spdk_reactors_init, spdk_reactor_parse_mask, if_neg hlt, hp 0, if_pos hinv]
    simp
  · rw [init_not_invalid hal (some m) s hinv, if_neg hinv]

/-- C7 at work: `"0xZZ"` is rejected; `strtoull` converts only the `0`, and this value is
what the output mask holds. -/
theorem rejected_mask_effects_witness :
    spdk_app_parse_core_mask hal_12 (some "0xZZ".toList) (some 77)
      = (-1, some (strtoull hal_12 "0xZZ".toList).value) ∧
    (strtoull hal_12 "0xZZ".toList).value = 0 :=
  ⟨(rejected_mask_effects hal_12 "0xZZ".toList 77 fresh (by decide)).1, by decide⟩

/-- C8: the master lcore's bit is required, for a master lcore below 64 (a CPU that has a
bit in the 64-bit mask and for which `1ULL << master_core` is defined).  Whenever
`spdk_reactors_init` returns 0 the state is Initialized and bit `master_core` of the core
mask is set (for a `NULL` mask, which takes DPDK's lcores, since the master lcore is one
of the enabled lcores).  A mask string that parses to a mask which, after the disabled
lcores are cleared, lacks bit `master_core` is rejected with `-1`: no reactor is
constructed, the core count and the event pools are untouched and the state stays
Invalid. -/
theorem master_bit_required (hal : Hal) (mask : Option (List Char)) (s : State)
    (h64 : hal.rte_get_master_lcore < 64)
    (hm : mask = none → hal.rte_lcore_is_enabled hal.rte_get_master_lcore = true ∧
      hal.rte_get_master_lcore < hal.RTE_MAX_LCORE) :
    (∀ s1, spdk_reactors_init hal mask s = some (0, s1) →
      s1.g_reactor_state = SPDK_REACTOR_STATE_INITIALIZED ∧
      (spdk_app_get_core_mask s1).testBit hal.rte_get_master_lcore = true ∧
      spdk_app_get_core_mask s1 &&& bit64 hal.rte_get_master_lcore ≠ 0) ∧
    (∀ m v, mask = some m → s.g_reactor_state = SPDK_REACTOR_STATE_INVALID →
      spdk_app_parse_core_mask hal (some m) (some 0) = (0, some v) →
      v.testBit hal.rte_get_master_lcore = false →
      ∃ s1, spdk_reactors_init hal mask s = some (-1, s1) ∧
        s1.g_reactors = s.g_reactors ∧ s1.g_reactor_count = s.g_reactor_count ∧
        s1.g_spdk_event_mempool = s.g_spdk_event_mempool ∧
        s1.g_reactor_state = SPDK_REACTOR_STATE_INVALID) := by
  refine ⟨?_, ?_⟩
  · intro s1 h
    obtain ⟨h1, h2, h3⟩ := init_ok_parse hal mask s s1 h
    have hb : spdk_app_get_core_mask s1 &&& bit64 hal.rte_get_master_lcore ≠ 0 := by
      rw [spdk_app_get_core_mask, h2]
      exact parse_mask_ok_master hal mask s (fun hn => ⟨(hm hn).1, (hm hn).2, h64⟩) h1
    exact ⟨h3, (and_bit64_ne_zero _ _ h64).1 hb, hb⟩
  · intro m v hmask hinv hp hv
    subst hmask
    have hlt : ¬ s.g_reactor_state.val ≥ SPDK_REACTOR_STATE_INITIALIZED.val := by
      rw [hinv]; decide
    have hv0 : v &&& bit64 hal.rte_get_master_lcore = 0 := by
      by_contra hne
      rw [(and_bit64_ne_zero _ _ h64).1 hne] at hv
      exact Bool.noConfusion hv
    refine ⟨{ s with g_reactor_mask := v }, ?_, rfl, rfl, rfl, hinv⟩
    simp only [spdk_reactors_init, spdk_reactor_parse_mask, if_neg hlt, hp]
    simp [hv0]

/-- C8 at work, with the lcores 1 and 2 enabled and lcore 1 the master: `"0x6"` is
accepted and the master's bit is set; `"0x4"` is rejected and the state stays Invalid. -/
theorem master_bit_required_witness :
    (∃ s1, spdk_reactors_init hal_12 (some "0x6".toList) fresh = some (0, s1) ∧
      s1.g_reactor_state = SPDK_REACTOR_STATE_INITIALIZED ∧
      (spdk_app_get_core_mask s1).testBit 1 = true ∧
      spdk_app_get_core_mask s1 &&& bit64 1 ≠ 0) ∧
    (∃ s1, spdk_reactors_init hal_12 (some "0x4".toList) fresh = some (-1, s1) ∧
      s1.g_reactors = fresh.g_reactors ∧ s1.g_reactor_count = fresh.g_reactor_count ∧
      s1.g_spdk_event_mempool = fresh.g_spdk_event_mempool ∧
      s1.g_reactor_state = SPDK_REACTOR_STATE_INVALID) :=
  ⟨(option_map_fst_some (spdk_reactors_init hal_12 (some "0x6".toList) fresh) 0
      (by decide)).elim
      (fun s1 h => ⟨s1, h, (master_bit_required hal_12 (some "0x6".toList) fresh
        (by decide) (fun h => by simp at h)).1 s1 h⟩),
   (master_bit_required hal_12 (some "0x4".toList) fresh (by decide)
      (fun h => by simp at h)).2 "0x4".toList 4 rfl rfl (by decide) (by decide)⟩

/-- C9: `spdk_reactors_init` requires the state Invalid.  Called in any other state
(Initialized, Running, Exiting or Shutdown) it returns `-1` and leaves everything as it
was: no reactor is constructed, the state, the core mask and the core count are
unchanged.  Whenever it returns 0 the state was Invalid and is Initialized afterwards. -/
theorem init_requires_invalid (hal : Hal) (mask : Option (List Char)) (s : State) :
    (s.g_reactor_state ≠ SPDK_REACTOR_STATE_INVALID →
      spdk_reactors_init hal mask s = some (-1, s)) ∧
    (∀ rc s1, spdk_reactors_init hal mask s = some (rc, s1) → rc = 0 →
      s.g_reactor_state = SPDK_REACTOR_STATE_INVALID ∧
      s1.g_reactor_state = SPDK_REACTOR_STATE_INITIALIZED) := by
  refine ⟨init_not_invalid hal mask s, ?_⟩
  intro rc s1 h hrc
  rcases init_state hal mask s s1 rc h with ⟨-, h1, h2⟩ | ⟨h1, -⟩
  · exact ⟨h1, h2⟩
  · omega

/-- C9 at work: from the state Invalid `spdk_reactors_init("0x6")` returns 0 and the state
is Initialized; a second call then returns `-1` and changes nothing. -/
theorem init_requires_invalid_witness :
    ∃ s1, spdk_reactors_init hal_12 (some "0x6".toList) fresh = some (0, s1) ∧
      fresh.g_reactor_state = SPDK_REACTOR_STATE_INVALID ∧
      s1.g_reactor_state = SPDK_REACTOR_STATE_INITIALIZED ∧
      spdk_reactors_init hal_12 (some "0x6".toList) s1 = some (-1, s1) :=
  (option_map_fst_some (spdk_reactors_init hal_12 (some "0x6".toList) fresh) 0
    (by decide)).elim
    (fun s1 h =>
      ⟨s1, h,
        ((init_requires_invalid hal_12 (some "0x6".toList) fresh).2 0 s1 h rfl).1,
        ((init_requires_invalid hal_12 (some "0x6".toList) fresh).2 0 s1 h rfl).2,
        (init_requires_invalid hal_12 (some "0x6".toList) s1).1 (by
          rw [((init_requires_invalid hal_12 (some "0x6".toList) fresh).2 0 s1 h rfl).2]
          decide)⟩)

theorem construct_reactors_affine (hal : Hal) (l : List Nat) :
    ∀ (s s1 : State), construct_reactors hal l s = some s1 → queues_affine s →
      queues_affine s1 := by
  induction l with
  | nil =>
    intro s s1 h ha
    simp only [construct_reactors, Option.some.injEq] at h
    subst h
    exact ha
  | cons i rest ih =>
    intro s s1 h ha
    simp only [construct_reactors] at h
    by_cases hb : bit64 i &&& spdk_app_get_core_mask s ≠ 0
    · rw [if_pos hb] at h
      unfold spdk_reactor_construct at h
      by_cases hr : hal.rte_ring_create i = true
      · rw [if_pos hr] at h
        simp only at h
        refine ih _ s1 h ?_
        intro c ring hring e he
        by_cases hc : c = i
        · subst hc
          simp only [State.set_reactor, Function.update_same, Option.some.injEq] at hring
          subst hring
          simp at he
        · simp only [State.set_reactor, Function.update_noteq hc] at hring
          exact ha c ring hring e he
      · rw [if_neg hr] at h
        simp at h
    · rw [if_neg hb] at h
      exact ih s s1 h ha

theorem init_affine (hal : Hal) (mask : Option (List Char)) (s s1 : State) (rc : Int)
    (h : spdk_reactors_init hal mask s = some (rc, s1)) (ha : queues_affine s) :
    queues_affine s1 := by
  unfold spdk_reactors_init at h
  have hf := parse_mask_frame hal mask s
  cases hp : spdk_reactor_parse_mask hal mask s with
  | mk rc0 s0 =>
    rw [hp] at h hf
    simp only at h hf
    have ha0 : queues_affine s0 := by
      rw [hf]
      exact ha
    split_ifs at h with hrc
    · simp only [Option.some.injEq, Prod.mk.injEq] at h
      rw [← h.2]
      exact ha0
    · split at h
      · simp at h
      · rename_i s2 hc
        have ha2 := construct_reactors_affine hal _ s0 s2 hc ha0
        have hm := create_mempools_frame hal (spdk_reactor_get_socket_mask hal s2)
          (count_sockets (spdk_reactor_get_socket_mask hal s2)) (List.range 64) s2
        split at h
        · rename_i s3 hcm
          simp only [Option.some.injEq, Prod.mk.injEq] at h
          rw [← h.2]
          rw [hcm] at hm
          exact queues_affine_congr s2 s3 (fun c => by rw [hm.2.2.2.1]) ha2
        · rename_i s3 hcm
          simp only [Option.some.injEq, Prod.mk.injEq] at h
          rw [← h.2]
          rw [hcm] at hm
          exact queues_affine_congr s2 _ (fun c => by
            show (s3.g_reactors c).events = _
            rw [hm.2.2.2.1]) ha2

/-- C10: affinity.  `spdk_event_call(e)` appends `e` to the ring of reactor `e.lcore` and
touches no other reactor (and it returns whenever that ring exists and is not full).
Every ring holds only events for its own reactor: this holds as the program starts, and is
kept by `spdk_reactors_init`, by every pass of a reactor loop and by a whole run of
`spdk_reactors_start`, for callbacks that enqueue through `spdk_event_call`.  Hence every
callback of an event called in a pass of the loop on lcore `c` belongs to an event
enqueued with `lcore = c`, and in a run of all reactors no callback of an event is called
on an lcore other than the one the event names. -/
theorem event_affinity (cb : Callbacks) (hal : Hal) (hcb : callbacks_keep_affine cb) :
    (∀ e s s1, spdk_event_call hal e s = some s1 →
      ∃ ring, (s.g_reactors e.lcore).events = some ring ∧
        (s1.g_reactors e.lcore).events = some { ring with items := ring.items ++ [e] } ∧
        ∀ c, c ≠ e.lcore → s1.g_reactors c = s.g_reactors c) ∧
    (∀ e s ring, (s.g_reactors e.lcore).events = some ring →
      rte_ring_count ring < hal.ring_capacity → (spdk_event_call hal e s).isSome = true) ∧
    (∀ pollers timer_cycles, queues_affine (State.init pollers timer_cycles)) ∧
    (∀ mask s rc s1, queues_affine s → spdk_reactors_init hal mask s = some (rc, s1) →
      queues_affine s1) ∧
    (∀ cur reactor s s1 t, queues_affine s →
      reactor_iteration cb hal cur reactor s = some (s1, t) →
      queues_affine s1 ∧ ∀ c e, Invocation.event c e ∈ t → c = cur ∧ e.lcore = cur) ∧
    (∀ cur sched s s1 t, queues_affine s →
      spdk_reactors_start cb hal cur sched s = some (s1, t) →
      queues_affine s1 ∧ events_on_own_lcore t) := by
  refine ⟨spdk_event_call_effect hal, spdk_event_call_returns hal, ?_, ?_, ?_, ?_⟩
  · intro pollers timer_cycles c ring hr
    simp [State.init, spdk_reactor.zero] at hr
  · intro mask s rc s1 ha h
    exact init_affine hal mask s s1 rc h ha
  · intro cur reactor s s1 t ha h
    exact reactor_iteration_affine cb hal cur reactor s s1 t hcb h ha
  · intro cur sched s s1 t ha h
    unfold spdk_reactors_start at h
    split_ifs at h with hm
    split at h
    · simp at h
    · rename_i c hc
      split_ifs at h with hfin
      simp only [Option.some.injEq, Prod.mk.injEq] at h
      obtain ⟨rfl, rfl⟩ := h
      have := start_steps_affine cb hal cur hcb sched (start_begin hal s) c hc
        ⟨ha, fun x e he => by simp [start_begin] at he⟩
      exact this

/-- C10 at work: in `two_queues` an event for lcore 1 waits on ring 1 and one for lcore 2
on ring 2; the pass of the loop on lcore 1 calls one callback of an event, and only for
the event that names lcore 1. -/
theorem event_affinity_witness :
    ∃ s1 t, reactor_iteration idle_callbacks small_hal 1 1 two_queues = some (s1, t) ∧
      t.length = 1 ∧ queues_affine s1 ∧
      ∀ c e, Invocation.event c e ∈ t → c = 1 ∧ e.lcore = 1 :=
  (option_map_fst_some
    ((reactor_iteration idle_callbacks small_hal 1 1 two_queues).map
      (fun r => (r.2.length, r))) 1 (by decide)).elim
    (fun r h => by
      cases hr : reactor_iteration idle_callbacks small_hal 1 1 two_queues with
      | none => rw [hr] at h; simp at h
      | some x =>
        obtain ⟨s1, t⟩ := x
        rw [hr] at h
        simp only [Option.map_some', Option.some.injEq, Prod.mk.injEq] at h
        exact ⟨s1, t, rfl, h.1,
          (event_affinity idle_callbacks small_hal
            ⟨fun _ _ _ _ _ h ha => by
                simp only [idle_callbacks, Option.some.injEq] at h
                rw [← h]; exact ha,
              fun _ _ _ _ _ h ha => by
                simp only [idle_callbacks, Option.some.injEq] at h
                rw [← h]; exact ha⟩).2.2.2.2.1 1 1 two_queues s1 t
            (by
              intro c ring hring e he
              simp only [two_queues, Option.some.injEq] at hring
              subst hring
              simp only at he
              split_ifs at he with h1 h2
              · simp only [List.mem_singleton] at he
                subst he
                exact h1.symm
              · simp only [List.mem_singleton] at he
                subst he
                exact h2.symm
              · simp at he) hr⟩)

/-- C11, as stated, fails.  On a host where lcore `i` is on socket `i`, an event
allocated for the destination lcore 1 is taken from the pool of socket 1, whichever lcore
calls `spdk_event_allocate` (the function does not read `rte_lcore_id()`): called on
lcore 0, whose socket is 0, it leaves the pool of socket 0 at 100 free events and takes
the pool of socket 1 to 99. -/
theorem allocate_takes_destination_pool :
    numa_hal.rte_lcore_to_socket_id 0 = 0 ∧ numa_hal.rte_lcore_to_socket_id 1 = 1 ∧
    (spdk_event_allocate numa_hal 1 (spdk_event_fn.user 0) 0 0 none ready).map
      (fun r => (r.2.g_spdk_event_mempool 0, r.2.g_spdk_event_mempool 1)) =
      some (some { size := 65536, avail := 100 }, some { size := 65536, avail := 99 }) := by
  decide

/-- C11, amended: for every caller and every destination lcore `d` whose socket (as a
`uint8_t`) is below `SPDK_MAX_SOCKET` and has a pool with a free event,
`spdk_event_allocate(d, fn, arg1, arg2, next)` takes the event from the pool of the
socket of `d`: this pool's free count goes down by one, no other pool changes, nothing
else changes, and the event returned has `lcore = d` and `fn`, `arg1`, `arg2`, `next` as
given. -/
theorem allocate_effect (hal : Hal) (lcore : Nat) (fn : spdk_event_fn) (arg1 arg2 : Nat)
    (next : Option spdk_event) (s : State) (ha : can_allocate hal lcore 0 s) :
    ∃ pool s1, s.g_spdk_event_mempool (hal.rte_lcore_to_socket_id lcore % 256) = some pool ∧
      spdk_event_allocate hal lcore fn arg1 arg2 next s =
        some ({ lcore := lcore, fn := fn, arg1 := arg1, arg2 := arg2, next := next }, s1) ∧
      s1.g_spdk_event_mempool (hal.rte_lcore_to_socket_id lcore % 256) =
        some { pool with avail := pool.avail - 1 } ∧
      (∀ i, i ≠ hal.rte_lcore_to_socket_id lcore % 256 →
        s1.g_spdk_event_mempool i = s.g_spdk_event_mempool i) ∧
      s1.g_reactors = s.g_reactors ∧ s1.pollers = s.pollers ∧
      s1.g_reactor_state = s.g_reactor_state ∧ s1.g_reactor_mask = s.g_reactor_mask ∧
      s1.g_reactor_count = s.g_reactor_count := by
  obtain ⟨h1, pool, h2, h3⟩ := ha
  refine ⟨pool, _, h2, spdk_event_allocate_eq hal lcore fn arg1 arg2 next s pool h1 h2 h3,
    ?_, ?_, rfl, rfl, rfl, rfl, rfl⟩
  · simp [State.set_mempool]
  · intro i hi
    simp [State.set_mempool, Function.update_noteq hi]

/-- C11 at work: on `numa_hal` an event for lcore 2 comes from the pool of socket 2. -/
theorem allocate_effect_witness :
    ∃ pool s1, ready.g_spdk_event_mempool (numa_hal.rte_lcore_to_socket_id 2 % 256)
        = some pool ∧
      spdk_event_allocate numa_hal 2 (spdk_event_fn.user 0) 5 6 none ready =
        some ({ lcore := 2, fn := spdk_event_fn.user 0, arg1 := 5, arg2 := 6, next := none },
          s1) ∧
      s1.g_spdk_event_mempool (numa_hal.rte_lcore_to_socket_id 2 % 256) =
        some { pool with avail := pool.avail - 1 } ∧
      (∀ i, i ≠ numa_hal.rte_lcore_to_socket_id 2 % 256 →
        s1.g_spdk_event_mempool i = ready.g_spdk_event_mempool i) ∧
      s1.g_reactors = ready.g_reactors ∧ s1.pollers = ready.pollers ∧
      s1.g_reactor_state = ready.g_reactor_state ∧
      s1.g_reactor_mask = ready.g_reactor_mask ∧
      s1.g_reactor_count = ready.g_reactor_count :=
  allocate_effect numa_hal 2 (spdk_event_fn.user 0) 5 6 none ready
    ⟨by decide, { size := 65536, avail := 100 }, by decide, by decide⟩

/-- C13: register effect.  `spdk_poller_register(p, c, completion, period)`, when the
pool of the socket of `c` has a free event and the queue of `c` has room, returns after
adding to the tail of the queue of `c` the event `E` with `fn = _spdk_event_add_poller`,
`arg1 = &g_reactors[c]`, `arg2 = p`, `next = completion`.  When `E` is dispatched on `c`
in any later state `s2` in which reactor `c` is constructed (`g_reactors[c].lcore = c`),
every poller is linked at most once in the schedules of the reactors and `p` is linked in
none (a poller has one `tailq` link, and the insertion overwrites it), with clock value `now = s2.timer_cycles`, the call is the enqueueing of
the completion (if present) in a state `s3` in which `p.lcore = c`, `p` is registered on
`c`, no other reactor has changed and: if `p.period_ticks` is not 0,
`p` is in the timer schedule of `c` (which holds `p` and what it held before), with
`next_run_tick` the 64-bit sum `now + period_ticks` (the plain sum unless it passes
`2^64`), and the always-run schedule of `c` is unchanged; otherwise the always-run
schedule of `c` is the old one with `p` appended and the timer schedule is unchanged.
Without completion the call returns `s3`; with a completion `e` whose queue has room it
returns `s3` with `e` added to the tail of the queue of `e.lcore`, no other queue and no
schedule or poller changed. -/
theorem register_effect (cb : Callbacks) (hal : Hal) (p c : Nat)
    (completion : Option spdk_event) (period_us : Nat) (s s2 : State)
    (ha : can_allocate hal c 0 s) (he : can_enqueue hal c s)
    (hc : (s2.g_reactors c).lcore = c) (hinv : membership_invariant hal s2)
    (hfree : in_no_schedule s2 p) :
    (∃ ring s1, (s.g_reactors c).events = some ring ∧
      spdk_poller_register hal p c completion period_us s = some s1 ∧
      (s1.g_reactors c).events = some ⟨ring.items ++
        [{ lcore := c, fn := spdk_event_fn._spdk_event_add_poller, arg1 := c, arg2 := p,
           next := completion }], ring.cons⟩) ∧
    ∃ s3,
      event_invoke cb hal c
        { lcore := c, fn := spdk_event_fn._spdk_event_add_poller, arg1 := c, arg2 := p,
          next := completion } s2 = call_next hal completion s3 ∧
      (s3.pollers p).lcore = c ∧
      registered_on s3 p c ∧
      (∀ j, j ≠ c → s3.g_reactors j = s2.g_reactors j) ∧
      ((s2.pollers p).period_ticks ≠ 0 →
        p ∈ (s3.g_reactors c).timer_pollers ∧
        (∀ q, q ∈ (s3.g_reactors c).timer_pollers ↔
          q = p ∨ q ∈ (s2.g_reactors c).timer_pollers) ∧
        (s3.pollers p).next_run_tick =
          (s2.timer_cycles + (s2.pollers p).period_ticks) % U64 ∧
        (s2.timer_cycles + (s2.pollers p).period_ticks < U64 →
          (s3.pollers p).next_run_tick = s2.timer_cycles + (s2.pollers p).period_ticks) ∧
        (s3.g_reactors c).active_pollers = (s2.g_reactors c).active_pollers) ∧
      ((s2.pollers p).period_ticks = 0 →
        (s3.g_reactors c).active_pollers = (s2.g_reactors c).active_pollers ++ [p] ∧
        (s3.g_reactors c).active_pollers.getLast? = some p ∧
        (s3.g_reactors c).timer_pollers = (s2.g_reactors c).timer_pollers) ∧
      (completion = none →
        event_invoke cb hal c
          { lcore := c, fn := spdk_event_fn._spdk_event_add_poller, arg1 := c, arg2 := p,
            next := completion } s2 = some s3) ∧
      (∀ e, completion = some e → can_enqueue hal e.lcore s2 →
        ∃ ring s4, (s2.g_reactors e.lcore).events = some ring ∧
          event_invoke cb hal c
            { lcore := c, fn := spdk_event_fn._spdk_event_add_poller, arg1 := c, arg2 := p,
              next := completion } s2 = some s4 ∧
          (s4.g_reactors e.lcore).events = some { ring with items := ring.items ++ [e] } ∧
          (∀ j, j ≠ e.lcore → (s4.g_reactors j).events = (s2.g_reactors j).events) ∧
          (∀ j, (s4.g_reactors j).active_pollers = (s3.g_reactors j).active_pollers ∧
            (s4.g_reactors j).timer_pollers = (s3.g_reactors j).timer_pollers) ∧
          s4.pollers = s3.pollers) := by
  have _ := hinv
  constructor
  · obtain ⟨h1, pool, h2, h3⟩ := ha
    obtain ⟨ring, h4, h5⟩ := he
    refine ⟨ring, _, h4, poller_register_eq hal p c completion _ pool ring h1
      (by simpa [State.set_poller] using h2) h3 (by simpa [State.set_poller] using h4) h5, ?_⟩
    simp [State.set_reactor]
  · obtain ⟨s3, h3, hl, hper3, -, hev, -, hoth, -, -, -, -, htimer, hactive⟩ :=
      add_poller_effect hal
        { lcore := c, fn := spdk_event_fn._spdk_event_add_poller, arg1 := c, arg2 := p,
          next := completion } s2
    simp only at h3 hl hper3 hev hoth htimer hactive
    have h3i : event_invoke cb hal c
        { lcore := c, fn := spdk_event_fn._spdk_event_add_poller, arg1 := c, arg2 := p,
          next := completion } s2 = call_next hal completion s3 := h3
    refine ⟨s3, h3i, hl.trans hc, ?_, hoth, ?_, ?_, ?_, ?_⟩
    · unfold registered_on
      rw [hper3]
      by_cases hper : (s2.pollers p).period_ticks ≠ 0
      · obtain ⟨hperm, -, hact⟩ := htimer hper
        rw [if_pos hper, hperm.count_eq, hact, List.count_cons_self,
          List.count_eq_zero_of_not_mem (hfree c).2]
        exact ⟨rfl, (hfree c).1⟩
      · obtain ⟨hact, htim⟩ := hactive (by simpa using hper)
        rw [if_neg hper, hact, htim, List.count_append,
          List.count_eq_zero_of_not_mem (hfree c).1]
        exact ⟨by simp, (hfree c).2⟩
    · intro hper
      obtain ⟨hperm, htick, hact⟩ := htimer hper
      refine ⟨hperm.mem_iff.2 (List.mem_cons_self _ _), ?_, htick, ?_, hact⟩
      · intro q
        rw [hperm.mem_iff, List.mem_cons]
      · intro hlt
        rw [htick, Nat.mod_eq_of_lt hlt]
    · intro hper
      obtain ⟨hact, htim⟩ := hactive hper
      refine ⟨hact, ?_, htim⟩
      rw [hact]
      simp
    · intro hn
      rw [h3i, hn]
      rfl
    · intro e hn hroom
      have hroom3 : can_enqueue hal e.lcore s3 := by
        obtain ⟨ring, hr1, hr2⟩ := hroom
        exact ⟨ring, by rw [hev]; exact hr1, hr2⟩
      obtain ⟨ring, s4, hr, hcall, hring, hoth, hsched, hpol, -⟩ :=
        spdk_event_call_room hal e s3 hroom3
      refine ⟨ring, s4, by rw [← hev]; exact hr, ?_, hring, ?_, ?_, hpol⟩
      · rw [h3i, hn]
        exact hcall
      · intro j hj
        rw [hoth j hj, hev]
      · intro j
        exact ⟨(hsched j).1, (hsched j).2.1⟩

/-- C13 at work: in `ready` (clock at 1000) a poller at address 7 is registered on lcore
1 with the completion `user_event 3` (for lcore 0); dispatched where the poller has a
period of 250 ticks, the event puts it in the timer schedule of lcore 1 at tick 1250, and
the completion goes to the queue of lcore 0. -/
theorem register_effect_witness :
    (∃ s1, spdk_poller_register small_hal 7 1 (some (user_event 3)) 250 ready = some s1) ∧
    ∃ s4, event_invoke idle_callbacks small_hal 1
        { lcore := 1, fn := spdk_event_fn._spdk_event_add_poller, arg1 := 1, arg2 := 7,
          next := some (user_event 3) }
        (ready.set_poller 7 { ready.pollers 7 with period_ticks := 250 }) = some s4 ∧
      (s4.pollers 7).lcore = 1 ∧ (s4.pollers 7).next_run_tick = 1250 ∧
      (s4.g_reactors 1).timer_pollers = [7] ∧ (s4.g_reactors 1).active_pollers = [] ∧
      (s4.g_reactors 0).events.map rte_ring.content = some [user_event 3] :=
  ⟨(register_effect idle_callbacks small_hal 7 1 (some (user_event 3)) 250 ready
      (ready.set_poller 7 { ready.pollers 7 with period_ticks := 250 })
      ⟨by decide, { size := 65536, avail := 100 }, by decide, by decide⟩
      ⟨{ items := [], cons := 0 }, rfl, by decide⟩ rfl
      (by
        unfold membership_invariant
        decide)
      (fun r => ⟨by simp [ready, State.set_poller], by simp [ready, State.set_poller]⟩)).1.elim
      (fun _ h => h.elim (fun s1 h1 => ⟨s1, h1.2.1⟩)),
    _, rfl, by decide, by decide, by decide, by decide, rfl⟩

/-- C15, as stated, fails in two ways.  `spdk_poller_migrate` does not test that the new
CPU is another one: in `busy` the always-run poller 7 of lcore 0 is migrated to lcore 0,
which is in the core mask, with the completion `user_event 3`; the call and the three
drain passes on lcore 0 return and call the remove-poller event, the migrate event and
the add-poller event, and when the completion has been enqueued, `p.lcore` is 0 and the
always-run schedule of lcore 0, the old CPU, is 5, 6, 7: it contains the poller.  And
another poller event of `p` that waits changes `p` under the chain: poller 7, registered
on lcore 0 in `busy`, is registered once more, on lcore 1, so that this add-poller event
waits for lcore 1, and then migrated to lcore 1; the pass on lcore 0 calls the
remove-poller event, the pass on lcore 1 calls the waiting add-poller event (which finds
poller 7 in no schedule) and the migrate event, and then, with the add-poller event of
the chain still waiting, `p.lcore` is 1 and poller 7 is in the always-run schedule of
lcore 1. -/
theorem migrate_fails_on_own_cpu_or_race :
    (∃ s1 s2 s3 s4,
      busy.g_reactor_mask &&& bit64 0 ≠ 0 ∧ registered_on busy 7 0 ∧
      (busy.pollers 7).lcore = 0 ∧
      spdk_poller_migrate small_hal 7 0 (some (user_event 3)) busy = some s1 ∧
      spdk_event_queue_run_all idle_callbacks small_hal 0 0 s1 = some (s2,
        [Invocation.event 0 (remove_poller_event 7 0
          (some (migrate_event 7 0 (some (user_event 3)))))]) ∧
      spdk_event_queue_run_all idle_callbacks small_hal 0 0 s2 = some (s3,
        [Invocation.event 0 (migrate_event 7 0 (some (user_event 3)))]) ∧
      spdk_event_queue_run_all idle_callbacks small_hal 0 0 s3 = some (s4,
        [Invocation.event 0 (add_poller_event 7 0 (some (user_event 3)))]) ∧
      (s4.g_reactors 0).events.map rte_ring.content = some [user_event 3] ∧
      (s4.pollers 7).lcore = 0 ∧
      (s4.g_reactors 0).active_pollers = [5, 6, 7] ∧
      7 ∈ (s4.g_reactors 0).active_pollers) ∧
    (∃ s0 s1 s2 s3,
      spdk_poller_register small_hal 7 1 none 0 busy = some s0 ∧
      s0.g_reactor_mask &&& bit64 1 ≠ 0 ∧ registered_on s0 7 0 ∧
      (s0.pollers 7).lcore = 0 ∧ (s0.pollers 7).period_ticks = 0 ∧
      (s0.g_reactors 0).events.map rte_ring.content = some [] ∧
      (s0.g_reactors 1).events.map rte_ring.content = some [add_poller_event 7 1 none] ∧
      spdk_poller_migrate small_hal 7 1 (some (user_event 3)) s0 = some s1 ∧
      spdk_event_queue_run_all idle_callbacks small_hal 0 0 s1 = some (s2,
        [Invocation.event 0 (remove_poller_event 7 0
          (some (migrate_event 7 1 (some (user_event 3)))))]) ∧
      7 ∉ all_schedules small_hal s2 ∧
      drain_applicable idle_callbacks small_hal 1 (spdk_event_queue_count s2 1) s2 = true ∧
      spdk_event_queue_run_all idle_callbacks small_hal 1 1 s2 = some (s3,
        [Invocation.event 1 (add_poller_event 7 1 none),
          Invocation.event 1 (migrate_event 7 1 (some (user_event 3)))]) ∧
      (s3.g_reactors 1).events.map rte_ring.content =
        some [add_poller_event 7 1 (some (user_event 3))] ∧
      (s3.pollers 7).lcore = 1 ∧ (s3.g_reactors 1).active_pollers = [7]) :=
  ⟨⟨_, _, _, _, by decide, by simp [registered_on, busy], by decide, rfl, rfl, rfl, rfl,
      rfl, by decide, by decide, by decide⟩,
    ⟨_, _, _, _, rfl, by decide,
      (by
        unfold registered_on
        decide),
      by decide, by decide, rfl, rfl, rfl, rfl, by decide, by decide, rfl, rfl, by decide,
      by decide⟩⟩

/-- C15, amended: migrate, to another CPU.  Let `p` be an always-run poller registered on
`a` (linked once in the always-run schedule of `a`, in no other schedule, `p.lcore = a`)
in a state in which every poller is linked at most once, `b ≠ a` a CPU of the core mask
whose reactor is constructed, and let the callbacks of the user only enqueue on rings and
leave the schedules, the `lcore` fields of the reactors and the record of `p` alone; the
events `ra.content` wait for `a`, none of them a poller event of `p`.  The drain passes
considered are those in which every add-poller event that is called finds its poller in no
schedule and every remove-poller event finds its poller in the schedule it unlinks it
from, as the `TAILQ` macros require; every poller is linked at most once after each of
them.  Whenever `spdk_poller_migrate(p, b, completion)` returns (`s1`), the remove-poller
event is the last event that waits for `a` and `p` is as it was.  Whenever the drain pass
on `a` then returns (`s2`), it has called the events that waited and the remove-poller
event, `p.lcore = a`, `p` is in no schedule of any reactor, and the migrate event is the
last event that waits for `b`.  Whenever the drain pass on `b` then returns (`s3`), no
event waiting ahead of the migrate event being a poller event of `p`, then `p.lcore = a`,
`p` is in no schedule, and the add-poller event is the last event that waits for `b`.
Whenever the next drain pass on `b` returns (`s4`), no event waiting ahead of the
add-poller event being a poller event of `p`, then the add-poller event was called in a
state `sd` with `p.lcore = a` and `p` in no schedule, and passed the completion to
`spdk_event_call` in a state `si` in which, as in `s4`, `p.lcore = b`, the always-run
schedule of `a` does not contain `p` and the one of `b` does (`p` is its last element in
`si`); the completion, if there is one, is the last event of the queue of its lcore in
`s4`.  And when the queues of `a` and `b` are empty, the pools of their sockets hold three
free events and the queues have room, the call and the three passes return. -/
theorem migrate_effect (cb : Callbacks) (hal : Hal) (p a b : Nat)
    (completion : Option spdk_event) (s0 : State) (ra rb : rte_ring)
    (hab : a ≠ b)
    (hmask : s0.g_reactor_mask &&& bit64 b ≠ 0) (hp0 : p ≠ 0)
    (hinv : membership_invariant hal s0)
    (happ : callbacks_append cb) (hks : callbacks_keep_schedules cb)
    (hkp : callbacks_keep_poller cb p) (hkl : callbacks_keep_lcores cb)
    (hla : (s0.pollers p).lcore = a) (hper : (s0.pollers p).period_ticks = 0)
    (hreg : registered_on s0 p a)
    (hother : ∀ r, r ≠ a →
      p ∉ (s0.g_reactors r).active_pollers ∧ p ∉ (s0.g_reactors r).timer_pollers)
    (hlb : (s0.g_reactors b).lcore = b)
    (hra : (s0.g_reactors a).events = some ra) (hwa : ra.cons ≤ ra.items.length)
    (hrb : (s0.g_reactors b).events = some rb) (hwb : rb.cons ≤ rb.items.length)
    (hqa : ∀ e ∈ ra.content, ¬ names_poller p e) :
    (∀ s1, spdk_poller_migrate hal p b completion s0 = some s1 →
      (s1.pollers p).lcore = a ∧ registered_on s1 p a ∧ membership_invariant hal s1 ∧
      (s1.g_reactors a).events = some
        ⟨ra.items ++ [remove_poller_event p a (some (migrate_event p b completion))],
          ra.cons⟩ ∧
      ∀ s2 t2, spdk_event_queue_run_all cb hal a a s1 = some (s2, t2) →
        drain_applicable cb hal a (spdk_event_queue_count s1 a) s1 = true →
        t2 = (ra.content ++
          [remove_poller_event p a (some (migrate_event p b completion))]).map
            (Invocation.event a) ∧
        (s2.pollers p).lcore = a ∧ in_no_schedule s2 p ∧ membership_invariant hal s2 ∧
        ∃ ring2 before2, (s2.g_reactors b).events = some ring2 ∧
          ring2.content = before2 ++ [migrate_event p b completion] ∧
          ((∀ e ∈ before2, ¬ names_poller p e) →
            ∀ s3 t3, spdk_event_queue_run_all cb hal b b s2 = some (s3, t3) →
              drain_applicable cb hal b (spdk_event_queue_count s2 b) s2 = true →
              t3 = (before2 ++ [migrate_event p b completion]).map (Invocation.event b) ∧
              (s3.pollers p).lcore = a ∧ in_no_schedule s3 p ∧
              membership_invariant hal s3 ∧
              ∃ ring3 before3, (s3.g_reactors b).events = some ring3 ∧
                ring3.content = before3 ++ [add_poller_event p b completion] ∧
                ((∀ e ∈ before3, ¬ names_poller p e) →
                  ∀ s4 t4, spdk_event_queue_run_all cb hal b b s3 = some (s4, t4) →
                    drain_applicable cb hal b (spdk_event_queue_count s3 b) s3 = true →
                    t4 = (before3 ++ [add_poller_event p b completion]).map
                      (Invocation.event b) ∧
                    membership_invariant hal s4 ∧
                    ∃ sd si sc,
                      (sd.pollers p).lcore = a ∧ in_no_schedule sd p ∧
                      event_invoke cb hal b (add_poller_event p b completion) sd =
                        call_next hal completion si ∧
                      call_next hal completion si = some sc ∧
                      spdk_event_free hal b sc = some s4 ∧
                      (si.pollers p).lcore = b ∧
                      p ∉ (si.g_reactors a).active_pollers ∧
                      (si.g_reactors b).active_pollers =
                        (sd.g_reactors b).active_pollers ++ [p] ∧
                      (s4.pollers p).lcore = b ∧
                      p ∉ (s4.g_reactors a).active_pollers ∧
                      p ∈ (s4.g_reactors b).active_pollers ∧
                      (∀ e, completion = some e →
                        ∃ ring, (si.g_reactors e.lcore).events = some ring ∧
                          (s4.g_reactors e.lcore).events =
                            some ⟨ring.items ++ [e], ring.cons⟩)))) ∧
    (can_allocate hal a 2 s0 → can_allocate hal b 2 s0 → queue_empty s0 a →
      queue_empty s0 b → 0 < hal.ring_capacity →
      (∀ e, completion = some e → can_enqueue hal e.lcore s0) →
      ∃ s1 s2 s3 s4, migration cb hal p a b completion s0 = some (s1, s2, s3, s4)) := by
  have hzero : ∀ (s : State), (∀ r, (schedule s r).count p = 0) → in_no_schedule s p := by
    intro s hs r
    have := hs r
    rw [count_schedule] at this
    exact ⟨List.count_eq_zero.1 (by omega), List.count_eq_zero.1 (by omega)⟩
  have hcount0 : ∀ r, r ≠ a → (schedule s0 r).count p = 0 := by
    intro r hr
    rw [count_schedule, List.count_eq_zero_of_not_mem (hother r hr).1,
      List.count_eq_zero_of_not_mem (hother r hr).2]
  refine ⟨?_, ?_⟩
  · intro s1 hmig
    obtain ⟨hpol1, hkept1, hlc1, ⟨ring, hr1, hr2⟩, hoth1⟩ :=
      migrate_some hal p a b completion s0 s1 hla hmig
    rw [hra] at hr1
    obtain rfl := Option.some.inj hr1
    have hk1 : poller_kept p s0 s1 := poller_kept_frame p s0 s1 hkept1 hpol1 hlc1
    have hreg1 : registered_on s1 p a := by
      unfold registered_on at hreg ⊢
      rw [hpol1, (hkept1 a).1, (hkept1 a).2]
      exact hreg
    have hinv1 : membership_invariant hal s1 :=
      invariant_of_shrink hal s0 s1 (shrink_of_kept s0 s1 hkept1) hinv
    refine ⟨by rw [hpol1]; exact hla, hreg1, hinv1, hr2, ?_⟩
    intro s2 t2 hrun2 hok2
    have hinv2 : membership_invariant hal s2 :=
      run_invariant cb hal a hks _ s1 s2 t2 hok2 hinv1 hrun2
    obtain ⟨ht2, hp2, hlc2, hca2, hco2, extra, hrb2⟩ := migrate_pass_remove cb hal p a b
      completion s1 s2 t2 ra rb happ hks hkp hkl hab hr2 hwa
      (by rw [hoth1 b (Ne.symm hab)]; exact hrb) hqa hrun2
    have hno2 : ∀ r, (schedule s2 r).count p = 0 := by
      intro r
      by_cases hr : r = a
      · subst hr
        have := registered_count s1 p r hreg1
        omega
      · rw [hco2 r hr, poller_kept_count p s0 s1 hk1 r]
        exact hcount0 r hr
    have hpl2 : s2.pollers p = s0.pollers p := by rw [hp2, hpol1]
    have hw2 : rb.cons ≤ (rb.items ++ extra ++ [migrate_event p b completion]).length := by
      simp only [List.length_append]
      omega
    refine ⟨ht2, by rw [hpl2]; exact hla, hzero s2 hno2, hinv2, _, rb.content ++ extra, hrb2,
      ?_, ?_⟩
    · rw [List.append_assoc, ring_content_append _ _ _ hwb, List.append_assoc]
    intro hq2 s3 t3 hrun3 hok3
    have hinv3 : membership_invariant hal s3 :=
      run_invariant cb hal b hks _ s2 s3 t3 hok3 hinv2 hrun3
    obtain ⟨ht3, hk3, ring3, before3, hr3, hw3, hc3⟩ := migrate_pass_migrate cb hal p b
      completion s2 s3 t3 _ (rb.content ++ extra) happ hks hkp hkl hrb2 hw2
      (by rw [List.append_assoc, ring_content_append _ _ _ hwb, List.append_assoc])
      hq2 hrun3
    have hno3 : ∀ r, (schedule s3 r).count p = 0 := by
      intro r
      rw [poller_kept_count p s2 s3 hk3 r]
      exact hno2 r
    have hpl3 : s3.pollers p = s0.pollers p := by rw [hk3.1, hpl2]
    refine ⟨ht3, by rw [hpl3]; exact hla, hzero s3 hno3, hinv3, ring3, before3, hr3, hc3, ?_⟩
    intro hq3 s4 t4 hrun4 hok4
    have hinv4 : membership_invariant hal s4 :=
      run_invariant cb hal b hks _ s3 s4 t4 hok4 hinv3 hrun4
    obtain ⟨ht4, sd, si, sc, hkd, hinv, hcn, hfree, hlci, hperi, hacti, hothi, hpol4, hkept4,
      hcompl⟩ := migrate_pass_add cb hal p b completion s3 s4 t4 ring3 before3 happ hks hkp
        hkl hr3 hw3 hc3 hq3 hrun4
    have hnod : ∀ r, (schedule sd r).count p = 0 := by
      intro r
      rw [poller_kept_count p s3 sd hkd r]
      exact hno3 r
    have hpld : sd.pollers p = s0.pollers p := by rw [hkd.1, hpl3]
    have hlcd : (sd.g_reactors b).lcore = b := by
      rw [hkd.2.2 b, hk3.2.2 b, hlc2 b, hlc1 b]
      exact hlb
    have hperd : (sd.pollers p).period_ticks = 0 := by rw [hpld]; exact hper
    obtain ⟨ha, -⟩ := hacti hperd
    have hai : p ∉ (si.g_reactors a).active_pollers := by
      rw [hothi a hab]
      exact (hzero sd hnod a).1
    have hbi : p ∈ (si.g_reactors b).active_pollers := by
      rw [ha]
      simp
    refine ⟨ht4, hinv4, sd, si, sc, by rw [hpld]; exact hla, hzero sd hnod, hinv, hcn, hfree,
      hlci.trans hlcd, hai, ha, ?_, ?_, ?_, hcompl⟩
    · rw [hpol4]
      exact hlci.trans hlcd
    · rw [(hkept4 a).1]
      exact hai
    · rw [(hkept4 b).1]
      exact hbi
  · intro hpa hpb hqa1 hqb1 hcap hroom
    obtain ⟨s1, s2, s3, sd, si, sc, s4, h1, h2, h3, h4, -⟩ := migrate_quiet cb hal p a b
      completion s0 hab hmask hp0 hla hper hreg hother hlb hpa hpb hqa1 hqb1 hcap hroom
    exact ⟨s1, s2, s3, s4, migration_eq cb hal p a b completion s0 s1 s2 s3 s4 _ _ _ h1 h2
      h3 h4⟩

/-- Witness for C15: in `busy_waiting`, where an event of the user waits for lcore 0 and
the add-poller event of poller 4 waits for lcore 1, the always-run poller 7 of lcore 0 is
migrated to lcore 1 with the completion `user_event 3`; the call and the three passes
return, `p.lcore` is 0 and poller 7 is in no schedule after the first and the second pass,
and after the third pass `p.lcore` is 1, the always-run schedule of lcore 0 does not
contain poller 7 and the one of lcore 1 does.  In `busy`, where no event waits, the call
and the passes return. -/
theorem migrate_effect_witness :
    (∃ s1 s2 s3 s4,
      migration idle_callbacks small_hal 7 0 1 (some (user_event 3)) busy_waiting
        = some (s1, s2, s3, s4) ∧
      (s1.pollers 7).lcore = 0 ∧ (s2.pollers 7).lcore = 0 ∧ in_no_schedule s2 7 ∧
      (s3.pollers 7).lcore = 0 ∧ in_no_schedule s3 7 ∧
      (s4.pollers 7).lcore = 1 ∧ 7 ∉ (s4.g_reactors 0).active_pollers ∧
      7 ∈ (s4.g_reactors 1).active_pollers ∧ membership_invariant small_hal s4) ∧
    (∃ s1 s2 s3 s4,
      migration idle_callbacks small_hal 7 0 1 (some (user_event 3)) busy
        = some (s1, s2, s3, s4)) := by
  have happ : callbacks_append idle_callbacks := by
    intro k cur e s0 s1 lcore ring0 hr h
    obtain rfl := Option.some.inj h
    exact ⟨[], by rw [hr]; simp⟩
  have hk : callbacks_keep_schedules idle_callbacks :=
    ⟨fun _ _ _ _ _ h _ => Option.some.inj h ▸ ⟨rfl, rfl⟩,
      fun _ _ _ _ _ h _ => Option.some.inj h ▸ ⟨rfl, rfl⟩⟩
  have hkp : callbacks_keep_poller idle_callbacks 7 :=
    fun _ _ _ _ _ h => Option.some.inj h ▸ rfl
  have hkl : callbacks_keep_lcores idle_callbacks :=
    fun _ _ _ _ _ h _ => Option.some.inj h ▸ rfl
  refine ⟨?_, ?_⟩
  · obtain ⟨⟨s1, s2, s3, s4⟩, hm⟩ := Option.isSome_iff_exists.1 (by decide :
      (migration idle_callbacks small_hal 7 0 1 (some (user_event 3)) busy_waiting).isSome
        = true)
    have ho2 : (migration idle_callbacks small_hal 7 0 1 (some (user_event 3))
        busy_waiting).map (fun x => (x.2.1.g_reactors 1).events.map rte_ring.content) =
        some (some [add_poller_event 4 1 none, migrate_event 7 1 (some (user_event 3))]) :=
      rfl
    have ho3 : (migration idle_callbacks small_hal 7 0 1 (some (user_event 3))
        busy_waiting).map (fun x => (x.2.2.1.g_reactors 1).events.map rte_ring.content) =
        some (some [add_poller_event 7 1 (some (user_event 3))]) := rfl
    have hok : (migration idle_callbacks small_hal 7 0 1 (some (user_event 3))
        busy_waiting).map (fun x =>
          (drain_applicable idle_callbacks small_hal 0 (spdk_event_queue_count x.1 0) x.1,
            drain_applicable idle_callbacks small_hal 1 (spdk_event_queue_count x.2.1 1)
              x.2.1,
            drain_applicable idle_callbacks small_hal 1 (spdk_event_queue_count x.2.2.1 1)
              x.2.2.1)) = some (true, true, true) := by decide
    rw [hm] at ho2 ho3 hok
    simp only [Option.map_some', Option.some.injEq, Prod.mk.injEq] at hok
    obtain ⟨h1, t2, t3, t4, h2, h3, h4⟩ := migration_some _ _ _ _ _ _ _ _ _ _ _ hm
    obtain ⟨hl1, -, -, -, hpass⟩ := (migrate_effect idle_callbacks small_hal 7 0 1
      (some (user_event 3)) busy_waiting
      { items := [user_event 3], cons := 0 }
      { items := [add_poller_event 4 1 none], cons := 0 }
      (by decide) (by decide) (by decide)
      (by
        unfold membership_invariant
        decide) happ hk hkp hkl rfl rfl
      (by simp [registered_on, busy_waiting, busy]) (fun r hr => by simp [busy_waiting, hr])
      rfl rfl (by decide) rfl (by decide)
      (by
        intro e he hn
        have he1 : e = user_event 3 := by simpa [rte_ring.content] using he
        subst he1
        rcases hn with hn | hn | hn
        · exact absurd hn.1 (by decide)
        · exact absurd hn.1 (by decide)
        · exact absurd hn.1 (by decide))).1 s1 h1
    obtain ⟨-, hl2, hno2, -, ring2, before2, hr2, hc2, hpass⟩ := hpass s2 t2 h2 hok.1
    have hb2 : before2 = [add_poller_event 4 1 none] := by
      simp only [Option.map_some', hr2, Option.some.injEq, hc2] at ho2
      exact List.append_cancel_right (show before2 ++
        [migrate_event 7 1 (some (user_event 3))] = [add_poller_event 4 1 none] ++
          [migrate_event 7 1 (some (user_event 3))] from ho2)
    obtain ⟨-, hl3, hno3, -, ring3, before3, hr3, hc3, hpass⟩ := hpass
      (by
        intro e he hn
        rw [hb2] at he
        have he1 : e = add_poller_event 4 1 none := by simpa using he
        subst he1
        rcases hn with hn | hn | hn
        · exact absurd hn.2 (by decide)
        · exact absurd hn.1 (by decide)
        · exact absurd hn.1 (by decide)) s3 t3 h3 hok.2.1
    have hb3 : before3 = [] := by
      simp only [Option.map_some', hr3, Option.some.injEq, hc3] at ho3
      exact List.append_cancel_right (show before3 ++
        [add_poller_event 7 1 (some (user_event 3))] = [] ++
          [add_poller_event 7 1 (some (user_event 3))] from ho3)
    obtain ⟨-, hi4, sd, si, sc, -, -, -, -, -, -, -, -, hl4, ha4, hb4, -⟩ := hpass
      (by
        intro e he
        rw [hb3] at he
        simp at he) s4 t4 h4 hok.2.2
    exact ⟨s1, s2, s3, s4, hm, hl1, hl2, hno2, hl3, hno3, hl4, ha4, hb4, hi4⟩
  · exact (migrate_effect idle_callbacks small_hal 7 0 1 (some (user_event 3)) busy
      { items := [], cons := 0 } { items := [], cons := 0 }
      (by decide) (by decide) (by decide)
      (by
        unfold membership_invariant
        decide) happ hk hkp hkl rfl rfl
      (by simp [registered_on, busy]) (fun r hr => by simp [busy, hr])
      rfl rfl (by decide) rfl (by decide)
      (by
        intro e he
        simp [rte_ring.content] at he)).2
      ⟨by decide, { size := 65536, avail := 100 }, by decide, by decide⟩
      ⟨by decide, { size := 65536, avail := 100 }, by decide, by decide⟩
      ⟨{ items := [], cons := 0 }, rfl, rfl⟩ ⟨{ items := [], cons := 0 }, rfl, rfl⟩
      (by decide)
      (fun e he => ⟨{ items := [], cons := 0 }, by
        obtain rfl := Option.some.inj he
        rfl, by decide⟩)

/-- C16, as stated, fails.  With a timer of 1 kHz a period of 1 microsecond gives
`period_ticks = 1000 * 1 / 1000000 = 0`, and with a timer of `2^32` Hz a period of `2^32`
microseconds gives `(2^64 mod 2^64) / 1000000 = 0`: in both cases the poller, registered
with a period above 0, is put on the always-run schedule when its event is dispatched. -/
theorem period_conversion_gives_zero :
    (spdk_poller_register slow_timer_hal 7 0 none 1 ready).map
      (fun s => (s.pollers 7).period_ticks) = some 0 ∧
    (spdk_poller_register fast_timer_hal 7 0 none (2 ^ 32) ready).map
      (fun s => (s.pollers 7).period_ticks) = some 0 ∧
    ((spdk_poller_register slow_timer_hal 7 0 none 1 ready).bind
      (reactor_iteration idle_callbacks slow_timer_hal 0 0)).map
      (fun r => ((r.1.g_reactors 0).active_pollers, (r.1.g_reactors 0).timer_pollers))
      = some ([7], []) := by
  decide

/-- C16, amended: `spdk_poller_register`, which returns when it can allocate the event
and enqueue it, sets `period_ticks` to `((hz * period_us) mod 2^64) / 1000000` for
`period_us > 0` and to 0 for `period_us = 0`.  For `period_us > 0` this is
`hz * period_us / 1000000`, and above 0 (a periodic poller), whenever
`1000000 ≤ hz * period_us < 2^64`. -/
theorem period_conversion (hal : Hal) (poller lcore : Nat) (complete : Option spdk_event)
    (period_us : Nat) (s : State)
    (ha : can_allocate hal lcore 0 s) (he : can_enqueue hal lcore s) :
    ∃ s1, spdk_poller_register hal poller lcore complete period_us s = some s1 ∧
      (s1.pollers poller).period_ticks =
        (if period_us ≠ 0 then (hal.rte_get_timer_hz * period_us) % U64 / 1000000 else 0) ∧
      (period_us = 0 → (s1.pollers poller).period_ticks = 0) ∧
      (1000000 ≤ hal.rte_get_timer_hz * period_us → hal.rte_get_timer_hz * period_us < U64 →
        (s1.pollers poller).period_ticks = hal.rte_get_timer_hz * period_us / 1000000 ∧
        0 < (s1.pollers poller).period_ticks) := by
  unfold spdk_poller_register
  obtain ⟨s1, h1⟩ := poller_register_returns hal poller lcore complete
    (s.set_poller poller { s.pollers poller with
      period_ticks := if period_us ≠ 0
        then (hal.rte_get_timer_hz * period_us) % U64 / 1000000 else 0 }) ha he
  have hp := (poller_register_frame hal _ _ _ _ s1 h1).2.2.2
  have hticks : (s1.pollers poller).period_ticks =
      (if period_us ≠ 0 then (hal.rte_get_timer_hz * period_us) % U64 / 1000000 else 0) := by
    rw [hp]
    simp [State.set_poller]
  refine ⟨s1, h1, hticks, ?_, ?_⟩
  · intro h0
    rw [hticks, if_neg (by simpa using h0)]
  · intro hlo hhi
    have hne : period_us ≠ 0 := by
      rintro rfl
      simp at hlo
    rw [hticks, if_pos hne, Nat.mod_eq_of_lt hhi]
    exact ⟨rfl, Nat.div_pos hlo (by decide)⟩

/-- C16 at work: with the 1 MHz timer of `small_hal`, a period of 250 microseconds is 250
ticks. -/
theorem period_conversion_witness :
    ∃ s1, spdk_poller_register small_hal 7 0 none 250 ready = some s1 ∧
      (s1.pollers 7).period_ticks = 250 :=
  (period_conversion small_hal 7 0 none 250 ready
    ⟨by decide, { size := 65536, avail := 100 }, by decide, by decide⟩
    ⟨{ items := [], cons := 0 }, rfl, by decide⟩).elim
    (fun s1 h => ⟨s1, h.1, (h.2.2.2 (by decide) (by decide)).1⟩)

theorem reactor_iteration_exiting (cb : Callbacks) (hal : Hal) (cur reactor : Nat)
    (s s1 : State) (t : List Invocation) (hcb : callbacks_stop_only cb)
    (hs : s.g_reactor_state = SPDK_REACTOR_STATE_EXITING)
    (h : reactor_iteration cb hal cur reactor s = some (s1, t)) :
    s1.g_reactor_state = SPDK_REACTOR_STATE_EXITING := by
  rcases reactor_iteration_state cb hal cur reactor s s1 t hcb h with h1 | h1
  · rw [h1, hs]
  · exact h1

theorem reactor_iteration_after_drain (cb : Callbacks) (hal : Hal) (cur reactor : Nat)
    (s sa s1 : State) (ta t : List Invocation) (hcb : callbacks_stop_only cb)
    (hd : spdk_event_queue_run_all cb hal cur cur s = some (sa, ta))
    (hs : sa.g_reactor_state = SPDK_REACTOR_STATE_EXITING)
    (h : reactor_iteration cb hal cur reactor s = some (s1, t)) :
    s1.g_reactor_state = SPDK_REACTOR_STATE_EXITING := by
  unfold reactor_iteration at h
  rw [hd] at h
  simp only at h
  split at h
  · simp at h
  · rename_i sb tb h2
    split at h
    · simp at h
    · rename_i sc tc h3
      simp only [Option.some.injEq, Prod.mk.injEq] at h
      rw [← h.1]
      have k2 := active_poller_step_state cb cur reactor sa sb tb hcb h2
      have k3 := timer_poller_step_state cb cur reactor sb sc tc hcb h3
      rcases state_kept_or_exiting_trans _ _ _ k2 k3 with k | k
      · rw [k, hs]
      · exact k

/-- C17: stop and shutdown.  `spdk_reactors_stop` sets the state to Exiting and nothing
else.  After a pass of the loop of `_spdk_reactor_run` the function returns when the
state read is not Running, and makes another pass when it is.  With callbacks that write
the state only through `spdk_reactors_stop`: a pass whose drain leaves the state Exiting
(a callback of an event has called `spdk_reactors_stop`) still makes its poller steps and
ends in Exiting, so the loop returns after this pass; in the state Exiting every loop
returns after one pass, and in a run of `spdk_reactors_start` every thread that makes a
pass of its loop leaves the loop.  When `spdk_reactors_start` returns the state is
Shutdown. -/
theorem stop_and_shutdown (cb : Callbacks) (hal : Hal) (hcb : callbacks_stop_only cb) :
    (∀ s, spdk_reactors_stop s = { s with g_reactor_state := SPDK_REACTOR_STATE_EXITING }) ∧
    (∀ cur reactor fuel s s1 t1, reactor_iteration cb hal cur reactor s = some (s1, t1) →
      (s1.g_reactor_state ≠ SPDK_REACTOR_STATE_RUNNING →
        _spdk_reactor_run cb hal cur reactor (fuel + 1) s = some (s1, t1)) ∧
      (s1.g_reactor_state = SPDK_REACTOR_STATE_RUNNING →
        _spdk_reactor_run cb hal cur reactor (fuel + 1) s =
          (_spdk_reactor_run cb hal cur reactor fuel s1).map (fun r => (r.1, t1 ++ r.2)))) ∧
    (∀ cur reactor fuel s sa ta s1 t1,
      spdk_event_queue_run_all cb hal cur cur s = some (sa, ta) →
      sa.g_reactor_state = SPDK_REACTOR_STATE_EXITING →
      reactor_iteration cb hal cur reactor s = some (s1, t1) →
      s1.g_reactor_state = SPDK_REACTOR_STATE_EXITING ∧
      _spdk_reactor_run cb hal cur reactor (fuel + 1) s = some (s1, t1)) ∧
    (∀ cur reactor fuel s, s.g_reactor_state = SPDK_REACTOR_STATE_EXITING →
      _spdk_reactor_run cb hal cur reactor (fuel + 1) s =
        reactor_iteration cb hal cur reactor s) ∧
    (∀ cur who c c1, c.s.g_reactor_state = SPDK_REACTOR_STATE_EXITING →
      start_step cb hal cur who c = some c1 →
      c1.s.g_reactor_state = SPDK_REACTOR_STATE_EXITING ∧
      (who = none → c.inline_run ≠ none → c1.inline_run = none) ∧
      (∀ l th, who = some l → c.remote.find? (fun x => x.cur = l) = some th →
        c1.remote = c.remote.erase th)) ∧
    (∀ cur sched s s1 t, spdk_reactors_start cb hal cur sched s = some (s1, t) →
      s1.g_reactor_state = SPDK_REACTOR_STATE_SHUTDOWN) := by
  refine ⟨fun s => rfl, ?_, ?_, ?_, ?_, ?_⟩
  · intro cur reactor fuel s s1 t1 h
    constructor
    · intro hne
      simp only [_spdk_reactor_run, h]
      rw [if_pos hne]
    · intro heq
      simp only [_spdk_reactor_run, h]
      rw [if_neg (by simpa using heq)]
      cases _spdk_reactor_run cb hal cur reactor fuel s1 with
      | none => rfl
      | some r => rfl
  · intro cur reactor fuel s sa ta s1 t1 hd hs h
    have h1 := reactor_iteration_after_drain cb hal cur reactor s sa s1 ta t1 hcb hd hs h
    refine ⟨h1, ?_⟩
    simp only [_spdk_reactor_run, h]
    rw [if_pos (by rw [h1]; decide)]
  · intro cur reactor fuel s hs
    simp only [_spdk_reactor_run]
    cases h : reactor_iteration cb hal cur reactor s with
    | none => rfl
    | some r =>
      obtain ⟨s1, t1⟩ := r
      have h1 := reactor_iteration_exiting cb hal cur reactor s s1 t1 hcb hs h
      simp only
      rw [if_pos (by rw [h1]; decide)]
  · intro cur who c c1 hs h
    have hst : c1.s.g_reactor_state = SPDK_REACTOR_STATE_EXITING := by
      rcases start_step_state cb hal cur who c c1 hcb h with h1 | h1
      · rw [h1, hs]
      · exact h1
    refine ⟨hst, ?_, ?_⟩
    · intro hwho hin
      subst hwho
      simp only [start_step] at h
      cases hi : c.inline_run with
      | none => exact absurd hi hin
      | some r =>
        rw [hi] at h
        simp only at h
        cases hit : reactor_iteration cb hal cur r c.s with
        | none => rw [hit] at h; simp at h
        | some x =>
          obtain ⟨sa, ta⟩ := x
          rw [hit] at h
          simp only [Option.some.injEq] at h
          subst h
          simp only at hst ⊢
          rw [if_pos (by rw [hst]; decide)]
    · intro l th hwho hfind
      subst hwho
      simp only [start_step, hfind] at h
      cases hit : reactor_iteration cb hal th.cur th.reactor c.s with
      | none => rw [hit] at h; simp at h
      | some x =>
        obtain ⟨sa, ta⟩ := x
        rw [hit] at h
        simp only [Option.some.injEq] at h
        subst h
        simp only at hst ⊢
        rw [if_pos (by rw [hst]; decide)]
  · intro cur sched s s1 t h
    unfold spdk_reactors_start at h
    split_ifs at h with hm
    split at h
    · simp at h
    · split_ifs at h with hfin
      simp only [Option.some.injEq, Prod.mk.injEq] at h
      rw [← h.1]

/-- C17 at work: `spdk_reactors_start` on the lcores 0 to 3 with an event for lcore 1
whose callback calls `spdk_reactors_stop`: under `stop_schedule` every reactor leaves its
loop, `spdk_reactors_start` returns and the state is Shutdown. -/
theorem stop_and_shutdown_witness :
    ∃ s1 t, spdk_reactors_start stop_callbacks small_hal 0 stop_schedule stop_on_lcore_1
        = some (s1, t) ∧
      s1.g_reactor_state = SPDK_REACTOR_STATE_SHUTDOWN :=
  (Option.isSome_iff_exists.1
    (by decide : (spdk_reactors_start stop_callbacks small_hal 0 stop_schedule
      stop_on_lcore_1).isSome = true)).elim
    (fun r h => ⟨r.1, r.2, h,
      (stop_and_shutdown stop_callbacks small_hal
        ⟨fun _ _ _ _ _ h => Or.inr (by
            simp only [stop_callbacks, Option.some.injEq] at h
            rw [← h]; rfl),
          fun _ _ _ _ _ h => Or.inl (by
            simp only [stop_callbacks, Option.some.injEq] at h
            rw [← h])⟩).2.2.2.2.2 0 stop_schedule stop_on_lcore_1 r.1 r.2 h⟩)

/-- C18, as stated, fails.  After `spdk_reactors_init` with the mask `0xf`, poller 7 is
registered on lcore 0 and then, without being unregistered, on lcore 1
(`spdk_poller_register` does not look at the schedules); once the reactors of the lcores
0 and 1 have made one pass each, poller 7 is linked in the always-run schedule of lcore 0
and in the one of lcore 1: it occurs twice in the union of the schedules. -/
theorem register_twice_breaks_membership :
    ∃ s0 s, spdk_reactors_init small_hal (some ['0', 'x', 'f']) boot = some (0, s0) ∧
      poller_calls_run idle_callbacks small_hal register_twice s0 = some s ∧
      (s.g_reactors 0).active_pollers = [7] ∧ (s.g_reactors 1).active_pollers = [7] ∧
      all_schedules small_hal s = [7, 7] ∧ ¬ membership_invariant small_hal s := by
  have h : ((spdk_reactors_init small_hal (some ['0', 'x', 'f']) boot).bind
      (fun r => (poller_calls_run idle_callbacks small_hal register_twice r.2).map
        (fun s => (r.1, (s.g_reactors 0).active_pollers, (s.g_reactors 1).active_pollers,
          all_schedules small_hal s)))) = some (0, [7], [7], [7, 7]) := by decide
  obtain ⟨⟨rc, s0⟩, h0, h1⟩ := Option.bind_eq_some.1 h
  obtain ⟨s, hs, h2⟩ := Option.map_eq_some'.1 h1
  simp only [Prod.mk.injEq] at h2
  obtain ⟨rfl, ha, hb, hall⟩ := h2
  refine ⟨s0, s, h0, hs, ha, hb, hall, ?_⟩
  unfold membership_invariant
  rw [hall]
  decide

/-- C18, amended.  `spdk_reactors_init`, called at program start, leaves a state in which
every schedule is empty, so every poller occurs at most once in the union of the
schedules.  From any state with this property, every sequence of calls of
`spdk_poller_register`, `spdk_poller_unregister`, `spdk_poller_migrate` and of passes of
reactor loops, in which every add-poller event that is called finds its poller in no
schedule and every remove-poller event finds its poller in the schedule it unlinks it
from (and the callbacks of the user do not relink the schedules), ends in a state with
this property: no poller is twice in the schedules of one reactor, and no poller is in
the schedules of two reactors. -/
theorem poller_membership (cb : Callbacks) (hal : Hal) (calls : List poller_call)
    (s0 s : State) (hcb : callbacks_keep_schedules cb)
    (h0 : membership_invariant hal s0)
    (happ : poller_calls_applicable cb hal calls s0 = true)
    (hrun : poller_calls_run cb hal calls s0 = some s) :
    membership_invariant hal s ∧
    (∀ p, (all_schedules hal s).count p ≤ 1) ∧
    (∀ r, r < hal.RTE_MAX_LCORE → (schedule s r).Nodup) ∧
    (∀ r1 r2 p, r1 < hal.RTE_MAX_LCORE → r2 < hal.RTE_MAX_LCORE →
      p ∈ schedule s r1 → p ∈ schedule s r2 → r1 = r2) ∧
    (∀ mask P now rc s1, spdk_reactors_init hal mask (State.init P now) = some (rc, s1) →
      all_schedules hal s1 = [] ∧ membership_invariant hal s1) := by
  have hi : membership_invariant hal s :=
    poller_calls_invariant cb hal hcb calls s0 s happ h0 hrun
  have hnd := hi
  unfold membership_invariant all_schedules at hnd
  rw [List.nodup_flatMap] at hnd
  refine ⟨hi, List.nodup_iff_count_le_one.1 hi, ?_, ?_, ?_⟩
  · intro r hr
    exact hnd.1 r (List.mem_range.2 hr)
  · intro r1 r2 p h1 h2 hp1 hp2
    by_contra hne
    have hd := hnd.2.forall (fun a b (h : List.Disjoint (schedule s a) (schedule s b)) =>
      h.symm) (List.mem_range.2 h1) (List.mem_range.2 h2) hne
    exact hd hp1 hp2
  · intro mask P now rc s1 hinit
    have he := init_schedules hal mask P now s1 rc hinit
    refine ⟨?_, invariant_of_empty hal s1 he⟩
    unfold all_schedules
    rw [List.flatMap_eq_nil_iff]
    exact fun r _ => he r

/-- C18 at work: from `ready`, poller 7 is registered on lcore 0, migrated to lcore 1 and
unregistered, each call followed by the passes that call its events; every event finds
the schedules as it needs them, and the property holds at the end. -/
theorem poller_membership_witness :
    ∃ s, poller_calls_run idle_callbacks small_hal register_migrate_unregister ready
        = some s ∧
      membership_invariant small_hal s :=
  (Option.isSome_iff_exists.1 (by decide :
    (poller_calls_run idle_callbacks small_hal register_migrate_unregister ready).isSome
      = true)).elim
    (fun s hs => ⟨s, hs, (poller_membership idle_callbacks small_hal
      register_migrate_unregister ready s
      ⟨fun _ _ _ _ _ h _ => Option.some.inj h ▸ ⟨rfl, rfl⟩,
        fun _ _ _ _ _ h _ => Option.some.inj h ▸ ⟨rfl, rfl⟩⟩
      (invariant_of_empty small_hal ready (fun _ => rfl)) (by decide) hs).1⟩)

/-- C20: NVMe-oF routing.  For every request, with the condition "the opcode is the
Fabrics opcode or the queue pair is an Admin queue": `spdk_nvmf_request_exec` under the
condition posts `spdk_nvmf_request_exec_on_master` to the target's master thread, does
nothing else and leaves the request alone, and otherwise posts nothing and processes the
command or completes the request on the calling thread; so it posts a message iff the
condition holds, and it does no processing or completion on the calling thread iff the
condition holds.  `spdk_nvmf_request_complete` under the same condition posts
`spdk_nvmf_request_complete_on_qpair` to the thread of the queue pair's poll group and
does nothing else, and otherwise completes the request inline; it returns 0 in both
cases. -/
theorem nvmf_routing (env : Nvmf) (req : spdk_nvmf_request) :
    (fabric_or_admin env req = true ↔
      (req.opc = env.SPDK_NVME_OPC_FABRIC ∨
        req.qpair_type = spdk_nvmf_qpair_type.QPAIR_TYPE_AQ)) ∧
    (fabric_or_admin env req = true →
      spdk_nvmf_request_exec env req =
        (req, [nvmf_effect.send_msg req.master_thread
          nvmf_msg_fn.spdk_nvmf_request_exec_on_master])) ∧
    (fabric_or_admin env req = false →
      (spdk_nvmf_request_exec env req).2.all (fun e => !e.is_send) = true ∧
      (spdk_nvmf_request_exec env req).2.any nvmf_effect.is_local_work = true) ∧
    ((spdk_nvmf_request_exec env req).2.any nvmf_effect.is_send = true ↔
      fabric_or_admin env req = true) ∧
    ((spdk_nvmf_request_exec env req).2.any nvmf_effect.is_local_work = false ↔
      fabric_or_admin env req = true) ∧
    (fabric_or_admin env req = true →
      spdk_nvmf_request_complete env req =
        (0, req, [nvmf_effect.send_msg req.group_thread
          nvmf_msg_fn.spdk_nvmf_request_complete_on_qpair])) ∧
    (fabric_or_admin env req = false →
      spdk_nvmf_request_complete env req = (0, spdk_nvmf_request_complete_on_qpair req) ∧
      (spdk_nvmf_request_complete env req).2.2 = [nvmf_effect.transport_req_complete]) ∧
    (spdk_nvmf_request_complete env req).1 = 0 := by
  have hlocal : fabric_or_admin env req = false →
      (spdk_nvmf_request_exec env req).2.all (fun e => !e.is_send) = true ∧
      (spdk_nvmf_request_exec env req).2.any nvmf_effect.is_local_work = true := by
    intro hc
    simp only [spdk_nvmf_request_exec, hc]
    by_cases h1 : req.ctrlr = none
    · simp [h1, spdk_nvmf_request_complete_on_qpair, nvmf_effect.is_send,
        nvmf_effect.is_local_work]
    · by_cases h2 : (env.spdk_nvmf_ctrlr_process_io_cmd req).1 =
          spdk_nvmf_request_exec_status.SPDK_NVMF_REQUEST_EXEC_STATUS_COMPLETE
      · simp [h1, h2, spdk_nvmf_request_complete_on_qpair, nvmf_effect.is_send,
          nvmf_effect.is_local_work]
      · simp [h1, h2, nvmf_effect.is_send, nvmf_effect.is_local_work]
  have hsend : fabric_or_admin env req = true →
      spdk_nvmf_request_exec env req =
        (req, [nvmf_effect.send_msg req.master_thread
          nvmf_msg_fn.spdk_nvmf_request_exec_on_master]) := by
    intro hc
    simp [spdk_nvmf_request_exec, hc]
  refine ⟨?_, hsend, hlocal, ?_, ?_, ?_, ?_, ?_⟩
  · simp [fabric_or_admin]
  · cases hc : fabric_or_admin env req
    · obtain ⟨h1, -⟩ := hlocal hc
      constructor
      · intro h
        exfalso
        rw [List.any_eq_true] at h
        obtain ⟨e, he, hs⟩ := h
        have := List.all_eq_true.1 h1 e he
        rw [hs] at this
        simp at this
      · intro h
        simp at h
    · rw [hsend hc]
      simp [nvmf_effect.is_send]
  · cases hc : fabric_or_admin env req
    · obtain ⟨-, h2⟩ := hlocal hc
      rw [h2]
      simp
    · rw [hsend hc]
      simp [nvmf_effect.is_local_work]
  · intro hc
    simp [spdk_nvmf_request_complete, hc]
  · intro hc
    simp [spdk_nvmf_request_complete, hc, spdk_nvmf_request_complete_on_qpair]
  · unfold spdk_nvmf_request_complete
    split_ifs <;> rfl

/-- C20 at work: a read command on an I/O queue is processed and completed on the calling
thread; the same command on an Admin queue is posted to the master thread 1, and its
completion to the thread 5 of the poll group. -/
theorem nvmf_routing_witness :
    (spdk_nvmf_request_exec simple_nvmf io_request).2 =
      [nvmf_effect.process_io_cmd, nvmf_effect.transport_req_complete] ∧
    spdk_nvmf_request_exec simple_nvmf
        { io_request with qpair_type := spdk_nvmf_qpair_type.QPAIR_TYPE_AQ } =
      ({ io_request with qpair_type := spdk_nvmf_qpair_type.QPAIR_TYPE_AQ },
        [nvmf_effect.send_msg 1 nvmf_msg_fn.spdk_nvmf_request_exec_on_master]) ∧
    spdk_nvmf_request_complete simple_nvmf
        { io_request with qpair_type := spdk_nvmf_qpair_type.QPAIR_TYPE_AQ } =
      (0, { io_request with qpair_type := spdk_nvmf_qpair_type.QPAIR_TYPE_AQ },
        [nvmf_effect.send_msg 5 nvmf_msg_fn.spdk_nvmf_request_complete_on_qpair]) :=
  ⟨by decide,
    (nvmf_routing simple_nvmf
      { io_request with qpair_type := spdk_nvmf_qpair_type.QPAIR_TYPE_AQ }).2.1 (by decide),
    (nvmf_routing simple_nvmf
      { io_request with qpair_type := spdk_nvmf_qpair_type.QPAIR_TYPE_AQ }).2.2.2.2.2.1
      (by decide)⟩

/-- C21, as stated, fails, in three ways.  The always-run pollers 5 and 7 are registered
on lcore 0, one call after the other, so that both add-poller events wait in the queue of
lcore 0 at the start of the next pass, with an empty always-run schedule: the pass calls
both events, then poller 5, the head of the schedule, and no other poller; poller 7 is not
called in the pass in which its add-poller event was waiting.  Poller 5 is registered on
lcore 0 and unregistered at once, so that its add-poller event and its remove-poller
event wait, with an empty always-run schedule: the pass calls no poller, though the
add-poller event of poller 5 was waiting.  Poller 5, the only poller of lcore 0, is
unregistered and registered again, so that its remove-poller event and its add-poller
event wait: the pass calls poller 5, though its remove-poller event was waiting. -/
theorem poller_events_decide_the_call :
    (∃ s s3 t, poller_calls_run idle_callbacks small_hal two_registrations ready = some s ∧
      (s.g_reactors 0).events.map rte_ring.content =
        some [add_poller_event 5 0 none, add_poller_event 7 0 none] ∧
      (s.g_reactors 0).active_pollers = [] ∧ (s.pollers 7).period_ticks = 0 ∧
      reactor_iteration idle_callbacks small_hal 0 0 s = some (s3, t) ∧
      event_calls t = [add_poller_event 5 0 none, add_poller_event 7 0 none] ∧
      active_calls t = [5] ∧ timer_calls t = [] ∧
      (s3.g_reactors 0).active_pollers = [7, 5]) ∧
    (∃ s s3 t, poller_calls_run idle_callbacks small_hal register_unregister ready = some s ∧
      (s.g_reactors 0).events.map rte_ring.content =
        some [add_poller_event 5 0 none, remove_poller_event 5 0 none] ∧
      (s.g_reactors 0).active_pollers = [] ∧ (s.pollers 5).period_ticks = 0 ∧
      reactor_iteration idle_callbacks small_hal 0 0 s = some (s3, t) ∧
      event_calls t = [add_poller_event 5 0 none, remove_poller_event 5 0 none] ∧
      active_calls t = [] ∧ timer_calls t = []) ∧
    (∃ s s3 t, poller_calls_run idle_callbacks small_hal reregistration solo = some s ∧
      (s.g_reactors 0).events.map rte_ring.content =
        some [remove_poller_event 5 0 none, add_poller_event 5 0 none] ∧
      (s.g_reactors 0).active_pollers = [5] ∧ (s.g_reactors 0).timer_pollers = [] ∧
      (s.pollers 5).period_ticks = 0 ∧
      reactor_iteration idle_callbacks small_hal 0 0 s = some (s3, t) ∧
      event_calls t = [remove_poller_event 5 0 none, add_poller_event 5 0 none] ∧
      active_calls t = [5]) :=
  ⟨⟨_, _, _, rfl, rfl, by decide, by decide, rfl, rfl, by decide, by decide, by decide⟩,
    ⟨_, _, _, rfl, rfl, by decide, by decide, rfl, rfl, by decide, by decide⟩,
    ⟨_, _, _, rfl, rfl, by decide, by decide, by decide, rfl, rfl, by decide⟩⟩

/-- C21, amended.  Take a pass of the loop of reactor `c` whose drain pass returns (state
`s1`, callbacks `t1`), with callbacks of the user's events that only enqueue on rings.
The drain pass calls exactly the events that waited at the start, in order, and no
poller; the pass is this drain, then the always-run step, then the timer step, so its
callbacks are the events, then at most one always-run poller, then at most one timer
poller; and `_spdk_reactor_run` tests `g_reactor_state` in the state the timer step
leaves.  Consequently, when the user's callbacks leave the schedules and the periods of
the pollers alone, every poller is linked at most once at the start and every add-poller
event the drain calls finds its poller in no schedule (as `TAILQ_INSERT_TAIL` requires;
then every poller is linked at most once after the drain): if the add-poller event of an
always-run poller `p` waited at the start with an empty always-run schedule, no add-poller
event of an always-run poller for this reactor waited ahead of it and no remove-poller
event of `p` behind it, then `p` is the head of the always-run schedule after the drain,
the always-run step is the call of `p`, and `p` is the always-run poller the pass calls;
if the remove-poller event of a poller `p` registered on `c` waited at the start and no
add-poller event of `p` waited, `p` is in no schedule of `c` after the drain and is not
called in the pass. -/
theorem iteration_order (cb : Callbacks) (hal : Hal) (c : Nat) (s s1 : State)
    (t1 : List Invocation) (ring : rte_ring) (happ : callbacks_append cb)
    (hr : (s.g_reactors c).events = some ring) (hw : ring.cons ≤ ring.items.length)
    (hdrain : spdk_event_queue_run_all cb hal c c s = some (s1, t1)) :
    t1 = ring.content.map (Invocation.event c) ∧
    active_calls t1 = [] ∧ timer_calls t1 = [] ∧
    (reactor_iteration cb hal c c s =
      match active_poller_step cb c c s1 with
      | none => none
      | some (s2, t2) =>
        match timer_poller_step cb c c s2 with
        | none => none
        | some (s3, t3) => some (s3, t1 ++ t2 ++ t3)) ∧
    (∀ s3 t, reactor_iteration cb hal c c s = some (s3, t) →
      (∃ t2 t3, t = ring.content.map (Invocation.event c) ++ t2 ++ t3 ∧
        (t2 = [] ∨ ∃ a, t2 = [Invocation.active c a]) ∧
        (t3 = [] ∨ ∃ b, t3 = [Invocation.timer c b])) ∧
      ∀ fuel, _spdk_reactor_run cb hal c c (fuel + 1) s =
        if s3.g_reactor_state ≠ SPDK_REACTOR_STATE_RUNNING then some (s3, t)
        else
          match _spdk_reactor_run cb hal c c fuel s3 with
          | none => none
          | some (s4, t4) => some (s4, t ++ t4)) ∧
    (∀ p completion before after,
      ring.content = before ++ add_poller_event p c completion :: after →
      (∀ e ∈ before, ¬ adds_always_run s c e) → (∀ e ∈ after, ¬ removes_poller p e) →
      callbacks_keep_schedules cb → callbacks_keep_periods cb →
      membership_invariant hal s →
      drain_applicable cb hal c (spdk_event_queue_count s c) s = true →
      (s.g_reactors c).active_pollers = [] → (s.pollers p).period_ticks = 0 →
      membership_invariant hal s1 ∧
      ∃ tl, (s1.g_reactors c).active_pollers = p :: tl ∧
        (active_poller_step cb c c s1 =
          match cb.poller_fn (s1.pollers p).fn (s1.pollers p).arg c
              (s1.set_reactor c { s1.g_reactors c with active_pollers := tl }) with
          | none => none
          | some s2 =>
            some (s2.set_reactor c
                { s2.g_reactors c with
                  active_pollers := (s2.g_reactors c).active_pollers ++ [p] },
              [Invocation.active c p])) ∧
        ∀ s3 t, reactor_iteration cb hal c c s = some (s3, t) → active_calls t = [p]) ∧
    (∀ p completion before after,
      ring.content = before ++ remove_poller_event p c completion :: after →
      (∀ e ∈ before ++ after, ¬ adds_poller p e) →
      callbacks_keep_schedules cb →
      membership_invariant hal s →
      drain_applicable cb hal c (spdk_event_queue_count s c) s = true →
      registered_on s p c →
      membership_invariant hal s1 ∧
      p ∉ (s1.g_reactors c).active_pollers ∧ p ∉ (s1.g_reactors c).timer_pollers ∧
      ∀ s3 t, reactor_iteration cb hal c c s = some (s3, t) →
        p ∉ active_calls t ∧ p ∉ timer_calls t) := by
  have ht1 := run_all_trace cb hal c happ s s1 t1 ring hr hw hdrain
  obtain ⟨hta, htt⟩ := run_trace cb hal c c _ s s1 t1 hdrain
  refine ⟨ht1, hta, htt, ?_, ?_, ?_, ?_⟩
  · cases h2 : active_poller_step cb c c s1 with
    | none => simp only [reactor_iteration, hdrain, h2]
    | some r2 =>
      cases h3 : timer_poller_step cb c c r2.1 with
      | none => simp only [reactor_iteration, hdrain, h2, h3]
      | some r3 => simp only [reactor_iteration, hdrain, h2, h3]
  · intro s3 t h
    obtain ⟨s2, t2, t3, -, -, ht, h2, h3, -⟩ := iteration_calls cb hal c c s s1 s3 t t1 hdrain h
    refine ⟨⟨t2, t3, by rw [ht, ht1], h2, h3⟩, ?_⟩
    intro fuel
    by_cases hst : s3.g_reactor_state = SPDK_REACTOR_STATE_RUNNING
    · cases hrun : _spdk_reactor_run cb hal c c fuel s3 with
      | none => simp only [_spdk_reactor_run, h, hst, hrun, ne_eq, not_true_eq_false, if_false]
      | some r =>
        simp only [_spdk_reactor_run, h, hst, hrun, ne_eq, not_true_eq_false, if_false]
    · simp only [_spdk_reactor_run, h, hst, ne_eq, not_false_eq_true, if_true]
  · intro p completion before after hcont hbefore hafter hk hper hinv hok hempty hp0
    obtain ⟨tl, ha⟩ := drain_makes_head cb hal c p completion s s1 t1 ring before after happ
      hk hper hr hw hcont hbefore hafter hempty hp0 hdrain
    refine ⟨run_invariant cb hal c hk _ s s1 t1 hok hinv hdrain, tl, ha,
      active_poller_step_cons cb c c s1 p tl ha, ?_⟩
    intro s3 t h
    obtain ⟨s2, t2, t3, -, -, -, -, -, hcalls, -⟩ :=
      iteration_calls cb hal c c s s1 s3 t t1 hdrain h
    rw [hcalls, ha]
    rfl
  · intro p completion before after hcont hno hk hinv hok hreg
    obtain ⟨hna, hnt⟩ := drain_unlinks cb hal c p completion s s1 t1 ring before after
      happ hk hr hw hcont hno hreg hdrain
    refine ⟨run_invariant cb hal c hk _ s s1 t1 hok hinv hdrain, hna, hnt, ?_⟩
    intro s3 t h
    obtain ⟨s2, t2, t3, h2, -, -, -, -, hcalls, htimer⟩ :=
      iteration_calls cb hal c c s s1 s3 t t1 hdrain h
    refine ⟨?_, ?_⟩
    · rw [hcalls]
      exact fun hm => hna (List.mem_of_mem_take hm)
    · intro hm
      have hhead := htimer p hm
      rw [active_poller_step_timer cb c c s1 s2 t2 hk h2] at hhead
      exact hnt (List.mem_of_mem_head? hhead)

/-- C21 at work.  In `ready_with_additions` an event of the user, the add-poller event of
the timer poller 8, the add-poller events of the always-run pollers 7 and 5 and the
remove-poller event of poller 5 wait for lcore 0, whose always-run schedule is empty: the
pass calls poller 7.  In `busy_with_removals` an event of the user, the remove-poller
events of the pollers 6 and 7 and the add-poller event of poller 4 wait for lcore 0,
which runs the pollers 5, 7, 6 and 8, 9: the pass does not call poller 7. -/
theorem iteration_order_witness :
    (∃ s3 t, reactor_iteration idle_callbacks small_hal 0 0 ready_with_additions
        = some (s3, t) ∧ active_calls t = [7]) ∧
    (∃ s3 t, reactor_iteration idle_callbacks small_hal 0 0 busy_with_removals
        = some (s3, t) ∧ 7 ∉ active_calls t ∧ 7 ∉ timer_calls t) := by
  have happ : callbacks_append idle_callbacks := by
    intro k cur e s0 s1 lcore ring0 hr h
    obtain rfl := Option.some.inj h
    exact ⟨[], by rw [hr]; simp⟩
  have hk : callbacks_keep_schedules idle_callbacks :=
    ⟨fun _ _ _ _ _ h _ => Option.some.inj h ▸ ⟨rfl, rfl⟩,
      fun _ _ _ _ _ h _ => Option.some.inj h ▸ ⟨rfl, rfl⟩⟩
  have hper : callbacks_keep_periods idle_callbacks :=
    fun _ _ _ _ _ h _ => Option.some.inj h ▸ rfl
  refine ⟨?_, ?_⟩
  · obtain ⟨⟨s1, t1⟩, hd⟩ := Option.isSome_iff_exists.1 (by decide :
      (spdk_event_queue_run_all idle_callbacks small_hal 0 0 ready_with_additions).isSome
        = true)
    obtain ⟨⟨s3, t⟩, hi⟩ := Option.isSome_iff_exists.1 (by decide :
      (reactor_iteration idle_callbacks small_hal 0 0 ready_with_additions).isSome = true)
    obtain ⟨-, tl, -, -, hcall⟩ := (iteration_order idle_callbacks small_hal 0
      ready_with_additions s1 t1
      { items := [user_event 3, add_poller_event 8 0 none, add_poller_event 7 0 none,
          add_poller_event 5 0 none, remove_poller_event 5 0 none], cons := 0 } happ rfl
      (by decide) hd).2.2.2.2.2.1 7 none [user_event 3, add_poller_event 8 0 none]
      [add_poller_event 5 0 none, remove_poller_event 5 0 none] rfl
      (by
        intro e he hadd
        have he1 : e = user_event 3 ∨ e = add_poller_event 8 0 none := by simpa using he
        rcases he1 with rfl | rfl
        · exact absurd hadd.1 (by decide)
        · exact absurd hadd.2.2 (by decide))
      (by
        intro e he hrem
        have he1 : e = add_poller_event 5 0 none ∨ e = remove_poller_event 5 0 none := by
          simpa using he
        rcases he1 with rfl | rfl
        · exact absurd hrem.1 (by decide)
        · exact absurd hrem.2 (by decide))
      hk hper
      (by
        unfold membership_invariant
        decide)
      (by decide) rfl rfl
    exact ⟨s3, t, hi, hcall s3 t hi⟩
  · obtain ⟨⟨s1, t1⟩, hd⟩ := Option.isSome_iff_exists.1 (by decide :
      (spdk_event_queue_run_all idle_callbacks small_hal 0 0 busy_with_removals).isSome
        = true)
    obtain ⟨⟨s3, t⟩, hi⟩ := Option.isSome_iff_exists.1 (by decide :
      (reactor_iteration idle_callbacks small_hal 0 0 busy_with_removals).isSome = true)
    exact ⟨s3, t, hi, ((iteration_order idle_callbacks small_hal 0 busy_with_removals s1 t1
      { items := [user_event 3, remove_poller_event 6 0 none, remove_poller_event 7 0 none,
          add_poller_event 4 0 none], cons := 0 } happ rfl
      (by decide) hd).2.2.2.2.2.2 7 none [user_event 3, remove_poller_event 6 0 none]
      [add_poller_event 4 0 none] rfl
      (by
        intro e he hadd
        have he1 : e = user_event 3 ∨ e = remove_poller_event 6 0 none ∨
            e = add_poller_event 4 0 none := by simpa using he
        rcases he1 with rfl | rfl | rfl
        · exact absurd hadd.1 (by decide)
        · exact absurd hadd.1 (by decide)
        · exact absurd hadd.2 (by decide))
      hk
      (by
        unfold membership_invariant
        decide)
      (by decide)
      (by simp [registered_on, busy_with_removals, busy, State.set_reactor])).2.2.2 s3 t hi⟩

/-- C22: bounded poller work.  A pass of the loop that returns is a drain pass (state
`s1`), the always-run step (state `s2`) and the timer step.  Among its callbacks there is
at most one of an always-run poller and at most one of a timer poller, whatever the
lengths of the schedules; an always-run poller called is the head of the always-run
schedule after the drain; a timer poller called is the head of the timer schedule when
the timer step starts, and the clock then reads at least its `next_run_tick`; when the
timer schedule is empty or its head is not due, the timer step calls nothing and leaves
the whole state, the timer schedule included, as it is.  For every state, the timer step
on a schedule whose head is not due returns at once with the state unchanged. -/
theorem bounded_poller_work (cb : Callbacks) (hal : Hal) (cur reactor : Nat)
    (s s3 : State) (t : List Invocation)
    (h : reactor_iteration cb hal cur reactor s = some (s3, t)) :
    (∃ s1 s2 t1 t2 t3, spdk_event_queue_run_all cb hal cur cur s = some (s1, t1) ∧
      active_poller_step cb cur reactor s1 = some (s2, t2) ∧
      timer_poller_step cb cur reactor s2 = some (s3, t3) ∧ t = t1 ++ t2 ++ t3 ∧
      active_calls t1 = [] ∧ timer_calls t1 = [] ∧
      active_calls t = active_calls t2 ∧ timer_calls t = timer_calls t3 ∧
      (∀ p, p ∈ active_calls t →
        TAILQ_FIRST (s1.g_reactors reactor).active_pollers = some p) ∧
      (∀ p, p ∈ timer_calls t →
        TAILQ_FIRST (s2.g_reactors reactor).timer_pollers = some p ∧
        s2.timer_cycles ≥ (s2.pollers p).next_run_tick) ∧
      (∀ p, TAILQ_FIRST (s2.g_reactors reactor).timer_pollers = some p →
        s2.timer_cycles < (s2.pollers p).next_run_tick →
        s3 = s2 ∧ timer_calls t = []) ∧
      (TAILQ_FIRST (s2.g_reactors reactor).timer_pollers = none →
        s3 = s2 ∧ timer_calls t = [])) ∧
    (active_calls t).length ≤ 1 ∧ (timer_calls t).length ≤ 1 ∧
    (∀ s0 p tl, (s0.g_reactors reactor).timer_pollers = p :: tl →
      s0.timer_cycles < (s0.pollers p).next_run_tick →
      timer_poller_step cb cur reactor s0 = some (s0, [])) := by
  obtain ⟨s1, s2, t1, t2, t3, h1, h2, h3, ht⟩ :=
    reactor_iteration_split cb hal cur reactor s s3 t h
  obtain ⟨hta, htt⟩ := run_trace cb hal cur cur _ s s1 t1 h1
  have hact : active_calls t = active_calls t2 ∧ (active_calls t2).length ≤ 1 ∧
      ∀ p, p ∈ active_calls t2 →
        TAILQ_FIRST (s1.g_reactors reactor).active_pollers = some p := by
    have hA : active_calls t = active_calls t2 ++ active_calls t3 := by
      rw [ht, active_calls_append, active_calls_append, hta]
      rfl
    have h3a : active_calls t3 = [] := by
      rcases timer_poller_step_shape cb cur reactor s2 s3 t3 h3 with
        ⟨-, rfl, -⟩ | ⟨p, tl, -, -, rfl⟩ <;> rfl
    rw [hA, h3a, List.append_nil]
    refine ⟨rfl, ?_, ?_⟩
    · rcases active_poller_step_shape cb cur reactor s1 s2 t2 h2 with
        ⟨-, -, rfl⟩ | ⟨p, tl, -, rfl⟩ <;> simp [active_calls]
    · intro p hp
      rcases active_poller_step_shape cb cur reactor s1 s2 t2 h2 with
        ⟨-, -, rfl⟩ | ⟨q, tl, hl, rfl⟩
      · simp [active_calls] at hp
      · simp only [active_calls, List.mem_singleton] at hp
        subst hp
        simp [TAILQ_FIRST, hl]
  have h2t : timer_calls t2 = [] := by
    rcases active_poller_step_shape cb cur reactor s1 s2 t2 h2 with
      ⟨-, -, rfl⟩ | ⟨p, tl, -, rfl⟩ <;> rfl
  have hT : timer_calls t = timer_calls t3 := by
    rw [ht, timer_calls_append, timer_calls_append, htt, h2t]
    rfl
  have hshape := timer_poller_step_shape cb cur reactor s2 s3 t3 h3
  refine ⟨⟨s1, s2, t1, t2, t3, h1, h2, h3, ht, hta, htt, hact.1, hT, ?_, ?_, ?_, ?_⟩, ?_, ?_,
    ?_⟩
  · intro p hp
    rw [hact.1] at hp
    exact hact.2.2 p hp
  · intro p hp
    rw [hT] at hp
    rcases hshape with ⟨-, rfl, -⟩ | ⟨q, tl, hl, hdue, rfl⟩
    · simp [timer_calls] at hp
    · simp only [timer_calls, List.mem_singleton] at hp
      subst hp
      exact ⟨by simp [TAILQ_FIRST, hl], hdue⟩
  · intro p hp hlt
    rw [hT]
    rcases hshape with ⟨h32, rfl, -⟩ | ⟨q, tl, hl, hdue, rfl⟩
    · exact ⟨h32, rfl⟩
    · simp only [TAILQ_FIRST, hl, List.head?_cons, Option.some.injEq] at hp
      subst hp
      omega
  · intro hnone
    rw [hT]
    rcases hshape with ⟨h32, rfl, -⟩ | ⟨q, tl, hl, hdue, rfl⟩
    · exact ⟨h32, rfl⟩
    · simp [TAILQ_FIRST, hl] at hnone
  · rw [hact.1]
    exact hact.2.1
  · rw [hT]
    rcases hshape with ⟨-, rfl, -⟩ | ⟨q, tl, -, -, rfl⟩ <;> simp [timer_calls]
  · intro s0 p tl hl hlt
    exact timer_poller_step_not_due cb cur reactor s0 p tl hl (by omega)

/-- C22 at work: in `busy` at time 1000 the always-run schedule of reactor 0 is 5, 7, 6
and the head of its timer schedule is due at tick 1100: the pass calls poller 5 and no
timer poller, and the timer schedule is still 8, 9; in `timer_example` at time 6 only the
head of the timer schedule, due at tick 5, is called. -/
theorem bounded_poller_work_witness :
    (∃ s3 t, reactor_iteration idle_callbacks small_hal 0 0 busy = some (s3, t) ∧
      active_calls t = [5] ∧ timer_calls t = [] ∧
      (active_calls t).length ≤ 1 ∧ (timer_calls t).length ≤ 1 ∧
      (s3.g_reactors 0).timer_pollers = [8, 9]) ∧
    (∃ s3 t, reactor_iteration idle_callbacks small_hal 0 0 timer_example = some (s3, t) ∧
      timer_calls t = [1] ∧ (timer_calls t).length ≤ 1) := by
  refine ⟨?_, ?_⟩
  · obtain ⟨⟨s3, t⟩, hr⟩ := Option.isSome_iff_exists.1
      (by decide : (reactor_iteration idle_callbacks small_hal 0 0 busy).isSome = true)
    have hv : (reactor_iteration idle_callbacks small_hal 0 0 busy).map
        (fun r => (active_calls r.2, timer_calls r.2, (r.1.g_reactors 0).timer_pollers))
        = some ([5], [], [8, 9]) := by decide
    rw [hr] at hv
    simp only [Option.map_some', Option.some.injEq, Prod.mk.injEq] at hv
    have key := bounded_poller_work idle_callbacks small_hal 0 0 busy s3 t hr
    exact ⟨s3, t, hr, hv.1, hv.2.1, key.2.1, key.2.2.1, hv.2.2⟩
  · obtain ⟨⟨s3, t⟩, hr⟩ := Option.isSome_iff_exists.1
      (by decide :
        (reactor_iteration idle_callbacks small_hal 0 0 timer_example).isSome = true)
    have hv : (reactor_iteration idle_callbacks small_hal 0 0 timer_example).map
        (fun r => timer_calls r.2) = some [1] := by decide
    rw [hr] at hv
    simp only [Option.map_some', Option.some.injEq] at hv
    exact ⟨s3, t, hr, hv, (bounded_poller_work idle_callbacks small_hal 0 0 timer_example
      s3 t hr).2.2.1⟩

/-- C23: stable timer insertion.  For every sorted timer schedule `L` of a reactor and
every poller `p` that is not linked in it, with `t` the new tick (the 64-bit sum of `now`
and the period of `p`), `spdk_poller_insert_timer` stores `t` in `p` and leaves as timer
schedule the list the reference stable insertion gives: the elements of `L` with
`next_run_tick <= t`, in order, then `p`, then the elements of `L` with
`next_run_tick > t`, in order, and these two parts are `L` cut in two.  So `p` comes after
every poller of `L` scheduled at `t` or earlier, in particular after those with an equal
tick, only pollers with a later tick come after `p`, `p` is the head when every element
of `L` has a tick above `t`, and the result is sorted. -/
theorem stable_timer_insertion (reactor p now t : Nat) (s : State) (L : List Nat)
    (hL : (s.g_reactors reactor).timer_pollers = L)
    (ht : t = (now + (s.pollers p).period_ticks) % U64)
    (hs : timer_sorted s reactor) (hp : p ∉ L) :
    ((spdk_poller_insert_timer reactor p now s).g_reactors reactor).timer_pollers =
      reference_stable_insert s.pollers t p L ∧
    ((spdk_poller_insert_timer reactor p now s).pollers p).next_run_tick = t ∧
    (∀ q, q ≠ p → (spdk_poller_insert_timer reactor p now s).pollers q = s.pollers q) ∧
    L.filter (fun q => decide ((s.pollers q).next_run_tick ≤ t)) ++
      L.filter (fun q => decide (t < (s.pollers q).next_run_tick)) = L ∧
    (∀ q ∈ L, (s.pollers q).next_run_tick = t →
      q ∈ L.filter (fun q => decide ((s.pollers q).next_run_tick ≤ t))) ∧
    (∀ q ∈ L.filter (fun q => decide (t < (s.pollers q).next_run_tick)),
      t < (s.pollers q).next_run_tick) ∧
    ((∀ q ∈ L, t < (s.pollers q).next_run_tick) →
      ((spdk_poller_insert_timer reactor p now s).g_reactors reactor).timer_pollers =
        p :: L) ∧
    ((∀ q ∈ L, (s.pollers q).next_run_tick ≤ t) →
      ((spdk_poller_insert_timer reactor p now s).g_reactors reactor).timer_pollers =
        L ++ [p]) ∧
    timer_sorted (spdk_poller_insert_timer reactor p now s) reactor := by
  subst hL
  have hother : ∀ q, q ≠ p → (spdk_poller_insert_timer reactor p now s).pollers q
      = s.pollers q := fun q hq => insert_timer_other reactor p now s q hq
  have hticks : ∀ q ∈ (s.g_reactors reactor).timer_pollers.reverse,
      ((spdk_poller_insert_timer reactor p now s).pollers q).next_run_tick =
        (s.pollers q).next_run_tick := by
    intro q hq
    rw [hother q (fun h => hp (h ▸ List.mem_reverse.1 hq))]
  have hdesc : List.Pairwise (fun a b =>
      ((spdk_poller_insert_timer reactor p now s).pollers b).next_run_tick ≤
        ((spdk_poller_insert_timer reactor p now s).pollers a).next_run_tick)
      (s.g_reactors reactor).timer_pollers.reverse := by
    rw [List.pairwise_reverse]
    refine List.Pairwise.imp_of_mem ?_ hs
    intro a b ha hb hab
    rw [hticks a (List.mem_reverse.2 ha), hticks b (List.mem_reverse.2 hb)]
    exact hab
  have hmain : ((spdk_poller_insert_timer reactor p now s).g_reactors reactor).timer_pollers
      = reference_stable_insert s.pollers t p (s.g_reactors reactor).timer_pollers := by
    rw [insert_timer_pollers, ← ht, scan_eq_reference _ t p _ hdesc, List.reverse_reverse]
    exact reference_stable_insert_congr _ _ t p _
      (fun q hq => hticks q (List.mem_reverse.2 hq))
  refine ⟨hmain, ?_, hother, filter_split_sorted s.pollers t _ hs, ?_, ?_, ?_, ?_,
    insert_timer_sorted reactor p now s hs hp⟩
  · rw [insert_timer_tick, ht]
  · intro q hq hqt
    simp [List.mem_filter, hq, hqt]
  · intro q hq
    simpa using (List.mem_filter.1 hq).2
  · intro hall
    rw [hmain]
    unfold reference_stable_insert
    rw [List.filter_eq_nil_iff.2 (fun q hq => by
        have := hall q hq
        simp only [decide_eq_true_eq]
        omega),
      List.filter_eq_self.2 (fun q hq => by simpa using hall q hq)]
    rfl
  · intro hall
    rw [hmain]
    unfold reference_stable_insert
    rw [List.filter_eq_self.2 (fun q hq => by simpa using hall q hq),
      List.filter_eq_nil_iff.2 (fun q hq => by
        have := hall q hq
        simp only [decide_eq_true_eq]
        omega)]

/-- C23 at work: in `busy` the timer pollers 8 and 9 of reactor 0 are scheduled at the
ticks 1100 and 1200; poller 5 (period 0) inserted at time 1100 goes after poller 8, which
has the same tick, and before poller 9; inserted at time 1000 it is the new head. -/
theorem stable_timer_insertion_witness :
    ((spdk_poller_insert_timer 0 5 1100 busy).g_reactors 0).timer_pollers = [8, 5, 9] ∧
    reference_stable_insert busy.pollers 1100 5 [8, 9] = [8, 5, 9] ∧
    ((spdk_poller_insert_timer 0 5 1000 busy).g_reactors 0).timer_pollers = [5, 8, 9] :=
  ⟨((stable_timer_insertion 0 5 1100 1100 busy [8, 9] rfl (by decide)
      (by decide) (by decide)).1).trans (by decide),
    by decide,
    (stable_timer_insertion 0 5 1000 1000 busy [8, 9] rfl (by decide)
      (by decide) (by decide)).2.2.2.2.2.2.1 (by
        intro q hq
        simp only [List.mem_cons, List.mem_singleton, List.not_mem_nil, or_false] at hq
        rcases hq with rfl | rfl <;> decide)⟩

end Spdk
